import Mathlib

/-!
# Blockchain Message Stream (BMS): combinatorics, bit primitives and channel codecs

A shallow embedding of `src/lib/bms` (Maths.cpp, Types.cpp, DataInterface.cpp,
DataCompression.cpp, BlockchainInterface.cpp) together with the round-trip
properties of the codecs.

Conventions of the embedding.
* `BigInt` (boost `cpp_int`) is `Int`; values that are provably non-negative are
  computed in `Nat` and cast.
* `uint16_t`, `uint32_t`, `uint64_t` values are `Nat` with an explicit reduction
  modulo `2^16`, `2^32`, `2^64` wherever the C++ expression can wrap.
* Undefined behaviour (reading a vector out of range), a failed `assert`, a thrown
  exception and a loop that never exits are all `none`.
-/

namespace BMS

/-! ## Machine words -/

/-- Number of values of a `uint16_t`. -/
def W16 : Nat := 2 ^ 16

/-- Number of values of a `uint32_t` / `unsigned int`. -/
def W32 : Nat := 2 ^ 32

/-- Number of values of a `uint64_t`. -/
def W64 : Nat := 2 ^ 64

/-- Subtraction of two `uint64_t` values (wraps modulo `2^64`). -/
def sub64 (a b : Nat) : Nat := (a % W64 + (W64 - b % W64)) % W64

/-- Conversion of an unsigned value to `int` (two's complement, 32 bits). -/
def toInt32 (n : Nat) : Int :=
  if n % W32 < 2 ^ 31 then ((n % W32 : Nat) : Int) else ((n % W32 : Nat) : Int) - (W32 : Int)

/-! ## Maths.cpp -/

/-- The body of `Factorial`: `for (int i = 2; i <= n; i++) fac *= i`, started at `i`
with `cnt` iterations left. -/
def Factorial.loop : Nat → Nat → Nat → Nat
  | 0, _, fac => fac
  | cnt + 1, i, fac => Factorial.loop cnt (i + 1) (fac * i)

/-- `BigInt Factorial(uint16_t n)`. The argument is converted to `uint16_t`. -/
def Factorial (n : Nat) : Nat :=
  Factorial.loop (n % W16 - 1) 2 1

/-- The loop of `BinomialCoefficient`:
`for (unsigned i = 1; i < k + 1; ++i) { result *= BigInt(n - k + i); result /= BigInt(i); }`.
The counter is a 32-bit `unsigned`, so `++i` wraps to `0` after `2^32 - 1`, and the
division by `BigInt(0)` throws. The first argument bounds the number of iterations:
the counter has only `2^32` states. -/
def BinomialCoefficient.loop (n k : Nat) : Nat → Nat → Nat → Option Nat
  | 0, _, _ => none
  | fuel + 1, i, result =>
    if i < k + 1 then
      if i = 0 then none
      else BinomialCoefficient.loop n k fuel ((i + 1) % W32) (result * (n - k + i) / i)
    else some result

/-- `BigInt BinomialCoefficient(uint64_t n, uint64_t k)`. -/
def BinomialCoefficient (n k : Nat) : Option Nat :=
  if k > n then some 0
  else BinomialCoefficient.loop n (min k (n - k)) (W32 + 1) 1 1

/-- `BigInt NumberCompositions(uint64_t n, uint16_t k)`:
`BinomialCoefficient(n + k - 1, k - 1)`. `k - 1` is computed in `int` and converted
to `uint64_t`; `n + k - 1` is computed in `uint64_t`. With a 16-bit `k` the loop of
`BinomialCoefficient` always runs to its end (`NumberCompositions_word`,
`BinomialCoefficient_eq_choose`), so the exceptional branch is given the value `0`. -/
def NumberCompositions (n k : Nat) : Nat :=
  (BinomialCoefficient ((n % W64 + (k % W16 + (W64 - 1))) % W64)
      ((k % W16 + (W64 - 1)) % W64)).getD 0

/-- The loops of `PermutationToInteger` over the positions `i, i+1, ...`: the list is
the part of the permutation from position `i` on; the inner loop counts the later
elements that are smaller than `Permutation[i]`; `Factorial(PermSize - i - 1)` is the
factorial of the number of later elements. The last position is not visited
(`i <= PermSize - 2`). -/
def PermutationToInteger.loop : List Nat → Int
  | [] => 0
  | [_] => 0
  | x :: y :: rest =>
    ((List.countP (fun z => decide (x > z)) (y :: rest) : Nat) : Int)
        * (Factorial (y :: rest).length : Int)
      + PermutationToInteger.loop (y :: rest)

/-- `BigInt PermutationToInteger(const vector<uint16_t>& Permutation)`. With fewer than
two elements `PermSize - 2` wraps (it is `unsigned int`) and the loop reads past the
end of the vector. -/
def PermutationToInteger (Permutation : List Nat) : Option Int :=
  if Permutation.length < 2 then none
  else some (PermutationToInteger.loop Permutation)

/-- The loop of `IntegerToPermutation`, with `m` iterations left (`m = k - i`):
`x = idx / Factorial(k - i - 1); perm[i] = buf[x]; idx -= x * Factorial(k - i - 1);`
then every occurrence of `perm[i]` is erased from `buf`. Reading `buf` out of range is
undefined. -/
def IntegerToPermutation.loop : Nat → Int → List Nat → Option (List Nat)
  | 0, _, _ => some []
  | m + 1, idx, buf =>
    let x : Int := Int.tdiv idx (Factorial m : Int)
    if 0 ≤ x ∧ x.toNat < buf.length then
      let p := buf.getD x.toNat 0
      match IntegerToPermutation.loop m (idx - x * (Factorial m : Int))
          (buf.filter (fun b => decide (b ≠ p))) with
      | some rest => some (p :: rest)
      | none => none
    else none

/-- `vector<uint16_t> IntegerToPermutation(BigInt idx, uint16_t k)`. -/
def IntegerToPermutation (idx : Int) (k : Nat) : Option (List Nat) :=
  IntegerToPermutation.loop (k % W16) idx (List.range (k % W16))

/-- The loop of `CompositionToInteger` with `cnt` iterations left:
`idx += NumberCompositions(n, k) - NumberCompositions(n - Composition[i], k); k--;
n -= Composition[i];`. -/
def CompositionToInteger.loop : Nat → List Nat → Nat → Nat → Option Int
  | 0, _, _, _ => some 0
  | _ + 1, [], _, _ => none
  | cnt + 1, c :: cs, n, k =>
    match CompositionToInteger.loop cnt cs (sub64 n c) (k - 1) with
    | some r =>
      some (((NumberCompositions n k : Int) - (NumberCompositions (sub64 n c) k : Int)) + r)
    | none => none

/-- `BigInt CompositionToInteger(const vector<uint64_t>& Composition)`. `N` is the sum
in `uint64_t`, `K` the size converted to `uint16_t`; the loop runs for
`i = 0 .. K - 2` (no iteration when `K < 2`). -/
def CompositionToInteger (Composition : List Nat) : Option Int :=
  CompositionToInteger.loop (Composition.length % W16 - 1) Composition
    (Composition.sum % W64) (Composition.length % W16)

/-- First correction loop of `IntegerToComposition`:
`while (!(NumberCompositions(n - mu - 1, k) < NumberCompositions(n, k) - idx)) mu++;`
`mu` is a `uint64_t`: it has `2^64` states, and a loop that has not stopped after
visiting all of them never stops. -/
def IntegerToComposition.up (idx : Int) (n k : Nat) : Nat → Nat → Option Nat
  | 0, _ => none
  | fuel + 1, mu =>
    if (NumberCompositions (sub64 (sub64 n mu) 1) k : Int) < (NumberCompositions n k : Int) - idx
    then some mu
    else IntegerToComposition.up idx n k fuel ((mu + 1) % W64)

/-- Second correction loop of `IntegerToComposition`:
`while (!(NumberCompositions(n, k) - idx <= NumberCompositions(n - mu, k))) mu--;`. -/
def IntegerToComposition.down (idx : Int) (n k : Nat) : Nat → Nat → Option Nat
  | 0, _ => none
  | fuel + 1, mu =>
    if (NumberCompositions n k : Int) - idx ≤ (NumberCompositions (sub64 n mu) k : Int)
    then some mu
    else IntegerToComposition.down idx n k fuel (sub64 mu 1)

/-- The `for` loop of `IntegerToComposition` with `cnt` iterations left, followed by
`composition[K - 1] = n`. The vector starts filled with zeros, so after `break` the
remaining `cnt` parts and the last part (`n = 0`) are zero.

`root A k` stands for `round(pow(BigFloat(A), BigFloat(1.0 / (k - 1))))` converted to
`uint64_t`: the floating-point estimate is a parameter of the embedding. -/
def IntegerToComposition.loop (root : Int → Nat → Nat) :
    Nat → Int → Nat → Nat → Option (List Nat)
  | 0, _, n, _ => some [n]
  | cnt + 1, idx, n, k =>
    if n = 0 then some (List.replicate (cnt + 2) 0)
    else
      let A : Int := ((NumberCompositions n k : Int) - idx) * (Factorial (k - 1) : Int)
      let mu0 := sub64 (sub64 n (root A k)) ((k - 1) / 2)
      match IntegerToComposition.up idx n k (W64 + 1) mu0 with
      | none => none
      | some mu1 =>
        match IntegerToComposition.down idx n k (W64 + 1) mu1 with
        | none => none
        | some mu =>
          match IntegerToComposition.loop root cnt
              (idx - ((NumberCompositions n k : Int) - (NumberCompositions (sub64 n mu) k : Int)))
              (sub64 n mu) (k - 1) with
          | none => none
          | some rest => some (mu :: rest)

/-- `vector<uint64_t> IntegerToComposition(BigInt idx, uint64_t n, uint16_t k)`. With
`K = 0` the final `composition[K - 1] = n` writes out of range. -/
def IntegerToComposition (root : Int → Nat → Nat) (idx : Int) (n k : Nat) :
    Option (List Nat) :=
  if k % W16 = 0 then none
  else IntegerToComposition.loop root (k % W16 - 1) idx (n % W64) (k % W16)

/-- The number of weak compositions of `n` into `k` parts, `C(n + k - 1, k - 1)`
(the mathematical value, without machine words). -/
def weakCompositions (n k : Nat) : Nat := Nat.choose (n + k - 1) (k - 1)

/-- The lists `c0 :: rest`, for `c0` running through `cnt` consecutive values from `c0`
on and `rest` through `comps (n - c0)`, in this order. -/
def compositionsFrom (comps : Nat → List (List Nat)) (n : Nat) : Nat → Nat → List (List Nat)
  | 0, _ => []
  | cnt + 1, c0 =>
    (comps (n - c0)).map (fun rest => c0 :: rest) ++ compositionsFrom comps n cnt (c0 + 1)

/-- All weak compositions of `n` into `k` parts (sequences of `k` non-negative integers
with sum `n`), each once, in lexicographic order (`mem_allCompositions`,
`allCompositions_nodup`). -/
def allCompositions : Nat → Nat → List (List Nat)
  | 0, n => if n = 0 then [[]] else []
  | k + 1, n => compositionsFrom (allCompositions k) n (n + 1) 0

/-- The number of weak compositions of `c.sum` into `c.length` parts that are
lexicographically smaller than `c`. -/
def lexSmallerCount (c : List Nat) : Nat :=
  List.countP (fun d => decide (List.Lex (· < ·) d c)) (allCompositions c.length c.sum)

/-! ## Types.cpp -/

/-- `typedef std::vector<bool> DataBits`. -/
abbrev DataBits := List Bool

/-- `typedef std::vector<unsigned char> Data`; a byte is a `Nat` below `256`. A `char`
is represented by the byte with the same bit pattern. -/
abbrev Data := List Nat

/-- `void PadBits(DataBits& bits, uint32_t nBits)`: appends `nBits` zero bits. The
argument is converted to `uint32_t`. -/
def PadBits (bits : DataBits) (nBits : Nat) : DataBits :=
  bits ++ List.replicate (nBits % W32) false

/-- `DataBits SliceBits(DataBits& bits, uint32_t nBits)`: returns the first `nBits` bits
and the vector that is left. The body is
`DataBits slice = DataBits(bits.begin(), bits.begin()+nBits);`
`bits.erase(bits.begin(), bits.begin()+nBits); return slice;`
without any comparison of `nBits` with `bits.size()`. The value is defined for
`nBits <= bits.size()` only; `none` stands for the undefined behaviour of the range
`[begin, begin + nBits)` past the end of the vector, it is not a failure that the code
reports (see `SliceBits.ending`). -/
def SliceBits (bits : DataBits) (nBits : Nat) : Option (DataBits × DataBits) :=
  if nBits % W32 ≤ bits.length then
    some (bits.take (nBits % W32), bits.drop (nBits % W32))
  else none

/-- How a call ends: with a value, with a failure that the code signals (a failed
`assert`, an exception that is thrown), or in undefined behaviour. -/
inductive Ending (α : Type) where
  | value (a : α) : Ending α
  | signalled : Ending α
  | undefined : Ending α
  deriving DecidableEq

/-- The ending of a call `SliceBits(bits, nBits)`. The body of `SliceBits` has no
`assert`, no `throw` and no test of `nBits`, so no call ends in a signalled failure: a
call without a value is an undefined one. -/
def SliceBits.ending (bits : DataBits) (nBits : Nat) : Ending (DataBits × DataBits) :=
  match SliceBits bits nBits with
  | some r => Ending.value r
  | none => Ending.undefined

/-- `char BoolVecToChar(const vector<bool>& Vec)`: asserts that there are 8 bits, then
`for i < 8: c += (Vec[i] << (7 - i))` in `char` arithmetic (modulo `256`). -/
def BoolVecToChar (Vec : List Bool) : Option Nat :=
  if Vec.length = 8 then
    some ((List.range 8).foldl (fun c i => (c + (Vec.getD i false).toNat * 2 ^ (7 - i)) % 256) 0)
  else none

/-- `vector<bool> CharToBoolVec(char ch)`: `for i < 8: push_back((ch >> (7 - i)) & 0x01)`.
The shift of the sign-extended `char` yields bit `7 - i` of the byte. -/
def CharToBoolVec (ch : Nat) : List Bool :=
  (List.range 8).map (fun i => decide ((ch / 2 ^ (7 - i)) % 2 = 1))

/-- `DataBits DataToBits(const Data& data)`. -/
def DataToBits : Data → DataBits
  | [] => []
  | ch :: rest => CharToBoolVec ch ++ DataToBits rest

/-- The loop of `BitsToData` with `cnt` slices of 8 bits left:
`slice = DataBits(data.begin()+i, data.begin()+i+8); buf.push_back(BoolVecToChar(slice))`. -/
def BitsToData.loop : Nat → DataBits → Option Data
  | 0, _ => some []
  | cnt + 1, data =>
    match BoolVecToChar (data.take 8), BitsToData.loop cnt (data.drop 8) with
    | some ch, some rest => some (ch :: rest)
    | _, _ => none

/-- `Data BitsToData(const DataBits& data)`: asserts `data.size() % 8 == 0`, then
`for (unsigned int i = 0; i < data.size(); i += 8)`. With `2^32` bits or more the 32-bit
counter wraps from `2^32 - 8` to `0` and never reaches the bound. -/
def BitsToData (data : DataBits) : Option Data :=
  if data.length % 8 = 0 ∧ data.length < W32 then BitsToData.loop (data.length / 8) data
  else none

/-- `BigInt DataBitsToInt(const DataBits& data)`:
`for (unsigned int i = 0; i < data.size()-1; i++) { num += data[i] & 0x01; num *= 2; }`
`num += data[data.size()-1] & 0x01;`. On the empty vector `data.size()-1` wraps and the
loop reads past the end; with more than `2^32` bits the 32-bit counter never reaches
the bound. -/
def DataBitsToInt (data : DataBits) : Option Int :=
  if data.length = 0 ∨ W32 < data.length then none
  else
    some ((((data.dropLast.foldl (fun num b => (num + b.toNat) * 2) 0)
      + (data.getLastD false).toNat : Nat) : Int))

/-- The loop of `IntToDataBits`:
`while (num != 0) { dataBits.insert(dataBits.begin(), (bool)(num & 0x01)); num /= 2; }`.
The absolute value of `num` decreases, so `|num|` iterations are enough. -/
def IntToDataBits.loop : Nat → Int → DataBits → DataBits
  | 0, _, dataBits => dataBits
  | fuel + 1, num, dataBits =>
    if num = 0 then dataBits
    else IntToDataBits.loop fuel (Int.tdiv num 2) (decide (num % 2 = 1) :: dataBits)

/-- `DataBits IntToDataBits(BigInt num)`. -/
def IntToDataBits (num : Int) : DataBits :=
  IntToDataBits.loop num.natAbs num []

/-! ## DataInterface.cpp -/

/-- `unsigned int EncodeDataInSequenceNr(const DataBits& Bits)`: asserts 32 bits, then
`seqnr |= data[0] << 24; seqnr |= data[1] << 16; seqnr |= data[2] << 8; seqnr |= data[3]`
in 32-bit arithmetic. -/
def EncodeDataInSequenceNr (Bits : DataBits) : Option Nat :=
  if Bits.length = 32 then
    match BitsToData Bits with
    | some data =>
      some ((((data.getD 0 0 <<< 24) % W32 ||| (data.getD 1 0 <<< 16) % W32)
        ||| (data.getD 2 0 <<< 8) % W32) ||| data.getD 3 0)
    | none => none
  else none

/-- `DataBits DecodeDataInSequenceNr(unsigned int sequenceNr)`. -/
def DecodeDataInSequenceNr (sequenceNr : Nat) : DataBits :=
  DataToBits [(sequenceNr >>> 24) &&& 255, (sequenceNr >>> 16) &&& 255,
    (sequenceNr >>> 8) &&& 255, sequenceNr &&& 255]

/-- `uint32_t EmbeddableBitsInValues(uint64_t n, uint16_t k)`. The quotient
`log(BigFloat(x)) / log(BigFloat(2))` converted to `uint32_t` is arbitrary-precision
floating point; `lg x` stands for it and is a parameter of the embedding. -/
def EmbeddableBitsInValues (lg : Nat → Nat) (n k : Nat) : Nat :=
  lg (NumberCompositions n k)

/-- `uint32_t EmbeddableBitsInPermutation(uint16_t nParts)`, with the same parameter
`lg` for the floating-point logarithm. -/
def EmbeddableBitsInPermutation (lg : Nat → Nat) (nParts : Nat) : Nat :=
  lg (Factorial nParts)

/-- `vector<uint64_t> EncodeDataInValues(const DataBits& Data, uint64_t budget,
uint16_t nParts)`: asserts `Data.size() == MaxBits` and `nParts >= 2`. -/
def EncodeDataInValues (lg : Nat → Nat) (root : Int → Nat → Nat) (Data : DataBits)
    (budget nParts : Nat) : Option (List Nat) :=
  if Data.length = EmbeddableBitsInValues lg budget nParts ∧ 2 ≤ nParts % W16 then
    match DataBitsToInt Data with
    | some idx => IntegerToComposition root idx budget nParts
    | none => none
  else none

/-- The front padding of the decoders:
`data.insert(data.begin(), MaxBits - data.size(), false)`. The count is computed in
`size_t`; when `data` is longer than `MaxBits` it wraps to a length no vector can have. -/
def padFront (MaxBits : Nat) (data : DataBits) : Option DataBits :=
  if data.length ≤ MaxBits then some (List.replicate (MaxBits - data.length) false ++ data)
  else none

/-- `DataBits DecodeDataInValues(const vector<uint64_t>& Values)`: asserts
`nParts >= 2`. -/
def DecodeDataInValues (lg : Nat → Nat) (Values : List Nat) : Option DataBits :=
  if 2 ≤ Values.length % W16 then
    match CompositionToInteger Values with
    | some idx =>
      padFront (EmbeddableBitsInValues lg (Values.sum % W64) (Values.length % W16))
        (IntToDataBits idx)
    | none => none
  else none

/-- `vector<uint16_t> EncodeDataInPermutation(const DataBits& Data, uint16_t nParts)`:
asserts `nParts >= 2` and `Data.size() == MaxBits`. -/
def EncodeDataInPermutation (lg : Nat → Nat) (Data : DataBits) (nParts : Nat) :
    Option (List Nat) :=
  if 2 ≤ nParts % W16 ∧ Data.length = EmbeddableBitsInPermutation lg (nParts % W16) then
    match DataBitsToInt Data with
    | some idx => IntegerToPermutation idx nParts
    | none => none
  else none

/-- `DataBits DecodeDataInPermutation(const vector<uint16_t>& Permutation)`: asserts
`Size >= 2`. -/
def DecodeDataInPermutation (lg : Nat → Nat) (Permutation : List Nat) : Option DataBits :=
  if 2 ≤ Permutation.length % W16 then
    match PermutationToInteger Permutation with
    | some idx =>
      padFront (EmbeddableBitsInPermutation lg (Permutation.length % W16)) (IntToDataBits idx)
    | none => none
  else none

/-- The value of a bit vector read as a big-endian binary number (first bit most
significant); the mathematical counterpart of `DataBitsToInt`. -/
def bitsVal (bits : DataBits) : Nat :=
  bits.foldl (fun n b => 2 * n + b.toNat) 0

/-- What the round trips through a channel of computed width need from the
floating-point logarithm at `x`: the bit count `lg x` is at least `1`, it fits a
`uint32_t`, and it is not above the binary logarithm of `x` (`2^(lg x) <= x`). The floor
of the binary logarithm has these properties for every `2 <= x < 2^(2^32)`. -/
def LogFits (lg : Nat → Nat) (x : Nat) : Prop :=
  1 ≤ lg x ∧ lg x < W32 ∧ 2 ^ lg x ≤ x

/-- The loop of `floorLog2`: the number of halvings that lead below `2`. -/
def floorLog2.loop : Nat → Nat → Nat
  | 0, _ => 0
  | fuel + 1, x => if x < 2 then 0 else floorLog2.loop fuel (x / 2) + 1

/-- Modelled from the spec: the capacity functions are "floor, computed in arbitrary
precision" of the binary logarithm; the logarithm itself is a function of the boost
multiprecision library. `floorLog2 x` is the floor of `log2 x` (and `0` for `x = 0`). -/
def floorLog2 (x : Nat) : Nat :=
  floorLog2.loop x x

/-! ## Transactions (types of the Bitcoin library) -/

/-- `COutPoint`: the hash of a transaction and the index `n` (`unsigned int`) of one of
its outputs. -/
structure COutPoint where
  hash : Nat
  n : Nat
  deriving DecidableEq

/-- `CTxIn`: the claimed output, the signature script (its bytes) and the 32-bit
sequence number. -/
structure CTxIn where
  prevout : COutPoint
  scriptSig : Data
  nSequence : Nat
  deriving DecidableEq

/-- `CTxOut`: the value in satoshi (the 64-bit pattern of `nValue`) and the public key
script (its bytes). -/
structure CTxOut where
  nValue : Nat
  scriptPubKey : Data
  deriving DecidableEq

/-- `CTransaction`: inputs and outputs. -/
structure CTransaction where
  vin : List CTxIn
  vout : List CTxOut
  deriving DecidableEq

/-- `OP_RETURN`. -/
def OP_RETURN : Nat := 0x6a

/-- Modelled from the spec: `CScript::operator<<(const vector<unsigned char>&)` of the
Bitcoin library is not part of the sources. A push of fewer than `0x4c` bytes is the
length byte followed by the bytes (the "push-40" of a nulldata output is the byte `40`);
longer pushes use `OP_PUSHDATA1` (`0x4c`), `OP_PUSHDATA2` (`0x4d`) and `OP_PUSHDATA4`
(`0x4e`) with a little-endian length of 1, 2 and 4 bytes. -/
def pushData (b : Data) : Data :=
  if b.length < 0x4c then b.length :: b
  else if b.length ≤ 0xff then 0x4c :: b.length :: b
  else if b.length ≤ 0xffff then 0x4d :: (b.length % 256) :: (b.length / 256) :: b
  else
    0x4e :: (b.length % 256) :: (b.length / 256 % 256) :: (b.length / 65536 % 256)
      :: (b.length / 16777216 % 256) :: b

/-! ## BlockchainInterface.cpp: the channels -/

/-- `void PackDataIntoSeqNr(DataBits& bits, CTxIn& txIn)`:
`int nBits = std::min(32, (int)bits.size()); PadBits(bits, 32 - nBits);`
`DataBits slice = SliceBits(bits, 32); txIn.nSequence = EncodeDataInSequenceNr(slice);`.
Returns the bits that are left and the input. `32 - nBits` is an `int`: a result above
`INT_MAX` is undefined. -/
def PackDataIntoSeqNr (bits : DataBits) (txIn : CTxIn) : Option (DataBits × CTxIn) :=
  let nBits : Int := min 32 (toInt32 bits.length)
  if 32 - nBits > 2147483647 then none
  else
    match SliceBits (PadBits bits (32 - nBits).toNat) 32 with
    | none => none
    | some (slice, rest) =>
      match EncodeDataInSequenceNr slice with
      | none => none
      | some seqnr => some (rest, { txIn with nSequence := seqnr })

/-- `DataBits UnpackDataFromSeqNr(const CTxIn& txIn)`. -/
def UnpackDataFromSeqNr (txIn : CTxIn) : DataBits :=
  DecodeDataInSequenceNr txIn.nSequence

/-- `void PackDataIntoNulldata(DataBits& bits, CTxOut& txOut)`:
`int nBits = std::min(320, (int)bits.size()); PadBits(bits, 320 - nBits);`
`DataBits slice = SliceBits(bits, 320);`
`txOut.scriptPubKey = (CScript() << OP_RETURN << BitsToData(slice)); txOut.nValue = 0;`. -/
def PackDataIntoNulldata (bits : DataBits) (_txOut : CTxOut) : Option (DataBits × CTxOut) :=
  let nBits : Int := min 320 (toInt32 bits.length)
  if 320 - nBits > 2147483647 then none
  else
    match SliceBits (PadBits bits (320 - nBits).toNat) 320 with
    | none => none
    | some (slice, rest) =>
      match BitsToData slice with
      | none => none
      | some data => some (rest, { nValue := 0, scriptPubKey := OP_RETURN :: pushData data })

/-- `DataBits UnpackDataFromNulldata(const CTxOut& txOut)`: the script without its first
two bytes, as bits. Erasing two bytes from a shorter script is undefined. -/
def UnpackDataFromNulldata (txOut : CTxOut) : Option DataBits :=
  if 2 ≤ txOut.scriptPubKey.length then some (DataToBits (txOut.scriptPubKey.drop 2))
  else none

/-- `void PackDataIntoBudgetSplit(DataBits& bits, vector<CTxOut>& txOuts, uint64_t budget,
uint64_t lbound)`. `nOutputs` and `(uint32_t)bits.size()` are 32-bit, the budget
arithmetic is 64-bit, `assert(budget >= nOutputs * lbound)`. The last loop reads
`values[i]` for `i < nOutputs`; `values` has `(uint16_t)nOutputs` elements. -/
def PackDataIntoBudgetSplit (lg : Nat → Nat) (root : Int → Nat → Nat) (bits : DataBits)
    (txOuts : List CTxOut) (budget lbound : Nat) : Option (DataBits × List CTxOut) :=
  let nOutputs := txOuts.length % W32
  let rest64 := sub64 budget ((nOutputs * (lbound % W64)) % W64)
  let MaxBits := EmbeddableBitsInValues lg rest64 nOutputs
  let nBits := min MaxBits (bits.length % W32)
  if (nOutputs * (lbound % W64)) % W64 ≤ budget % W64 then
    match SliceBits bits nBits with
    | none => none
    | some (slice, rest) =>
      match EncodeDataInValues lg root (PadBits slice (MaxBits - nBits)) rest64 nOutputs with
      | none => none
      | some values =>
        if values.length < nOutputs then none
        else
          some (rest,
            List.zipWith (fun (o : CTxOut) v => { o with nValue := (v + lbound % W64) % W64 })
              (txOuts.take nOutputs) values ++ txOuts.drop nOutputs)
  else none

/-- `DataBits UnpackDataFromBudgetSplit(const vector<CTxOut>& txOuts, uint64_t lbound)`:
`values[i] = txOuts[i].nValue - lbound`, then `DecodeDataInValues(values)`. -/
def UnpackDataFromBudgetSplit (lg : Nat → Nat) (txOuts : List CTxOut) (lbound : Nat) :
    Option DataBits :=
  DecodeDataInValues lg ((txOuts.take (txOuts.length % W32)).map
    (fun o => sub64 o.nValue lbound))

/-- `void PackDataIntoBudgetClaim(DataBits& bits, vector<CTxIn>& txInputs)`: the
permutation is written to the `prevout.n` fields. -/
def PackDataIntoBudgetClaim (lg : Nat → Nat) (bits : DataBits) (txInputs : List CTxIn) :
    Option (DataBits × List CTxIn) :=
  let nInputs := txInputs.length % W32
  let MaxBits := EmbeddableBitsInPermutation lg nInputs
  let nBits := min MaxBits (bits.length % W32)
  match SliceBits bits nBits with
  | none => none
  | some (slice, rest) =>
    match EncodeDataInPermutation lg (PadBits slice (MaxBits - nBits)) nInputs with
    | none => none
    | some perm =>
      if perm.length < nInputs then none
      else
        some (rest,
          List.zipWith (fun (i : CTxIn) p => { i with prevout := { i.prevout with n := p } })
            (txInputs.take nInputs) perm ++ txInputs.drop nInputs)

/-- `DataBits UnpackDataFromBudgetClaim(const vector<CTxIn>& txInputs)`:
`perm[i] = txInputs[i].prevout.n` (converted to `uint16_t`), then
`DecodeDataInPermutation(perm)`. -/
def UnpackDataFromBudgetClaim (lg : Nat → Nat) (txInputs : List CTxIn) : Option DataBits :=
  DecodeDataInPermutation lg ((txInputs.take (txInputs.length % W32)).map
    (fun i => i.prevout.n % W16))

/-! ## Public keys as carriers (DataInterface.cpp) -/

/-- Modelled from the spec: `CPubKey::GetLen` of the Bitcoin library: a key with header
byte `2` or `3` is compressed and has 33 bytes, one with header `4`, `6` or `7` has 65
bytes, any other header is invalid. -/
def CPubKey.GetLen (chHeader : Nat) : Nat :=
  if chHeader = 2 ∨ chHeader = 3 then 33
  else if chHeader = 4 ∨ chHeader = 6 ∨ chHeader = 7 then 65
  else 0

/-- Modelled from the spec: `CPubKey(const std::vector<unsigned char>&)` of the Bitcoin
library keeps the bytes when their number is the one the header byte announces, and is
the invalid (empty) key otherwise. A key is represented by its bytes
`[Pubkey.begin(), Pubkey.end())`. -/
def CPubKey.ofData (vch : Data) : Data :=
  if vch ≠ [] ∧ CPubKey.GetLen (vch.headD 0) = vch.length then vch else []

/-- The candidate of `EncodeDataInPubkey` for one draw `random` of the random bits: the
asserts (`1 <= Data.size()`, `5 <= nRandBits`, `255 - Data.size() == nRandBits` for the
argument `Data`, here `payload`, with
`nRandBits` a `uint8_t`), then the bits `prefix ++ data ++ random` with
`prefix = 00000010`, `data = 0 ++ Data ++ (256 - data.size() - nRandBits zeros)`, turned
into bytes and into a `CPubKey`. -/
def EncodeDataInPubkey.candidate (payload : DataBits) (nRandBits : Nat) (random : DataBits) :
    Option Data :=
  if 1 ≤ payload.length ∧ 5 ≤ nRandBits % 256 ∧ payload.length ≤ 255
      ∧ 255 - payload.length = nRandBits % 256 then
    let pre : DataBits := List.replicate 6 false ++ [true] ++ [false]
    let data0 : DataBits := [false] ++ payload
    let data : DataBits := data0 ++ List.replicate (256 - data0.length - nRandBits % 256) false
    (BitsToData (pre ++ data ++ random)).map CPubKey.ofData
  else none

/-- The `do ... while (!pk.IsFullyValid())` loop of `EncodeDataInPubkey`. `draw i` is the
result of the `i`-th call of `GenerateRandomBits(nRandBits)` and `IsFullyValid` the
curve-point test of the Bitcoin library; the loop has no bound of its own, the first
argument bounds the number of draws that are looked at. -/
def EncodeDataInPubkey.loop (IsFullyValid : Data → Bool) (draw : Nat → DataBits)
    (payload : DataBits) (nRandBits : Nat) : Nat → Nat → Option Data
  | 0, _ => none
  | fuel + 1, i =>
    match EncodeDataInPubkey.candidate payload nRandBits (draw i) with
    | none => none
    | some pk =>
      if IsFullyValid pk then some pk
      else EncodeDataInPubkey.loop IsFullyValid draw payload nRandBits fuel (i + 1)

/-- `CPubKey EncodeDataInPubkey(const DataBits& Data, uint8_t nRandBits)`, looking at no
more than `fuel` draws. -/
def EncodeDataInPubkey (IsFullyValid : Data → Bool) (draw : Nat → DataBits) (fuel : Nat)
    (payload : DataBits) (nRandBits : Nat) : Option Data :=
  EncodeDataInPubkey.loop IsFullyValid draw payload nRandBits fuel 0

/-- `DataBits DecodeDataInPubkey(const CPubKey& Pubkey, uint8_t nRandBits)`: the bits of
the key without the first 9 and the last `nRandBits`. Erasing more bits than there are is
undefined. -/
def DecodeDataInPubkey (Pubkey : Data) (nRandBits : Nat) : Option DataBits :=
  let buf := DataToBits Pubkey
  if 9 ≤ buf.length ∧ nRandBits % 256 ≤ buf.length - 9 then
    some ((buf.drop 9).take (buf.length - 9 - nRandBits % 256))
  else none

/-! ## DataCompression.cpp -/

/-- `const char EoF = (char)0x03`. -/
def EoF : Nat := 0x03

/-- `typedef boost::bimap<char, HuffCode> HuffCodeMap`: the pairs of a symbol and its
codeword. -/
abbrev HuffCodeMap := List (Nat × List Bool)

/-- `Codes.left.at(symbol)`: the codeword of a symbol; `at` throws when there is none. -/
def HuffCodeMap.leftAt (Codes : HuffCodeMap) (symbol : Nat) : Option (List Bool) :=
  (Codes.find? (fun e => e.1 == symbol)).map (fun e => e.2)

/-- `Codes.right.find(code)`: the symbol of a codeword, if there is one. -/
def HuffCodeMap.rightFind (Codes : HuffCodeMap) (code : List Bool) : Option Nat :=
  (Codes.find? (fun e => e.2 == code)).map (fun e => e.1)

/-- `bool IsCharInvalid(const char symbol)`. The symbol is a (signed) `char`: a byte of
`0x80` or more is negative and fails every range test. -/
def IsCharInvalid (symbol : Nat) : Bool :=
  if 0x0A = symbol then false
  else if 0x20 ≤ symbol ∧ symbol ≤ 0x2F then false
  else if 0x30 ≤ symbol ∧ symbol ≤ 0x39 then false
  else if 0x3A ≤ symbol ∧ symbol ≤ 0x40 then false
  else if 0x61 ≤ symbol ∧ symbol ≤ 0x7A then false
  else if 0x41 ≤ symbol ∧ symbol ≤ 0x5A then false
  else true

/-- `void TransformCharDomain(string& text)`: erases the invalid characters. -/
def TransformCharDomain (text : Data) : Data :=
  text.filter (fun c => !IsCharInvalid c)

/-- `DataBits Compress(const Data& Data, const HuffCodeMap& Codes)`: the codewords of the
bytes followed by the codeword of `EoF`. -/
def Compress : Data → HuffCodeMap → Option DataBits
  | [], Codes => Codes.leftAt EoF
  | ch :: rest, Codes =>
    match Codes.leftAt ch, Compress rest Codes with
    | some code, some bits => some (code ++ bits)
    | _, _ => none

/-- The loop of `Decompress` over the remaining bits, with the accumulated prefix `ch`
and the bytes decoded so far. -/
def Decompress.loop (Codes : HuffCodeMap) : DataBits → List Bool → Data → Data
  | [], _, decompData => decompData
  | b :: bits, ch, decompData =>
    match Codes.rightFind (ch ++ [b]) with
    | some tmp =>
      if tmp = EoF then decompData
      else Decompress.loop Codes bits [] (decompData ++ [tmp])
    | none => Decompress.loop Codes bits (ch ++ [b]) decompData

/-- `Data Decompress(const DataBits& Bits, const HuffCodeMap& Codes)`. -/
def Decompress (Bits : DataBits) (Codes : HuffCodeMap) : Data :=
  Decompress.loop Codes Bits [] []

/-- A table is prefix-free when a codeword that is a prefix of (or equal to) the codeword
of another entry belongs to the same entry. -/
def PrefixFree (Codes : HuffCodeMap) : Prop :=
  ∀ e1 ∈ Codes, ∀ e2 ∈ Codes, e1.2 <+: e2.2 → e1 = e2
/-! ## DataCompression.cpp: code generation -/

/-- `typedef std::map<char,int> FreqMap`: the entries in the order of iteration. The keys
of a map are distinct. -/
abbrev FreqMap := List (Nat × Int)

/-- `typedef std::vector<bool> HuffCode`. -/
abbrev HuffCode := List Bool

/-- The classes `LeafNode` and `InternalNode` derived from `BaseNode`. -/
inductive BaseNode where
  | LeafNode (character : Nat) (frequency : Int) : BaseNode
  | InternalNode (left right : BaseNode) : BaseNode

/-- The sum of two `int` values, with two's-complement wrap-around. -/
def addInt32 (a b : Int) : Int :=
  toInt32 ((a + b) % (W32 : Int)).toNat

/-- The member `frequency`: the constructor of `InternalNode` sets it to
`node1->frequency + node2->frequency`, an `int` sum. -/
def BaseNode.frequency : BaseNode → Int
  | .LeafNode _ frequency => frequency
  | .InternalNode left right => addInt32 left.frequency right.frequency

/-- The calls `tree.top()` and `tree.pop()` on the `std::priority_queue` ordered by `NodeCmp`
(`left->frequency > right->frequency`): the top is a node of least frequency. Which one
of several nodes of least frequency is on top depends on the layout of the heap; the
parameter `tie` stands for it and picks among the positions of the nodes of least
frequency. On an empty queue `top()` is undefined. -/
def popTop (tie : List BaseNode → Nat) (tree : List BaseNode) :
    Option (BaseNode × List BaseNode) :=
  let least := tree.enum.filter
    (fun e => tree.all (fun b => decide (e.2.frequency ≤ b.frequency)))
  match least[tie tree % least.length]? with
  | some e => some (e.2, tree.eraseIdx e.1)
  | none => none

/-- The loop of `BuildTree`, `while (tree.size() > 1)`: the two top nodes are taken out
and their parent is pushed; then `return tree.top()`. Every iteration makes the queue one
node smaller, so as many steps as there are nodes are enough. -/
def BuildTree.loop (tie : List BaseNode → Nat) : Nat → List BaseNode → Option BaseNode
  | 0, _ => none
  | fuel + 1, tree =>
    if 1 < tree.length then
      match popTop tie tree with
      | some (childLeft, tree1) =>
        match popTop tie tree1 with
        | some (childRight, tree2) =>
          BuildTree.loop tie fuel (tree2 ++ [BaseNode.InternalNode childLeft childRight])
        | none => none
      | none => none
    else tree.head?

/-- `BaseNode* BuildTree(const FreqMap& Frequencies)`: a leaf is pushed for every entry
of the map. -/
def BuildTree (tie : List BaseNode → Nat) (Frequencies : FreqMap) : Option BaseNode :=
  BuildTree.loop tie Frequencies.length
    (Frequencies.map (fun e => BaseNode.LeafNode e.1 e.2))

/-- `codes.insert(HuffCodeMap::value_type(character, Prefix))` on the `boost::bimap`: both
sides of a bimap are sets, and a pair is inserted only when neither its symbol nor its
codeword is in the map. -/
def HuffCodeMap.insert (codes : HuffCodeMap) (e : Nat × HuffCode) : HuffCodeMap :=
  if codes.any (fun x => x.1 == e.1 || x.2 == e.2) then codes else codes ++ [e]

/-- `void GenerateCodes(const BaseNode *Node, const HuffCode& Prefix, HuffCodeMap& codes)`:
a leaf inserts its symbol with the prefix; an internal node descends to the left with
`Prefix + 0` and to the right with `Prefix + 1`. -/
def GenerateCodes.node : BaseNode → HuffCode → HuffCodeMap → HuffCodeMap
  | .LeafNode character _, Prefix, codes => codes.insert (character, Prefix)
  | .InternalNode left right, Prefix, codes =>
    GenerateCodes.node right (Prefix ++ [true])
      (GenerateCodes.node left (Prefix ++ [false]) codes)

/-- `HuffCodeMap GenerateCodes(const FreqMap& Frequencies)`. -/
def GenerateCodes (tie : List BaseNode → Nat) (Frequencies : FreqMap) : Option HuffCodeMap :=
  (BuildTree tie Frequencies).map (fun root => GenerateCodes.node root [] [])

/-- The leaves of a tree from left to right, each with the path from the root appended
to `Prefix` (`false` for left, `true` for right). -/
def BaseNode.codes : BaseNode → HuffCode → List (Nat × HuffCode)
  | .LeafNode character _, Prefix => [(character, Prefix)]
  | .InternalNode left right, Prefix =>
    left.codes (Prefix ++ [false]) ++ right.codes (Prefix ++ [true])

/-- The symbols at the leaves of a tree, from left to right. -/
def BaseNode.symbols : BaseNode → List Nat
  | .LeafNode character _ => [character]
  | .InternalNode left right => left.symbols ++ right.symbols

/-- The frequencies of the characters of `"go go gophers"` (`' '`, `e`, `g`, `h`, `o`,
`p`, `r`, `s`). -/
def gophers : FreqMap :=
  [(0x20, 2), (0x65, 1), (0x67, 3), (0x68, 1), (0x6F, 3), (0x70, 1), (0x72, 1), (0x73, 1)]

/-! ## BlockchainInterface.cpp: the planner -/

/-- `struct Parameters`: the number of P2SH outputs, the number of nulldata outputs and
the fee of one planned transaction. -/
structure Parameters where
  nScriptHash : Nat
  nNulldata : Nat
  nFees : Nat
  deriving DecidableEq

/-- `OP_HASH160`. -/
def OP_HASH160 : Nat := 0xa9

/-- `OP_EQUAL`. -/
def OP_EQUAL : Nat := 0x87

/-- `CTxOut()` of the Bitcoin library: the null output, value `-1` (all 64 bits set) and
an empty script. -/
def CTxOut.null : CTxOut := { nValue := W64 - 1, scriptPubKey := [] }

/-- `CScript dummyA = (CScript() << OP_HASH160 << Data(20) << OP_EQUAL)`. -/
def dummyA : Data := OP_HASH160 :: (pushData (List.replicate 20 0) ++ [OP_EQUAL])

/-- `CScript dummyB = (CScript() << OP_RETURN << Data(40))`. -/
def dummyB : Data := OP_RETURN :: pushData (List.replicate 40 0)

/-- One pass of the `do ... while` loop of `OptimizeParams` up to the test that records
the choice: the candidate parameters for `nScriptHash` outputs and
`nTotalEmbeddableBits`. `nBitsA` and `nBitsB` are the `unsigned int` values read from
the configuration, `size` is `bits.size()`, `TransactionFee` is `Utilities::TransactionFee`
(the serialized size is computed by the Bitcoin library, the product in floating point),
and all sums are `unsigned int` sums. -/
def OptimizeParams.pass (nBitsA nBitsB : Nat) (TransactionFee : CTransaction → Nat)
    (lg : Nat → Nat) (tx : CTransaction) (size nBudget nScriptHash : Nat) :
    Parameters × Nat :=
  let vout0 := List.replicate nScriptHash { CTxOut.null with scriptPubKey := dummyA }
  let total0 := (nScriptHash * ((nBitsA + (11 * nBitsB) % W32) % W32)) % W32
  let total1 := (total0 + (nScriptHash * 32) % W32) % W32
  let addNulldata : Bool := decide ((nScriptHash = 1 ∧ size > total1) ∨ nScriptHash ≥ 2)
  let vout1 := if addNulldata then vout0 ++ [{ CTxOut.null with scriptPubKey := dummyB }]
    else vout0
  let total2 := if addNulldata then (total1 + 320) % W32 else total1
  let nFees := TransactionFee { tx with vout := vout1 } % W64
  let total3 :=
    if nScriptHash ≥ 2 then
      let nBitsBudgetSplit :=
        if nBudget % W64 ≥ nFees then
          EmbeddableBitsInValues lg (sub64 nBudget nFees) nScriptHash % W32
        else 0
      let nBitsBudgetClaim := EmbeddableBitsInPermutation lg nScriptHash % W32
      (total2 + (nBitsBudgetSplit + nBitsBudgetClaim) % W32) % W32
    else total2
  ({ nScriptHash := nScriptHash, nNulldata := if addNulldata then 1 else 0, nFees := nFees },
    total3)

/-- The `do ... while (nTotalEmbeddableBits >= bits.size() && nScriptHash > 0)` loop of
`OptimizeParams`. A pass is followed by another one only after `nScriptHash--`, so the
first argument, the number of passes that are left, is never used up when it starts at
`14`. -/
def OptimizeParams.loop (nBitsA nBitsB : Nat) (TransactionFee : CTransaction → Nat)
    (lg : Nat → Nat) (tx : CTransaction) (size nBudget : Nat) :
    Nat → Nat → Parameters → Option Parameters
  | 0, _, _ => none
  | fuel + 1, nScriptHash, params =>
    let cand := OptimizeParams.pass nBitsA nBitsB TransactionFee lg tx size nBudget nScriptHash
    let recorded : Bool := decide (cand.2 ≥ size ∨ nScriptHash = 14)
    let params1 := if recorded then cand.1 else params
    let nScriptHash1 := if recorded then (nScriptHash + (W32 - 1)) % W32 else nScriptHash
    if cand.2 ≥ size ∧ nScriptHash1 > 0 then
      OptimizeParams.loop nBitsA nBitsB TransactionFee lg tx size nBudget fuel nScriptHash1
        params1
    else some params1

/-- `void OptimizeParams(const CTransaction& tx, const DataBits& bits, const uint64_t
nBudget, Parameters& params)`. `KeymapSuffixBits` and `RandomSuffixBits` are the results
of `std::stoi` on the configuration entries `Keymap.SuffixBits` and `Random.SuffixBits`
(values of type `int`); `255 - RandomSuffixBits` is an `int` difference (undefined when it
overflows) and both values are converted to `unsigned int`. The result is the value of
`params` on return. -/
def OptimizeParams (KeymapSuffixBits RandomSuffixBits : Int)
    (TransactionFee : CTransaction → Nat) (lg : Nat → Nat) (tx : CTransaction)
    (bits : DataBits) (nBudget : Nat) (params : Parameters) : Option Parameters :=
  if 255 - RandomSuffixBits > 2147483647 then none
  else
    let nBitsA := (KeymapSuffixBits % (W32 : Int)).toNat
    let nBitsB := ((255 - RandomSuffixBits) % (W32 : Int)).toNat
    if bits.length = 0 then
      some { nScriptHash := 0, nNulldata := 0, nFees := TransactionFee tx % W64 }
    else
      OptimizeParams.loop nBitsA nBitsB TransactionFee lg tx bits.length nBudget 14 14 params

/-- The capacity `nTotalEmbeddableBits` that the planner computes for `k` P2SH outputs,
with the configuration values converted as in `OptimizeParams`. -/
def OptimizeParams.capacity (KeymapSuffixBits RandomSuffixBits : Int)
    (TransactionFee : CTransaction → Nat) (lg : Nat → Nat) (tx : CTransaction)
    (size nBudget k : Nat) : Nat :=
  (OptimizeParams.pass (KeymapSuffixBits % (W32 : Int)).toNat
    ((255 - RandomSuffixBits) % (W32 : Int)).toNat TransactionFee lg tx size nBudget k).2

/-- `OP_0`. -/
def OP_0 : Nat := 0x00

/-- `OP_PUSHDATA1`. -/
def OP_PUSHDATA1 : Nat := 0x4c

/-- `OP_PUSHDATA2`. -/
def OP_PUSHDATA2 : Nat := 0x4d

/-- `OP_PUSHDATA4`. -/
def OP_PUSHDATA4 : Nat := 0x4e

/-- `OP_1`. -/
def OP_1 : Nat := 0x51

/-- `OP_CHECKMULTISIG`. -/
def OP_CHECKMULTISIG : Nat := 0xae

/-- Modelled from the spec: `CScript::GetOp` of the Bitcoin library is not part of the
sources. It reads one operation from the front of a script: an opcode up to
`OP_PUSHDATA4` is a push whose length is the opcode itself (below `OP_PUSHDATA1`) or the
little-endian number in the next 1, 2 or 4 bytes, followed by that many bytes of data;
any other opcode has no data. The result is the opcode, the data and the script that is
left; `none` stands for the return value `false` (the data is then empty). -/
def GetOp (script : Data) : Option (Nat × Data × Data) :=
  match script with
  | [] => none
  | opcode :: pc =>
    if opcode ≤ OP_PUSHDATA4 then
      if opcode < OP_PUSHDATA1 then
        if pc.length < opcode then none else some (opcode, pc.take opcode, pc.drop opcode)
      else if opcode = OP_PUSHDATA1 then
        match pc with
        | n0 :: pc1 =>
          if pc1.length < n0 then none else some (opcode, pc1.take n0, pc1.drop n0)
        | _ => none
      else if opcode = OP_PUSHDATA2 then
        match pc with
        | n0 :: n1 :: pc1 =>
          if pc1.length < n0 + 256 * n1 then none
          else some (opcode, pc1.take (n0 + 256 * n1), pc1.drop (n0 + 256 * n1))
        | _ => none
      else
        match pc with
        | n0 :: n1 :: n2 :: n3 :: pc1 =>
          if pc1.length < n0 + 256 * n1 + 65536 * n2 + 16777216 * n3 then none
          else
            some (opcode, pc1.take (n0 + 256 * n1 + 65536 * n2 + 16777216 * n3),
              pc1.drop (n0 + 256 * n1 + 65536 * n2 + 16777216 * n3))
        | _ => none
    else some (opcode, [], pc)

/-- Modelled from the spec: `CScript::SetMultisig(1, keys)` of the Bitcoin library builds
the redeemScript `OP_1 <pk_1> ... <pk_M> <M> OP_CHECKMULTISIG`; each key is pushed as its
bytes and `M` (at most 16) is the opcode `OP_1 + M - 1`. -/
def SetMultisig (keys : List Data) : Option Data :=
  if 1 ≤ keys.length ∧ keys.length ≤ 16 then
    some (OP_1 :: ((keys.map pushData).flatten ++ [OP_1 + keys.length - 1, OP_CHECKMULTISIG]))
  else none

/-- Modelled from the spec: `CScript::SetDestination` for the script hash of a
redeemScript gives `OP_HASH160 <20-byte hash> OP_EQUAL`; `Hash160` is the hash function of
the Bitcoin library. -/
def SetDestination (Hash160 : Data → Data) (redeemScript : Data) : Data :=
  OP_HASH160 :: (pushData (Hash160 redeemScript) ++ [OP_EQUAL])

/-- Modelled from the spec: `SignSignature` of the Bitcoin library for a P2SH output with
a 1-of-M multisig redeemScript. It asserts that the input exists and writes the
signature script `OP_0 <signature> <redeemScript>` to input `nIn`; `sign` stands for the
signature made with the private key of the keystore, and `none` for a failed signature
(the caller throws). -/
def SignSignature (sign : Data → CTransaction → Nat → Option Data) (redeemScript : Data)
    (tx : CTransaction) (nIn : Nat) : Option CTransaction :=
  match tx.vin.get? nIn, sign redeemScript tx nIn with
  | some txin, some sig =>
    let signed : CTxIn :=
      { txin with scriptSig := OP_0 :: (pushData sig ++ pushData redeemScript) }
    some { tx with vin := tx.vin.set nIn signed }
  | _, _ => none

/-! ## BlockchainInterface.cpp: the P2SH channel -/

/-- The process-wide state and the library services that the channel code reads:
the configuration entries `Keymap.SuffixBits` and `Random.SuffixBits` as `std::stoi`
returns them, the public key `KeyMap.at(slice).GetPubKey()` of the keypair table (`none`
when `at` throws), the curve-point test and the random bits of `EncodeDataInPubkey`
(`draw c i` is the `i`-th draw of the `c`-th call, `fuel` bounds the draws that are
looked at), the script hash, the signature, `Utilities::TransactionFee`, and the
floating-point logarithm and root estimate of the combinatorial codecs. -/
structure Context where
  KeymapSuffixBits : Int
  RandomSuffixBits : Int
  KeyMap : DataBits → Option Data
  IsFullyValid : Data → Bool
  draw : Nat → Nat → DataBits
  fuel : Nat
  Hash160 : Data → Data
  sign : Data → CTransaction → Nat → Option Data
  TransactionFee : CTransaction → Nat
  lg : Nat → Nat
  root : Int → Nat → Nat

/-- The loop of `PackDataIntoP2SH` over the extra keys, `n` of them left:
`nBits = std::min(250, (int)bits.size()); PadBits(bits, 250 - nBits);`
`slice = SliceBits(bits, 250); pubkeys.push_back(EncodeDataInPubkey(slice, 5));`.
`c` counts the calls of `EncodeDataInPubkey`. -/
def PackDataIntoP2SH.keys (ctx : Context) : Nat → DataBits → Nat →
    Option (DataBits × List Data × Nat)
  | 0, bits, c => some (bits, [], c)
  | n + 1, bits, c =>
    let nBits : Int := min 250 (toInt32 bits.length)
    if 250 - nBits > 2147483647 then none
    else
      match SliceBits (PadBits bits (250 - nBits).toNat) 250 with
      | none => none
      | some (slice, rest) =>
        match EncodeDataInPubkey ctx.IsFullyValid (ctx.draw c) ctx.fuel slice 5 with
        | none => none
        | some pk =>
          match PackDataIntoP2SH.keys ctx n rest (c + 1) with
          | none => none
          | some (bits1, pks, c1) => some (bits1, pk :: pks, c1)

/-- `void PackDataIntoP2SH(DataBits& bits, CTxOut& txOut, CTransaction& tx, int nInput)`.
Returns the bits that are left, the output, the transaction with the signed input and
the call counter of the random source.
`nExtraKeys = std::min(11, (int)ceil(bits.size()/250.0))`: the quotient of a size below
`2^53` by `250.0` is rounded to a double whose ceiling is the ceiling of the exact
quotient; its conversion to `int` is undefined above `INT_MAX`. -/
def PackDataIntoP2SH (ctx : Context) (bits : DataBits) (txOut : CTxOut) (tx : CTransaction)
    (nInput : Nat) (c : Nat) : Option (DataBits × CTxOut × CTransaction × Nat) :=
  let nSuffixBits := ctx.KeymapSuffixBits
  let nBits : Int := min nSuffixBits (toInt32 bits.length)
  if nSuffixBits - nBits > 2147483647 then none
  else
    match SliceBits (PadBits bits ((nSuffixBits - nBits) % (W32 : Int)).toNat)
        (nSuffixBits % (W32 : Int)).toNat with
    | none => none
    | some (slice, bits1) =>
      match ctx.KeyMap slice with
      | none => none
      | some pk0 =>
        if (bits1.length + 249) / 250 > 2147483647 then none
        else
          match PackDataIntoP2SH.keys ctx (min 11 ((bits1.length + 249) / 250)) bits1 c with
          | none => none
          | some (bits2, pks, c1) =>
            match SetMultisig (pk0 :: pks) with
            | none => none
            | some multisigAddress =>
              match SignSignature ctx.sign multisigAddress tx nInput with
              | none => none
              | some tx1 =>
                some (bits2,
                  { txOut with scriptPubKey := SetDestination ctx.Hash160 multisigAddress },
                  tx1, c1)

/-- The first loop of `UnpackDataFromP2SH`:
`while (start < end && scriptSig.GetOp(start, opcode, scriptData));` leaves in
`scriptData` the data of the last operation; a failed `GetOp` leaves it empty. -/
def UnpackDataFromP2SH.lastData : Nat → Data → Data → Data
  | 0, _, scriptData => scriptData
  | fuel + 1, script, scriptData =>
    if script = [] then scriptData
    else
      match GetOp script with
      | none => []
      | some (_, data, rest) => UnpackDataFromP2SH.lastData fuel rest data

/-- The second loop of `UnpackDataFromP2SH`: the pushes of 33 bytes are the public
keys. -/
def UnpackDataFromP2SH.pubkeys : Nat → Data → List Data
  | 0, _ => []
  | fuel + 1, script =>
    if script = [] then []
    else
      match GetOp script with
      | none => []
      | some (_, data, rest) =>
        if data.length = 33 then CPubKey.ofData data :: UnpackDataFromP2SH.pubkeys fuel rest
        else UnpackDataFromP2SH.pubkeys fuel rest

/-- The last loop of `UnpackDataFromP2SH`: `DecodeDataInPubkey(*it, 5)` for each of the
remaining keys. -/
def UnpackDataFromP2SH.decode : List Data → Option DataBits
  | [] => some []
  | pk :: pks =>
    match DecodeDataInPubkey pk 5, UnpackDataFromP2SH.decode pks with
    | some slice, some rest => some (slice ++ rest)
    | _, _ => none

/-- `DataBits UnpackDataFromP2SH(const CTxIn& txIn)`. Every operation has at least one
byte, so the length of a script bounds the passes of the loops over it. Reading
`pubkeys[0]` of an empty vector and building `[buf.end() - nSuffixBits, buf.end())`
outside `buf` are undefined. -/
def UnpackDataFromP2SH (KeymapSuffixBits : Int) (txIn : CTxIn) : Option DataBits :=
  let redeemScript := UnpackDataFromP2SH.lastData txIn.scriptSig.length txIn.scriptSig []
  match UnpackDataFromP2SH.pubkeys redeemScript.length redeemScript with
  | [] => none
  | pk0 :: pks =>
    let buf := DataToBits pk0
    if 0 ≤ KeymapSuffixBits ∧ KeymapSuffixBits ≤ (buf.length : Int) then
      match UnpackDataFromP2SH.decode pks with
      | some rest => some (buf.drop (buf.length - KeymapSuffixBits.toNat) ++ rest)
      | none => none
    else none

/-- What the channel needs from the random source and the curve-point test: every draw
has five bits, and for every call and every slice of 250 bits one of the first `fuel`
draws gives a valid point. -/
def DrawsValid (ctx : Context) : Prop :=
  (∀ c i, (ctx.draw c i).length = 5) ∧
  ∀ c (b : DataBits), b.length = 250 →
    ∃ j, j < ctx.fuel ∧ ∀ pk, EncodeDataInPubkey.candidate b 5 (ctx.draw c j) = some pk →
      ctx.IsFullyValid pk = true

/-- The suffix invariant of the keypair table for `s` suffix bits: every vector of `s`
bits has an entry, and the public key of the entry is a compressed key (33 bytes with
header `2` or `3`) whose last `s` bits are the vector. -/
def SuffixInvariant (KeyMap : DataBits → Option Data) (s : Nat) : Prop :=
  ∀ slice : DataBits, slice.length = s →
    ∃ pk, KeyMap slice = some pk ∧ pk.length = 33 ∧ (pk.headD 0 = 2 ∨ pk.headD 0 = 3) ∧
      (DataToBits pk).drop (264 - s) = slice

/-- A keypair table for 8 suffix bits: the key with the bytes `02 00 ... 00 xx` for the
suffix `xx`. -/
def suffixKeyMap (slice : DataBits) : Option Data :=
  if slice.length = 8 then
    (BoolVecToChar slice).map (fun ch => 2 :: (List.replicate 31 0 ++ [ch]))
  else none

/-- A context with the configuration of the tests, the table `suffixKeyMap`, a
curve-point test that accepts every key, zero random bits, a constant hash and
signature, a constant fee of `10^4` satoshi and the exact logarithm. -/
def testContext : Context where
  KeymapSuffixBits := 8
  RandomSuffixBits := 5
  KeyMap := suffixKeyMap
  IsFullyValid := fun _ => true
  draw := fun _ _ => List.replicate 5 false
  fuel := 1
  Hash160 := fun _ => List.replicate 20 0
  sign := fun _ _ _ => some (List.replicate 72 0)
  TransactionFee := fun _ => 10000
  lg := floorLog2
  root := fun _ _ => 0
/-! ## Utilities.cpp: the keypair table -/

/-- A private key `CKey` of the Bitcoin library; only its identity matters here. -/
abbrev CKey := Nat

/-- `typedef std::map<DataBits, CKey> KeypairMap`: the entries of the map. A map has one
entry for a key; the order of the entries plays no role for `size()` and `at()`. -/
abbrev KeypairMap := List (DataBits × CKey)

/-- `keyMap[key] = val`: the value of an existing entry is replaced, otherwise an entry
is added. -/
def KeypairMap.assign (keyMap : KeypairMap) (key : DataBits) (val : CKey) : KeypairMap :=
  if keyMap.any (fun e => e.1 == key) then
    keyMap.map (fun e => if e.1 == key then (key, val) else e)
  else keyMap ++ [(key, val)]

/-- The loop of `GenerateKeypairMap`:
`while (keyMap.size() < pow(2, nBits)) { val.MakeNewKey(true); pubkey = val.GetPubKey();`
`buf = DataToBits(Data(pubkey.begin(), pubkey.end())); key = DataBits(buf.end() - nBits, buf.end());`
`keyMap[key] = val; }`.
`MakeNewKey i` is the key that the `i`-th call of `MakeNewKey` generates and `GetPubKey`
its public key, both from the Bitcoin library. `below size nBits` stands for the
comparison `keyMap.size() < pow(2, nBits)`, which is made in `double`. The range
`[buf.end() - nBits, buf.end())` does not exist when the key has fewer than `nBits` bits.
The loop has no bound of its own; the first argument bounds the number of keys drawn. -/
def GenerateKeypairMap.loop (MakeNewKey : Nat → CKey) (GetPubKey : CKey → Data)
    (below : Nat → Nat → Bool) (nBits : Nat) : Nat → Nat → KeypairMap → Option KeypairMap
  | 0, _, _ => none
  | fuel + 1, i, keyMap =>
    if below keyMap.length nBits then
      if nBits ≤ (DataToBits (GetPubKey (MakeNewKey i))).length then
        GenerateKeypairMap.loop MakeNewKey GetPubKey below nBits fuel (i + 1)
          (keyMap.assign
            ((DataToBits (GetPubKey (MakeNewKey i))).drop
              ((DataToBits (GetPubKey (MakeNewKey i))).length - nBits))
            (MakeNewKey i))
      else none
    else some keyMap

/-- `KeypairMap GenerateKeypairMap(unsigned int nBits)`. -/
def GenerateKeypairMap (MakeNewKey : Nat → CKey) (GetPubKey : CKey → Data)
    (below : Nat → Nat → Bool) (fuel nBits : Nat) : Option KeypairMap :=
  GenerateKeypairMap.loop MakeNewKey GetPubKey below (nBits % W32) fuel 0 []

/-- All bit vectors of `n` bits, each once (`mem_allBits`, `allBits_nodup`). -/
def allBits : Nat → List DataBits
  | 0 => [[]]
  | n + 1 => (allBits n).map (fun v => false :: v) ++ (allBits n).map (fun v => true :: v)

/-- A stream of keys for the tests of the table: the `i`-th key is `i`, and its public
key is the compressed key with the bytes `02 00 ... 00 xx`, `xx` being `i mod 256`. -/
def testPubKey (k : CKey) : Data := 2 :: (List.replicate 31 0 ++ [k % 256])

/-! ## Transaction fees (Utilities.cpp) -/

/-- The binary exponent of the rounding of `x` to a `double`: the least `e` with
`x / 2^e < 2^53`. -/
def toDouble.exponent : Nat → Nat → Nat
  | 0, _ => 0
  | fuel + 1, x => if x < 2 ^ 53 then 0 else toDouble.exponent fuel (x / 2) + 1

/-- The conversion of a non-negative integer to `double` (IEEE 754 binary64, 53 bits of
significand, round to nearest, ties to even), as an integer again. It is used for the
conversion of a `uint64_t` and for the rounding of a product of two integral doubles;
all arguments are below `2^96`, far from the overflow of the exponent. -/
def toDouble (x : Nat) : Nat :=
  let e := toDouble.exponent x x
  let q := x / 2 ^ e
  let r := x % 2 ^ e
  if 2 ^ e < 2 * r ∨ (2 * r = 2 ^ e ∧ q % 2 = 1) then (q + 1) * 2 ^ e else q * 2 ^ e

/-- `uint64_t TransactionFee(const CTransaction& Tx)`:
`const uint64_t FeeRate = std::stoul(Utilities::Config.at("TxFeeRate"));`
`const unsigned int Size = Tx.GetSerializeSize(SER_DISK,1);`
`return FeeRate * ceil(Size/1000.0);`.
`FeeRate` is the configuration entry and `GetSerializeSize` the serialization of the
Bitcoin library, both parameters. The arithmetic is in `double`: the quotient of a
32-bit size by `1000.0` is rounded to a double whose ceiling is the ceiling of the exact
quotient; `FeeRate` is converted to `double`, the product is rounded to `double`, and the
conversion of the product to `uint64_t` is undefined from `2^64` on. -/
def TransactionFee (FeeRate : Nat) (GetSerializeSize : CTransaction → Nat)
    (Tx : CTransaction) : Option Nat :=
  let Size := GetSerializeSize Tx % W32
  let fee := toDouble (toDouble (FeeRate % W64) * ((Size + 999) / 1000))
  if fee < W64 then some fee else none

/-- The loop of `TransactionFee(const TransactionChain& Chain)`:
`nFee += TransactionFee(*it);` in `uint64_t`, over the transactions that are left. -/
def TransactionFee.loop (FeeRate : Nat) (GetSerializeSize : CTransaction → Nat) :
    List CTransaction → Nat → Option Nat
  | [], nFee => some nFee
  | tx :: rest, nFee =>
    match TransactionFee FeeRate GetSerializeSize tx with
    | none => none
    | some fee => TransactionFee.loop FeeRate GetSerializeSize rest ((nFee + fee) % W64)

/-- `uint64_t TransactionFee(const TransactionChain& Chain)`: `uint64_t nFee = 0;`, the
loop over the chain, `return nFee;`. -/
def TransactionFee.chain (FeeRate : Nat) (GetSerializeSize : CTransaction → Nat)
    (Chain : List CTransaction) : Option Nat :=
  TransactionFee.loop FeeRate GetSerializeSize Chain 0

/-! ## BlockchainInterface.cpp: the chain builder and the chain reader -/

/-- `CTxIn()` of the Bitcoin library: the null outpoint (hash `0`, index `-1` as an
`unsigned int`), an empty script and the maximal sequence number. -/
def CTxIn.null : CTxIn :=
  { prevout := { hash := 0, n := W32 - 1 }, scriptSig := [], nSequence := W32 - 1 }

/-- `CTransaction()`: no inputs and no outputs. -/
def CTransaction.null : CTransaction := { vin := [], vout := [] }

/-- The first loop of a pass of `EmbedData`, `cnt` iterations left:
`txs[idx].vout.insert(txs[idx].vout.begin(), CTxOut());`
`txs[idx+1].vin.insert(txs[idx+1].vin.begin(), CTxIn()); txs[idx+1].vin[i].prevout.n = i;`. -/
def EmbedData.insert : Nat → Nat → List CTxOut → List CTxIn →
    Option (List CTxOut × List CTxIn)
  | 0, _, vout, vin => some (vout, vin)
  | cnt + 1, i, vout, vin =>
    match (CTxIn.null :: vin).get? i with
    | none => none
    | some x =>
      EmbedData.insert cnt (i + 1) (CTxOut.null :: vout)
        ((CTxIn.null :: vin).set i { x with prevout := { x.prevout with n := i % W32 } })

/-- The last loop of a pass of `EmbedData`, `cnt` iterations left:
`int n = txs[idx+1].vin[i].prevout.n; PackDataIntoP2SH(bits, txs[idx].vout[n], txs[idx+1], i);`
`PackDataIntoSeqNr(bits, txs[idx+1].vin[i]);`. -/
def EmbedData.scripts (ctx : Context) : Nat → Nat → DataBits → List CTxOut → CTransaction →
    Nat → Option (DataBits × List CTxOut × CTransaction × Nat)
  | 0, _, bits, vout, next, c => some (bits, vout, next, c)
  | cnt + 1, i, bits, vout, next, c =>
    match next.vin.get? i with
    | none => none
    | some txin =>
      if toInt32 txin.prevout.n < 0 then none
      else
        match vout.get? (toInt32 txin.prevout.n).toNat with
        | none => none
        | some txOut =>
          match PackDataIntoP2SH ctx bits txOut next i c with
          | none => none
          | some (bits1, txOut1, next1, c1) =>
            match next1.vin.get? i with
            | none => none
            | some txin1 =>
              match PackDataIntoSeqNr bits1 txin1 with
              | none => none
              | some (bits2, txin2) =>
                EmbedData.scripts ctx cnt (i + 1) bits2
                  (vout.set (toInt32 txin.prevout.n).toNat txOut1)
                  { next1 with vin := next1.vin.set i txin2 } c1

/-- The budget part of a pass of `EmbedData`: with one output its value is the budget
that is left and the claimed index is `0`; with two or more outputs
`PackDataIntoBudgetSplit` (when the budget covers the fee) and `PackDataIntoBudgetClaim`. -/
def EmbedData.budget (ctx : Context) (bits : DataBits) (vout : List CTxOut)
    (vin : List CTxIn) (nBudget nFees : Nat) : Option (DataBits × List CTxOut × List CTxIn) :=
  if vout.length = 1 then
    match vout, vin with
    | [o], i0 :: rest =>
      some (bits, [{ o with nValue := sub64 nBudget nFees }],
        { i0 with prevout := { i0.prevout with n := 0 } } :: rest)
    | _, _ => none
  else if vout.length ≥ 2 then
    match (if nBudget % W64 ≥ nFees % W64 then
        PackDataIntoBudgetSplit ctx.lg ctx.root bits vout (sub64 nBudget nFees) 546
      else some (bits, vout)) with
    | none => none
    | some (bits1, vout1) =>
      match PackDataIntoBudgetClaim ctx.lg bits1 vin with
      | none => none
      | some (bits2, vin1) => some (bits2, vout1, vin1)
  else some (bits, vout, vin)

/-- The nulldata part of a pass of `EmbedData`:
`txs[idx].vout.insert(txs[idx].vout.end(), CTxOut());`
`PackDataIntoNulldata(bits, txs[idx].vout.back());`. -/
def EmbedData.nulldata (bits : DataBits) (vout : List CTxOut) (nNulldata : Nat) :
    Option (DataBits × List CTxOut) :=
  if nNulldata % W32 ≠ 0 then
    match PackDataIntoNulldata bits CTxOut.null with
    | none => none
    | some (bits1, out) => some (bits1, vout ++ [out])
  else some (bits, vout)

/-- One pass of the `do ... while` loop of `EmbedData` on `txs[idx]` (`cur`) and
`txs[idx+1]` (`next`): the planner, the new outputs and inputs, the budget channels, the
nulldata output, the scripts, `nBudget = nBudget - nFees`. The result is the two
transactions, the bits and the budget that are left, the call counter of the random
source and the planner's result. -/
def EmbedData.pass (ctx : Context) (cur next : CTransaction) (bits : DataBits)
    (nBudget c : Nat) (params : Parameters) :
    Option (CTransaction × CTransaction × DataBits × Nat × Nat × Parameters) :=
  match OptimizeParams ctx.KeymapSuffixBits ctx.RandomSuffixBits ctx.TransactionFee ctx.lg cur
      bits nBudget params with
  | none => none
  | some p =>
    match EmbedData.insert (p.nScriptHash % W32) 0 cur.vout next.vin with
    | none => none
    | some (vout0, vin0) =>
      match EmbedData.budget ctx bits vout0 vin0 nBudget p.nFees with
      | none => none
      | some (bits1, vout1, vin1) =>
        match EmbedData.nulldata bits1 vout1 p.nNulldata with
        | none => none
        | some (bits2, vout2) =>
          match EmbedData.scripts ctx (p.nScriptHash % W32) 0 bits2 vout2
              { next with vin := vin1 } c with
          | none => none
          | some (bits3, vout3, next3, c3) =>
            some ({ cur with vout := vout3 }, next3, bits3, sub64 nBudget p.nFees, c3, p)

/-- The `do ... while (bits.size() > 0)` loop of `EmbedData`. `done` are the transactions
`txs[0 .. idx-1]`, `cur` and `next` are `txs[idx]` and `txs[idx+1]`; `plans` collects the
planner's results. The loop has no bound of its own; the first argument bounds the
number of passes. -/
def EmbedData.loop (ctx : Context) : Nat → List CTransaction → CTransaction → CTransaction →
    DataBits → Nat → Nat → Parameters → List Parameters →
    Option (List CTransaction × CTransaction × Nat × Parameters × List Parameters)
  | 0, _, _, _, _, _, _, _, _ => none
  | fuel + 1, done, cur, next, bits, nBudget, c, params, plans =>
    match EmbedData.pass ctx cur next bits nBudget c params with
    | none => none
    | some (cur1, next1, bits1, nBudget1, c1, p) =>
      if bits1.length > 0 then
        EmbedData.loop ctx fuel (done ++ [cur1]) next1 CTransaction.null bits1 nBudget1 c1 p
          (plans ++ [p])
      else some (done ++ [cur1], next1, nBudget1, p, plans ++ [p])

/-- `EmbedData` together with the results of the planner, one for each transaction of
the chain in order, the last one being the planner's result for the terminator.
`changeScript` is the script that `SetDestination(addr.Get())` gives for the change
address. A pass on a non-empty vector removes at least one bit, so `data.size() + 1`
passes are enough when the loop ends at all. -/
def EmbedData.run (ctx : Context) (data : DataBits) (nBudget : Nat) (prevOut : List COutPoint)
    (changeScript : Data) : Option (List CTransaction × List Parameters) :=
  let tx0 : CTransaction :=
    { vin := prevOut.map (fun o => { CTxIn.null with prevout := o }), vout := [] }
  match EmbedData.loop ctx (data.length + 1) [] tx0 CTransaction.null data nBudget 0
      { nScriptHash := 0, nNulldata := 0, nFees := 0 } [] with
  | none => none
  | some (done, last, nBudget1, params, plans) =>
    match OptimizeParams ctx.KeymapSuffixBits ctx.RandomSuffixBits ctx.TransactionFee ctx.lg
        last [] nBudget1 params with
    | none => none
    | some p =>
      some (done ++ [{ last with vout := last.vout ++
          [{ nValue := sub64 nBudget1 p.nFees, scriptPubKey := changeScript }] }],
        plans ++ [p])

/-- `TransactionChain EmbedData(const DataBits& data, uint64_t nBudget,
const vector<COutPoint>& prevOut, const CBitcoinAddress& addr)`. -/
def EmbedData (ctx : Context) (data : DataBits) (nBudget : Nat) (prevOut : List COutPoint)
    (changeScript : Data) : Option (List CTransaction) :=
  (EmbedData.run ctx data nBudget prevOut changeScript).map (fun r => r.1)

/-- The scripts loop of `ExtractData`, `cnt` iterations left:
`UnpackDataFromP2SH(tmp[idx+1].vin[j])` and `UnpackDataFromSeqNr(tmp[idx+1].vin[j])`. -/
def ExtractData.scripts (ctx : Context) (vin : List CTxIn) : Nat → Nat → Option DataBits
  | 0, _ => some []
  | cnt + 1, j =>
    match vin.get? j with
    | none => none
    | some txin =>
      match UnpackDataFromP2SH ctx.KeymapSuffixBits txin, ExtractData.scripts ctx vin cnt (j + 1)
        with
      | some a, some rest => some (a ++ UnpackDataFromSeqNr txin ++ rest)
      | _, _ => none

/-- One pass of the loop of `ExtractData` on the outputs of `tmp[idx]` and the inputs of
`tmp[idx+1]`. -/
def ExtractData.pair (ctx : Context) (vout : List CTxOut) (vin : List CTxIn) :
    Option DataBits :=
  let nNulldata : Nat := if vout.length % W32 ≥ 2 then 1 else 0
  let nScriptHash := (vout.length % W32 + (W32 - nNulldata)) % W32
  let vout1 := if nNulldata = 1 then vout.dropLast else vout
  let budget : Option DataBits :=
    if nScriptHash ≥ 2 then
      match UnpackDataFromBudgetSplit ctx.lg vout1 546, UnpackDataFromBudgetClaim ctx.lg vin with
      | some a, some b => some (a ++ b)
      | _, _ => none
    else some []
  let nulldata : Option DataBits :=
    if nNulldata = 1 then
      match vout.getLast? with
      | some buf => UnpackDataFromNulldata buf
      | none => none
    else some []
  match budget, nulldata, ExtractData.scripts ctx vin nScriptHash 0 with
  | some a, some b, some d => some (a ++ b ++ d)
  | _, _, _ => none

/-- The loop of `ExtractData` over `idx`, `cnt` iterations left. -/
def ExtractData.loop (ctx : Context) (tmp : List CTransaction) : Nat → Nat → Option DataBits
  | 0, _ => some []
  | cnt + 1, idx =>
    match tmp.get? idx, tmp.get? (idx + 1) with
    | some t0, some t1 =>
      match ExtractData.pair ctx t0.vout t1.vin, ExtractData.loop ctx tmp cnt (idx + 1) with
      | some a, some rest => some (a ++ rest)
      | _, _ => none
    | _, _ => none

/-- `DataBits ExtractData(const TransactionChain& txs)`: the loop runs for
`idx < nTransactions - 1` in `unsigned int` arithmetic. -/
def ExtractData (ctx : Context) (txs : List CTransaction) : Option DataBits :=
  ExtractData.loop ctx txs ((txs.length % W32 + (W32 - 1)) % W32) 0

/-- What the chain needs from the floating-point logarithm: the bit count fits
(`LogFits`) at every argument from `2` up to `2^1024`; the arguments that occur, numbers
of compositions of a 64-bit budget into at most 14 parts and factorials up to `14!`,
are below `2^832`. -/
def LogOk (lg : Nat → Nat) : Prop :=
  ∀ x, 2 ≤ x → x < 2 ^ 1024 → LogFits lg x

/-- The environment in which the chain builder runs to its end: the suffix width `s` of
the configuration with a keypair table that has its suffix invariant, a configuration
value `Random.SuffixBits` whose difference to 255 is an `int`, a random source that
delivers valid keys, a signer that signs, and a logarithm that fits. -/
def ChainEnv (ctx : Context) (s : Nat) : Prop :=
  ctx.KeymapSuffixBits = (s : Int) ∧ SuffixInvariant ctx.KeyMap s ∧
  255 - ctx.RandomSuffixBits ≤ 2147483647 ∧ DrawsValid ctx ∧
  (∀ rs tx n, ∃ sig, ctx.sign rs tx n = some sig ∧ sig.length < W32) ∧
  LogOk ctx.lg

/-- A condition on the budgets along the loop of `EmbedData`: `P nBudget p` holds for the
budget and the planner's result `p` of every pass that plans two or more P2SH outputs.
The first argument bounds the number of passes that are looked at. -/
def EmbedData.budgets (ctx : Context) (P : Nat → Parameters → Prop) :
    Nat → CTransaction → CTransaction → DataBits → Nat → Nat → Parameters → Prop
  | 0, _, _, _, _, _, _ => True
  | fuel + 1, cur, next, bits, nBudget, c, params =>
    (∀ p, OptimizeParams ctx.KeymapSuffixBits ctx.RandomSuffixBits ctx.TransactionFee ctx.lg cur
        bits nBudget params = some p → 2 ≤ p.nScriptHash → P nBudget p) ∧
    (∀ r, EmbedData.pass ctx cur next bits nBudget c params = some r → r.2.2.1.length > 0 →
      EmbedData.budgets ctx P fuel r.2.1 CTransaction.null r.2.2.1 r.2.2.2.1 r.2.2.2.2.1
        r.2.2.2.2.2)

/-- Every transaction that `EmbedData(data, nBudget, prevOut, addr)` plans with `k >= 2`
P2SH outputs has a budget that is either below its fee (the budget split is then left
out) or above its fee plus the dust of 546 satoshi for each of the `k` outputs. -/
def BudgetSafe (ctx : Context) (data : DataBits) (nBudget : Nat) (prevOut : List COutPoint) :
    Prop :=
  EmbedData.budgets ctx (fun b p => b < p.nFees ∨ p.nFees + 546 * p.nScriptHash < b)
    (data.length + 1)
    { vin := prevOut.map (fun o => { CTxIn.null with prevout := o }), vout := [] }
    CTransaction.null data nBudget 0 { nScriptHash := 0, nNulldata := 0, nFees := 0 }

/-- Every transaction that `EmbedData(data, nBudget, prevOut, addr)` plans with `k >= 2`
P2SH outputs keeps more than the dust of its outputs: `nBudget - nFees > 546 * k`. -/
def BudgetKept (ctx : Context) (data : DataBits) (nBudget : Nat) (prevOut : List COutPoint) :
    Prop :=
  EmbedData.budgets ctx (fun b p => p.nFees + 546 * p.nScriptHash < b)
    (data.length + 1)
    { vin := prevOut.map (fun o => { CTxIn.null with prevout := o }), vout := [] }
    CTransaction.null data nBudget 0 { nScriptHash := 0, nNulldata := 0, nFees := 0 }

/-! ## Properties of Maths.cpp -/

theorem W16_val : W16 = 65536 := by norm_num [W16]

theorem W32_val : W32 = 4294967296 := by norm_num [W32]

theorem W64_val : W64 = 18446744073709551616 := by norm_num [W64]

theorem sub64_of_le {a b : Nat} (hb : b ≤ a) (ha : a < W64) : sub64 a b = a - b := by
  unfold sub64
  rw [W64_val] at *
  omega

theorem sub64_of_gt {a b : Nat} (hb : a < b) (hb2 : b < W64) : sub64 a b = W64 + a - b := by
  unfold sub64
  rw [W64_val] at *
  omega

theorem sub64_lt (a b : Nat) : sub64 a b < W64 := by
  unfold sub64
  exact Nat.mod_lt _ (by norm_num [W64])

theorem Factorial_loop_eq (cnt i : Nat) :
    Factorial.loop cnt (i + 1) (Nat.factorial i) = Nat.factorial (i + cnt) := by
  induction cnt generalizing i with
  | zero => simp [Factorial.loop]
  | succ cnt ih =>
    rw [Factorial.loop, Nat.mul_comm, ← Nat.factorial_succ, ih (i + 1)]
    congr 1
    omega

theorem Factorial_eq {n : Nat} (hn : n < W16) : Factorial n = Nat.factorial n := by
  unfold Factorial
  rw [Nat.mod_eq_of_lt hn]
  rcases Nat.eq_zero_or_pos n with h | h
  · subst h
    simp [Factorial.loop]
  · have := Factorial_loop_eq (n - 1) 1
    simp only [Nat.factorial_one] at this
    rw [this]
    congr 1
    omega

theorem Factorial_pos (n : Nat) : 0 < Factorial n := by
  have h : n % W16 < W16 := Nat.mod_lt _ (by norm_num [W16])
  have e : Factorial n = Factorial (n % W16) := by
    unfold Factorial
    rw [Nat.mod_mod]
  rw [e, Factorial_eq h]
  exact Nat.factorial_pos _

theorem BinomialCoefficient_loop_eq (n k : Nat) (hk : k ≤ n) (hk32 : k + 1 < W32) :
    ∀ (fuel i result : Nat), 1 ≤ i → i ≤ k + 1 → k + 1 - i < fuel →
      result = Nat.choose (n - k + i - 1) (i - 1) →
      BinomialCoefficient.loop n k fuel i result = some (Nat.choose n k) := by
  intro fuel
  induction fuel with
  | zero => intro i result _ _ h; omega
  | succ fuel ih =>
    intro i result h1 h2 h3 hres
    rw [BinomialCoefficient.loop]
    by_cases hi : i < k + 1
    · rw [if_pos hi, if_neg (by omega)]
      have hmod : (i + 1) % W32 = i + 1 := Nat.mod_eq_of_lt (by omega)
      rw [hmod]
      apply ih (i + 1) _ (by omega) (by omega) (by omega)
      have key := Nat.succ_mul_choose_eq (n - k + i - 1) (i - 1)
      simp only [Nat.succ_eq_add_one] at key
      have e1 : n - k + i - 1 + 1 = n - k + i := by omega
      have e2 : i - 1 + 1 = i := by omega
      rw [e1, e2] at key
      have e3 : n - k + (i + 1) - 1 = n - k + i := by omega
      have e4 : i + 1 - 1 = i := by omega
      rw [e3, e4, hres, Nat.mul_comm, key]
      exact Nat.mul_div_cancel _ (by omega)
    · rw [if_neg hi]
      have : i = k + 1 := by omega
      subst this
      have e : n - k + (k + 1) - 1 = n := by omega
      simp only [Nat.add_sub_cancel] at hres
      rw [hres, e]

theorem BinomialCoefficient_eq_choose {n k : Nat} (hk32 : min k (n - k) + 1 < W32) :
    BinomialCoefficient n k = some (Nat.choose n k) := by
  unfold BinomialCoefficient
  by_cases h : k > n
  · rw [if_pos h, Nat.choose_eq_zero_of_lt h]
  · rw [if_neg h]
    have hkn : k ≤ n := by omega
    have hm : min k (n - k) ≤ n := le_trans (Nat.min_le_left _ _) hkn
    rw [BinomialCoefficient_loop_eq n (min k (n - k)) hm hk32 (W32 + 1) 1 1 (by omega)
      (by omega) (by omega) (by simp)]
    congr 1
    rcases Nat.le_total k (n - k) with h1 | h1
    · rw [Nat.min_eq_left h1]
    · rw [Nat.min_eq_right h1, Nat.choose_symm hkn]

theorem NumberCompositions_word {n k : Nat} (hn : n < W64) (hk1 : 1 ≤ k) (hk : k < W16) :
    NumberCompositions n k =
      if n + k - 1 < W64 then weakCompositions n k else 0 := by
  unfold NumberCompositions weakCompositions
  rw [Nat.mod_eq_of_lt hn, Nat.mod_eq_of_lt hk]
  have e2 : (k + (W64 - 1)) % W64 = k - 1 := by
    rw [W64_val, W16_val] at *
    omega
  rw [e2]
  have hk32 : ∀ m, min (k - 1) (m - (k - 1)) + 1 < W32 := by
    intro m
    have := Nat.min_le_left (k - 1) (m - (k - 1))
    rw [W32_val, W16_val] at *
    omega
  rw [BinomialCoefficient_eq_choose (hk32 _), Option.getD_some]
  by_cases h : n + k - 1 < W64
  · rw [if_pos h]
    have e1 : (n + (k + (W64 - 1))) % W64 = n + k - 1 := by
      rw [W64_val, W16_val] at *
      omega
    simp only [e1]
  · rw [if_neg h]
    have e1 : (n + (k + (W64 - 1))) % W64 = n + k - 1 - W64 := by
      rw [W64_val, W16_val] at *
      omega
    simp only [e1]
    apply Nat.choose_eq_zero_of_lt
    rw [W64_val, W16_val] at *
    omega

theorem weakCompositions_pos (n k : Nat) (hk : 1 ≤ k) : 0 < weakCompositions n k := by
  unfold weakCompositions
  apply Nat.choose_pos
  omega

theorem weakCompositions_mono {m n : Nat} (k : Nat) (h : m ≤ n) :
    weakCompositions m k ≤ weakCompositions n k := by
  unfold weakCompositions
  exact Nat.choose_le_choose _ (by omega)

theorem weakCompositions_one (n : Nat) : weakCompositions n 1 = 1 := by
  simp [weakCompositions]

theorem weakCompositions_zero_left (k : Nat) : weakCompositions 0 k = 1 := by
  unfold weakCompositions
  simp

/-- Pascal's rule for weak compositions: a composition of `m + 1` into `k + 2` parts
either has first part zero or is a composition of `m` with the first part increased. -/
theorem weakCompositions_succ (m k : Nat) :
    weakCompositions (m + 1) (k + 2) =
      weakCompositions m (k + 2) + weakCompositions (m + 1) (k + 1) := by
  unfold weakCompositions
  have e1 : m + 1 + (k + 2) - 1 = (m + k + 1) + 1 := by omega
  have e2 : k + 2 - 1 = k + 1 := by omega
  have e3 : m + (k + 2) - 1 = m + k + 1 := by omega
  have e4 : m + 1 + (k + 1) - 1 = m + k + 1 := by omega
  have e5 : k + 1 - 1 = k := by omega
  rw [e1, e2, e3, e4, e5, Nat.choose_succ_succ, Nat.add_comm]

theorem up_run (idx : Int) (n k : Nat) :
    ∀ (d fuel mu0 : Nat), d < fuel → mu0 < W64 →
      (∀ j, j < d → ¬ ((NumberCompositions (sub64 (sub64 n ((mu0 + j) % W64)) 1) k : Int)
          < (NumberCompositions n k : Int) - idx)) →
      ((NumberCompositions (sub64 (sub64 n ((mu0 + d) % W64)) 1) k : Int)
          < (NumberCompositions n k : Int) - idx) →
      IntegerToComposition.up idx n k fuel mu0 = some ((mu0 + d) % W64) := by
  intro d
  induction d with
  | zero =>
    intro fuel mu0 hf hmu _ hstop
    obtain ⟨f, rfl⟩ : ∃ f, fuel = f + 1 := ⟨fuel - 1, by omega⟩
    have e : (mu0 + 0) % W64 = mu0 := by rw [Nat.add_zero, Nat.mod_eq_of_lt hmu]
    rw [e] at hstop ⊢
    rw [IntegerToComposition.up, if_pos hstop]
  | succ d ih =>
    intro fuel mu0 hf hmu hnot hstop
    obtain ⟨f, rfl⟩ : ∃ f, fuel = f + 1 := ⟨fuel - 1, by omega⟩
    have h0 := hnot 0 (by omega)
    have e0 : (mu0 + 0) % W64 = mu0 := by rw [Nat.add_zero, Nat.mod_eq_of_lt hmu]
    rw [e0] at h0
    rw [IntegerToComposition.up, if_neg h0]
    have hW : 0 < W64 := by norm_num [W64]
    have e : ∀ j, ((mu0 + 1) % W64 + j) % W64 = (mu0 + (j + 1)) % W64 := by
      intro j
      rw [Nat.mod_add_mod]
      congr 1
      omega
    rw [ih f ((mu0 + 1) % W64) (by omega) (Nat.mod_lt _ hW) ?_ ?_, e]
    · intro j hj
      rw [e]
      exact hnot (j + 1) (by omega)
    · rw [e]
      exact hstop

theorem down_run (idx : Int) (n k : Nat) :
    ∀ (d fuel mu0 : Nat), d < fuel → d ≤ mu0 → mu0 < W64 →
      (∀ j, j < d → ¬ ((NumberCompositions n k : Int) - idx
          ≤ (NumberCompositions (sub64 n (mu0 - j)) k : Int))) →
      ((NumberCompositions n k : Int) - idx
          ≤ (NumberCompositions (sub64 n (mu0 - d)) k : Int)) →
      IntegerToComposition.down idx n k fuel mu0 = some (mu0 - d) := by
  intro d
  induction d with
  | zero =>
    intro fuel mu0 hf _ hmu _ hstop
    obtain ⟨f, rfl⟩ : ∃ f, fuel = f + 1 := ⟨fuel - 1, by omega⟩
    rw [Nat.sub_zero] at hstop ⊢
    rw [IntegerToComposition.down, if_pos hstop]
  | succ d ih =>
    intro fuel mu0 hf hd hmu hnot hstop
    obtain ⟨f, rfl⟩ : ∃ f, fuel = f + 1 := ⟨fuel - 1, by omega⟩
    have h0 := hnot 0 (by omega)
    rw [Nat.sub_zero] at h0
    rw [IntegerToComposition.down, if_neg h0, sub64_of_le (by omega) hmu]
    have e : ∀ j, mu0 - 1 - j = mu0 - (j + 1) := by
      intro j
      omega
    rw [ih f (mu0 - 1) (by omega) (by omega) (by omega) ?_ ?_, e]
    · intro j hj
      rw [e]
      exact hnot (j + 1) (by omega)
    · rw [e]
      exact hstop

/-- Value of `NumberCompositions(n - mu, k)` for `mu <= n`. -/
theorem NC_at_le {n k mu : Nat} (hk1 : 1 ≤ k) (hk : k < W16) (hn : n + k - 1 < W64)
    (hmu : mu ≤ n) : NumberCompositions (sub64 n mu) k = weakCompositions (n - mu) k := by
  have e : sub64 n mu = n - mu := by
    unfold sub64
    rw [W64_val, W16_val] at *
    omega
  rw [e, NumberCompositions_word (by rw [W64_val] at *; omega) hk1 hk, if_pos (by omega)]

/-- Value of `NumberCompositions(n - mu, k)` when `n - mu` wraps to a word so large that
`n - mu + k - 1` wraps again. -/
theorem NC_at_wrap {n k mu : Nat} (hk1 : 1 ≤ k) (hk : k < W16) (hn : n + k - 1 < W64)
    (hmu : n < mu) (hmu2 : mu ≤ n + k - 1) : NumberCompositions (sub64 n mu) k = 0 := by
  have e : sub64 n mu = W64 + n - mu := by
    unfold sub64
    rw [W64_val, W16_val] at *
    omega
  rw [e, NumberCompositions_word (by rw [W64_val] at *; omega) hk1 hk, if_neg (by omega)]

/-- Value of `NumberCompositions(n - mu - 1, k)` for `mu < n`. -/
theorem NC_pred_lt {n k mu : Nat} (hk1 : 1 ≤ k) (hk : k < W16) (hn : n + k - 1 < W64)
    (hmu : mu < n) :
    NumberCompositions (sub64 (sub64 n mu) 1) k = weakCompositions (n - mu - 1) k := by
  have e : sub64 (sub64 n mu) 1 = n - mu - 1 := by
    unfold sub64
    rw [W64_val, W16_val] at *
    omega
  rw [e, NumberCompositions_word (by rw [W64_val] at *; omega) hk1 hk, if_pos (by omega)]

/-- Value of `NumberCompositions(n - mu - 1, k)` when `n - mu - 1` wraps and
`n - mu - 1 + k - 1` wraps again: the binomial coefficient is `0`. -/
theorem NC_pred_wrap {n k mu : Nat} (hk2 : 2 ≤ k) (hk : k < W16) (hn : n + k - 1 < W64)
    (hmu : n ≤ mu) (hmu2 : mu ≤ n + k - 2) :
    NumberCompositions (sub64 (sub64 n mu) 1) k = 0 := by
  have e : sub64 (sub64 n mu) 1 = W64 + n - mu - 1 := by
    unfold sub64
    rw [W64_val, W16_val] at *
    omega
  rw [e, NumberCompositions_word (by rw [W64_val] at *; omega) (by omega) hk,
    if_neg (by rw [W64_val, W16_val] at *; omega)]

/-- Value of `NumberCompositions(n - mu - 1, k)` when `n - mu - 1` wraps to a word `>= n`
that is small enough for `NumberCompositions`. -/
theorem NC_pred_far {n k mu : Nat} (hk2 : 2 ≤ k) (hk : k < W16) (hn : n + k - 1 < W64)
    (hmu : n + k - 1 ≤ mu) (hmu2 : mu < W64) :
    weakCompositions n k ≤ NumberCompositions (sub64 (sub64 n mu) 1) k := by
  have e : sub64 (sub64 n mu) 1 = W64 + n - mu - 1 := by
    unfold sub64
    rw [W64_val, W16_val] at *
    omega
  rw [e, NumberCompositions_word (by rw [W64_val] at *; omega) (by omega) hk,
    if_pos (by rw [W64_val, W16_val] at *; omega)]
  apply weakCompositions_mono
  omega

/-- The two correction loops of `IntegerToComposition` end at the part `mus` that is
characterised by `NC(n - mus - 1, k) < NC(n, k) - idx <= NC(n - mus, k)`, whatever the
start value `mu0` is. -/
theorem mu_search (idx : Int) (n k mus : Nat) (hk2 : 2 ≤ k) (hk : k < W16)
    (hn : n + k - 1 < W64) (hmus : mus ≤ n)
    (hlo : (((if mus = n then 0 else weakCompositions (n - mus - 1) k) : Nat) : Int)
      < (NumberCompositions n k : Int) - idx)
    (hhi : (NumberCompositions n k : Int) - idx ≤ ((weakCompositions (n - mus) k : Nat) : Int))
    (mu0 : Nat) (hmu0 : mu0 < W64) :
    ∃ mu1, IntegerToComposition.up idx n k (W64 + 1) mu0 = some mu1 ∧
      IntegerToComposition.down idx n k (W64 + 1) mu1 = some mus := by
  have hk1 : 1 ≤ k := by omega
  have hW : W64 = 18446744073709551616 := W64_val
  have hT1 : (1 : Int) ≤ (NumberCompositions n k : Int) - idx := by
    have : (0 : Int) ≤ (((if mus = n then 0 else weakCompositions (n - mus - 1) k) : Nat) : Int) :=
      Int.ofNat_nonneg _
    omega
  have hTn : (NumberCompositions n k : Int) - idx ≤ ((weakCompositions n k : Nat) : Int) := by
    have : weakCompositions (n - mus) k ≤ weakCompositions n k :=
      weakCompositions_mono k (by omega)
    have : ((weakCompositions (n - mus) k : Nat) : Int) ≤ ((weakCompositions n k : Nat) : Int) :=
      Int.ofNat_le.mpr this
    omega
  -- stopping facts
  have upStop_mus : ((NumberCompositions (sub64 (sub64 n mus) 1) k : Int)
      < (NumberCompositions n k : Int) - idx) := by
    by_cases h : mus = n
    · rw [NC_pred_wrap hk2 hk hn (by omega) (by omega)]
      simp only [Nat.cast_zero]
      omega
    · rw [NC_pred_lt hk1 hk hn (by omega)]
      rw [if_neg h] at hlo
      exact hlo
  have upNot_below : ∀ mu, mu < mus → ¬ ((NumberCompositions (sub64 (sub64 n mu) 1) k : Int)
      < (NumberCompositions n k : Int) - idx) := by
    intro mu hmu
    rw [NC_pred_lt hk1 hk hn (by omega)]
    have : weakCompositions (n - mus) k ≤ weakCompositions (n - mu - 1) k :=
      weakCompositions_mono k (by omega)
    have := Int.ofNat_le.mpr this
    omega
  have downStop_mus : (NumberCompositions n k : Int) - idx
      ≤ (NumberCompositions (sub64 n mus) k : Int) := by
    rw [NC_at_le hk1 hk hn hmus]
    exact hhi
  have downNot_above : ∀ mu, mus < mu → mu ≤ n + k - 1 →
      ¬ ((NumberCompositions n k : Int) - idx ≤ (NumberCompositions (sub64 n mu) k : Int)) := by
    intro mu hmu hmu2
    by_cases h : mu ≤ n
    · rw [NC_at_le hk1 hk hn h]
      rw [if_neg (by omega)] at hlo
      have : weakCompositions (n - mu) k ≤ weakCompositions (n - mus - 1) k :=
        weakCompositions_mono k (by omega)
      have := Int.ofNat_le.mpr this
      omega
    · rw [NC_at_wrap hk1 hk hn (by omega) hmu2]
      simp only [Nat.cast_zero]
      omega
  have down_from : ∀ mu1, mus ≤ mu1 → mu1 ≤ n + k - 1 →
      IntegerToComposition.down idx n k (W64 + 1) mu1 = some mus := by
    intro mu1 h1 h2
    have := down_run idx n k (mu1 - mus) (W64 + 1) mu1 (by omega) (by omega) (by omega)
      (by
        intro j hj
        exact downNot_above (mu1 - j) (by omega) (by omega))
      (by
        have e : mu1 - (mu1 - mus) = mus := by omega
        rw [e]
        exact downStop_mus)
    rw [this]
    congr 1
    omega
  by_cases hA : mu0 ≤ mus
  · -- the first loop climbs to `mus`
    refine ⟨mus, ?_, down_from mus (le_refl _) (by omega)⟩
    have := up_run idx n k (mus - mu0) (W64 + 1) mu0 (by omega) hmu0
      (by
        intro j hj
        rw [Nat.mod_eq_of_lt (by omega)]
        exact upNot_below _ (by omega))
      (by
        have e : (mu0 + (mus - mu0)) % W64 = mus := by
          rw [Nat.mod_eq_of_lt (by omega)]
          omega
        rw [e]
        exact upStop_mus)
    rw [this]
    congr 1
    rw [Nat.mod_eq_of_lt (by omega)]
    omega
  · by_cases hB : mu0 ≤ n + k - 2
    · -- the first loop stops at once, the second descends to `mus`
      refine ⟨mu0, ?_, down_from mu0 (by omega) (by omega)⟩
      have := up_run idx n k 0 (W64 + 1) mu0 (by omega) hmu0 (by intro j hj; omega)
        (by
          rw [Nat.add_zero, Nat.mod_eq_of_lt hmu0]
          by_cases h : mu0 < n
          · rw [NC_pred_lt hk1 hk hn h]
            rw [if_neg (by omega)] at hlo
            have : weakCompositions (n - mu0 - 1) k ≤ weakCompositions (n - mus - 1) k :=
              weakCompositions_mono k (by omega)
            have := Int.ofNat_le.mpr this
            omega
          · rw [NC_pred_wrap hk2 hk hn (by omega) hB]
            simp only [Nat.cast_zero]
            omega)
      rw [this, Nat.add_zero, Nat.mod_eq_of_lt hmu0]
    · -- the first loop runs through the wrap-around and climbs to `mus`
      refine ⟨mus, ?_, down_from mus (le_refl _) (by omega)⟩
      have := up_run idx n k (W64 - mu0 + mus) (W64 + 1) mu0 (by omega) hmu0
        (by
          intro j hj
          by_cases h : mu0 + j < W64
          · rw [Nat.mod_eq_of_lt h]
            have := NC_pred_far hk2 hk hn (show n + k - 1 ≤ mu0 + j by omega) h
            have := Int.ofNat_le.mpr this
            omega
          · have e : (mu0 + j) % W64 = mu0 + j - W64 := by
              rw [W64_val] at *
              omega
            rw [e]
            exact upNot_below _ (by omega))
        (by
          have e : (mu0 + (W64 - mu0 + mus)) % W64 = mus := by
            rw [W64_val] at *
            omega
          rw [e]
          exact upStop_mus)
      rw [this]
      congr 1
      rw [W64_val] at *
      omega

theorem weakCompositions_pascal (m j : Nat) :
    weakCompositions m (j + 2) =
      (if m = 0 then 0 else weakCompositions (m - 1) (j + 2)) + weakCompositions m (j + 1) := by
  rcases Nat.eq_zero_or_pos m with h | h
  · subst h
    simp [weakCompositions]
  · obtain ⟨m, rfl⟩ : ∃ m', m = m' + 1 := ⟨m - 1, by omega⟩
    rw [if_neg (by omega), weakCompositions_succ]
    simp

theorem sum_zero_eq_replicate (c : List Nat) (h : c.sum = 0) :
    c = List.replicate c.length 0 := by
  apply List.eq_replicate_of_mem
  intro x hx
  exact (List.sum_eq_zero_iff.mp h) x hx

theorem rank_zeros : ∀ (cnt k : Nat),
    CompositionToInteger.loop cnt (List.replicate (cnt + 1) 0) 0 k = some 0 := by
  intro cnt
  induction cnt with
  | zero => intro k; rfl
  | succ cnt ih =>
    intro k
    have e : sub64 0 0 = 0 := by
      unfold sub64
      rw [W64_val]
    rw [List.replicate_succ, CompositionToInteger.loop, e, ih (k - 1)]
    simp

theorem rank_loop_bounds : ∀ (cnt : Nat) (c : List Nat) (n k : Nat),
    c.length = cnt + 1 → k = cnt + 1 → c.sum = n → n + k - 1 < W64 → k < W16 →
    ∃ r : Int, CompositionToInteger.loop cnt c n k = some r ∧ 0 ≤ r ∧
      r < ((weakCompositions n k : Nat) : Int) := by
  intro cnt
  induction cnt with
  | zero =>
    intro c n k _ hk _ _ _
    subst hk
    refine ⟨0, rfl, le_refl _, ?_⟩
    rw [weakCompositions_one]
    simp
  | succ cnt ih =>
    intro c n k hlen hk hsum hn hk16
    match c, hlen with
    | c0 :: cs, hlen =>
      simp only [List.length_cons, Nat.add_right_cancel_iff] at hlen
      simp only [List.sum_cons] at hsum
      have hc0 : c0 ≤ n := by omega
      have hW := W64_val
      have hW16 := W16_val
      obtain ⟨r, hr, hr0, hr1⟩ := ih cs (n - c0) (k - 1) hlen (by omega) (by omega)
        (by omega) (by omega)
      have hk1 : 1 ≤ k := by omega
      have e1 : sub64 n c0 = n - c0 := sub64_of_le hc0 (by omega)
      have hN : NumberCompositions n k = weakCompositions n k := by
        rw [NumberCompositions_word (by omega) hk1 hk16, if_pos hn]
      have hN2 : NumberCompositions (n - c0) k = weakCompositions (n - c0) k := by
        rw [NumberCompositions_word (by omega) hk1 hk16, if_pos (by omega)]
      refine ⟨((weakCompositions n k : Nat) : Int) - ((weakCompositions (n - c0) k : Nat) : Int) + r,
        ?_, ?_, ?_⟩
      · rw [CompositionToInteger.loop, e1, hr, hN, hN2]
      · have := Int.ofNat_le.mpr (weakCompositions_mono k (show n - c0 ≤ n by omega))
        omega
      · have hp := weakCompositions_pascal (n - c0) cnt
        have ek : cnt + 2 = k := by omega
        have ek1 : cnt + 1 = k - 1 := by omega
        rw [ek, ek1] at hp
        have : weakCompositions (n - c0) (k - 1) ≤ weakCompositions (n - c0) k := by omega
        have := Int.ofNat_le.mpr this
        omega

theorem unrank_rank_loop (root : Int → Nat → Nat) : ∀ (cnt : Nat) (c : List Nat) (n k : Nat)
    (idx : Int), c.length = cnt + 1 → k = cnt + 1 → c.sum = n → n + k - 1 < W64 → k < W16 →
    CompositionToInteger.loop cnt c n k = some idx →
    IntegerToComposition.loop root cnt idx n k = some c := by
  intro cnt
  induction cnt with
  | zero =>
    intro c n k idx hlen _ hsum _ _ _
    match c, hlen with
    | [c0], _ =>
      simp only [List.sum_cons, List.sum_nil, Nat.add_zero] at hsum
      rw [IntegerToComposition.loop, hsum]
  | succ cnt ih =>
    intro c n k idx hlen hk hsum hn hk16 hrank
    by_cases hn0 : n = 0
    · rw [IntegerToComposition.loop, if_pos hn0]
      rw [hn0] at hsum
      have := sum_zero_eq_replicate c hsum
      rw [hlen] at this
      rw [this]
    · match c, hlen with
      | c0 :: cs, hlen =>
        simp only [List.length_cons, Nat.add_right_cancel_iff] at hlen
        simp only [List.sum_cons] at hsum
        have hc0 : c0 ≤ n := by omega
        have hW := W64_val
        have hW16 := W16_val
        have hk1 : 1 ≤ k := by omega
        have e1 : sub64 n c0 = n - c0 := sub64_of_le hc0 (by omega)
        obtain ⟨r, hr, hr0, hr1⟩ := rank_loop_bounds cnt cs (n - c0) (k - 1) hlen (by omega)
          (by omega) (by omega) (by omega)
        have hN : NumberCompositions n k = weakCompositions n k := by
          rw [NumberCompositions_word (by omega) hk1 hk16, if_pos hn]
        have hN2 : NumberCompositions (n - c0) k = weakCompositions (n - c0) k := by
          rw [NumberCompositions_word (by omega) hk1 hk16, if_pos (by omega)]
        rw [CompositionToInteger.loop, e1, hr] at hrank
        simp only [Option.some.injEq] at hrank
        have hp := weakCompositions_pascal (n - c0) cnt
        have ek : cnt + 2 = k := by omega
        have ek1 : cnt + 1 = k - 1 := by omega
        rw [ek, ek1] at hp
        have hsub : n - c0 - 1 = n - c0 - 1 := rfl
        have hif : (if c0 = n then 0 else weakCompositions (n - c0 - 1) k)
            = (if n - c0 = 0 then 0 else weakCompositions (n - c0 - 1) k) := by
          by_cases h : c0 = n
          · rw [if_pos h, if_pos (by omega)]
          · rw [if_neg h, if_neg (by omega)]
        obtain ⟨mu1, hup, hdown⟩ := mu_search idx n k c0 (by omega) hk16 hn hc0
          (by
            rw [hif, ← hrank, hN2]
            have := Int.ofNat_inj.mpr hp
            push_cast at this ⊢
            omega)
          (by
            rw [← hrank, hN2]
            omega)
          (sub64 (sub64 n (root (((NumberCompositions n k : Int) - idx)
            * (Factorial (k - 1) : Int)) k)) ((k - 1) / 2)) (sub64_lt _ _)
        rw [IntegerToComposition.loop, if_neg hn0]
        simp only [hup, hdown, e1]
        have hidx : idx - ((NumberCompositions n k : Int) - (NumberCompositions (n - c0) k : Int))
            = r := by
          rw [← hrank]
          ring
        rw [hidx, ih cs (n - c0) (k - 1) r hlen (by omega) (by omega) (by omega) (by omega) hr]

theorem rank_unrank_loop (root : Int → Nat → Nat) : ∀ (cnt n k : Nat) (idx : Int),
    k = cnt + 1 → n + k - 1 < W64 → k < W16 → 0 ≤ idx →
    idx < ((weakCompositions n k : Nat) : Int) →
    ∃ c, IntegerToComposition.loop root cnt idx n k = some c ∧ c.length = k ∧ c.sum = n ∧
      CompositionToInteger.loop cnt c n k = some idx := by
  intro cnt
  induction cnt with
  | zero =>
    intro n k idx hk _ _ h0 h1
    subst hk
    rw [weakCompositions_one] at h1
    have : idx = 0 := by omega
    subst this
    exact ⟨[n], rfl, rfl, by simp, rfl⟩
  | succ cnt ih =>
    intro n k idx hk hn hk16 h0 h1
    have hW := W64_val
    have hW16 := W16_val
    have hk1 : 1 ≤ k := by omega
    by_cases hn0 : n = 0
    · subst hn0
      rw [weakCompositions_zero_left k] at h1
      have : idx = 0 := by omega
      subst this
      refine ⟨List.replicate (cnt + 2) 0, ?_, ?_, ?_, rank_zeros (cnt + 1) k⟩
      · rw [IntegerToComposition.loop, if_pos rfl]
      · rw [List.length_replicate, hk]
      · simp
    · have hN : NumberCompositions n k = weakCompositions n k := by
        rw [NumberCompositions_word (by omega) hk1 hk16, if_pos hn]
      -- the part `mus` chosen by the search
      let P : Nat → Prop := fun m =>
        (NumberCompositions n k : Int) - idx ≤ ((weakCompositions (n - m) k : Nat) : Int)
      have hP0 : P 0 := by
        show (NumberCompositions n k : Int) - idx ≤ ((weakCompositions (n - 0) k : Nat) : Int)
        rw [hN, Nat.sub_zero]
        omega
      have hmus_le : Nat.findGreatest P n ≤ n := Nat.findGreatest_le n
      have hPmus : P (Nat.findGreatest P n) := Nat.findGreatest_spec (Nat.zero_le n) hP0
      have hgreat : ∀ m, Nat.findGreatest P n < m → m ≤ n → ¬ P m :=
        fun m h1 h2 => Nat.findGreatest_is_greatest h1 h2
      generalize Nat.findGreatest P n = mus at hmus_le hPmus hgreat
      have hhi : (NumberCompositions n k : Int) - idx
          ≤ ((weakCompositions (n - mus) k : Nat) : Int) := hPmus
      have hlo : (((if mus = n then 0 else weakCompositions (n - mus - 1) k) : Nat) : Int)
          < (NumberCompositions n k : Int) - idx := by
        by_cases h : mus = n
        · rw [if_pos h, hN]
          simp only [Nat.cast_zero]
          omega
        · rw [if_neg h]
          have hnp : ¬ P (mus + 1) := hgreat (mus + 1) (by omega) (by omega)
          have hnp2 : ¬ ((NumberCompositions n k : Int) - idx
              ≤ ((weakCompositions (n - (mus + 1)) k : Nat) : Int)) := hnp
          have e : n - (mus + 1) = n - mus - 1 := by omega
          rw [e] at hnp2
          omega
      obtain ⟨mu1, hup, hdown⟩ := mu_search idx n k mus (by omega) hk16 hn hmus_le hlo hhi
        (sub64 (sub64 n (root (((NumberCompositions n k : Int) - idx)
          * (Factorial (k - 1) : Int)) k)) ((k - 1) / 2)) (sub64_lt _ _)
      have e1 : sub64 n mus = n - mus := sub64_of_le hmus_le (by omega)
      have hN2 : NumberCompositions (n - mus) k = weakCompositions (n - mus) k := by
        rw [NumberCompositions_word (by omega) hk1 hk16, if_pos (by omega)]
      have hp := weakCompositions_pascal (n - mus) cnt
      have ek : cnt + 2 = k := by omega
      have ek1 : cnt + 1 = k - 1 := by omega
      rw [ek, ek1] at hp
      have hif : (if mus = n then 0 else weakCompositions (n - mus - 1) k)
          = (if n - mus = 0 then 0 else weakCompositions (n - mus - 1) k) := by
        by_cases h : mus = n
        · rw [if_pos h, if_pos (by omega)]
        · rw [if_neg h, if_neg (by omega)]
      rw [hif] at hlo
      have hpz := Int.ofNat_inj.mpr hp
      push_cast at hpz hlo
      obtain ⟨c, hc, hlen, hsum, hrank⟩ := ih (n - mus) (k - 1)
        (idx - ((NumberCompositions n k : Int) - (NumberCompositions (n - mus) k : Int)))
        (by omega) (by omega) (by omega)
        (by rw [hN2]; omega)
        (by rw [hN2]; omega)
      refine ⟨mus :: c, ?_, ?_, ?_, ?_⟩
      · rw [IntegerToComposition.loop, if_neg hn0]
        simp only [hup, hdown, e1, hc]
      · rw [List.length_cons, hlen]
        omega
      · rw [List.sum_cons, hsum]
        omega
      · rw [CompositionToInteger.loop, e1, hrank]
        simp only [Option.some.injEq]
        ring

/-! ## Composition ranking: round trips -/

/-- C2: for every weak composition `c` with `k >= 1` parts (`k` a `uint16_t`) and sum `n`
with `n + k - 1` within 64 bits, `CompositionToInteger(c)` returns a rank `r` and
`IntegerToComposition(r, n, k)` returns `c`, whatever value the floating-point estimate
`root` of the unranking takes. -/
theorem composition_unrank_rank (root : Int → Nat → Nat) (c : List Nat) (n k : Nat)
    (hk1 : 1 ≤ k) (hk16 : k < W16) (hlen : c.length = k) (hsum : c.sum = n)
    (hn : n + k - 1 < W64) :
    ∃ r : Int, CompositionToInteger c = some r ∧ IntegerToComposition root r n k = some c := by
  have hW := W64_val
  obtain ⟨r, hr, _, _⟩ := rank_loop_bounds (k - 1) c n k (by omega) (by omega) hsum hn hk16
  refine ⟨r, ?_, ?_⟩
  · unfold CompositionToInteger
    rw [hlen, hsum, Nat.mod_eq_of_lt hk16, Nat.mod_eq_of_lt (by omega)]
    exact hr
  · unfold IntegerToComposition
    rw [Nat.mod_eq_of_lt hk16, Nat.mod_eq_of_lt (show n < W64 by omega), if_neg (by omega)]
    exact unrank_rank_loop root (k - 1) c n k r (by omega) (by omega) hsum hn hk16 hr

/-- Witness of C2: the composition `(1, 2, 1)` of `4` into `3` parts. -/
theorem composition_unrank_rank_witness :
    ∃ r : Int, CompositionToInteger [1, 2, 1] = some r ∧
      IntegerToComposition (fun _ _ => 0) r 4 3 = some [1, 2, 1] :=
  composition_unrank_rank (fun _ _ => 0) [1, 2, 1] 4 3 (by decide) (by decide) (by decide)
    (by decide) (by decide)

/-- C3: for every `n` (a `uint64_t`), `k >= 1` (a `uint16_t`) and integer `r` with
`0 <= r < NumberCompositions(n, k)`, `IntegerToComposition(r, n, k)` returns a sequence
of exactly `k` non-negative integers whose sum is `n`, and `CompositionToInteger` maps it
back to `r`. -/
theorem composition_rank_unrank (root : Int → Nat → Nat) (n k : Nat) (r : Int)
    (hn : n < W64) (hk1 : 1 ≤ k) (hk16 : k < W16) (h0 : 0 ≤ r)
    (h1 : r < (NumberCompositions n k : Int)) :
    ∃ c, IntegerToComposition root r n k = some c ∧ c.length = k ∧ c.sum = n ∧
      CompositionToInteger c = some r := by
  rw [NumberCompositions_word hn hk1 hk16] at h1
  by_cases hnk : n + k - 1 < W64
  · rw [if_pos hnk] at h1
    obtain ⟨c, hc, hlen, hsum, hrank⟩ :=
      rank_unrank_loop root (k - 1) n k r (by omega) hnk hk16 h0 h1
    refine ⟨c, ?_, hlen, hsum, ?_⟩
    · unfold IntegerToComposition
      rw [Nat.mod_eq_of_lt hk16, Nat.mod_eq_of_lt hn, if_neg (by omega)]
      exact hc
    · unfold CompositionToInteger
      rw [hlen, hsum, Nat.mod_eq_of_lt hk16, Nat.mod_eq_of_lt hn]
      exact hrank
  · rw [if_neg hnk] at h1
    simp only [Nat.cast_zero] at h1
    omega

/-- Witness of C3: rank `7` among the `15` compositions of `4` into `3` parts. -/
theorem composition_rank_unrank_witness :
    ∃ c, IntegerToComposition (fun _ _ => 0) 7 4 3 = some c ∧ c.length = 3 ∧ c.sum = 4 ∧
      CompositionToInteger c = some 7 :=
  composition_rank_unrank (fun _ _ => 0) 4 3 7 (by decide) (by decide) (by decide) (by decide)
    (by decide)

/-! ## Permutation ranking -/

theorem PermutationToInteger_loop_cons (x : Nat) (rest : List Nat) :
    PermutationToInteger.loop (x :: rest) =
      ((List.countP (fun z => decide (x > z)) rest : Nat) : Int) * (Factorial rest.length : Int)
        + PermutationToInteger.loop rest := by
  cases rest with
  | nil => simp [PermutationToInteger.loop]
  | cons y rest => rw [PermutationToInteger.loop]

theorem PermutationToInteger_loop_bounds : ∀ (p : List Nat), p.length < W16 →
    0 ≤ PermutationToInteger.loop p ∧
      PermutationToInteger.loop p < ((Nat.factorial p.length : Nat) : Int) := by
  intro p
  induction p with
  | nil =>
    intro _
    simp [PermutationToInteger.loop]
  | cons x rest ih =>
    intro hlen
    rw [List.length_cons] at hlen
    obtain ⟨h0, h1⟩ := ih (by omega)
    rw [PermutationToInteger_loop_cons, Factorial_eq (by omega), List.length_cons,
      Nat.factorial_succ]
    have hc : List.countP (fun z => decide (x > z)) rest ≤ rest.length := List.countP_le_length _
    have hc2 : ((List.countP (fun z => decide (x > z)) rest : Nat) : Int)
        * ((Nat.factorial rest.length : Nat) : Int)
        ≤ ((rest.length : Nat) : Int) * ((Nat.factorial rest.length : Nat) : Int) :=
      Int.mul_le_mul_of_nonneg_right (Int.ofNat_le.mpr hc) (Int.ofNat_nonneg _)
    have hc3 : (0 : Int) ≤ ((List.countP (fun z => decide (x > z)) rest : Nat) : Int)
        * ((Nat.factorial rest.length : Nat) : Int) :=
      Int.mul_nonneg (Int.ofNat_nonneg _) (Int.ofNat_nonneg _)
    constructor
    · omega
    · push_cast
      have : ((rest.length : Int) + 1) * ((Nat.factorial rest.length : Nat) : Int)
          = (rest.length : Int) * ((Nat.factorial rest.length : Nat) : Int)
            + ((Nat.factorial rest.length : Nat) : Int) := by ring
      push_cast at hc2 hc3 h1 this ⊢
      omega

/-- In a strictly increasing list the number of elements below the element at index `i`
is `i`. -/
theorem countP_lt_getD_sorted : ∀ (buf : List Nat) (i : Nat), buf.Pairwise (· < ·) →
    i < buf.length →
    List.countP (fun z => decide (buf.getD i 0 > z)) buf = i := by
  intro buf
  induction buf with
  | nil => intro i _ h; simp at h
  | cons b bs ih =>
    intro i hs hi
    rw [List.pairwise_cons] at hs
    obtain ⟨hb, hs⟩ := hs
    cases i with
    | zero =>
      rw [List.getD_cons_zero, List.countP_cons]
      have : List.countP (fun z => decide (b > z)) bs = 0 := by
        rw [List.countP_eq_zero]
        intro a ha
        have := hb a ha
        simp only [gt_iff_lt, decide_eq_true_eq, not_lt]
        omega
      rw [this]
      simp
    | succ i =>
      rw [List.length_cons] at hi
      have hi2 : i < bs.length := by omega
      rw [List.getD_cons_succ, List.countP_cons, ih i hs hi2]
      have hmem : bs.getD i 0 ∈ bs := by
        rw [List.getD_eq_getElem _ _ hi2]
        exact List.getElem_mem _
      have := hb _ hmem
      rw [if_pos (by simpa using this)]

theorem tdiv_mul_add (a f : Nat) (r : Int) (h0 : 0 ≤ r) (h1 : r < (f : Int)) :
    Int.tdiv ((a : Int) * (f : Int) + r) (f : Int) = (a : Int) := by
  have hf : (0 : Int) < (f : Int) := by omega
  have hnn : (0 : Int) ≤ (a : Int) * (f : Int) + r := by
    have := Int.mul_nonneg (Int.ofNat_nonneg a) (Int.ofNat_nonneg f)
    omega
  rw [Int.tdiv_eq_ediv hnn (by omega), Int.add_comm, Int.add_mul_ediv_right _ _ (by omega),
    Int.ediv_eq_zero_of_lt h0 h1]
  simp

theorem unrank_rank_perm_loop : ∀ (p buf : List Nat), p.Nodup → buf.Pairwise (· < ·) →
    buf.Perm p → p.length < W16 →
    IntegerToPermutation.loop p.length (PermutationToInteger.loop p) buf = some p := by
  intro p
  induction p with
  | nil =>
    intro buf _ _ _ _
    rfl
  | cons x rest ih =>
    intro buf hnd hs hperm hlen
    rw [List.length_cons] at hlen
    rw [List.nodup_cons] at hnd
    obtain ⟨hx, hnd⟩ := hnd
    obtain ⟨h0, h1⟩ := PermutationToInteger_loop_bounds rest (by omega)
    have hF : Factorial rest.length = Nat.factorial rest.length := Factorial_eq (by omega)
    have hxbuf : x ∈ buf := hperm.mem_iff.mpr (List.mem_cons_self _ _)
    obtain ⟨i, hi, hget⟩ := List.getElem_of_mem hxbuf
    have hgetD : buf.getD i 0 = x := by rw [List.getD_eq_getElem _ _ hi, hget]
    have hcount : List.countP (fun z => decide (x > z)) rest = i := by
      have h := countP_lt_getD_sorted buf i hs hi
      rw [hgetD, hperm.countP_eq, List.countP_cons] at h
      simpa using h
    have hdiv : Int.tdiv (PermutationToInteger.loop (x :: rest)) (Factorial rest.length : Int)
        = (i : Int) := by
      rw [PermutationToInteger_loop_cons, hcount, hF]
      exact tdiv_mul_add i _ _ h0 h1
    have hfilter : (buf.filter (fun b => decide (b ≠ x))).Perm rest := by
      have h := hperm.filter (fun b => decide (b ≠ x))
      rw [List.filter_cons_of_neg (by simp)] at h
      have e : rest.filter (fun b => decide (b ≠ x)) = rest := by
        rw [List.filter_eq_self]
        intro a ha
        simp only [ne_eq, decide_not, Bool.not_eq_eq_eq_not, Bool.not_true,
          decide_eq_false_iff_not]
        intro hax
        exact hx (hax ▸ ha)
      rw [e] at h
      exact h
    rw [List.length_cons, IntegerToPermutation.loop]
    simp only [hdiv, Int.toNat_ofNat, hgetD]
    rw [if_pos ⟨Int.ofNat_nonneg _, hi⟩]
    have hidx : PermutationToInteger.loop (x :: rest) - (i : Int) * (Factorial rest.length : Int)
        = PermutationToInteger.loop rest := by
      rw [PermutationToInteger_loop_cons, hcount]
      ring
    rw [hidx, ih _ hnd (hs.filter _) hfilter (by omega)]

theorem perm_cons_filter_ne : ∀ (buf : List Nat) (x : Nat), buf.Nodup → x ∈ buf →
    (x :: buf.filter (fun b => decide (b ≠ x))).Perm buf := by
  intro buf
  induction buf with
  | nil => intro x _ h; simp at h
  | cons b bs ih =>
    intro x hnd hx
    rw [List.nodup_cons] at hnd
    obtain ⟨hb, hnd⟩ := hnd
    by_cases hbx : b = x
    · subst hbx
      rw [List.filter_cons_of_neg (by simp)]
      have e : bs.filter (fun c => decide (c ≠ b)) = bs := by
        rw [List.filter_eq_self]
        intro a ha
        simp only [ne_eq, decide_not, Bool.not_eq_eq_eq_not, Bool.not_true,
          decide_eq_false_iff_not]
        intro hab
        exact hb (hab ▸ ha)
      rw [e]
    · have hxbs : x ∈ bs := by
        rcases List.mem_cons.mp hx with h | h
        · exact absurd h.symm hbx
        · exact h
      rw [List.filter_cons_of_pos (by simpa using hbx)]
      exact (List.Perm.swap b x _).trans ((ih x hnd hxbs).cons b)

theorem sorted_nodup {buf : List Nat} (hs : buf.Pairwise (· < ·)) : buf.Nodup :=
  hs.imp (fun h => Nat.ne_of_lt h)

theorem rank_unrank_perm_loop : ∀ (m : Nat) (buf : List Nat) (idx : Int), buf.length = m →
    buf.Pairwise (· < ·) → m < W16 → 0 ≤ idx → idx < ((Nat.factorial m : Nat) : Int) →
    ∃ p, IntegerToPermutation.loop m idx buf = some p ∧ p.Perm buf ∧
      PermutationToInteger.loop p = idx := by
  intro m
  induction m with
  | zero =>
    intro buf idx hlen _ _ h0 h1
    have : idx = 0 := by
      simp only [Nat.factorial_zero, Nat.cast_one] at h1
      omega
    subst this
    have hb : buf = [] := List.length_eq_zero.mp hlen
    subst hb
    exact ⟨[], rfl, List.Perm.refl _, rfl⟩
  | succ m ih =>
    intro buf idx hlen hs hm h0 h1
    obtain ⟨N, rfl⟩ := Int.eq_ofNat_of_zero_le h0
    have hN : N < Nat.factorial (m + 1) := Int.ofNat_lt.mp h1
    have hF : Factorial m = Nat.factorial m := Factorial_eq (by omega)
    have hfpos : 0 < Nat.factorial m := Nat.factorial_pos m
    have hi : N / Nat.factorial m < buf.length := by
      rw [hlen, Nat.div_lt_iff_lt_mul hfpos, ← Nat.factorial_succ]
      exact hN
    have hdiv : Int.tdiv ((N : Nat) : Int) (Factorial m : Int)
        = ((N / Nat.factorial m : Nat) : Int) := by
      rw [hF]
      exact (Int.ofNat_tdiv N (Nat.factorial m)).symm
    have hnd := sorted_nodup hs
    have hmem : buf.getD (N / Nat.factorial m) 0 ∈ buf := by
      rw [List.getD_eq_getElem _ _ hi]
      exact List.getElem_mem _
    have hperm := perm_cons_filter_ne buf _ hnd hmem
    have hlen2 : (buf.filter (fun b => decide (b ≠ buf.getD (N / Nat.factorial m) 0))).length
        = m := by
      have := hperm.length_eq
      rw [List.length_cons, hlen] at this
      omega
    have hidx : ((N : Nat) : Int) - ((N / Nat.factorial m : Nat) : Int) * (Factorial m : Int)
        = ((N % Nat.factorial m : Nat) : Int) := by
      rw [hF]
      have := Nat.div_add_mod N (Nat.factorial m)
      have h2 := Int.ofNat_inj.mpr this
      push_cast at h2 ⊢
      linarith
    obtain ⟨rest, hrest, hrperm, hrrank⟩ := ih _ ((N % Nat.factorial m : Nat) : Int) hlen2
      (hs.filter _) (by omega) (Int.ofNat_nonneg _)
      (Int.ofNat_lt.mpr (Nat.mod_lt _ hfpos))
    refine ⟨buf.getD (N / Nat.factorial m) 0 :: rest, ?_, ?_, ?_⟩
    · rw [IntegerToPermutation.loop]
      simp only [hdiv, Int.toNat_ofNat]
      rw [if_pos ⟨Int.ofNat_nonneg _, hi⟩, hidx, hrest]
    · exact (hrperm.cons _).trans hperm
    · rw [PermutationToInteger_loop_cons, hrperm.length_eq, hlen2, hrrank, hF]
      have hc : List.countP (fun z => decide (buf.getD (N / Nat.factorial m) 0 > z)) rest
          = N / Nat.factorial m := by
        have h := countP_lt_getD_sorted buf _ hs hi
        rw [← hperm.countP_eq, List.countP_cons, ← hrperm.countP_eq] at h
        simpa using h
      rw [hc]
      have := Nat.div_add_mod N (Nat.factorial m)
      have h2 := Int.ofNat_inj.mpr this
      push_cast at h2 ⊢
      linarith

/-- C4: for every `k >= 2` (a `uint16_t`) and every permutation `p` of `0, ..., k-1`,
`PermutationToInteger(p)` returns a rank `r` and `IntegerToPermutation(r, k)` returns
`p`. -/
theorem permutation_unrank_rank (p : List Nat) (k : Nat) (hk2 : 2 ≤ k) (hk16 : k < W16)
    (hp : p.Perm (List.range k)) :
    ∃ r : Int, PermutationToInteger p = some r ∧ IntegerToPermutation r k = some p := by
  have hlen : p.length = k := by rw [hp.length_eq, List.length_range]
  refine ⟨PermutationToInteger.loop p, ?_, ?_⟩
  · unfold PermutationToInteger
    rw [if_neg (by omega)]
  · unfold IntegerToPermutation
    rw [Nat.mod_eq_of_lt hk16]
    have h := unrank_rank_perm_loop p (List.range k)
      (hp.nodup_iff.mpr (List.nodup_range k)) (List.pairwise_lt_range k) hp.symm (by omega)
    rw [hlen] at h
    exact h

/-- Witnesses of C4: the permutations `(3,2,1,0)` and `(2,7,8,3,9,1,5,6,0,4)` of the unit
tests. -/
theorem permutation_unrank_rank_witness :
    (∃ r : Int, PermutationToInteger [3, 2, 1, 0] = some r ∧
      IntegerToPermutation r 4 = some [3, 2, 1, 0]) ∧
    (∃ r : Int, PermutationToInteger [2, 7, 8, 3, 9, 1, 5, 6, 0, 4] = some r ∧
      IntegerToPermutation r 10 = some [2, 7, 8, 3, 9, 1, 5, 6, 0, 4]) :=
  ⟨permutation_unrank_rank [3, 2, 1, 0] 4 (by decide) (by decide) (by decide),
    permutation_unrank_rank [2, 7, 8, 3, 9, 1, 5, 6, 0, 4] 10 (by decide) (by decide)
      (by decide)⟩

/-- C5: for every `k` that fits a `uint16_t` (in particular every such `k >= 1`) and
every integer `r` with `0 <= r < k!`, `IntegerToPermutation(r, k)` returns (so every read
of the residual list is in range) a permutation of `0, ..., k-1`, and for `k >= 2`
`PermutationToInteger` maps it back to `r`. -/
theorem permutation_rank_unrank (k : Nat) (r : Int) (hk16 : k < W16)
    (h0 : 0 ≤ r) (h1 : r < ((Nat.factorial k : Nat) : Int)) :
    ∃ p, IntegerToPermutation r k = some p ∧ p.Perm (List.range k) ∧
      (2 ≤ k → PermutationToInteger p = some r) := by
  obtain ⟨p, hp, hperm, hrank⟩ := rank_unrank_perm_loop k (List.range k) r
    (List.length_range k) (List.pairwise_lt_range k) hk16 h0 h1
  refine ⟨p, ?_, hperm, ?_⟩
  · unfold IntegerToPermutation
    rw [Nat.mod_eq_of_lt hk16]
    exact hp
  · intro hk2
    unfold PermutationToInteger
    rw [hperm.length_eq, List.length_range, if_neg (by omega), hrank]

/-- Witness of C5: rank `1000000` among the permutations of ten elements. -/
theorem permutation_rank_unrank_witness :
    ∃ p, IntegerToPermutation 1000000 10 = some p ∧ p.Perm (List.range 10) ∧
      (2 ≤ 10 → PermutationToInteger p = some 1000000) :=
  permutation_rank_unrank 10 1000000 (by decide) (by decide) (by decide)

/-! ## Bit primitives -/

theorem byte_of_bits_roundtrip (b0 b1 b2 b3 b4 b5 b6 b7 : Bool) :
    ∃ v, BoolVecToChar [b0, b1, b2, b3, b4, b5, b6, b7] = some v ∧ v < 256 ∧
      CharToBoolVec v = [b0, b1, b2, b3, b4, b5, b6, b7] := by
  cases b0 <;> cases b1 <;> cases b2 <;> cases b3 <;> cases b4 <;> cases b5 <;> cases b6 <;>
    cases b7 <;> exact ⟨_, rfl, by decide, by decide⟩

theorem list_length_eight {bits : List Bool} (h : bits.length = 8) :
    ∃ b0 b1 b2 b3 b4 b5 b6 b7, bits = [b0, b1, b2, b3, b4, b5, b6, b7] := by
  match bits, h with
  | [b0, b1, b2, b3, b4, b5, b6, b7], _ => exact ⟨b0, b1, b2, b3, b4, b5, b6, b7, rfl⟩

theorem BitsToData_loop_spec : ∀ (cnt : Nat) (bits : DataBits), bits.length = 8 * cnt →
    ∃ data, BitsToData.loop cnt bits = some data ∧ data.length = cnt ∧
      (∀ d ∈ data, d < 256) ∧ DataToBits data = bits := by
  intro cnt
  induction cnt with
  | zero =>
    intro bits h
    have : bits = [] := List.length_eq_zero.mp (by omega)
    subst this
    exact ⟨[], rfl, rfl, by simp, rfl⟩
  | succ cnt ih =>
    intro bits h
    have h8 : (bits.take 8).length = 8 := by
      rw [List.length_take]
      omega
    obtain ⟨b0, b1, b2, b3, b4, b5, b6, b7, hb⟩ := list_length_eight h8
    obtain ⟨v, hv, hv256, hvb⟩ := byte_of_bits_roundtrip b0 b1 b2 b3 b4 b5 b6 b7
    obtain ⟨rest, hrest, hlen, hlt, hbits⟩ := ih (bits.drop 8) (by
      rw [List.length_drop]
      omega)
    refine ⟨v :: rest, ?_, ?_, ?_, ?_⟩
    · rw [BitsToData.loop, hb, hv, hrest]
    · rw [List.length_cons, hlen]
    · intro d hd
      rcases List.mem_cons.mp hd with h1 | h1
      · rw [h1]
        exact hv256
      · exact hlt d h1
    · rw [DataToBits, hvb, hbits, ← hb, List.take_append_drop]

theorem BitsToData_spec (bits : DataBits) (cnt : Nat) (h : bits.length = 8 * cnt)
    (hc : 8 * cnt < W32) :
    ∃ data, BitsToData bits = some data ∧ data.length = cnt ∧
      (∀ d ∈ data, d < 256) ∧ DataToBits data = bits := by
  obtain ⟨data, h1, h2, h3, h4⟩ := BitsToData_loop_spec cnt bits h
  refine ⟨data, ?_, h2, h3, h4⟩
  unfold BitsToData
  rw [if_pos ⟨by omega, by omega⟩]
  have : bits.length / 8 = cnt := by omega
  rw [this]
  exact h1

theorem DataToBits_length : ∀ (data : Data), (DataToBits data).length = 8 * data.length := by
  intro data
  induction data with
  | nil => rfl
  | cons d rest ih =>
    rw [DataToBits, List.length_append, ih, List.length_cons]
    simp only [CharToBoolVec, List.length_map, List.length_range]
    omega

theorem seqnr_bytes (d0 d1 d2 d3 : Nat) (h0 : d0 < 256) (h1 : d1 < 256) (h2 : d2 < 256)
    (h3 : d3 < 256) :
    ((((d0 <<< 24) % W32 ||| (d1 <<< 16) % W32) ||| (d2 <<< 8) % W32) ||| d3)
      = d0 * 16777216 + d1 * 65536 + d2 * 256 + d3 := by
  have hW := W32_val
  simp only [Nat.shiftLeft_eq]
  have e0 : d0 * 2 ^ 24 % W32 = 2 ^ 24 * d0 := by
    rw [hW]
    omega
  have e1 : d1 * 2 ^ 16 % W32 = d1 * 65536 := by
    rw [hW]
    omega
  have e2 : d2 * 2 ^ 8 % W32 = d2 * 256 := by
    rw [hW]
    omega
  rw [e0, e1, e2]
  rw [← Nat.mul_add_lt_is_or (show d1 * 65536 < 2 ^ 24 by omega) d0]
  have s1 : 2 ^ 24 * d0 + d1 * 65536 = 2 ^ 16 * (d0 * 256 + d1) := by omega
  rw [s1, ← Nat.mul_add_lt_is_or (show d2 * 256 < 2 ^ 16 by omega)]
  have s2 : 2 ^ 16 * (d0 * 256 + d1) + d2 * 256 = 2 ^ 8 * (d0 * 65536 + d1 * 256 + d2) := by
    omega
  rw [s2, ← Nat.mul_add_lt_is_or (show d3 < 2 ^ 8 by omega)]
  omega

theorem and_255 (x : Nat) : x &&& 255 = x % 256 :=
  Nat.and_pow_two_sub_one_eq_mod x 8

/-- `DecodeDataInSequenceNr(EncodeDataInSequenceNr(b)) = b` for every 32-bit vector. -/
theorem seqnr_codec (b : DataBits) (hb : b.length = 32) :
    ∃ s, EncodeDataInSequenceNr b = some s ∧ s < W32 ∧ DecodeDataInSequenceNr s = b := by
  obtain ⟨data, hdata, hlen, hlt, hbits⟩ := BitsToData_spec b 4 (by omega) (by norm_num [W32])
  match data, hlen with
  | [d0, d1, d2, d3], _ =>
    have h0 : d0 < 256 := hlt d0 (by simp)
    have h1 : d1 < 256 := hlt d1 (by simp)
    have h2 : d2 < 256 := hlt d2 (by simp)
    have h3 : d3 < 256 := hlt d3 (by simp)
    refine ⟨d0 * 16777216 + d1 * 65536 + d2 * 256 + d3, ?_, ?_, ?_⟩
    · unfold EncodeDataInSequenceNr
      rw [if_pos hb, hdata]
      simp only [List.getD_cons_zero, List.getD_cons_succ]
      rw [seqnr_bytes d0 d1 d2 d3 h0 h1 h2 h3]
    · rw [W32_val]
      omega
    · unfold DecodeDataInSequenceNr
      simp only [and_255, Nat.shiftRight_eq_div_pow]
      have e0 : (d0 * 16777216 + d1 * 65536 + d2 * 256 + d3) / 2 ^ 24 % 256 = d0 := by omega
      have e1 : (d0 * 16777216 + d1 * 65536 + d2 * 256 + d3) / 2 ^ 16 % 256 = d1 := by omega
      have e2 : (d0 * 16777216 + d1 * 65536 + d2 * 256 + d3) / 2 ^ 8 % 256 = d2 := by omega
      have e3 : (d0 * 16777216 + d1 * 65536 + d2 * 256 + d3) % 256 = d3 := by omega
      rw [e0, e1, e2, e3]
      exact hbits

theorem toInt32_of_lt {n : Nat} (h : n < 2 ^ 31) : toInt32 n = (n : Int) := by
  unfold toInt32
  have hW := W32_val
  have : n % W32 = n := Nat.mod_eq_of_lt (by omega)
  rw [this, if_pos h]

/-- Padding to `w` bits and slicing `w` bits off, as the fixed-width channels do. -/
theorem pad_slice (bits : DataBits) (w : Nat) (hw : w < W32) :
    SliceBits (PadBits bits (w - min w bits.length)) w =
      some (bits.take (min w bits.length) ++ List.replicate (w - min w bits.length) false,
        bits.drop (min w bits.length)) := by
  have hW := W32_val
  unfold SliceBits PadBits
  rw [Nat.mod_eq_of_lt (show w - min w bits.length < W32 by omega), Nat.mod_eq_of_lt hw]
  rw [if_pos (by rw [List.length_append, List.length_replicate]; omega)]
  congr 1
  rcases Nat.le_total w bits.length with h | h
  · rw [Nat.min_eq_left h, Nat.sub_self]
    simp
  · rw [Nat.min_eq_right h]
    rw [List.take_append_eq_append_take, List.drop_append_eq_append_drop]
    rw [List.take_of_length_le h, List.take_of_length_le (Nat.le_refl _)]
    rw [List.drop_of_length_le h, List.drop_of_length_le (by simp), List.take_replicate,
      Nat.min_self]
    simp

/-! ## The sequence-number and nulldata channels -/

/-- C9 (as amended): for every bit vector `bits` of length `L < 2^31` (the length is
converted to `int`), `PackDataIntoSeqNr` removes exactly the first `min(32, L)` bits and
leaves the rest unchanged, `UnpackDataFromSeqNr` on the resulting input returns the
removed bits padded on the right with zeros to 32 bits, and
`DecodeDataInSequenceNr(EncodeDataInSequenceNr(b)) = b` for every 32-bit vector `b`. -/
theorem seqnr_channel (bits : DataBits) (txIn : CTxIn) (hL : bits.length < 2 ^ 31) :
    (∃ s, PackDataIntoSeqNr bits txIn
        = some (bits.drop (min 32 bits.length), { txIn with nSequence := s }) ∧
      UnpackDataFromSeqNr { txIn with nSequence := s }
        = bits.take (min 32 bits.length)
          ++ List.replicate (32 - min 32 bits.length) false) ∧
    (∀ b : DataBits, b.length = 32 →
      ∃ s, EncodeDataInSequenceNr b = some s ∧ DecodeDataInSequenceNr s = b) := by
  constructor
  · have hslice := pad_slice bits 32 (by norm_num [W32])
    obtain ⟨s, hs, _, hdec⟩ := seqnr_codec
      (bits.take (min 32 bits.length) ++ List.replicate (32 - min 32 bits.length) false)
      (by
        rw [List.length_append, List.length_take, List.length_replicate]
        omega)
    refine ⟨s, ?_, ?_⟩
    · unfold PackDataIntoSeqNr
      rw [toInt32_of_lt hL]
      have e1 : (32 : Int) - min 32 (bits.length : Int) = ((32 - min 32 bits.length : Nat) : Int) := by
        omega
      simp only [e1, Int.toNat_ofNat]
      rw [if_neg (by omega), hslice]
      simp only [hs]
    · unfold UnpackDataFromSeqNr
      exact hdec
  · intro b hb
    obtain ⟨s, hs, _, hdec⟩ := seqnr_codec b hb
    exact ⟨s, hs, hdec⟩

/-- Witness of C9 (amended): a vector of five bits. -/
theorem seqnr_channel_witness :
    (∃ s, PackDataIntoSeqNr [true, false, true, true, false] ⟨⟨0, 0⟩, [], 0⟩
        = some ([true, false, true, true, false].drop
            (min 32 [true, false, true, true, false].length),
          { (⟨⟨0, 0⟩, [], 0⟩ : CTxIn) with nSequence := s }) ∧
      UnpackDataFromSeqNr { (⟨⟨0, 0⟩, [], 0⟩ : CTxIn) with nSequence := s }
        = [true, false, true, true, false].take
            (min 32 [true, false, true, true, false].length)
          ++ List.replicate (32 - min 32 [true, false, true, true, false].length) false) ∧
    (∀ b : DataBits, b.length = 32 →
      ∃ s, EncodeDataInSequenceNr b = some s ∧ DecodeDataInSequenceNr s = b) :=
  seqnr_channel [true, false, true, true, false] ⟨⟨0, 0⟩, [], 0⟩ (by decide)

/-- What `PackDataIntoSeqNr` does when the length of the vector is a multiple of `2^32`:
`(int)bits.size()` is `0`, so 32 zero bits are appended before the first 32 bits are
sliced off. -/
theorem seqnr_length_wraps (bits : DataBits) (txIn : CTxIn) (h32 : 32 ≤ bits.length)
    (hL : bits.length % W32 = 0) :
    ∃ s, PackDataIntoSeqNr bits txIn
      = some (bits.drop 32 ++ List.replicate 32 false, { txIn with nSequence := s }) := by
  have hW := W32_val
  obtain ⟨s, hs, _, _⟩ := seqnr_codec (bits.take 32) (by
    rw [List.length_take]
    omega)
  refine ⟨s, ?_⟩
  unfold PackDataIntoSeqNr
  have e0 : toInt32 bits.length = 0 := by
    unfold toInt32
    rw [hL]
    simp
  have e1 : (32 : Int) - min 32 (0 : Int) = ((32 : Nat) : Int) := by decide
  simp only [e0, e1, Int.toNat_ofNat]
  rw [if_neg (by decide)]
  unfold SliceBits PadBits
  have e2 : 32 % W32 = 32 := by
    rw [hW]
  rw [e2, if_pos (by rw [List.length_append]; omega)]
  simp only []
  rw [List.take_append_of_le_length h32, List.drop_append_of_le_length h32, hs]

/-- C9, counterexample: on the vector of `2^32` zero bits `PackDataIntoSeqNr` does not
leave the bits after the first 32 unchanged: `2^32` bits are left, not `2^32 - 32`. -/
theorem seqnr_channel_counterexample :
    ¬ ∃ s, PackDataIntoSeqNr (List.replicate 4294967296 false) ⟨⟨0, 0⟩, [], 0⟩
      = some ((List.replicate 4294967296 false).drop
          (min 32 (List.replicate 4294967296 false).length),
        { (⟨⟨0, 0⟩, [], 0⟩ : CTxIn) with nSequence := s }) := by
  rintro ⟨s, hs⟩
  obtain ⟨s2, hs2⟩ := seqnr_length_wraps (List.replicate 4294967296 false) ⟨⟨0, 0⟩, [], 0⟩
    (by rw [List.length_replicate]; decide)
    (by rw [List.length_replicate, W32_val])
  rw [hs2] at hs
  have h := congrArg (fun r => (Option.map (fun p => p.1.length) r)) hs
  simp only [Option.map_some', List.length_append, List.length_drop, List.length_replicate,
    Option.some.injEq] at h
  omega

/-- C10 (as amended): for every bit vector `bits` of length `L < 2^31`,
`PackDataIntoNulldata` removes exactly the first `min(320, L)` bits and leaves the rest
unchanged, writes the script `OP_RETURN`, push-40, 40 payload bytes (with value `0`), and
`UnpackDataFromNulldata` on that output returns the removed bits padded on the right
with zeros to 320 bits. -/
theorem nulldata_channel (bits : DataBits) (txOut : CTxOut) (hL : bits.length < 2 ^ 31) :
    ∃ data : Data, data.length = 40 ∧
      PackDataIntoNulldata bits txOut
        = some (bits.drop (min 320 bits.length),
            { nValue := 0, scriptPubKey := OP_RETURN :: 40 :: data }) ∧
      UnpackDataFromNulldata { nValue := 0, scriptPubKey := OP_RETURN :: 40 :: data }
        = some (bits.take (min 320 bits.length)
          ++ List.replicate (320 - min 320 bits.length) false) := by
  have hslice := pad_slice bits 320 (by norm_num [W32])
  obtain ⟨data, hdata, hlen, _, hbits⟩ := BitsToData_spec
    (bits.take (min 320 bits.length) ++ List.replicate (320 - min 320 bits.length) false) 40
    (by
      rw [List.length_append, List.length_take, List.length_replicate]
      omega) (by norm_num [W32])
  refine ⟨data, hlen, ?_, ?_⟩
  · unfold PackDataIntoNulldata
    rw [toInt32_of_lt hL]
    have e1 : (320 : Int) - min 320 (bits.length : Int)
        = ((320 - min 320 bits.length : Nat) : Int) := by
      omega
    simp only [e1, Int.toNat_ofNat]
    rw [if_neg (by omega), hslice]
    simp only [hdata]
    have hp : pushData data = 40 :: data := by
      unfold pushData
      rw [hlen]
      simp
    rw [hp]
  · unfold UnpackDataFromNulldata
    simp only [List.length_cons, List.drop_succ_cons, List.drop_zero]
    rw [if_pos (by omega), hbits]

/-- Witness of C10 (amended): a vector of three bits. -/
theorem nulldata_channel_witness :
    ∃ data : Data, data.length = 40 ∧
      PackDataIntoNulldata [true, true, false] ⟨0, []⟩
        = some ([true, true, false].drop (min 320 [true, true, false].length),
            { nValue := 0, scriptPubKey := OP_RETURN :: 40 :: data }) ∧
      UnpackDataFromNulldata { nValue := 0, scriptPubKey := OP_RETURN :: 40 :: data }
        = some ([true, true, false].take (min 320 [true, true, false].length)
          ++ List.replicate (320 - min 320 [true, true, false].length) false) :=
  nulldata_channel [true, true, false] ⟨0, []⟩ (by decide)

/-- What `PackDataIntoNulldata` does when the length of the vector is a multiple of
`2^32`: `(int)bits.size()` is `0`, so 320 zero bits are appended before the first 320
bits are sliced off. -/
theorem nulldata_length_wraps (bits : DataBits) (txOut : CTxOut) (h320 : 320 ≤ bits.length)
    (hL : bits.length % W32 = 0) :
    ∃ out, PackDataIntoNulldata bits txOut
      = some (bits.drop 320 ++ List.replicate 320 false, out) := by
  have hW := W32_val
  obtain ⟨data, hdata, _, _, _⟩ := BitsToData_spec (bits.take 320) 40 (by
    rw [List.length_take]
    omega) (by norm_num [W32])
  refine ⟨{ nValue := 0, scriptPubKey := OP_RETURN :: pushData data }, ?_⟩
  unfold PackDataIntoNulldata
  have e0 : toInt32 bits.length = 0 := by
    unfold toInt32
    rw [hL]
    simp
  have e1 : (320 : Int) - min 320 (0 : Int) = ((320 : Nat) : Int) := by decide
  simp only [e0, e1, Int.toNat_ofNat]
  rw [if_neg (by decide)]
  unfold SliceBits PadBits
  have e2 : 320 % W32 = 320 := by
    rw [hW]
  rw [e2, if_pos (by rw [List.length_append]; omega)]
  simp only []
  rw [List.take_append_of_le_length h320, List.drop_append_of_le_length h320, hdata]

/-- C10, counterexample: on the vector of `2^32` zero bits `PackDataIntoNulldata` leaves
`2^32` bits, not the `2^32 - 320` bits after the first 320. -/
theorem nulldata_channel_counterexample :
    ¬ ∃ out, PackDataIntoNulldata (List.replicate 4294967296 false) ⟨0, []⟩
      = some ((List.replicate 4294967296 false).drop
          (min 320 (List.replicate 4294967296 false).length), out) := by
  rintro ⟨out, hout⟩
  obtain ⟨out2, hout2⟩ := nulldata_length_wraps (List.replicate 4294967296 false) ⟨0, []⟩
    (by rw [List.length_replicate]; decide)
    (by rw [List.length_replicate, W32_val])
  rw [hout2] at hout
  have h := congrArg (fun r => (Option.map (fun p => p.1.length) r)) hout
  simp only [Option.map_some', List.length_append, List.length_drop, List.length_replicate,
    Option.some.injEq] at h
  omega

/-! ## Bit vectors and integers -/

theorem bitsVal_concat (l : DataBits) (b : Bool) :
    bitsVal (l ++ [b]) = 2 * bitsVal l + b.toNat := by
  unfold bitsVal
  rw [List.foldl_append]
  rfl

theorem bitsVal_lt : ∀ (bits : DataBits), bitsVal bits < 2 ^ bits.length := by
  intro bits
  induction bits using List.reverseRecOn with
  | nil => simp [bitsVal]
  | append_singleton l b ih =>
    rw [bitsVal_concat, List.length_append, List.length_singleton, Nat.pow_succ]
    have : b.toNat ≤ 1 := by cases b <;> simp
    omega

theorem foldl_double (l : DataBits) :
    l.foldl (fun num b => (num + b.toNat) * 2) 0 = 2 * bitsVal l := by
  induction l using List.reverseRecOn with
  | nil => rfl
  | append_singleton l b ih =>
    rw [List.foldl_append, bitsVal_concat]
    simp only [List.foldl_cons, List.foldl_nil]
    rw [ih]
    omega

theorem DataBitsToInt_eq (data : DataBits) (h0 : 0 < data.length) (h1 : data.length ≤ W32) :
    DataBitsToInt data = some ((bitsVal data : Nat) : Int) := by
  unfold DataBitsToInt
  rw [if_neg (by omega)]
  rcases List.eq_nil_or_concat data with h | ⟨l, b, h⟩
  · subst h
    simp at h0
  · subst h
    rw [List.concat_eq_append, List.dropLast_concat, foldl_double, bitsVal_concat]
    simp [List.getLastD_concat]

theorem IntToDataBits_loop_fuel : ∀ (n fuel1 fuel2 : Nat) (acc : DataBits), n ≤ fuel1 →
    n ≤ fuel2 →
    IntToDataBits.loop fuel1 (n : Int) acc = IntToDataBits.loop fuel2 (n : Int) [] ++ acc := by
  intro n
  induction n using Nat.strong_induction_on with
  | _ n ih =>
    intro fuel1 fuel2 acc h1 h2
    rcases Nat.eq_zero_or_pos n with hn | hn
    · subst hn
      cases fuel1 <;> cases fuel2 <;> simp [IntToDataBits.loop]
    · obtain ⟨f1, rfl⟩ : ∃ f, fuel1 = f + 1 := ⟨fuel1 - 1, by omega⟩
      obtain ⟨f2, rfl⟩ : ∃ f, fuel2 = f + 1 := ⟨fuel2 - 1, by omega⟩
      have hne : ((n : Nat) : Int) ≠ 0 := by omega
      have hdiv : Int.tdiv ((n : Nat) : Int) 2 = ((n / 2 : Nat) : Int) :=
        (Int.ofNat_tdiv n 2).symm
      rw [IntToDataBits.loop, IntToDataBits.loop, if_neg hne, if_neg hne, hdiv]
      rw [ih (n / 2) (by omega) f1 f2 _ (by omega) (by omega)]
      rw [ih (n / 2) (by omega) f2 f2 [decide (((n : Nat) : Int) % 2 = 1)] (by omega)
        (by omega)]
      simp

theorem IntToDataBits_zero : IntToDataBits 0 = [] := rfl

theorem IntToDataBits_double (v : Nat) (b : Bool) (h : 2 * v + b.toNat ≠ 0) :
    IntToDataBits ((2 * v + b.toNat : Nat) : Int) = IntToDataBits ((v : Nat) : Int) ++ [b] := by
  unfold IntToDataBits
  simp only [Int.natAbs_ofNat]
  obtain ⟨f, hf⟩ : ∃ f, 2 * v + b.toNat = f + 1 := ⟨2 * v + b.toNat - 1, by omega⟩
  rw [hf, IntToDataBits.loop, ← hf]
  have hne : ((2 * v + b.toNat : Nat) : Int) ≠ 0 := by omega
  have hdiv : Int.tdiv ((2 * v + b.toNat : Nat) : Int) 2 = ((v : Nat) : Int) := by
    have hb1 : b.toNat ≤ 1 := by cases b <;> simp
    have e : (2 * v + b.toNat) / 2 = v := by omega
    have := (Int.ofNat_tdiv (2 * v + b.toNat) 2).symm
    rw [e] at this
    exact this
  have hbit : decide (((2 * v + b.toNat : Nat) : Int) % 2 = 1) = b := by
    cases b <;> simp <;> omega
  rw [if_neg hne, hdiv, hbit]
  exact IntToDataBits_loop_fuel v f v [b] (by omega) (by omega)

/-- Left-padding the minimal encoding of the value of a bit vector to the length of the
vector gives the vector back. -/
theorem padFront_IntToDataBits : ∀ (bits : DataBits),
    padFront bits.length (IntToDataBits ((bitsVal bits : Nat) : Int)) = some bits := by
  intro bits
  induction bits using List.reverseRecOn with
  | nil => rfl
  | append_singleton l b ih =>
    rw [bitsVal_concat]
    unfold padFront at ih ⊢
    by_cases hz : 2 * bitsVal l + b.toNat = 0
    · have hv : bitsVal l = 0 := by omega
      have hb : b = false := by
        cases b
        · rfl
        · simp at hz
      rw [hv] at ih
      rw [hz]
      simp only [Nat.cast_zero, IntToDataBits_zero, List.length_nil, Nat.zero_le, if_true,
        Nat.sub_zero, List.append_nil, Option.some.injEq] at ih ⊢
      rw [List.length_append, List.length_singleton, List.replicate_succ', ih, hb]
    · rw [IntToDataBits_double _ _ hz]
      by_cases hle : (IntToDataBits ((bitsVal l : Nat) : Int)).length ≤ l.length
      · rw [if_pos hle] at ih
        simp only [Option.some.injEq] at ih
        rw [if_pos (by simp only [List.length_append, List.length_singleton]; omega)]
        simp only [List.length_append, List.length_singleton, Nat.add_sub_add_right,
          Option.some.injEq]
        rw [← List.append_assoc, ih]
      · rw [if_neg hle] at ih
        exact absurd ih (by simp)

/-! ## The budget-claim channel (permutation of the claimed outputs) -/

theorem slice_then_pad (bits : DataBits) (C : Nat) (hC : C < W32) (hL : bits.length < W32) :
    SliceBits bits (min C (bits.length % W32))
        = some (bits.take (min C bits.length), bits.drop (min C bits.length)) ∧
      PadBits (bits.take (min C bits.length)) (C - min C (bits.length % W32))
        = bits.take (min C bits.length) ++ List.replicate (C - min C bits.length) false ∧
      (bits.take (min C bits.length)
        ++ List.replicate (C - min C bits.length) false).length = C := by
  have hW := W32_val
  rw [Nat.mod_eq_of_lt hL]
  have hm : min C bits.length % W32 = min C bits.length := Nat.mod_eq_of_lt (by omega)
  refine ⟨?_, ?_, ?_⟩
  · unfold SliceBits
    rw [hm, if_pos (by omega)]
  · unfold PadBits
    rw [Nat.mod_eq_of_lt (by omega)]
  · rw [List.length_append, List.length_take, List.length_replicate]
    omega

theorem zipWith_prevout_n : ∀ (xs : List CTxIn) (p : List Nat), xs.length = p.length →
    (List.zipWith (fun (i : CTxIn) q => { i with prevout := { i.prevout with n := q } })
      xs p).map (fun i => i.prevout.n % W16) = p.map (fun q => q % W16) := by
  intro xs
  induction xs with
  | nil =>
    intro p h
    have : p = [] := List.length_eq_zero.mp h.symm
    subst this
    rfl
  | cons x xs ih =>
    intro p h
    match p, h with
    | q :: p, h =>
      simp only [List.length_cons, Nat.add_right_cancel_iff] at h
      simp only [List.zipWith_cons_cons, List.map_cons]
      rw [ih p h]

theorem map_mod_of_lt (p : List Nat) (m : Nat) (h : ∀ q ∈ p, q < m) :
    p.map (fun q => q % m) = p := by
  induction p with
  | nil => rfl
  | cons q p ih =>
    rw [List.map_cons, Nat.mod_eq_of_lt (h q (List.mem_cons_self _ _)),
      ih (fun x hx => h x (List.mem_cons_of_mem _ hx))]

/-- The codec of the budget-claim channel: a vector of exactly
`EmbeddableBitsInPermutation(k)` bits is encoded as a permutation of `0, ..., k-1` and
decoded back. -/
theorem perm_codec (lg : Nat → Nat) (slice : DataBits) (k : Nat) (hk2 : 2 ≤ k)
    (hk16 : k < W16) (hlg : LogFits lg (Factorial k))
    (hlen : slice.length = EmbeddableBitsInPermutation lg k) :
    ∃ p, EncodeDataInPermutation lg slice k = some p ∧ p.Perm (List.range k) ∧
      DecodeDataInPermutation lg p = some slice := by
  have hW := W32_val
  have hW16 := W16_val
  obtain ⟨hC1, hC32, hCpow⟩ := hlg
  have hk16m : k % W16 = k := Nat.mod_eq_of_lt hk16
  have hC : EmbeddableBitsInPermutation lg k = lg (Factorial k) := rfl
  rw [hC] at hlen
  have hidx : DataBitsToInt slice = some ((bitsVal slice : Nat) : Int) :=
    DataBitsToInt_eq slice (by omega) (by omega)
  have hval : ((bitsVal slice : Nat) : Int) < ((Nat.factorial k : Nat) : Int) := by
    have h1 := bitsVal_lt slice
    rw [hlen] at h1
    have hF := Factorial_eq hk16
    exact Int.ofNat_lt.mpr (by omega)
  obtain ⟨p, hp, hperm, hrank⟩ := rank_unrank_perm_loop k (List.range k)
    ((bitsVal slice : Nat) : Int) (List.length_range k) (List.pairwise_lt_range k) hk16
    (Int.ofNat_nonneg _) hval
  have hplen : p.length = k := by rw [hperm.length_eq, List.length_range]
  refine ⟨p, ?_, hperm, ?_⟩
  · unfold EncodeDataInPermutation
    rw [hk16m, if_pos ⟨hk2, by rw [hlen, hC]⟩, hidx]
    unfold IntegerToPermutation
    rw [hk16m]
    exact hp
  · unfold DecodeDataInPermutation
    rw [hplen, hk16m, if_pos hk2]
    unfold PermutationToInteger
    rw [hplen, if_neg (by omega), hrank]
    simp only []
    have := padFront_IntToDataBits slice
    rw [hlen] at this
    rw [hC, this]

/-- Writing a permutation of `k < 2^16` elements into the `prevout.n` fields of `k`
inputs and reading the fields back gives the permutation. -/
theorem claim_fields (txInputs : List CTxIn) (p : List Nat) (k : Nat)
    (hk : txInputs.length = k) (hk16 : k < W16) (hperm : p.Perm (List.range k)) :
    ((List.zipWith (fun (i : CTxIn) q => { i with prevout := { i.prevout with n := q } })
        (txInputs.take (k % W32)) p ++ txInputs.drop (k % W32)).take
      ((List.zipWith (fun (i : CTxIn) q => { i with prevout := { i.prevout with n := q } })
        (txInputs.take (k % W32)) p ++ txInputs.drop (k % W32)).length % W32)).map
        (fun (i : CTxIn) => i.prevout.n % W16) = p := by
  have hW := W32_val
  have hW16 := W16_val
  have hk32 : k % W32 = k := Nat.mod_eq_of_lt (by omega)
  have hplen : p.length = k := by rw [hperm.length_eq, List.length_range]
  have hplt : ∀ q ∈ p, q < W16 := by
    intro q hq
    have := List.mem_range.mp (hperm.mem_iff.mp hq)
    omega
  have hdrop : txInputs.drop k = [] := List.drop_of_length_le (by omega)
  have htake : txInputs.take k = txInputs := List.take_of_length_le (by omega)
  have hzlen : (List.zipWith
      (fun (i : CTxIn) q => { i with prevout := { i.prevout with n := q } })
      txInputs p).length = k := by
    rw [List.length_zipWith, hk, hplen, Nat.min_self]
  rw [hk32, hdrop, htake, List.append_nil, hzlen, hk32, List.take_of_length_le (by omega),
    zipWith_prevout_n txInputs p (by omega), map_mod_of_lt p W16 hplt]

/-- C8 (as amended): for every bit vector `bits` of length `L < 2^32`, every number
`k` of inputs with `2 <= k < 2^16`, and a logarithm that fits `k!`, with
`C = EmbeddableBitsInPermutation(k)`: `PackDataIntoBudgetClaim` removes exactly the first
`min(C, L)` bits and leaves the rest unchanged, and `UnpackDataFromBudgetClaim` on the
resulting inputs returns the removed bits padded on the right with zeros to `C` bits. -/
theorem budget_claim_channel (lg : Nat → Nat) (bits : DataBits) (txInputs : List CTxIn)
    (k : Nat) (hk : txInputs.length = k) (hk2 : 2 ≤ k) (hk16 : k < W16)
    (hL : bits.length < W32) (hlg : LogFits lg (Factorial k)) :
    ∃ ins, PackDataIntoBudgetClaim lg bits txInputs
        = some (bits.drop (min (EmbeddableBitsInPermutation lg k) bits.length), ins) ∧
      UnpackDataFromBudgetClaim lg ins
        = some (bits.take (min (EmbeddableBitsInPermutation lg k) bits.length)
          ++ List.replicate (EmbeddableBitsInPermutation lg k
              - min (EmbeddableBitsInPermutation lg k) bits.length) false) := by
  have hW := W32_val
  have hW16 := W16_val
  have hk32 : k % W32 = k := Nat.mod_eq_of_lt (by omega)
  obtain ⟨hslice, hpad, hlen⟩ := slice_then_pad bits (EmbeddableBitsInPermutation lg k)
    hlg.2.1 hL
  obtain ⟨p, henc, hperm, hdec⟩ := perm_codec lg _ k hk2 hk16 hlg hlen
  have hplen : p.length = k := by rw [hperm.length_eq, List.length_range]
  refine ⟨List.zipWith
    (fun (i : CTxIn) q => { i with prevout := { i.prevout with n := q } })
    (txInputs.take k) p ++ txInputs.drop k, ?_, ?_⟩
  · unfold PackDataIntoBudgetClaim
    simp only [hk, hk32, hslice, hpad, henc]
    rw [if_neg (by omega)]
  · unfold UnpackDataFromBudgetClaim
    have h := claim_fields txInputs p k hk hk16 hperm
    rw [hk32] at h
    rw [h, hdec]

/-- Witness of C8 (amended): three inputs (`3! = 6`, two bits) and a vector of three
bits, with the floor of the binary logarithm. -/
theorem budget_claim_channel_witness :
    ∃ ins, PackDataIntoBudgetClaim floorLog2 [true, false, true]
          [⟨⟨0, 0⟩, [], 0⟩, ⟨⟨0, 0⟩, [], 0⟩, ⟨⟨0, 0⟩, [], 0⟩]
        = some ([true, false, true].drop
            (min (EmbeddableBitsInPermutation floorLog2 3) [true, false, true].length), ins) ∧
      UnpackDataFromBudgetClaim floorLog2 ins
        = some ([true, false, true].take
            (min (EmbeddableBitsInPermutation floorLog2 3) [true, false, true].length)
          ++ List.replicate (EmbeddableBitsInPermutation floorLog2 3
              - min (EmbeddableBitsInPermutation floorLog2 3) [true, false, true].length)
              false) :=
  budget_claim_channel floorLog2 [true, false, true]
    [⟨⟨0, 0⟩, [], 0⟩, ⟨⟨0, 0⟩, [], 0⟩, ⟨⟨0, 0⟩, [], 0⟩] 3 (by decide) (by decide) (by decide)
    (by decide) (by unfold LogFits; decide)

/-- What `PackDataIntoBudgetClaim` does when the length of the vector is a multiple of
`2^32`: `(uint32_t)bits.size()` is `0`, so no bit is removed and the permutation encodes
zeros. -/
theorem budget_claim_length_wraps (lg : Nat → Nat) (bits : DataBits) (txInputs : List CTxIn)
    (k : Nat) (hk : txInputs.length = k) (hk2 : 2 ≤ k) (hk16 : k < W16)
    (hL : bits.length % W32 = 0) (hlg : LogFits lg (Factorial k)) :
    ∃ ins, PackDataIntoBudgetClaim lg bits txInputs = some (bits, ins) := by
  have hW := W32_val
  have hW16 := W16_val
  have hk32 : k % W32 = k := Nat.mod_eq_of_lt (by omega)
  have hC32 := hlg.2.1
  obtain ⟨p, henc, hperm, _⟩ := perm_codec lg
    (List.replicate (EmbeddableBitsInPermutation lg k) false) k hk2 hk16 hlg
    (List.length_replicate _ _)
  have hplen : p.length = k := by rw [hperm.length_eq, List.length_range]
  refine ⟨List.zipWith
    (fun (i : CTxIn) q => { i with prevout := { i.prevout with n := q } })
    (txInputs.take k) p ++ txInputs.drop k, ?_⟩
  unfold PackDataIntoBudgetClaim
  have hs : SliceBits bits 0 = some ([], bits) := by
    unfold SliceBits
    simp
  have hp : PadBits [] (EmbeddableBitsInPermutation lg k)
      = List.replicate (EmbeddableBitsInPermutation lg k) false := by
    unfold PadBits
    have e : EmbeddableBitsInPermutation lg k % W32 = EmbeddableBitsInPermutation lg k :=
      Nat.mod_eq_of_lt hC32
    rw [e]
    simp
  simp only [hk, hk32, hL, Nat.min_zero, Nat.zero_min, Nat.sub_zero, hs, hp, henc]
  rw [if_neg (by omega)]

/-- C8, counterexample: on the vector of `2^32` one bits and two inputs
`PackDataIntoBudgetClaim` removes no bit, although the channel is one bit wide. -/
theorem budget_claim_channel_counterexample :
    ¬ ∃ ins, PackDataIntoBudgetClaim floorLog2 (List.replicate 4294967296 true)
          [⟨⟨0, 0⟩, [], 0⟩, ⟨⟨0, 0⟩, [], 0⟩]
        = some ((List.replicate 4294967296 true).drop
            (min (EmbeddableBitsInPermutation floorLog2 2)
              (List.replicate 4294967296 true).length), ins) := by
  rintro ⟨ins, hins⟩
  obtain ⟨ins2, hins2⟩ := budget_claim_length_wraps floorLog2 (List.replicate 4294967296 true)
    [⟨⟨0, 0⟩, [], 0⟩, ⟨⟨0, 0⟩, [], 0⟩] 2 rfl (by decide) (by decide)
    (by rw [List.length_replicate, W32_val]) (by unfold LogFits; decide)
  rw [hins2] at hins
  have h := congrArg (fun r => (Option.map (fun p => p.1.length) r)) hins
  have hC : EmbeddableBitsInPermutation floorLog2 2 = 1 := by decide
  simp only [Option.map_some', List.length_drop, List.length_replicate, hC,
    Option.some.injEq] at h
  omega

/-! ## The budget-split channel (composition of the budget) -/

theorem slice_pad_general (bits : DataBits) (C : Nat) (hC : C < W32) :
    SliceBits bits (min C (bits.length % W32))
        = some (bits.take (min C (bits.length % W32)),
            bits.drop (min C (bits.length % W32))) ∧
      PadBits (bits.take (min C (bits.length % W32))) (C - min C (bits.length % W32))
        = bits.take (min C (bits.length % W32))
          ++ List.replicate (C - min C (bits.length % W32)) false ∧
      (bits.take (min C (bits.length % W32))
        ++ List.replicate (C - min C (bits.length % W32)) false).length = C := by
  have hW := W32_val
  have hle : bits.length % W32 ≤ bits.length := Nat.mod_le _ _
  have hm : min C (bits.length % W32) % W32 = min C (bits.length % W32) :=
    Nat.mod_eq_of_lt (by omega)
  refine ⟨?_, ?_, ?_⟩
  · unfold SliceBits
    rw [hm, if_pos (by omega)]
  · unfold PadBits
    have e : (C - min C (bits.length % W32)) % W32 = C - min C (bits.length % W32) :=
      Nat.mod_eq_of_lt (by omega)
    rw [e]
  · rw [List.length_append, List.length_take, List.length_replicate]
    omega

/-- The codec of the budget-split channel: a vector of exactly
`EmbeddableBitsInValues(n, k)` bits is encoded as a composition of `n` into `k` parts and
decoded back. -/
theorem values_codec (lg : Nat → Nat) (root : Int → Nat → Nat) (slice : DataBits)
    (n k : Nat) (hn : n < W64) (hk2 : 2 ≤ k) (hk16 : k < W16)
    (hlg : LogFits lg (NumberCompositions n k))
    (hlen : slice.length = EmbeddableBitsInValues lg n k) :
    ∃ c, EncodeDataInValues lg root slice n k = some c ∧ c.length = k ∧ c.sum = n ∧
      DecodeDataInValues lg c = some slice := by
  have hW := W32_val
  have hW16 := W16_val
  have hW64 := W64_val
  obtain ⟨hC1, hC32, hCpow⟩ := hlg
  have hk16m : k % W16 = k := Nat.mod_eq_of_lt hk16
  have hn64 : n % W64 = n := Nat.mod_eq_of_lt hn
  have hC : EmbeddableBitsInValues lg n k = lg (NumberCompositions n k) := rfl
  rw [hC] at hlen
  have hpos : 0 < 2 ^ lg (NumberCompositions n k) := Nat.pos_pow_of_pos _ (by omega)
  have hword := NumberCompositions_word hn (show 1 ≤ k by omega) hk16
  have hnk : n + k - 1 < W64 := by
    by_contra hcon
    rw [if_neg hcon] at hword
    omega
  rw [if_pos hnk] at hword
  have hidx : DataBitsToInt slice = some ((bitsVal slice : Nat) : Int) :=
    DataBitsToInt_eq slice (by omega) (by omega)
  have hval : ((bitsVal slice : Nat) : Int) < ((weakCompositions n k : Nat) : Int) := by
    have h1 := bitsVal_lt slice
    rw [hlen] at h1
    exact Int.ofNat_lt.mpr (by omega)
  obtain ⟨c, hc, hclen, hcsum, hrank⟩ := rank_unrank_loop root (k - 1) n k
    ((bitsVal slice : Nat) : Int) (by omega) hnk hk16 (Int.ofNat_nonneg _) hval
  refine ⟨c, ?_, hclen, hcsum, ?_⟩
  · unfold EncodeDataInValues
    rw [hk16m, if_pos ⟨by rw [hlen, hC], hk2⟩, hidx]
    simp only []
    unfold IntegerToComposition
    rw [hk16m, hn64, if_neg (by omega)]
    exact hc
  · unfold DecodeDataInValues
    rw [hclen, hcsum, hk16m, hn64, if_pos hk2]
    unfold CompositionToInteger
    rw [hclen, hcsum, hk16m, hn64, hrank]
    simp only []
    have := padFront_IntToDataBits slice
    rw [hlen] at this
    rw [hC, this]

theorem zipWith_nValue : ∀ (xs : List CTxOut) (c : List Nat) (lbound : Nat),
    xs.length = c.length → (∀ v ∈ c, v + lbound < W64) →
    (List.zipWith (fun (o : CTxOut) v => { o with nValue := (v + lbound % W64) % W64 })
      xs c).map (fun (o : CTxOut) => o.nValue) = c.map (fun v => v + lbound) := by
  intro xs
  induction xs with
  | nil =>
    intro c lbound h _
    have : c = [] := List.length_eq_zero.mp h.symm
    subst this
    rfl
  | cons x xs ih =>
    intro c lbound h hlt
    match c, h with
    | v :: c, h =>
      simp only [List.length_cons, Nat.add_right_cancel_iff] at h
      have hv := hlt v (List.mem_cons_self _ _)
      have hl : lbound % W64 = lbound := Nat.mod_eq_of_lt (by omega)
      simp only [List.zipWith_cons_cons, List.map_cons]
      rw [ih c lbound h (fun w hw => hlt w (List.mem_cons_of_mem _ hw)), hl,
        Nat.mod_eq_of_lt hv]

theorem le_sum_of_mem : ∀ (c : List Nat) (v : Nat), v ∈ c → v ≤ c.sum := by
  intro c
  induction c with
  | nil => intro v h; simp at h
  | cons a c ih =>
    intro v h
    rw [List.sum_cons]
    rcases List.mem_cons.mp h with h1 | h1
    · omega
    · have := ih v h1
      omega

theorem sum_map_add (c : List Nat) (b : Nat) :
    (c.map (fun v => v + b)).sum = c.sum + c.length * b := by
  induction c with
  | nil => simp
  | cons a c ih =>
    rw [List.map_cons, List.sum_cons, List.sum_cons, List.length_cons, ih, Nat.succ_mul]
    omega

theorem map_sub64_add (c : List Nat) (lbound : Nat) (h : ∀ v ∈ c, v + lbound < W64) :
    (c.map (fun v => v + lbound)).map (fun w => sub64 w lbound) = c := by
  induction c with
  | nil => rfl
  | cons a c ih =>
    have ha := h a (List.mem_cons_self _ _)
    rw [List.map_cons, List.map_cons, ih (fun w hw => h w (List.mem_cons_of_mem _ hw)),
      sub64_of_le (by omega) ha]
    congr 1
    omega

/-- What `PackDataIntoBudgetSplit` computes: the bits it removes are encoded as a
composition `c` of `budget - k * lbound`, and output `i` gets the value `c[i] + lbound`. -/
theorem budget_split_spec (lg : Nat → Nat) (root : Int → Nat → Nat) (bits : DataBits)
    (txOuts : List CTxOut) (k budget lbound : Nat) (hk : txOuts.length = k) (hk2 : 2 ≤ k)
    (hk16 : k < W16) (hb : budget < W64) (hlb : k * lbound < budget)
    (hlg : LogFits lg (NumberCompositions (budget - k * lbound) k)) :
    ∃ c : List Nat, c.length = k ∧ c.sum = budget - k * lbound ∧
      PackDataIntoBudgetSplit lg root bits txOuts budget lbound
        = some (bits.drop (min (EmbeddableBitsInValues lg (budget - k * lbound) k)
              (bits.length % W32)),
            List.zipWith (fun (o : CTxOut) v => { o with nValue := (v + lbound % W64) % W64 })
              txOuts c) ∧
      DecodeDataInValues lg c
        = some (bits.take (min (EmbeddableBitsInValues lg (budget - k * lbound) k)
              (bits.length % W32))
            ++ List.replicate (EmbeddableBitsInValues lg (budget - k * lbound) k
                - min (EmbeddableBitsInValues lg (budget - k * lbound) k)
                    (bits.length % W32)) false) := by
  have hW := W32_val
  have hW16 := W16_val
  have hW64 := W64_val
  have hk32 : k % W32 = k := Nat.mod_eq_of_lt (by omega)
  have hlbk : lbound ≤ k * lbound := Nat.le_mul_of_pos_left _ (by omega)
  have hl64 : lbound % W64 = lbound := Nat.mod_eq_of_lt (by omega)
  have hkl : (k * lbound) % W64 = k * lbound := Nat.mod_eq_of_lt (by omega)
  have hrest : sub64 budget (k * lbound) = budget - k * lbound :=
    sub64_of_le (by omega) hb
  obtain ⟨hslice, hpad, hlen⟩ := slice_pad_general bits
    (EmbeddableBitsInValues lg (budget - k * lbound) k) hlg.2.1
  obtain ⟨c, henc, hclen, hcsum, hdec⟩ := values_codec lg root _ (budget - k * lbound) k
    (by omega) hk2 hk16 hlg hlen
  refine ⟨c, hclen, hcsum, ?_, hdec⟩
  unfold PackDataIntoBudgetSplit
  simp only [hk, hk32, hl64, hkl, hrest, Nat.mod_eq_of_lt hb, hslice, hpad, henc]
  rw [if_pos (by omega), if_neg (by omega)]
  have hdrop : txOuts.drop k = [] := List.drop_of_length_le (by omega)
  have htake : txOuts.take k = txOuts := List.take_of_length_le (by omega)
  rw [hdrop, htake, List.append_nil]

/-- Reading back the values written by `PackDataIntoBudgetSplit`: subtracting `lbound`
from the output values gives the composition. -/
theorem split_fields (txOuts : List CTxOut) (c : List Nat) (k budget lbound : Nat)
    (hk : txOuts.length = k) (hk16 : k < W16) (hb : budget < W64) (hclen : c.length = k)
    (hcsum : c.sum + lbound ≤ budget) :
    ((List.zipWith (fun (o : CTxOut) v => { o with nValue := (v + lbound % W64) % W64 })
        txOuts c).take
      ((List.zipWith (fun (o : CTxOut) v => { o with nValue := (v + lbound % W64) % W64 })
        txOuts c).length % W32)).map (fun (o : CTxOut) => sub64 o.nValue lbound) = c := by
  have hW := W32_val
  have hW16 := W16_val
  have hlt : ∀ v ∈ c, v + lbound < W64 := by
    intro v hv
    have := le_sum_of_mem c v hv
    omega
  have hzlen : (List.zipWith
      (fun (o : CTxOut) v => { o with nValue := (v + lbound % W64) % W64 })
      txOuts c).length = k := by
    rw [List.length_zipWith, hk, hclen, Nat.min_self]
  rw [hzlen, Nat.mod_eq_of_lt (show k < W32 by omega), List.take_of_length_le (by omega)]
  have h1 := zipWith_nValue txOuts c lbound (by omega) hlt
  have h2 : (List.zipWith
      (fun (o : CTxOut) v => { o with nValue := (v + lbound % W64) % W64 })
      txOuts c).map (fun (o : CTxOut) => sub64 o.nValue lbound)
      = ((List.zipWith
          (fun (o : CTxOut) v => { o with nValue := (v + lbound % W64) % W64 })
          txOuts c).map (fun (o : CTxOut) => o.nValue)).map (fun w => sub64 w lbound) := by
    rw [List.map_map]
    rfl
  rw [h2, h1, map_sub64_add c lbound hlt]

/-- C7 (as amended): for every bit vector `bits` of length `L < 2^32`, every number
`k` of outputs with `2 <= k < 2^16`, every lower bound and 64-bit budget with
`budget > k * lbound`, and a logarithm that fits, with
`C = EmbeddableBitsInValues(budget - k*lbound, k)`: `PackDataIntoBudgetSplit` removes
exactly the first `min(C, L)` bits and leaves the rest unchanged, and
`UnpackDataFromBudgetSplit` on the resulting outputs returns the removed bits padded on
the right with zeros to `C` bits. -/
theorem budget_split_channel (lg : Nat → Nat) (root : Int → Nat → Nat) (bits : DataBits)
    (txOuts : List CTxOut) (k budget lbound : Nat) (hk : txOuts.length = k) (hk2 : 2 ≤ k)
    (hk16 : k < W16) (hb : budget < W64) (hlb : k * lbound < budget)
    (hL : bits.length < W32)
    (hlg : LogFits lg (NumberCompositions (budget - k * lbound) k)) :
    ∃ outs, PackDataIntoBudgetSplit lg root bits txOuts budget lbound
        = some (bits.drop (min (EmbeddableBitsInValues lg (budget - k * lbound) k)
            bits.length), outs) ∧
      UnpackDataFromBudgetSplit lg outs lbound
        = some (bits.take (min (EmbeddableBitsInValues lg (budget - k * lbound) k)
            bits.length)
          ++ List.replicate (EmbeddableBitsInValues lg (budget - k * lbound) k
              - min (EmbeddableBitsInValues lg (budget - k * lbound) k) bits.length)
              false) := by
  obtain ⟨c, hclen, hcsum, hpack, hdec⟩ :=
    budget_split_spec lg root bits txOuts k budget lbound hk hk2 hk16 hb hlb hlg
  rw [Nat.mod_eq_of_lt hL] at hpack hdec
  refine ⟨_, hpack, ?_⟩
  unfold UnpackDataFromBudgetSplit
  have hlbk : lbound ≤ k * lbound := Nat.le_mul_of_pos_left _ (by omega)
  rw [split_fields txOuts c k budget lbound hk hk16 hb hclen (by omega), hdec]

/-- Witness of C7 (amended): two outputs, lower bound 546, budget 1094 (one bit) and a
vector of three bits, with the floor of the binary logarithm. -/
theorem budget_split_channel_witness :
    ∃ outs, PackDataIntoBudgetSplit floorLog2 (fun _ _ => 0) [true, false, true]
          [⟨0, []⟩, ⟨0, []⟩] 1094 546
        = some ([true, false, true].drop
            (min (EmbeddableBitsInValues floorLog2 (1094 - 2 * 546) 2)
              [true, false, true].length), outs) ∧
      UnpackDataFromBudgetSplit floorLog2 outs 546
        = some ([true, false, true].take
            (min (EmbeddableBitsInValues floorLog2 (1094 - 2 * 546) 2)
              [true, false, true].length)
          ++ List.replicate (EmbeddableBitsInValues floorLog2 (1094 - 2 * 546) 2
              - min (EmbeddableBitsInValues floorLog2 (1094 - 2 * 546) 2)
                  [true, false, true].length) false) :=
  budget_split_channel floorLog2 (fun _ _ => 0) [true, false, true] [⟨0, []⟩, ⟨0, []⟩] 2
    1094 546 (by decide) (by decide) (by decide) (by decide) (by decide) (by decide)
    (by unfold LogFits; decide)

/-- C7, counterexample: on the vector of `2^32` one bits, two outputs, lower bound 546
and budget 1094 `PackDataIntoBudgetSplit` removes no bit, although the channel is one bit
wide. -/
theorem budget_split_channel_counterexample :
    ¬ ∃ outs, PackDataIntoBudgetSplit floorLog2 (fun _ _ => 0)
          (List.replicate 4294967296 true) [⟨0, []⟩, ⟨0, []⟩] 1094 546
        = some ((List.replicate 4294967296 true).drop
            (min (EmbeddableBitsInValues floorLog2 (1094 - 2 * 546) 2)
              (List.replicate 4294967296 true).length), outs) := by
  rintro ⟨outs, houts⟩
  obtain ⟨c, _, _, hpack, _⟩ := budget_split_spec floorLog2 (fun _ _ => 0)
    (List.replicate 4294967296 true) [⟨0, []⟩, ⟨0, []⟩] 2 1094 546 rfl (by decide)
    (by decide) (by decide) (by decide) (by unfold LogFits; decide)
  rw [hpack] at houts
  have h := congrArg (fun r => (Option.map (fun p => p.1.length) r)) houts
  have hC : EmbeddableBitsInValues floorLog2 (1094 - 2 * 546) 2 = 1 := by decide
  have hm : (4294967296 : Nat) % W32 = 0 := by rw [W32_val]
  simp only [Option.map_some', List.length_drop, List.length_replicate, hC, hm,
    Option.some.injEq] at h
  omega

/-- C13: for every bit vector, every number `k` of outputs with `2 <= k < 2^16`, every
lower bound and 64-bit budget with `budget > k * lbound` (and a logarithm that fits),
`PackDataIntoBudgetSplit` succeeds, every one of the `k` output values is at least
`lbound`, and the `k` output values sum to exactly `budget`. -/
theorem budget_split_values (lg : Nat → Nat) (root : Int → Nat → Nat) (bits : DataBits)
    (txOuts : List CTxOut) (k budget lbound : Nat) (hk : txOuts.length = k) (hk2 : 2 ≤ k)
    (hk16 : k < W16) (hb : budget < W64) (hlb : k * lbound < budget)
    (hlg : LogFits lg (NumberCompositions (budget - k * lbound) k)) :
    ∃ rest outs, PackDataIntoBudgetSplit lg root bits txOuts budget lbound = some (rest, outs) ∧
      outs.length = k ∧ (∀ o ∈ outs, lbound ≤ o.nValue) ∧
      (outs.map (fun (o : CTxOut) => o.nValue)).sum = budget := by
  obtain ⟨c, hclen, hcsum, hpack, _⟩ :=
    budget_split_spec lg root bits txOuts k budget lbound hk hk2 hk16 hb hlb hlg
  have hlbk : lbound ≤ k * lbound := Nat.le_mul_of_pos_left _ (by omega)
  have hlt : ∀ v ∈ c, v + lbound < W64 := by
    intro v hv
    have := le_sum_of_mem c v hv
    omega
  have hvals := zipWith_nValue txOuts c lbound (by omega) hlt
  refine ⟨_, _, hpack, ?_, ?_, ?_⟩
  · rw [List.length_zipWith, hk, hclen, Nat.min_self]
  · intro o ho
    have hmem : o.nValue ∈ (List.zipWith
        (fun (o : CTxOut) v => { o with nValue := (v + lbound % W64) % W64 })
        txOuts c).map (fun (o : CTxOut) => o.nValue) := List.mem_map_of_mem _ ho
    rw [hvals] at hmem
    obtain ⟨v, _, hv⟩ := List.mem_map.mp hmem
    omega
  · rw [hvals, sum_map_add, hcsum, hclen]
    omega

/-- Witness of C13: two outputs, lower bound 546, budget 1094. -/
theorem budget_split_values_witness :
    ∃ rest outs, PackDataIntoBudgetSplit floorLog2 (fun _ _ => 0) [true, false, true]
          [⟨0, []⟩, ⟨0, []⟩] 1094 546 = some (rest, outs) ∧
      outs.length = 2 ∧ (∀ o ∈ outs, 546 ≤ o.nValue) ∧
      (outs.map (fun (o : CTxOut) => o.nValue)).sum = 1094 :=
  budget_split_values floorLog2 (fun _ _ => 0) [true, false, true] [⟨0, []⟩, ⟨0, []⟩] 2
    1094 546 (by decide) (by decide) (by decide) (by decide) (by decide)
    (by unfold LogFits; decide)

/-! ## The Huffman codec -/

theorem leftAt_mem {Codes : HuffCodeMap} {s : Nat} {code : List Bool}
    (h : Codes.leftAt s = some code) : (s, code) ∈ Codes := by
  unfold HuffCodeMap.leftAt at h
  cases hf : Codes.find? (fun e => e.1 == s) with
  | none => rw [hf] at h; simp at h
  | some e =>
    rw [hf] at h
    simp only [Option.map_some', Option.some.injEq] at h
    have hmem := List.mem_of_find?_eq_some hf
    have hs := List.find?_some hf
    simp only [beq_iff_eq] at hs
    have : e = (s, code) := Prod.ext hs h
    rw [← this]
    exact hmem

theorem rightFind_code {Codes : HuffCodeMap} (hpf : PrefixFree Codes) {s : Nat}
    {code : List Bool} (hmem : (s, code) ∈ Codes) : Codes.rightFind code = some s := by
  unfold HuffCodeMap.rightFind
  cases hf : Codes.find? (fun e => e.2 == code) with
  | none =>
    have := List.find?_eq_none.mp hf (s, code) hmem
    simp at this
  | some e =>
    have hm := List.mem_of_find?_eq_some hf
    have hs := List.find?_some hf
    simp only [beq_iff_eq] at hs
    have := hpf e hm (s, code) hmem (by rw [hs])
    rw [this]
    rfl

theorem rightFind_proper_pre {Codes : HuffCodeMap} (hpf : PrefixFree Codes) {s : Nat}
    {code ch : List Bool} (hmem : (s, code) ∈ Codes) (hpre : ch <+: code) (hne : ch ≠ code) :
    Codes.rightFind ch = none := by
  unfold HuffCodeMap.rightFind
  cases hf : Codes.find? (fun e => e.2 == ch) with
  | none => rfl
  | some e =>
    have hm := List.mem_of_find?_eq_some hf
    have hs := List.find?_some hf
    simp only [beq_iff_eq] at hs
    have := hpf e hm (s, code) hmem (by rw [hs]; exact hpre)
    rw [this] at hs
    exact absurd hs.symm hne

/-- Reading the rest `suf` of a codeword `pre ++ suf` decodes its symbol. -/
theorem Decompress_loop_code {Codes : HuffCodeMap} (hpf : PrefixFree Codes) {s : Nat}
    {code : List Bool} (hmem : (s, code) ∈ Codes) (rest : DataBits) (acc : Data) :
    ∀ (suf pre : List Bool), pre ++ suf = code → suf ≠ [] →
      Decompress.loop Codes (suf ++ rest) pre acc
        = if s = EoF then acc else Decompress.loop Codes rest [] (acc ++ [s]) := by
  intro suf
  induction suf with
  | nil => intro pre _ h; exact absurd rfl h
  | cons b suf ih =>
    intro pre hcode _
    rw [List.cons_append, Decompress.loop]
    by_cases hsuf : suf = []
    · subst hsuf
      rw [rightFind_code hpf (hcode ▸ hmem)]
      simp
    · have hpre : (pre ++ [b]) <+: code := ⟨suf, by rw [← hcode]; simp⟩
      have hne : pre ++ [b] ≠ code := by
        intro h
        rw [← hcode] at h
        have := congrArg List.length h
        simp only [List.length_append, List.length_cons, List.length_nil] at this
        have : suf.length = 0 := by omega
        exact hsuf (List.length_eq_zero.mp this)
      rw [rightFind_proper_pre hpf hmem hpre hne]
      exact ih (pre ++ [b]) (by rw [← hcode]; simp) hsuf

theorem IsCharInvalid_EoF : IsCharInvalid EoF = true := by decide

theorem Compress_Decompress_loop (Codes : HuffCodeMap) (hpf : PrefixFree Codes)
    (hEoF : ∃ c, Codes.leftAt EoF = some c) :
    ∀ (x : Data) (acc : Data),
      (∀ b ∈ x, IsCharInvalid b = false ∧ ∃ c, Codes.leftAt b = some c) →
      ∃ bits, Compress x Codes = some bits ∧ Decompress.loop Codes bits [] acc = acc ++ x := by
  obtain ⟨cE, hcE⟩ := hEoF
  have hmemE := leftAt_mem hcE
  intro x
  induction x with
  | nil =>
    intro acc _
    refine ⟨cE, ?_, ?_⟩
    · rw [Compress, hcE]
    · by_cases hc : cE = []
      · subst hc
        simp [Decompress.loop]
      · have := Decompress_loop_code hpf hmemE [] acc cE [] rfl hc
        rw [List.append_nil] at this
        rw [this, if_pos rfl, List.append_nil]
  | cons s xs ih =>
    intro acc hx
    obtain ⟨hvalid, c, hc⟩ := hx s (List.mem_cons_self _ _)
    have hmem := leftAt_mem hc
    have hsE : s ≠ EoF := by
      intro h
      rw [h, IsCharInvalid_EoF] at hvalid
      exact absurd hvalid (by decide)
    have hcne : c ≠ [] := by
      intro h
      have := hpf (s, c) hmem (EoF, cE) hmemE (by rw [h]; exact List.nil_prefix)
      exact hsE (congrArg Prod.fst this)
    obtain ⟨bits, hbits, hdec⟩ := ih (acc ++ [s])
      (fun b hb => hx b (List.mem_cons_of_mem _ hb))
    refine ⟨c ++ bits, ?_, ?_⟩
    · rw [Compress, hc, hbits]
    · rw [Decompress_loop_code hpf hmem bits acc c [] rfl hcne, if_neg hsE, hdec]
      simp

/-- C6: for every prefix-free table `H` with a codeword for `EoF` and for every byte of
`x`, and every byte sequence `x` that passes the alphabet filter, `Compress(x, H)` returns
a bit vector and `Decompress` of it is `x`. -/
theorem huffman_roundtrip (H : HuffCodeMap) (x : Data) (hpf : PrefixFree H)
    (hEoF : ∃ c, H.leftAt EoF = some c)
    (hx : ∀ b ∈ x, IsCharInvalid b = false ∧ ∃ c, H.leftAt b = some c) :
    ∃ bits, Compress x H = some bits ∧ Decompress bits H = x := by
  obtain ⟨bits, h1, h2⟩ := Compress_Decompress_loop H hpf hEoF x [] hx
  refine ⟨bits, h1, ?_⟩
  unfold Decompress
  rw [h2, List.nil_append]

/-- Witness of C6: a three-symbol table (`EoF`, `'a'`, `'b'`) and the text `"abba"`. -/
theorem huffman_roundtrip_witness :
    ∃ bits, Compress [0x61, 0x62, 0x62, 0x61]
        [(EoF, [false]), (0x61, [true, false]), (0x62, [true, true])] = some bits ∧
      Decompress bits [(EoF, [false]), (0x61, [true, false]), (0x62, [true, true])]
        = [0x61, 0x62, 0x62, 0x61] :=
  huffman_roundtrip [(EoF, [false]), (0x61, [true, false]), (0x62, [true, true])]
    [0x61, 0x62, 0x62, 0x61]
    (by unfold PrefixFree; decide) ⟨[false], by decide⟩
    (by
      intro b hb
      simp only [List.mem_cons, List.mem_singleton, List.not_mem_nil, or_false] at hb
      rcases hb with h | h | h | h <;> subst h
      · exact ⟨by decide, [true, false], by decide⟩
      · exact ⟨by decide, [true, true], by decide⟩
      · exact ⟨by decide, [true, true], by decide⟩
      · exact ⟨by decide, [true, false], by decide⟩)

/-! ## Bytes and the public-key carrier -/

set_option maxRecDepth 100000 in
theorem char_of_byte_roundtrip : ∀ v, v < 256 → BoolVecToChar (CharToBoolVec v) = some v := by
  decide

theorem CharToBoolVec_length (ch : Nat) : (CharToBoolVec ch).length = 8 := by
  simp [CharToBoolVec]

/-- The candidate key of `EncodeDataInPubkey`: 33 bytes with the bits `00000010`, `0`, the
payload, the random bits; `DecodeDataInPubkey` returns the payload. -/
theorem pubkey_candidate (s : Nat) (b rnd : DataBits) (hs1 : 1 ≤ s) (hs : s ≤ 250)
    (hb : b.length = s) (hr : rnd.length = 255 - s) :
    ∃ pk, EncodeDataInPubkey.candidate b (255 - s) rnd = some pk ∧ pk.length = 33 ∧
      pk.headD 0 = 2 ∧
      DataToBits pk
        = [false, false, false, false, false, false, true, false] ++ [false] ++ b ++ rnd ∧
      DecodeDataInPubkey pk (255 - s) = some b := by
  have hmod : (255 - s) % 256 = 255 - s := Nat.mod_eq_of_lt (by omega)
  have hlen : ([false, false, false, false, false, false, true, false] ++ [false] ++ b
      ++ rnd).length = 8 * 33 := by
    simp only [List.length_append, List.length_cons, List.length_nil, hb, hr]
    omega
  obtain ⟨data, hdata, hdlen, hdlt, hbits⟩ := BitsToData_spec _ 33 hlen (by norm_num [W32])
  have hhead : data.headD 0 = 2 := by
    match data, hdlen with
    | d0 :: rest, _ =>
      have hd0 : d0 < 256 := hdlt d0 (List.mem_cons_self _ _)
      rw [DataToBits] at hbits
      have h8 := congrArg (List.take 8) hbits
      rw [List.take_append_of_le_length (by rw [CharToBoolVec_length]),
        List.take_of_length_le (by rw [CharToBoolVec_length])] at h8
      simp only [List.append_assoc, List.cons_append, List.nil_append, List.take_succ_cons,
        List.take_zero] at h8
      have h1 := char_of_byte_roundtrip d0 hd0
      rw [h8] at h1
      have h2 : BoolVecToChar [false, false, false, false, false, false, true, false]
          = some 2 := by decide
      rw [h2] at h1
      simp only [Option.some.injEq] at h1
      simp [← h1]
  have hof : CPubKey.ofData data = data := by
    unfold CPubKey.ofData
    rw [hhead, hdlen]
    have hne : data ≠ [] := by
      intro h
      rw [h] at hdlen
      simp at hdlen
    rw [if_pos ⟨hne, by decide⟩]
  refine ⟨data, ?_, hdlen, hhead, hbits, ?_⟩
  · unfold EncodeDataInPubkey.candidate
    rw [hmod, hb, if_pos ⟨hs1, by omega, by omega, rfl⟩]
    have e0 : 256 - ([false] ++ b).length - (255 - s) = 0 := by
      simp only [List.length_append, List.length_cons, List.length_nil, hb]
      omega
    simp only [e0, List.replicate_zero, List.append_nil]
    have e1 : List.replicate 6 false ++ [true] ++ [false] ++ ([false] ++ b) ++ rnd
        = [false, false, false, false, false, false, true, false] ++ [false] ++ b ++ rnd := by
      simp [List.replicate]
    rw [e1, hdata, Option.map_some', hof]
  · unfold DecodeDataInPubkey
    simp only [hbits, hmod]
    rw [if_pos (by rw [hlen]; omega), hlen]
    have e2 : ([false, false, false, false, false, false, true, false] ++ [false] ++ b
        ++ rnd).drop 9 = b ++ rnd := by
      simp
    have e3 : 8 * 33 - 9 - (255 - s) = s := by omega
    rw [e2, e3, List.take_append_of_le_length (by omega), List.take_of_length_le (by omega)]

theorem EncodeDataInPubkey_loop_some (IsFullyValid : Data → Bool) (draw : Nat → DataBits)
    (b : DataBits) (r : Nat) : ∀ (fuel i : Nat) (pk : Data),
    EncodeDataInPubkey.loop IsFullyValid draw b r fuel i = some pk →
    ∃ j, EncodeDataInPubkey.candidate b r (draw j) = some pk ∧ IsFullyValid pk = true := by
  intro fuel
  induction fuel with
  | zero => intro i pk h; simp [EncodeDataInPubkey.loop] at h
  | succ fuel ih =>
    intro i pk h
    rw [EncodeDataInPubkey.loop] at h
    cases hc : EncodeDataInPubkey.candidate b r (draw i) with
    | none => rw [hc] at h; simp at h
    | some c =>
      rw [hc] at h
      simp only [] at h
      by_cases hv : IsFullyValid c = true
      · rw [if_pos hv] at h
        simp only [Option.some.injEq] at h
        exact ⟨i, by rw [hc, h], by rw [← h]; exact hv⟩
      · rw [if_neg hv] at h
        exact ih (i + 1) pk h

theorem EncodeDataInPubkey_loop_returns (IsFullyValid : Data → Bool) (draw : Nat → DataBits)
    (b : DataBits) (r : Nat)
    (hc : ∀ j, ∃ c, EncodeDataInPubkey.candidate b r (draw j) = some c) :
    ∀ (n i : Nat) (c : Data), EncodeDataInPubkey.candidate b r (draw (i + n)) = some c →
    IsFullyValid c = true →
    ∃ pk, EncodeDataInPubkey.loop IsFullyValid draw b r (n + 1) i = some pk := by
  intro n
  induction n with
  | zero =>
    intro i c h hv
    rw [Nat.add_zero] at h
    rw [EncodeDataInPubkey.loop, h]
    simp only []
    rw [if_pos hv]
    exact ⟨c, rfl⟩
  | succ n ih =>
    intro i c h hv
    obtain ⟨c0, hc0⟩ := hc i
    rw [EncodeDataInPubkey.loop, hc0]
    simp only []
    by_cases hv0 : IsFullyValid c0 = true
    · rw [if_pos hv0]
      exact ⟨c0, rfl⟩
    · rw [if_neg hv0]
      exact ih (i + 1) c (by rw [← h]; congr 2; omega) hv

/-- C11: for every `s` in `[1, 250]`, every bit vector `b` of length `s` and every value
`rnd` of the `255 - s` random bits, the candidate built by `EncodeDataInPubkey` is exactly
33 bytes, namely the byte `0x02`, one zero bit, the bits of `b`, then the random bits, and
`DecodeDataInPubkey` of it with `nRandBits = 255 - s` returns `b`; hence every key that
`EncodeDataInPubkey(b, 255 - s)` returns decodes to `b`, and it returns a key as soon as
one of the draws gives a valid curve point. -/
theorem pubkey_codec (s : Nat) (b : DataBits) (hs1 : 1 ≤ s) (hs : s ≤ 250)
    (hb : b.length = s) :
    (∀ rnd : DataBits, rnd.length = 255 - s →
      ∃ pk, EncodeDataInPubkey.candidate b (255 - s) rnd = some pk ∧ pk.length = 33 ∧
        pk.headD 0 = 2 ∧
        DataToBits pk
          = [false, false, false, false, false, false, true, false] ++ [false] ++ b ++ rnd ∧
        DecodeDataInPubkey pk (255 - s) = some b) ∧
    (∀ (IsFullyValid : Data → Bool) (draw : Nat → DataBits),
      (∀ i, (draw i).length = 255 - s) →
      (∀ fuel pk, EncodeDataInPubkey IsFullyValid draw fuel b (255 - s) = some pk →
        DecodeDataInPubkey pk (255 - s) = some b) ∧
      (∀ j c, EncodeDataInPubkey.candidate b (255 - s) (draw j) = some c →
        IsFullyValid c = true →
        ∃ pk, EncodeDataInPubkey IsFullyValid draw (j + 1) b (255 - s) = some pk)) := by
  refine ⟨fun rnd hr => pubkey_candidate s b rnd hs1 hs hb hr, ?_⟩
  intro IsFullyValid draw hdraw
  constructor
  · intro fuel pk h
    obtain ⟨j, hj, _⟩ := EncodeDataInPubkey_loop_some IsFullyValid draw b (255 - s) fuel 0 pk h
    obtain ⟨pk2, h1, _, _, _, hdec⟩ := pubkey_candidate s b (draw j) hs1 hs hb (hdraw j)
    rw [h1] at hj
    simp only [Option.some.injEq] at hj
    rw [← hj]
    exact hdec
  · intro j c hc hv
    have hall : ∀ i, ∃ c, EncodeDataInPubkey.candidate b (255 - s) (draw i) = some c := by
      intro i
      obtain ⟨pk, h1, _⟩ := pubkey_candidate s b (draw i) hs1 hs hb (hdraw i)
      exact ⟨pk, h1⟩
    exact EncodeDataInPubkey_loop_returns IsFullyValid draw b (255 - s) hall j 0 c
      (by rw [Nat.zero_add]; exact hc) hv

/-- Witness of C11: `s = 250` with a payload of 250 one bits; the draws are five zero
bits and every candidate is taken to be a valid point. -/
theorem pubkey_codec_witness :
    (∀ rnd : DataBits, rnd.length = 255 - 250 →
      ∃ pk, EncodeDataInPubkey.candidate (List.replicate 250 true) (255 - 250) rnd = some pk ∧
        pk.length = 33 ∧ pk.headD 0 = 2 ∧
        DataToBits pk
          = [false, false, false, false, false, false, true, false] ++ [false]
            ++ List.replicate 250 true ++ rnd ∧
        DecodeDataInPubkey pk (255 - 250) = some (List.replicate 250 true)) ∧
    (∀ (IsFullyValid : Data → Bool) (draw : Nat → DataBits),
      (∀ i, (draw i).length = 255 - 250) →
      (∀ fuel pk, EncodeDataInPubkey IsFullyValid draw fuel (List.replicate 250 true)
          (255 - 250) = some pk →
        DecodeDataInPubkey pk (255 - 250) = some (List.replicate 250 true)) ∧
      (∀ j c, EncodeDataInPubkey.candidate (List.replicate 250 true) (255 - 250) (draw j)
          = some c →
        IsFullyValid c = true →
        ∃ pk, EncodeDataInPubkey IsFullyValid draw (j + 1) (List.replicate 250 true)
          (255 - 250) = some pk)) :=
  pubkey_codec 250 (List.replicate 250 true) (by decide) (by decide)
    (List.length_replicate _ _)

/-! ## The 32-bit loop counter of `BinomialCoefficient` -/

theorem BinomialCoefficient_loop_throws (n k : Nat) (hk : W32 ≤ k + 1) :
    ∀ (fuel i result : Nat), i < W32 → (if i = 0 then 1 else W32 - i + 1) ≤ fuel →
      BinomialCoefficient.loop n k fuel i result = none := by
  have hW := W32_val
  intro fuel
  induction fuel with
  | zero =>
    intro i result _ h
    by_cases hi : i = 0
    · rw [if_pos hi] at h
      omega
    · rw [if_neg hi] at h
      omega
  | succ fuel ih =>
    intro i result hi h
    rw [BinomialCoefficient.loop, if_pos (by omega)]
    by_cases hi0 : i = 0
    · rw [if_pos hi0]
    · rw [if_neg hi0] at h ⊢
      apply ih _ _ (Nat.mod_lt _ (by omega))
      by_cases hw : i + 1 < W32
      · rw [Nat.mod_eq_of_lt hw, if_neg (by omega)]
        omega
      · have e : (i + 1) % W32 = 0 := by
          have : i + 1 = W32 := by omega
          rw [this, Nat.mod_self]
        rw [e, if_pos rfl]
        omega

/-- The loop counter of `BinomialCoefficient` is a 32-bit `unsigned`: when
`min(k, n - k) >= 2^32 - 1` it wraps to `0` before it reaches the bound and the division
by `BigInt(0)` throws. -/
theorem BinomialCoefficient_throws {n k : Nat} (hkn : k ≤ n)
    (hk32 : W32 ≤ min k (n - k) + 1) : BinomialCoefficient n k = none := by
  have hW := W32_val
  unfold BinomialCoefficient
  rw [if_neg (by omega)]
  exact BinomialCoefficient_loop_throws n _ hk32 (W32 + 1) 1 1 (by omega)
    (by rw [if_neg (by omega)]; omega)

/-- C20, the code at the failing input: `BinomialCoefficient(2^33, 2^32 - 1)` does not
return `C(2^33, 2^32 - 1)`: the 32-bit counter wraps and the division by zero throws.
(For `min(k, n - k) < 2^32 - 1` the function returns `C(n, k)`, see
`BinomialCoefficient_eq_choose`.) -/
theorem BinomialCoefficient_counter_wraps :
    BinomialCoefficient 8589934592 4294967295 = none := by
  refine BinomialCoefficient_throws (by decide) ?_
  rw [W32_val]
  decide

/-! ## Monotonicity of the permutation rank -/

theorem PermutationToInteger_loop_lex : ∀ (p q : List Nat), List.Lex (· < ·) p q →
    p.Perm q → p.length < W16 →
    PermutationToInteger.loop p < PermutationToInteger.loop q := by
  intro p q hlex
  induction hlex with
  | nil =>
    intro hperm _
    exact absurd hperm.length_eq (by simp)
  | @cons a l1 l2 _ ih =>
    intro hperm hlen
    rw [List.length_cons] at hlen
    have hp := hperm.cons_inv
    have := ih hp (by omega)
    rw [PermutationToInteger_loop_cons, PermutationToInteger_loop_cons, hp.countP_eq,
      hp.length_eq]
    omega
  | @rel a l1 b l2 hab =>
    intro hperm hlen
    rw [List.length_cons] at hlen
    have hab2 : a < b := hab
    have hl : l1.length = l2.length := by
      have := hperm.length_eq
      simp only [List.length_cons] at this
      omega
    have hc1 : List.countP (fun z => decide (b > z)) (a :: l1)
        = List.countP (fun z => decide (b > z)) l1 + 1 := by
      rw [List.countP_cons, if_pos (by simpa using hab2)]
    have hc2 : List.countP (fun z => decide (b > z)) (b :: l2)
        = List.countP (fun z => decide (b > z)) l2 := by
      rw [List.countP_cons, if_neg (by simp)]
      rfl
    have hc := hperm.countP_eq (fun z => decide (b > z))
    rw [hc1, hc2] at hc
    have hmono : List.countP (fun z => decide (a > z)) l1
        ≤ List.countP (fun z => decide (b > z)) l1 := by
      apply List.countP_mono_left
      intro x _ hx
      simp only [gt_iff_lt, decide_eq_true_eq] at hx ⊢
      omega
    obtain ⟨_, h1⟩ := PermutationToInteger_loop_bounds l1 (by omega)
    obtain ⟨h0, _⟩ := PermutationToInteger_loop_bounds l2 (by omega)
    rw [PermutationToInteger_loop_cons, PermutationToInteger_loop_cons, ← hl,
      Factorial_eq (show l1.length < W16 by omega)]
    have hcq : List.countP (fun z => decide (a > z)) l1 + 1
        ≤ List.countP (fun z => decide (b > z)) l2 := by
      omega
    have hmul : ((List.countP (fun z => decide (a > z)) l1 + 1 : Nat) : Int)
        * ((Nat.factorial l1.length : Nat) : Int)
        ≤ ((List.countP (fun z => decide (b > z)) l2 : Nat) : Int)
          * ((Nat.factorial l1.length : Nat) : Int) :=
      Int.mul_le_mul_of_nonneg_right (Int.ofNat_le.mpr hcq) (Int.ofNat_nonneg _)
    have hexp : ((List.countP (fun z => decide (a > z)) l1 + 1 : Nat) : Int)
        * ((Nat.factorial l1.length : Nat) : Int)
        = ((List.countP (fun z => decide (a > z)) l1 : Nat) : Int)
          * ((Nat.factorial l1.length : Nat) : Int)
          + ((Nat.factorial l1.length : Nat) : Int) := by
      push_cast
      ring
    rw [hexp] at hmul
    omega

theorem PermutationToInteger_loop_range' : ∀ (n s : Nat),
    PermutationToInteger.loop (List.range' s n) = 0 := by
  intro n
  induction n with
  | zero => intro s; rfl
  | succ n ih =>
    intro s
    rw [List.range'_succ, PermutationToInteger_loop_cons, ih (s + 1)]
    have : List.countP (fun z => decide (s > z)) (List.range' (s + 1) n) = 0 := by
      rw [List.countP_eq_zero]
      intro a ha
      have := List.mem_range'_1.mp ha
      simp only [gt_iff_lt, decide_eq_true_eq, not_lt]
      omega
    rw [this]
    simp

theorem PermutationToInteger_loop_reverse : ∀ (k : Nat), k < W16 →
    PermutationToInteger.loop (List.range k).reverse
      = ((Nat.factorial k : Nat) : Int) - 1 := by
  intro k
  induction k with
  | zero => intro _; rfl
  | succ k ih =>
    intro hk
    have := ih (by omega)
    rw [List.range_succ, List.reverse_append, List.reverse_singleton, List.singleton_append,
      PermutationToInteger_loop_cons, this, List.length_reverse, List.length_range,
      Factorial_eq (show k < W16 by omega)]
    have hc : List.countP (fun z => decide (k > z)) (List.range k).reverse = k := by
      have h : List.countP (fun z => decide (k > z)) (List.range k).reverse
          = (List.range k).reverse.length := by
        rw [List.countP_eq_length]
        intro a ha
        have := List.mem_range.mp (List.mem_reverse.mp ha)
        simpa using this
      rw [h, List.length_reverse, List.length_range]
    rw [hc, Nat.factorial_succ]
    push_cast
    ring

/-- C18: for every `k` with `2 <= k < 2^16`, `PermutationToInteger` is strictly monotone
in lexicographic order on the permutations of `0, ..., k-1`, the identity has rank `0`
and the reversed permutation has rank `k! - 1`. -/
theorem permutation_rank_lex (k : Nat) (hk2 : 2 ≤ k) (hk16 : k < W16) :
    (∀ p q : List Nat, p.Perm (List.range k) → q.Perm (List.range k) →
      List.Lex (· < ·) p q →
      ∃ rp rq, PermutationToInteger p = some rp ∧ PermutationToInteger q = some rq ∧ rp < rq) ∧
    PermutationToInteger (List.range k) = some 0 ∧
    PermutationToInteger (List.range k).reverse = some (((Nat.factorial k : Nat) : Int) - 1) := by
  refine ⟨?_, ?_, ?_⟩
  · intro p q hp hq hlex
    have hpl : p.length = k := by rw [hp.length_eq, List.length_range]
    have hql : q.length = k := by rw [hq.length_eq, List.length_range]
    refine ⟨PermutationToInteger.loop p, PermutationToInteger.loop q, ?_, ?_, ?_⟩
    · unfold PermutationToInteger
      rw [hpl, if_neg (by omega)]
    · unfold PermutationToInteger
      rw [hql, if_neg (by omega)]
    · exact PermutationToInteger_loop_lex p q hlex (hp.trans hq.symm) (by omega)
  · unfold PermutationToInteger
    rw [List.length_range, if_neg (by omega), List.range_eq_range',
      PermutationToInteger_loop_range']
  · unfold PermutationToInteger
    rw [List.length_reverse, List.length_range, if_neg (by omega),
      PermutationToInteger_loop_reverse k hk16]

/-- Witness of C18: `k = 4`; the reversed permutation `(3,2,1,0)` has rank `23 = 4! - 1`. -/
theorem permutation_rank_lex_witness :
    (∀ p q : List Nat, p.Perm (List.range 4) → q.Perm (List.range 4) →
      List.Lex (· < ·) p q →
      ∃ rp rq, PermutationToInteger p = some rp ∧ PermutationToInteger q = some rq ∧ rp < rq) ∧
    PermutationToInteger (List.range 4) = some 0 ∧
    PermutationToInteger (List.range 4).reverse = some (((Nat.factorial 4 : Nat) : Int) - 1) :=
  permutation_rank_lex 4 (by decide) (by decide)

/-- The ranks of the unit test: `(3,2,1,0)` has rank `23` and `(2,7,8,3,9,1,5,6,0,4)` has
rank `1000000`. -/
theorem PermutationToInteger_tests :
    PermutationToInteger [3, 2, 1, 0] = some 23 ∧
      PermutationToInteger [2, 7, 8, 3, 9, 1, 5, 6, 0, 4] = some 1000000 := by
  decide

/-! ## Weak compositions in lexicographic order -/

theorem mem_compositionsFrom (comps : Nat → List (List Nat)) (n : Nat) :
    ∀ (cnt c0 : Nat) (d : List Nat), d ∈ compositionsFrom comps n cnt c0 ↔
      ∃ d0 rest, d = d0 :: rest ∧ c0 ≤ d0 ∧ d0 < c0 + cnt ∧ rest ∈ comps (n - d0) := by
  intro cnt
  induction cnt with
  | zero =>
    intro c0 d
    simp only [compositionsFrom, List.not_mem_nil, false_iff]
    rintro ⟨d0, rest, _, h1, h2, _⟩
    omega
  | succ cnt ih =>
    intro c0 d
    rw [compositionsFrom, List.mem_append, ih (c0 + 1) d, List.mem_map]
    constructor
    · rintro (⟨rest, hr, rfl⟩ | ⟨d0, rest, rfl, h1, h2, h3⟩)
      · exact ⟨c0, rest, rfl, le_refl _, by omega, hr⟩
      · exact ⟨d0, rest, rfl, by omega, by omega, h3⟩
    · rintro ⟨d0, rest, rfl, h1, h2, h3⟩
      by_cases h : d0 = c0
      · subst h
        exact Or.inl ⟨rest, h3, rfl⟩
      · exact Or.inr ⟨d0, rest, rfl, by omega, by omega, h3⟩

/-- `allCompositions k n` lists exactly the sequences of `k` non-negative integers with
sum `n`. -/
theorem mem_allCompositions : ∀ (k n : Nat) (d : List Nat),
    d ∈ allCompositions k n ↔ d.length = k ∧ d.sum = n := by
  intro k
  induction k with
  | zero =>
    intro n d
    rw [allCompositions]
    by_cases hn : n = 0
    · subst hn
      rw [if_pos rfl, List.mem_singleton]
      constructor
      · rintro rfl
        exact ⟨rfl, rfl⟩
      · rintro ⟨h, _⟩
        exact List.length_eq_zero.mp h
    · rw [if_neg hn]
      simp only [List.not_mem_nil, false_iff]
      rintro ⟨h, hs⟩
      rw [List.length_eq_zero.mp h] at hs
      exact hn hs.symm
  | succ k ih =>
    intro n d
    rw [allCompositions, mem_compositionsFrom]
    constructor
    · rintro ⟨d0, rest, rfl, _, h2, h3⟩
      obtain ⟨hl, hs⟩ := (ih _ _).mp h3
      refine ⟨by rw [List.length_cons, hl], ?_⟩
      rw [List.sum_cons, hs]
      omega
    · rintro ⟨hl, hs⟩
      match d, hl with
      | d0 :: rest, hl =>
        rw [List.sum_cons] at hs
        rw [List.length_cons] at hl
        exact ⟨d0, rest, rfl, Nat.zero_le _, by omega, (ih _ _).mpr ⟨by omega, by omega⟩⟩

theorem compositionsFrom_nodup (comps : Nat → List (List Nat))
    (hc : ∀ m, (comps m).Nodup) (n : Nat) :
    ∀ (cnt c0 : Nat), (compositionsFrom comps n cnt c0).Nodup := by
  intro cnt
  induction cnt with
  | zero => intro c0; exact List.nodup_nil
  | succ cnt ih =>
    intro c0
    rw [compositionsFrom, List.nodup_append]
    refine ⟨?_, ih (c0 + 1), ?_⟩
    · exact (hc _).map (fun a b h => (List.cons.injEq _ _ _ _ ▸ h).2)
    · intro d h1 h2
      obtain ⟨rest, _, rfl⟩ := List.mem_map.mp h1
      obtain ⟨d0, rest2, heq, hle, _, _⟩ := (mem_compositionsFrom comps n cnt (c0 + 1) _).mp h2
      have := (List.cons.injEq _ _ _ _ ▸ heq).1
      omega

/-- `allCompositions k n` lists every composition once. -/
theorem allCompositions_nodup : ∀ (k n : Nat), (allCompositions k n).Nodup := by
  intro k
  induction k with
  | zero =>
    intro n
    rw [allCompositions]
    by_cases hn : n = 0
    · rw [if_pos hn]
      exact List.nodup_singleton _
    · rw [if_neg hn]
      exact List.nodup_nil
  | succ k ih =>
    intro n
    rw [allCompositions]
    exact compositionsFrom_nodup _ (ih) n _ _

theorem length_compositionsFrom_one (n : Nat) : ∀ (cnt c0 : Nat), c0 + cnt = n + 1 →
    (compositionsFrom (allCompositions 0) n cnt c0).length = if cnt = 0 then 0 else 1 := by
  intro cnt
  induction cnt with
  | zero => intro c0 _; rfl
  | succ cnt ih =>
    intro c0 h
    rw [compositionsFrom, List.length_append, List.length_map, ih (c0 + 1) (by omega),
      if_neg (Nat.succ_ne_zero cnt), allCompositions]
    by_cases hc : cnt = 0
    · have e : n - c0 = 0 := by omega
      rw [if_pos hc, if_pos e]
      rfl
    · have e : ¬ n - c0 = 0 := by omega
      rw [if_neg hc, if_neg e]
      rfl

theorem length_compositionsFrom_succ (k n : Nat)
    (hk : ∀ m, (allCompositions (k + 1) m).length = weakCompositions m (k + 1)) :
    ∀ (cnt c0 : Nat), c0 + cnt = n + 1 → 1 ≤ cnt →
      (compositionsFrom (allCompositions (k + 1)) n cnt c0).length
        = weakCompositions (n - c0) (k + 2) := by
  intro cnt
  induction cnt with
  | zero => intro c0 _ h; omega
  | succ cnt ih =>
    intro c0 h _
    rw [compositionsFrom, List.length_append, List.length_map, hk]
    by_cases hc : cnt = 0
    · subst hc
      have e : n - c0 = 0 := by omega
      rw [e, compositionsFrom, List.length_nil, weakCompositions_zero_left,
        weakCompositions_zero_left]
    · rw [ih (c0 + 1) (by omega) (by omega)]
      obtain ⟨m, hm⟩ : ∃ m, n - c0 = m + 1 := ⟨n - c0 - 1, by omega⟩
      have e : n - (c0 + 1) = m := by omega
      rw [hm, e, weakCompositions_succ]
      omega

/-- The number of weak compositions of `n` into `k >= 1` parts is `C(n + k - 1, k - 1)`. -/
theorem length_allCompositions : ∀ (k n : Nat),
    (allCompositions (k + 1) n).length = weakCompositions n (k + 1) := by
  intro k
  induction k with
  | zero =>
    intro n
    rw [allCompositions, length_compositionsFrom_one n (n + 1) 0 (by omega),
      if_neg (by omega), weakCompositions_one]
  | succ k ih =>
    intro n
    rw [allCompositions, length_compositionsFrom_succ k n ih (n + 1) 0 (by omega) (by omega),
      Nat.sub_zero]

theorem lex_cons_lt {d0 c0 : Nat} (rest cs : List Nat) (h : d0 < c0) :
    List.Lex (· < ·) (d0 :: rest) (c0 :: cs) :=
  List.Lex.rel h

theorem lex_cons_gt {d0 c0 : Nat} (rest cs : List Nat) (h : c0 < d0) :
    ¬ List.Lex (· < ·) (d0 :: rest) (c0 :: cs) := by
  intro hl
  cases hl with
  | cons _ => omega
  | rel h2 =>
    have h3 : d0 < c0 := h2
    omega

theorem lex_cons_same (a : Nat) (rest cs : List Nat) :
    List.Lex (· < ·) (a :: rest) (a :: cs) ↔ List.Lex (· < ·) rest cs := by
  constructor
  · intro hl
    cases hl with
    | cons h => exact h
    | rel h2 =>
      have h3 : a < a := h2
      omega
  · exact List.Lex.cons

theorem countP_lex_above (comps : Nat → List (List Nat)) (n c0 : Nat) (cs : List Nat) :
    ∀ (cnt d0 : Nat), c0 < d0 →
      List.countP (fun d => decide (List.Lex (· < ·) d (c0 :: cs)))
        (compositionsFrom comps n cnt d0) = 0 := by
  intro cnt d0 h
  rw [List.countP_eq_zero]
  intro d hd
  obtain ⟨e0, rest, rfl, h1, _, _⟩ := (mem_compositionsFrom comps n cnt d0 d).mp hd
  simp only [decide_eq_true_eq]
  exact lex_cons_gt rest cs (by omega)

theorem countP_lex_from (k n c0 : Nat) (cs : List Nat) (hc0 : c0 ≤ n) :
    ∀ (cnt d0 : Nat), d0 + cnt = n + 1 → d0 ≤ c0 →
      List.countP (fun d => decide (List.Lex (· < ·) d (c0 :: cs)))
          (compositionsFrom (allCompositions (k + 1)) n cnt d0)
        + weakCompositions (n - c0) (k + 2)
        = weakCompositions (n - d0) (k + 2)
          + List.countP (fun d => decide (List.Lex (· < ·) d cs))
              (allCompositions (k + 1) (n - c0)) := by
  intro cnt
  induction cnt with
  | zero => intro d0 h1 h2; omega
  | succ cnt ih =>
    intro d0 h1 h2
    rw [compositionsFrom, List.countP_append, List.countP_map]
    by_cases hd : d0 = c0
    · subst hd
      rw [countP_lex_above _ n d0 cs cnt (d0 + 1) (by omega)]
      have : List.countP
          ((fun d => decide (List.Lex (· < ·) d (d0 :: cs))) ∘ fun rest => d0 :: rest)
          (allCompositions (k + 1) (n - d0))
          = List.countP (fun d => decide (List.Lex (· < ·) d cs))
            (allCompositions (k + 1) (n - d0)) := by
        apply List.countP_congr
        intro x _
        simp only [Function.comp_apply, decide_eq_true_eq]
        exact lex_cons_same d0 x cs
      rw [this]
      omega
    · have hlt : d0 < c0 := by omega
      have : List.countP
          ((fun d => decide (List.Lex (· < ·) d (c0 :: cs))) ∘ fun rest => d0 :: rest)
          (allCompositions (k + 1) (n - d0))
          = (allCompositions (k + 1) (n - d0)).length := by
        rw [List.countP_eq_length]
        intro x _
        simp only [Function.comp_apply, decide_eq_true_eq]
        exact lex_cons_lt x cs hlt
      rw [this, length_allCompositions]
      have hih := ih (d0 + 1) (by omega) (by omega)
      obtain ⟨m, hm⟩ : ∃ m, n - d0 = m + 1 := ⟨n - d0 - 1, by omega⟩
      have e : n - (d0 + 1) = m := by omega
      rw [e] at hih
      rw [hm, weakCompositions_succ]
      omega

/-- The rank computed by the loop of `CompositionToInteger` is the number of compositions
of the same integer into the same number of parts that are lexicographically smaller. -/
theorem rank_eq_lex_count : ∀ (cnt : Nat) (c : List Nat) (n k : Nat),
    c.length = cnt + 1 → k = cnt + 1 → c.sum = n → n + k - 1 < W64 → k < W16 →
    CompositionToInteger.loop cnt c n k
      = some ((List.countP (fun d => decide (List.Lex (· < ·) d c))
          (allCompositions k n) : Nat) : Int) := by
  intro cnt
  induction cnt with
  | zero =>
    intro c n k hlen hk hsum _ _
    subst hk
    have h0 : List.countP (fun d => decide (List.Lex (· < ·) d c)) (allCompositions 1 n) = 0 := by
      rw [List.countP_eq_zero]
      intro d hd
      obtain ⟨hl, hs⟩ := (mem_allCompositions 1 n d).mp hd
      match d, hl, c, hlen with
      | [d0], _, [c0], _ =>
        simp only [List.sum_cons, List.sum_nil, Nat.add_zero] at hs hsum
        simp only [decide_eq_true_eq]
        rw [hs, hsum]
        intro hl
        cases hl with
        | cons h => cases h
        | rel h =>
          have h3 : n < n := h
          omega
    rw [h0]
    rfl
  | succ cnt ih =>
    intro c n k hlen hk hsum hn hk16
    match c, hlen with
    | c0 :: cs, hlen =>
      simp only [List.length_cons, Nat.add_right_cancel_iff] at hlen
      simp only [List.sum_cons] at hsum
      have hc0 : c0 ≤ n := by omega
      have hW := W64_val
      have hW16 := W16_val
      have hk1 : 1 ≤ k := by omega
      have e1 : sub64 n c0 = n - c0 := sub64_of_le hc0 (by omega)
      have hN : NumberCompositions n k = weakCompositions n k := by
        rw [NumberCompositions_word (by omega) hk1 hk16, if_pos hn]
      have hN2 : NumberCompositions (n - c0) k = weakCompositions (n - c0) k := by
        rw [NumberCompositions_word (by omega) hk1 hk16, if_pos (by omega)]
      have hih := ih cs (n - c0) (k - 1) hlen (by omega) (by omega) (by omega) (by omega)
      rw [CompositionToInteger.loop, e1, hih, hN, hN2]
      subst hk
      have hcount := countP_lex_from cnt n c0 cs hc0 (n + 1) 0 (by omega) (Nat.zero_le _)
      rw [Nat.sub_zero] at hcount
      have hunf : allCompositions (cnt + 1 + 1) n
          = compositionsFrom (allCompositions (cnt + 1)) n (n + 1) 0 := rfl
      have ek : cnt + 1 + 1 - 1 = cnt + 1 := rfl
      have ek2 : cnt + 1 + 1 = cnt + 2 := rfl
      rw [hunf, ek, ek2]
      have hz := Int.ofNat_inj.mpr hcount
      push_cast at hz ⊢
      simp only [Option.some.injEq]
      omega

theorem rank_loop_lex : ∀ (c d : List Nat), List.Lex (· < ·) c d →
    ∀ (cnt n k : Nat) (rc rd : Int), c.length = cnt + 1 → d.length = cnt + 1 → k = cnt + 1 →
    c.sum = n → d.sum = n → n + k - 1 < W64 → k < W16 →
    CompositionToInteger.loop cnt c n k = some rc →
    CompositionToInteger.loop cnt d n k = some rd → rc < rd := by
  intro c d hlex
  induction hlex with
  | nil => intro cnt n k rc rd h; simp at h
  | @cons a l1 l2 _ ih =>
    intro cnt n k rc rd hl1 hl2 hk hs1 hs2 hn hk16 hrc hrd
    simp only [List.length_cons, List.sum_cons] at hl1 hl2 hs1 hs2
    have hW := W64_val
    cases cnt with
    | zero =>
      have e1 : l1 = [] := List.length_eq_zero.mp (by omega)
      have e2 : l2 = [] := List.length_eq_zero.mp (by omega)
      subst e1 e2
      rename_i h
      cases h
    | succ cnt =>
      have e1 : sub64 n a = n - a := sub64_of_le (by omega) (by omega)
      rw [CompositionToInteger.loop, e1] at hrc hrd
      cases h1 : CompositionToInteger.loop cnt l1 (n - a) (k - 1) with
      | none => rw [h1] at hrc; simp at hrc
      | some r1 =>
        cases h2 : CompositionToInteger.loop cnt l2 (n - a) (k - 1) with
        | none => rw [h2] at hrd; simp at hrd
        | some r2 =>
          rw [h1] at hrc
          rw [h2] at hrd
          simp only [Option.some.injEq] at hrc hrd
          have := ih cnt (n - a) (k - 1) r1 r2 (by omega) (by omega) (by omega) (by omega)
            (by omega) (by omega) (by omega) h1 h2
          omega
  | @rel a l1 b l2 hab =>
    intro cnt n k rc rd hl1 hl2 hk hs1 hs2 hn hk16 hrc hrd
    have hab2 : a < b := hab
    simp only [List.length_cons, List.sum_cons] at hl1 hl2 hs1 hs2
    have hW := W64_val
    have hW16 := W16_val
    cases cnt with
    | zero =>
      have e1 : l1 = [] := List.length_eq_zero.mp (by omega)
      have e2 : l2 = [] := List.length_eq_zero.mp (by omega)
      subst e1 e2
      simp only [List.sum_nil] at hs1 hs2
      omega
    | succ cnt =>
      have hk1 : 1 ≤ k := by omega
      have ea : sub64 n a = n - a := sub64_of_le (by omega) (by omega)
      have eb : sub64 n b = n - b := sub64_of_le (by omega) (by omega)
      obtain ⟨r1, hr1, _, hr1lt⟩ := rank_loop_bounds cnt l1 (n - a) (k - 1) (by omega)
        (by omega) (by omega) (by omega) (by omega)
      obtain ⟨r2, hr2, hr2nn, _⟩ := rank_loop_bounds cnt l2 (n - b) (k - 1) (by omega)
        (by omega) (by omega) (by omega) (by omega)
      rw [CompositionToInteger.loop, ea, hr1] at hrc
      rw [CompositionToInteger.loop, eb, hr2] at hrd
      simp only [Option.some.injEq] at hrc hrd
      have hNa : NumberCompositions (n - a) k = weakCompositions (n - a) k := by
        rw [NumberCompositions_word (by omega) hk1 hk16, if_pos (by omega)]
      have hNb : NumberCompositions (n - b) k = weakCompositions (n - b) k := by
        rw [NumberCompositions_word (by omega) hk1 hk16, if_pos (by omega)]
      rw [hNa] at hrc
      rw [hNb] at hrd
      obtain ⟨m, hm⟩ : ∃ m, n - a = m + 1 := ⟨n - a - 1, by omega⟩
      have hp := weakCompositions_succ m cnt
      have ek : cnt + 2 = k := by omega
      have ek1 : cnt + 1 = k - 1 := by omega
      rw [ek, ek1, ← hm] at hp
      have hmono : weakCompositions (n - b) k ≤ weakCompositions m k :=
        weakCompositions_mono k (by omega)
      have hz := Int.ofNat_inj.mpr hp
      have hz2 := Int.ofNat_le.mpr hmono
      push_cast at hz
      omega

/-! ## Composition rank is the lexicographic rank (C19) -/

/-- C19: for every weak composition `c` of `n` into `k` parts with `1 <= k < 2^16` and
`n + k - 1` within 64 bits, `CompositionToInteger(c)` returns the number of weak
compositions of `n` into `k` parts that are lexicographically smaller than `c`; the rank
lies in `[0, NumberCompositions(n, k))`, and every composition `d` of `n` into `k` parts
that is lexicographically greater than `c` has a strictly greater rank. -/
theorem composition_rank_lex (c : List Nat) (n k : Nat) (hk1 : 1 ≤ k) (hk16 : k < W16)
    (hlen : c.length = k) (hsum : c.sum = n) (hn : n + k - 1 < W64) :
    ∃ r : Int, CompositionToInteger c = some r ∧ r = ((lexSmallerCount c : Nat) : Int) ∧
      0 ≤ r ∧ r < (NumberCompositions n k : Int) ∧
      ∀ d : List Nat, d.length = k → d.sum = n → List.Lex (· < ·) c d →
        ∃ r2 : Int, CompositionToInteger d = some r2 ∧ r < r2 := by
  have hW := W64_val
  obtain ⟨r, hr, h0, h1⟩ := rank_loop_bounds (k - 1) c n k (by omega) (by omega) hsum hn hk16
  have hcount := rank_eq_lex_count (k - 1) c n k (by omega) (by omega) hsum hn hk16
  have hN : NumberCompositions n k = weakCompositions n k := by
    rw [NumberCompositions_word (by omega) hk1 hk16, if_pos hn]
  have hC : CompositionToInteger c = some r := by
    unfold CompositionToInteger
    rw [hlen, hsum, Nat.mod_eq_of_lt hk16, Nat.mod_eq_of_lt (by omega)]
    exact hr
  refine ⟨r, hC, ?_, h0, ?_, ?_⟩
  · rw [hr] at hcount
    simp only [Option.some.injEq] at hcount
    rw [hcount, lexSmallerCount, hlen, hsum]
  · rw [hN]
    exact h1
  · intro d hdl hds hlex
    obtain ⟨r2, hr2, _, _⟩ :=
      rank_loop_bounds (k - 1) d n k (by omega) (by omega) hds hn hk16
    refine ⟨r2, ?_, ?_⟩
    · unfold CompositionToInteger
      rw [hdl, hds, Nat.mod_eq_of_lt hk16, Nat.mod_eq_of_lt (by omega)]
      exact hr2
    · exact rank_loop_lex c d hlex (k - 1) n k r r2 (by omega) (by omega) (by omega) hsum hds
        hn hk16 hr hr2

/-- Witness of C19: the composition `(1, 2, 1)` of `4` into `3` parts. -/
theorem composition_rank_lex_witness :
    ∃ r : Int, CompositionToInteger [1, 2, 1] = some r ∧
      r = ((lexSmallerCount [1, 2, 1] : Nat) : Int) ∧
      0 ≤ r ∧ r < (NumberCompositions 4 3 : Int) ∧
      ∀ d : List Nat, d.length = 3 → d.sum = 4 → List.Lex (· < ·) [1, 2, 1] d →
        ∃ r2 : Int, CompositionToInteger d = some r2 ∧ r < r2 :=
  composition_rank_lex [1, 2, 1] 4 3 (by decide) (by decide) (by decide) (by decide)
    (by decide)

/-- Counterexample to C19 as stated for every composition: `(2^64 - 1, 0)` is a weak
composition of `n = 2^64 - 1` into `k = 2` parts of type `uint64_t`, but `n + k - 1`
wraps to `0`, `NumberCompositions(n, 2)` is `0`, and the returned rank is `-1`: it is
neither a count nor inside `[0, NumberCompositions(n, k))`. -/
theorem composition_rank_lex_counterexample :
    CompositionToInteger [18446744073709551615, 0] = some (-1) ∧
      NumberCompositions 18446744073709551615 2 = 0 ∧
      ((lexSmallerCount [18446744073709551615, 0] : Nat) : Int) ≠ -1 := by
  refine ⟨by decide, by decide, ?_⟩
  omega

/-! ## The planner (C14) -/

theorem OptimizeParams_pass_nScriptHash (A B : Nat) (fee : CTransaction → Nat)
    (lg : Nat → Nat) (tx : CTransaction) (size nBudget k : Nat) :
    (OptimizeParams.pass A B fee lg tx size nBudget k).1.nScriptHash = k := rfl

/-- The loop of `OptimizeParams` started below 14: either the first pass already lacks
capacity and the recorded choice stays, or the result is the candidate of the lowest `m`
of an unbroken run of sufficient capacities. -/
theorem OptimizeParams_loop_run (A B : Nat) (fee : CTransaction → Nat) (lg : Nat → Nat)
    (tx : CTransaction) (size nBudget : Nat) :
    ∀ (fuel k : Nat) (p : Parameters), 1 ≤ k → k ≤ 13 → k ≤ fuel →
      ∃ q, OptimizeParams.loop A B fee lg tx size nBudget fuel k p = some q ∧
        ((q = p ∧ (OptimizeParams.pass A B fee lg tx size nBudget k).2 < size) ∨
          ∃ m, 1 ≤ m ∧ m ≤ k ∧ q = (OptimizeParams.pass A B fee lg tx size nBudget m).1 ∧
            (∀ j, m ≤ j → j ≤ k →
              size ≤ (OptimizeParams.pass A B fee lg tx size nBudget j).2) ∧
            (1 < m → (OptimizeParams.pass A B fee lg tx size nBudget (m - 1)).2 < size)) := by
  intro fuel
  induction fuel with
  | zero => intro k p h1 _ h3; omega
  | succ fuel ih =>
    intro k p h1 h13 hf
    have hW := W32_val
    rw [OptimizeParams.loop]
    by_cases hcap : size ≤ (OptimizeParams.pass A B fee lg tx size nBudget k).2
    · have hrec : decide ((OptimizeParams.pass A B fee lg tx size nBudget k).2 ≥ size
          ∨ k = 14) = true := decide_eq_true (Or.inl hcap)
      have hdec : (k + (W32 - 1)) % W32 = k - 1 := by
        rw [W32_val]
        omega
      simp only [hrec, if_true, hdec]
      by_cases hk1 : k - 1 > 0
      · rw [if_pos ⟨hcap, hk1⟩]
        obtain ⟨q, hq, hcase⟩ := ih (k - 1)
          (OptimizeParams.pass A B fee lg tx size nBudget k).1 (by omega) (by omega) (by omega)
        refine ⟨q, hq, Or.inr ?_⟩
        rcases hcase with ⟨hqp, hlt⟩ | ⟨m, hm1, hmk, hqm, hall, hbelow⟩
        · refine ⟨k, h1, le_refl k, hqp, ?_, fun _ => hlt⟩
          intro j hj1 hj2
          have : j = k := by omega
          rw [this]
          exact hcap
        · refine ⟨m, hm1, by omega, hqm, ?_, hbelow⟩
          intro j hj1 hj2
          by_cases hjk : j = k
          · rw [hjk]
            exact hcap
          · exact hall j hj1 (by omega)
      · rw [if_neg (by intro h; exact hk1 h.2)]
        refine ⟨_, rfl, Or.inr ⟨k, h1, le_refl k, rfl, ?_, fun h => by omega⟩⟩
        intro j hj1 hj2
        have : j = k := by omega
        rw [this]
        exact hcap
    · have hrec : decide ((OptimizeParams.pass A B fee lg tx size nBudget k).2 ≥ size
          ∨ k = 14) = false := decide_eq_false (by
            intro h
            rcases h with h | h
            · exact hcap h
            · omega)
      simp only [hrec, Bool.false_eq_true, if_false]
      rw [if_neg (by intro h; exact hcap h.1)]
      exact ⟨p, rfl, Or.inl ⟨rfl, by omega⟩⟩

/-- The result of `OptimizeParams` on a non-empty payload: the candidate of some
`k` in `1..14`; `k = 14` when 14 outputs lack capacity, and otherwise `k` is the lowest
end of the unbroken run of sufficient capacities that ends at 14. -/
theorem OptimizeParams_spec (s r : Int) (fee : CTransaction → Nat) (lg : Nat → Nat)
    (tx : CTransaction) (bits : DataBits) (nBudget : Nat) (p0 : Parameters)
    (hr : 255 - r ≤ 2147483647) (hne : bits ≠ []) :
    ∃ q, OptimizeParams s r fee lg tx bits nBudget p0 = some q ∧
      1 ≤ q.nScriptHash ∧ q.nScriptHash ≤ 14 ∧
      q = (OptimizeParams.pass (s % (W32 : Int)).toNat ((255 - r) % (W32 : Int)).toNat fee lg tx
        bits.length nBudget q.nScriptHash).1 ∧
      (OptimizeParams.capacity s r fee lg tx bits.length nBudget 14 < bits.length →
        q.nScriptHash = 14) ∧
      (bits.length ≤ OptimizeParams.capacity s r fee lg tx bits.length nBudget 14 →
        (∀ j, q.nScriptHash ≤ j → j ≤ 14 →
          bits.length ≤ OptimizeParams.capacity s r fee lg tx bits.length nBudget j) ∧
        (1 < q.nScriptHash →
          OptimizeParams.capacity s r fee lg tx bits.length nBudget (q.nScriptHash - 1)
            < bits.length)) := by
  have hlen : bits.length ≠ 0 := fun h => hne (List.length_eq_zero.mp h)
  have hW := W32_val
  unfold OptimizeParams
  rw [if_neg (by omega), if_neg hlen]
  generalize hA : (s % (W32 : Int)).toNat = A
  generalize hB : ((255 - r) % (W32 : Int)).toNat = B
  have hcapdef : ∀ k, OptimizeParams.capacity s r fee lg tx bits.length nBudget k
      = (OptimizeParams.pass A B fee lg tx bits.length nBudget k).2 := by
    intro k
    unfold OptimizeParams.capacity
    rw [hA, hB]
  simp only [hcapdef]
  show ∃ q, OptimizeParams.loop A B fee lg tx bits.length nBudget (13 + 1) 14 p0 = some q ∧ _
  rw [OptimizeParams.loop]
  have hdec : (14 + (W32 - 1)) % W32 = 13 := by
    rw [W32_val]
  have hrec : decide ((OptimizeParams.pass A B fee lg tx bits.length nBudget 14).2
      ≥ bits.length ∨ 14 = 14) = true := decide_eq_true (Or.inr rfl)
  rw [hrec, hdec]
  simp only [if_true]
  by_cases hcap : bits.length ≤ (OptimizeParams.pass A B fee lg tx bits.length nBudget 14).2
  · rw [if_pos ⟨hcap, by omega⟩]
    obtain ⟨q, hq, hcase⟩ := OptimizeParams_loop_run A B fee lg tx bits.length nBudget 13 13
      (OptimizeParams.pass A B fee lg tx bits.length nBudget 14).1 (by omega) (by omega)
      (by omega)
    refine ⟨q, hq, ?_⟩
    rcases hcase with ⟨hqp, hlt⟩ | ⟨m, hm1, hmk, hqm, hall, hbelow⟩
    · have hk : q.nScriptHash = 14 := by rw [hqp]; rfl
      rw [hk]
      refine ⟨by omega, by omega, hqp, fun _ => rfl, fun _ => ⟨?_, fun _ => hlt⟩⟩
      intro j hj1 hj2
      have : j = 14 := by omega
      rw [this]
      exact hcap
    · have hk : q.nScriptHash = m := by rw [hqm]; rfl
      rw [hk]
      refine ⟨hm1, by omega, hqm, fun h => by omega, fun _ => ⟨?_, hbelow⟩⟩
      intro j hj1 hj2
      by_cases hj : j = 14
      · rw [hj]
        exact hcap
      · exact hall j hj1 (by omega)
  · rw [if_neg (by intro h; exact hcap h.1)]
    refine ⟨_, rfl, ?_⟩
    have hk : (OptimizeParams.pass A B fee lg tx bits.length nBudget 14).1.nScriptHash = 14 :=
      rfl
    rw [hk]
    exact ⟨by omega, by omega, rfl, fun _ => rfl, fun h => absurd h hcap⟩

theorem capacity_upward (cap : Nat → Nat) (B : Nat)
    (hup : ∀ j, 1 ≤ j → j < 14 → B ≤ cap j → B ≤ cap (j + 1)) (j : Nat) (hj1 : 1 ≤ j)
    (hcap : B ≤ cap j) : ∀ d, j + d ≤ 14 → B ≤ cap (j + d) := by
  intro d
  induction d with
  | zero => intro _; exact hcap
  | succ d ih =>
    intro h
    exact hup (j + d) (by omega) (by omega) (ih (by omega))

/-- What the scan of `OptimizeParams` does return (the statement of C14 for the code as
it is): for every transaction, budget and non-empty payload of `B` bits,
`OptimizeParams` returns `nScriptHash = k` with `1 <= k <= 14`; `k = 14` when the capacity
of 14 outputs is below `B` (in particular when no `k'` has enough capacity), and otherwise
`k` is the smallest `k'` such that every `k''` in `[k', 14]` has capacity `>= B`. When the
sufficient capacities are upward closed in `[1, 14]`, `k` is the smallest `k'` in
`[1, 14]` whose capacity is `>= B`, as C14 says. The capacity is the planner's own
`nTotalEmbeddableBits`. -/
theorem planner_choice (s r : Int) (fee : CTransaction → Nat) (lg : Nat → Nat)
    (tx : CTransaction) (bits : DataBits) (nBudget : Nat) (p0 : Parameters)
    (hr : 255 - r ≤ 2147483647) (hne : bits ≠ []) :
    ∃ q, OptimizeParams s r fee lg tx bits nBudget p0 = some q ∧
      1 ≤ q.nScriptHash ∧ q.nScriptHash ≤ 14 ∧
      (OptimizeParams.capacity s r fee lg tx bits.length nBudget 14 < bits.length →
        q.nScriptHash = 14) ∧
      (bits.length ≤ OptimizeParams.capacity s r fee lg tx bits.length nBudget 14 →
        (∀ j, q.nScriptHash ≤ j → j ≤ 14 →
          bits.length ≤ OptimizeParams.capacity s r fee lg tx bits.length nBudget j) ∧
        (1 < q.nScriptHash →
          OptimizeParams.capacity s r fee lg tx bits.length nBudget (q.nScriptHash - 1)
            < bits.length)) ∧
      ((∀ j, 1 ≤ j → j < 14 →
          bits.length ≤ OptimizeParams.capacity s r fee lg tx bits.length nBudget j →
          bits.length ≤ OptimizeParams.capacity s r fee lg tx bits.length nBudget (j + 1)) →
        ∀ j, 1 ≤ j → j ≤ 14 →
          bits.length ≤ OptimizeParams.capacity s r fee lg tx bits.length nBudget j →
          q.nScriptHash ≤ j ∧
            bits.length
              ≤ OptimizeParams.capacity s r fee lg tx bits.length nBudget q.nScriptHash) := by
  obtain ⟨q, hq, h1, h14, _, htop, hrun⟩ :=
    OptimizeParams_spec s r fee lg tx bits nBudget p0 hr hne
  refine ⟨q, hq, h1, h14, htop, hrun, ?_⟩
  intro hup j hj1 hj14 hcap
  have hclosed := capacity_upward
    (OptimizeParams.capacity s r fee lg tx bits.length nBudget) bits.length hup j hj1 hcap
  have h14cap := hclosed (14 - j) (by omega)
  rw [show j + (14 - j) = 14 by omega] at h14cap
  obtain ⟨hall, hbelow⟩ := hrun h14cap
  refine ⟨?_, hall q.nScriptHash (le_refl _) h14⟩
  by_contra hlt
  have hk : 1 < q.nScriptHash := by omega
  have h2 := hclosed (q.nScriptHash - 1 - j) (by omega)
  rw [show j + (q.nScriptHash - 1 - j) = q.nScriptHash - 1 by omega] at h2
  have h3 := hbelow hk
  omega

/-- The scan on a payload of 4000 bits, a budget of `10^7` satoshi, a constant fee
of `10^4` satoshi and the configuration of the tests (`Keymap.SuffixBits = 8`,
`Random.SuffixBits = 5`). -/
theorem planner_choice_witness :
    (255 - (5 : Int) ≤ 2147483647) ∧ List.replicate 4000 true ≠ [] ∧
    ∃ q, OptimizeParams 8 5 (fun _ => 10000) floorLog2 ⟨[], []⟩ (List.replicate 4000 true)
        10000000 ⟨0, 0, 0⟩ = some q ∧
      1 ≤ q.nScriptHash ∧ q.nScriptHash ≤ 14 ∧
      (OptimizeParams.capacity 8 5 (fun _ => 10000) floorLog2 ⟨[], []⟩
          (List.replicate 4000 true).length 10000000 14 < (List.replicate 4000 true).length →
        q.nScriptHash = 14) ∧
      ((List.replicate 4000 true).length ≤ OptimizeParams.capacity 8 5 (fun _ => 10000)
          floorLog2 ⟨[], []⟩ (List.replicate 4000 true).length 10000000 14 →
        (∀ j, q.nScriptHash ≤ j → j ≤ 14 →
          (List.replicate 4000 true).length ≤ OptimizeParams.capacity 8 5 (fun _ => 10000)
            floorLog2 ⟨[], []⟩ (List.replicate 4000 true).length 10000000 j) ∧
        (1 < q.nScriptHash →
          OptimizeParams.capacity 8 5 (fun _ => 10000) floorLog2 ⟨[], []⟩
            (List.replicate 4000 true).length 10000000 (q.nScriptHash - 1)
            < (List.replicate 4000 true).length)) ∧
      ((∀ j, 1 ≤ j → j < 14 →
          (List.replicate 4000 true).length ≤ OptimizeParams.capacity 8 5 (fun _ => 10000)
            floorLog2 ⟨[], []⟩ (List.replicate 4000 true).length 10000000 j →
          (List.replicate 4000 true).length ≤ OptimizeParams.capacity 8 5 (fun _ => 10000)
            floorLog2 ⟨[], []⟩ (List.replicate 4000 true).length 10000000 (j + 1)) →
        ∀ j, 1 ≤ j → j ≤ 14 →
          (List.replicate 4000 true).length ≤ OptimizeParams.capacity 8 5 (fun _ => 10000)
            floorLog2 ⟨[], []⟩ (List.replicate 4000 true).length 10000000 j →
          q.nScriptHash ≤ j ∧
            (List.replicate 4000 true).length ≤ OptimizeParams.capacity 8 5 (fun _ => 10000)
              floorLog2 ⟨[], []⟩ (List.replicate 4000 true).length 10000000 q.nScriptHash) :=
  ⟨by decide, by decide,
    planner_choice 8 5 (fun _ => 10000) floorLog2 ⟨[], []⟩ (List.replicate 4000 true) 10000000
      ⟨0, 0, 0⟩ (by decide) (by decide)⟩

/-- The planner's capacity for `k >= 2` outputs when no 32-bit sum wraps and the budget
covers the fee: `k * (s + 11 * (255 - r)) + 32 * k + 320
+ EmbeddableBitsInValues(budget - fees, k) + EmbeddableBitsInPermutation(k)`. -/
theorem OptimizeParams_capacity_formula (s r : Nat) (fee : CTransaction → Nat)
    (lg : Nat → Nat) (tx : CTransaction) (size nBudget k fees : Nat) (hr : r ≤ 255)
    (hk : 2 ≤ k) (hb : nBudget < W64)
    (hfees : fees = fee { tx with vout := List.replicate k { CTxOut.null with
      scriptPubKey := dummyA } ++ [{ CTxOut.null with scriptPubKey := dummyB }] } % W64)
    (hle : fees ≤ nBudget)
    (hfit : k * (s + 11 * (255 - r)) + 32 * k + 320
      + EmbeddableBitsInValues lg (nBudget - fees) k + EmbeddableBitsInPermutation lg k < W32) :
    OptimizeParams.capacity (s : Int) (r : Int) fee lg tx size nBudget k
      = k * (s + 11 * (255 - r)) + 32 * k + 320
        + EmbeddableBitsInValues lg (nBudget - fees) k + EmbeddableBitsInPermutation lg k := by
  have hW := W32_val
  have hW64 := W64_val
  have hk1 : k ≤ k * (s + 11 * (255 - r)) + 32 * k := by nlinarith
  have hs : s ≤ k * (s + 11 * (255 - r)) := by nlinarith
  have hB : 11 * (255 - r) ≤ k * (s + 11 * (255 - r)) := by nlinarith
  have h2 : 2 * (s + 11 * (255 - r)) ≤ k * (s + 11 * (255 - r)) :=
    Nat.mul_le_mul_right _ hk
  have hA : (((s : Int)) % (W32 : Int)).toNat = s := by
    rw [Int.emod_eq_of_lt (by omega) (by omega)]
    exact Int.toNat_ofNat s
  have hBr : ((255 - (r : Int)) % (W32 : Int)).toNat = 255 - r := by
    rw [Int.emod_eq_of_lt (by omega) (by omega)]
    omega
  have hsub : sub64 nBudget fees = nBudget - fees := sub64_of_le hle hb
  unfold OptimizeParams.capacity OptimizeParams.pass
  simp only [hA, hBr]
  have hnull : decide ((k = 1 ∧ size > (k * ((s + 11 * (255 - r) % W32) % W32) % W32
      + k * 32 % W32) % W32) ∨ k ≥ 2) = true := decide_eq_true (Or.inr hk)
  rw [hnull]
  simp only [if_true, if_pos hk]
  rw [← hfees, Nat.mod_eq_of_lt hb, if_pos hle, hsub]
  have e1 : 11 * (255 - r) % W32 = 11 * (255 - r) := Nat.mod_eq_of_lt (by omega)
  have e2 : (s + 11 * (255 - r)) % W32 = s + 11 * (255 - r) := Nat.mod_eq_of_lt (by omega)
  have e3 : k * (s + 11 * (255 - r)) % W32 = k * (s + 11 * (255 - r)) :=
    Nat.mod_eq_of_lt (by omega)
  have e4 : k * 32 % W32 = k * 32 := Nat.mod_eq_of_lt (by omega)
  have e5 : (k * (s + 11 * (255 - r)) + k * 32) % W32 = k * (s + 11 * (255 - r)) + k * 32 :=
    Nat.mod_eq_of_lt (by omega)
  have e6 : (k * (s + 11 * (255 - r)) + k * 32 + 320) % W32
      = k * (s + 11 * (255 - r)) + k * 32 + 320 := Nat.mod_eq_of_lt (by omega)
  have e7 : EmbeddableBitsInValues lg (nBudget - fees) k % W32
      = EmbeddableBitsInValues lg (nBudget - fees) k := Nat.mod_eq_of_lt (by omega)
  have e8 : EmbeddableBitsInPermutation lg k % W32 = EmbeddableBitsInPermutation lg k :=
    Nat.mod_eq_of_lt (by omega)
  have e9 : (EmbeddableBitsInValues lg (nBudget - fees) k + EmbeddableBitsInPermutation lg k)
      % W32 = EmbeddableBitsInValues lg (nBudget - fees) k + EmbeddableBitsInPermutation lg k :=
    Nat.mod_eq_of_lt (by omega)
  rw [e1, e2, e3, e4, e5, e6, e7, e8, e9, Nat.mod_eq_of_lt (by omega)]
  omega

/-! ## The P2SH channel (C12) -/

theorem pushData_length_pos (d : Data) : 1 ≤ (pushData d).length := by
  unfold pushData
  split_ifs <;> simp

/-- `GetOp` reads back what `pushData` wrote. -/
theorem GetOp_pushData (d rest : Data) (hd : d.length < W32) :
    ∃ opcode, GetOp (pushData d ++ rest) = some (opcode, d, rest) := by
  have hW := W32_val
  have hlen : ¬ (d ++ rest).length < d.length := by
    rw [List.length_append]
    omega
  unfold pushData
  by_cases h1 : d.length < 0x4c
  · rw [if_pos h1]
    refine ⟨d.length, ?_⟩
    simp only [List.cons_append, GetOp, OP_PUSHDATA4, OP_PUSHDATA1]
    rw [if_pos (by omega), if_pos h1, if_neg hlen]
    simp
  · rw [if_neg h1]
    by_cases h2 : d.length ≤ 0xff
    · rw [if_pos h2]
      refine ⟨0x4c, ?_⟩
      simp only [List.cons_append, GetOp, OP_PUSHDATA4, OP_PUSHDATA1]
      simp [hlen]
    · rw [if_neg h2]
      by_cases h3 : d.length ≤ 0xffff
      · rw [if_pos h3]
        refine ⟨0x4d, ?_⟩
        have e : d.length % 256 + 256 * (d.length / 256) = d.length := by omega
        simp only [List.cons_append, GetOp, OP_PUSHDATA4, OP_PUSHDATA1, OP_PUSHDATA2, e]
        simp [hlen]
      · rw [if_neg h3]
        refine ⟨0x4e, ?_⟩
        have e : d.length % 256 + 256 * (d.length / 256 % 256)
            + 65536 * (d.length / 65536 % 256) + 16777216 * (d.length / 16777216 % 256)
            = d.length := by omega
        simp only [List.cons_append, GetOp, OP_PUSHDATA4, OP_PUSHDATA1, OP_PUSHDATA2, e]
        simp [hlen]

theorem GetOp_opcode (opcode : Nat) (rest : Data) (h : OP_PUSHDATA4 < opcode) :
    GetOp (opcode :: rest) = some (opcode, [], rest) := by
  simp only [GetOp]
  rw [if_neg (by omega)]

theorem lastData_nil (fuel : Nat) (d : Data) : UnpackDataFromP2SH.lastData fuel [] d = d := by
  cases fuel <;> simp [UnpackDataFromP2SH.lastData]

/-- The redeemScript is the last push of the signature script
`OP_0 <signature> <redeemScript>`. -/
theorem lastData_scriptSig (sig redeemScript : Data) (hs : sig.length < W32)
    (hr : redeemScript.length < W32) :
    UnpackDataFromP2SH.lastData (OP_0 :: (pushData sig ++ pushData redeemScript)).length
      (OP_0 :: (pushData sig ++ pushData redeemScript)) [] = redeemScript := by
  have h1 := pushData_length_pos sig
  have h2 := pushData_length_pos redeemScript
  obtain ⟨f, hf⟩ : ∃ f, (OP_0 :: (pushData sig ++ pushData redeemScript)).length = f + 3 :=
    ⟨(OP_0 :: (pushData sig ++ pushData redeemScript)).length - 3, by
      rw [List.length_cons, List.length_append]; omega⟩
  rw [hf]
  obtain ⟨o1, ho1⟩ := GetOp_pushData sig (pushData redeemScript) hs
  obtain ⟨o2, ho2⟩ := GetOp_pushData redeemScript [] hr
  rw [List.append_nil] at ho2
  have h0 : GetOp (OP_0 :: (pushData sig ++ pushData redeemScript))
      = some (OP_0, [], pushData sig ++ pushData redeemScript) := by
    simp [GetOp, OP_0, OP_PUSHDATA4, OP_PUSHDATA1]
  have hne1 : pushData sig ++ pushData redeemScript ≠ [] := by
    intro h
    have := congrArg List.length h
    rw [List.length_append, List.length_nil] at this
    omega
  have hne2 : pushData redeemScript ≠ [] := by
    intro h
    have := congrArg List.length h
    rw [List.length_nil] at this
    omega
  rw [UnpackDataFromP2SH.lastData, if_neg (by simp), h0]
  simp only []
  rw [UnpackDataFromP2SH.lastData, if_neg hne1, ho1]
  simp only []
  rw [UnpackDataFromP2SH.lastData, if_neg hne2, ho2]
  simp only []
  exact lastData_nil f redeemScript

theorem EncodeDataInPubkey_loop_mono (IsFullyValid : Data → Bool) (draw : Nat → DataBits)
    (b : DataBits) (r : Nat) : ∀ (fuel i : Nat) (pk : Data),
    EncodeDataInPubkey.loop IsFullyValid draw b r fuel i = some pk →
    ∀ m, EncodeDataInPubkey.loop IsFullyValid draw b r (fuel + m) i = some pk := by
  intro fuel
  induction fuel with
  | zero => intro i pk h; simp [EncodeDataInPubkey.loop] at h
  | succ fuel ih =>
    intro i pk h m
    rw [show fuel + 1 + m = (fuel + m) + 1 by omega, EncodeDataInPubkey.loop]
    rw [EncodeDataInPubkey.loop] at h
    cases hc : EncodeDataInPubkey.candidate b r (draw i) with
    | none => rw [hc] at h; simp at h
    | some c =>
      rw [hc] at h
      simp only [] at h ⊢
      by_cases hv : IsFullyValid c = true
      · rw [if_pos hv] at h ⊢
        exact h
      · rw [if_neg hv] at h ⊢
        exact ih (i + 1) pk h m

/-- `EncodeDataInPubkey(slice, 5)` on a slice of 250 bits returns a key of 33 bytes with
header `2` that decodes to the slice, as soon as one of the first `fuel` draws gives a
valid point. -/
theorem EncodeDataInPubkey_returns (IsFullyValid : Data → Bool) (draw : Nat → DataBits)
    (fuel : Nat) (b : DataBits) (hb : b.length = 250) (hdraw : ∀ i, (draw i).length = 5)
    (hvalid : ∃ j, j < fuel ∧ ∀ pk, EncodeDataInPubkey.candidate b 5 (draw j) = some pk →
      IsFullyValid pk = true) :
    ∃ pk, EncodeDataInPubkey IsFullyValid draw fuel b 5 = some pk ∧ pk.length = 33 ∧
      pk.headD 0 = 2 ∧ DecodeDataInPubkey pk 5 = some b := by
  have hcand : ∀ i, ∃ pk, EncodeDataInPubkey.candidate b 5 (draw i) = some pk ∧ pk.length = 33
      ∧ pk.headD 0 = 2 ∧ DecodeDataInPubkey pk 5 = some b := by
    intro i
    obtain ⟨pk, h1, h2, h3, _, h5⟩ :=
      pubkey_candidate 250 b (draw i) (by omega) (by omega) hb (hdraw i)
    exact ⟨pk, h1, h2, h3, h5⟩
  obtain ⟨j, hj, hv⟩ := hvalid
  obtain ⟨cj, hcj, _⟩ := hcand j
  have hall : ∀ i, ∃ c, EncodeDataInPubkey.candidate b 5 (draw i) = some c := by
    intro i
    obtain ⟨pk, h1, _⟩ := hcand i
    exact ⟨pk, h1⟩
  obtain ⟨pk, hpk⟩ := EncodeDataInPubkey_loop_returns IsFullyValid draw b 5 hall j 0 cj
    (by rw [Nat.zero_add]; exact hcj) (hv cj hcj)
  have hmono := EncodeDataInPubkey_loop_mono IsFullyValid draw b 5 (j + 1) 0 pk hpk
    (fuel - (j + 1))
  rw [show j + 1 + (fuel - (j + 1)) = fuel by omega] at hmono
  obtain ⟨i, hi, _⟩ := EncodeDataInPubkey_loop_some IsFullyValid draw b 5 (j + 1) 0 pk hpk
  obtain ⟨pk2, h1, h2, h3, h5⟩ := hcand i
  rw [h1] at hi
  simp only [Option.some.injEq] at hi
  subst hi
  exact ⟨pk2, hmono, h2, h3, h5⟩

/-- Two consecutive padded slices are one padded slice. -/
theorem take_pad_append (bits : DataBits) (w m : Nat) :
    (bits.take w ++ List.replicate (w - bits.length) false)
        ++ ((bits.drop w).take m ++ List.replicate (m - (bits.drop w).length) false)
      = bits.take (w + m) ++ List.replicate (w + m - bits.length) false := by
  rcases Nat.lt_or_ge bits.length w with h | h
  · rw [List.take_of_length_le (by omega), List.drop_of_length_le (by omega),
      List.take_of_length_le (l := bits) (by omega)]
    simp only [List.take_nil, List.nil_append, List.length_nil, Nat.sub_zero,
      List.append_assoc]
    rw [List.append_replicate_replicate]
    congr 2
    omega
  · rw [show w - bits.length = 0 by omega, List.replicate_zero, List.append_nil,
      List.length_drop, ← List.append_assoc, List.take_add]
    congr 2
    omega

theorem decode_cons (pk : Data) (pks : List Data) (b rest : DataBits)
    (h1 : DecodeDataInPubkey pk 5 = some b) (h2 : UnpackDataFromP2SH.decode pks = some rest) :
    UnpackDataFromP2SH.decode (pk :: pks) = some (b ++ rest) := by
  rw [UnpackDataFromP2SH.decode, h1, h2]

/-- The loop over the extra keys: `n` keys take the next `250 * n` bits, padded with
zeros when the vector runs out. -/
theorem PackDataIntoP2SH_keys_spec (ctx : Context) (hctx : DrawsValid ctx) :
    ∀ (n : Nat) (bits : DataBits) (c : Nat), bits.length < 2 ^ 31 →
    ∃ pks, PackDataIntoP2SH.keys ctx n bits c = some (bits.drop (250 * n), pks, c + n) ∧
      pks.length = n ∧ (∀ pk ∈ pks, pk.length = 33 ∧ pk.headD 0 = 2) ∧
      UnpackDataFromP2SH.decode pks
        = some (bits.take (250 * n) ++ List.replicate (250 * n - bits.length) false) := by
  intro n
  induction n with
  | zero =>
    intro bits c _
    exact ⟨[], by simp [PackDataIntoP2SH.keys], rfl, by simp, by
      simp [UnpackDataFromP2SH.decode]⟩
  | succ n ih =>
    intro bits c hL
    have hslice := pad_slice bits 250 (by norm_num [W32])
    have hlen : (bits.take (min 250 bits.length)
        ++ List.replicate (250 - min 250 bits.length) false).length = 250 := by
      rw [List.length_append, List.length_take, List.length_replicate]
      omega
    obtain ⟨pk, hpk, hpk33, hpk2, hdec⟩ := EncodeDataInPubkey_returns ctx.IsFullyValid
      (ctx.draw c) ctx.fuel _ hlen (hctx.1 c) (hctx.2 c _ hlen)
    obtain ⟨pks, hpks, hn, hall, hdecs⟩ := ih (bits.drop (min 250 bits.length)) (c + 1) (by
      rw [List.length_drop]; omega)
    refine ⟨pk :: pks, ?_, by rw [List.length_cons, hn], ?_, ?_⟩
    · rw [PackDataIntoP2SH.keys, toInt32_of_lt hL]
      have e1 : (250 : Int) - min 250 (bits.length : Int)
          = ((250 - min 250 bits.length : Nat) : Int) := by omega
      simp only [e1, Int.toNat_ofNat]
      rw [if_neg (by omega), hslice]
      simp only [hpk, hpks]
      congr 2
      · rw [List.drop_drop]
        rcases Nat.lt_or_ge bits.length 250 with h | h
        · rw [List.drop_of_length_le (by omega), List.drop_of_length_le (by omega)]
        · congr 1
          omega
      · congr 1
        omega
    · intro q hq
      rcases List.mem_cons.mp hq with h | h
      · rw [h]
        exact ⟨hpk33, hpk2⟩
      · exact hall q h
    · rw [decode_cons pk pks _ _ hdec hdecs]
      have e2 : List.take (min 250 bits.length) bits = bits.take 250 := by
        rcases Nat.lt_or_ge bits.length 250 with h | h
        · rw [Nat.min_eq_right (by omega), List.take_of_length_le (by omega),
            List.take_of_length_le (by omega)]
        · rw [Nat.min_eq_left h]
      have e3 : List.drop (min 250 bits.length) bits = bits.drop 250 := by
        rcases Nat.lt_or_ge bits.length 250 with h | h
        · rw [List.drop_of_length_le (by omega), List.drop_of_length_le (by omega)]
        · rw [Nat.min_eq_left h]
      have e4 : 250 - min 250 bits.length = 250 - bits.length := by omega
      rw [e2, e3, e4, take_pad_append bits 250 (250 * n),
        show 250 * (n + 1) = 250 + 250 * n by omega]

theorem CPubKey_ofData_compressed (pk : Data) (hlen : pk.length = 33)
    (hh : pk.headD 0 = 2 ∨ pk.headD 0 = 3) : CPubKey.ofData pk = pk := by
  unfold CPubKey.ofData
  have hne : pk ≠ [] := by
    intro h
    rw [h] at hlen
    simp at hlen
  have hg : CPubKey.GetLen (pk.headD 0) = 33 := by
    unfold CPubKey.GetLen
    rw [if_pos hh]
  rw [if_pos ⟨hne, by rw [hg, hlen]⟩]

theorem pubkeys_tail (a b : Nat) (ha : OP_PUSHDATA4 < a) (hb : OP_PUSHDATA4 < b) :
    ∀ fuel, UnpackDataFromP2SH.pubkeys fuel [a, b] = [] := by
  intro fuel
  match fuel with
  | 0 => rfl
  | 1 =>
    rw [UnpackDataFromP2SH.pubkeys, if_neg (by simp), GetOp_opcode a [b] ha]
    simp [UnpackDataFromP2SH.pubkeys]
  | f + 2 =>
    rw [UnpackDataFromP2SH.pubkeys, if_neg (by simp), GetOp_opcode a [b] ha]
    simp only [List.length_nil]
    rw [if_neg (by omega), UnpackDataFromP2SH.pubkeys, if_neg (by simp), GetOp_opcode b [] hb]
    simp only [List.length_nil]
    rw [if_neg (by omega)]
    cases f <;> simp [UnpackDataFromP2SH.pubkeys]

/-- The second loop of `UnpackDataFromP2SH` on the pushes of compressed keys. -/
theorem pubkeys_flatten (tail : Data) : ∀ (keys : List Data) (fuel : Nat),
    (∀ k ∈ keys, k.length = 33 ∧ (k.headD 0 = 2 ∨ k.headD 0 = 3)) → keys.length ≤ fuel →
    UnpackDataFromP2SH.pubkeys fuel ((keys.map pushData).flatten ++ tail)
      = keys ++ UnpackDataFromP2SH.pubkeys (fuel - keys.length) tail := by
  intro keys
  induction keys with
  | nil => intro fuel _ _; simp
  | cons k ks ih =>
    intro fuel hall hf
    obtain ⟨f, rfl⟩ : ∃ f, fuel = f + 1 := ⟨fuel - 1, by
      rw [List.length_cons] at hf; omega⟩
    obtain ⟨hk33, hkh⟩ := hall k (List.mem_cons_self _ _)
    have hW := W32_val
    obtain ⟨o, ho⟩ := GetOp_pushData k ((ks.map pushData).flatten ++ tail) (by omega)
    have hpos := pushData_length_pos k
    have hne : pushData k ++ ((ks.map pushData).flatten ++ tail) ≠ [] := by
      intro h
      have := congrArg List.length h
      rw [List.length_append, List.length_nil] at this
      omega
    rw [List.map_cons, List.flatten_cons, List.append_assoc, UnpackDataFromP2SH.pubkeys,
      if_neg hne, ho]
    simp only []
    rw [if_pos hk33, CPubKey_ofData_compressed k hk33 hkh,
      ih f (fun q hq => hall q (List.mem_cons_of_mem _ hq)) (by
        rw [List.length_cons] at hf; omega)]
    simp only [List.length_cons, List.cons_append, Nat.add_sub_add_right]

theorem flatten_pushData_length (keys : List Data) :
    keys.length ≤ ((keys.map pushData).flatten).length := by
  induction keys with
  | nil => simp
  | cons k ks ih =>
    have := pushData_length_pos k
    rw [List.map_cons, List.flatten_cons, List.length_append, List.length_cons]
    omega

/-- Parsing the redeemScript `OP_1 <pk_1> ... <pk_M> <M> OP_CHECKMULTISIG` gives back
the keys. -/
theorem pubkeys_SetMultisig (keys : List Data) (redeemScript : Data)
    (hall : ∀ k ∈ keys, k.length = 33 ∧ (k.headD 0 = 2 ∨ k.headD 0 = 3))
    (h : SetMultisig keys = some redeemScript) :
    UnpackDataFromP2SH.pubkeys redeemScript.length redeemScript = keys := by
  unfold SetMultisig at h
  by_cases hk : 1 ≤ keys.length ∧ keys.length ≤ 16
  · rw [if_pos hk] at h
    simp only [Option.some.injEq] at h
    have hlen := flatten_pushData_length keys
    rw [← h, List.length_cons, UnpackDataFromP2SH.pubkeys, if_neg (by simp),
      GetOp_opcode OP_1 _ (by decide)]
    simp only [List.length_nil]
    rw [if_neg (by omega), pubkeys_flatten _ keys _ hall (by
      rw [List.length_append]; omega),
      pubkeys_tail _ _ (by simp only [OP_1, OP_PUSHDATA4]; omega) (by decide),
      List.append_nil]
  · rw [if_neg hk] at h
    simp at h

theorem take_min_length (bits : DataBits) (w : Nat) :
    bits.take (min w bits.length) = bits.take w := by
  rcases Nat.lt_or_ge bits.length w with h | h
  · rw [Nat.min_eq_right (by omega), List.take_of_length_le (by omega),
      List.take_of_length_le (by omega)]
  · rw [Nat.min_eq_left h]

theorem drop_min_length (bits : DataBits) (w : Nat) :
    bits.drop (min w bits.length) = bits.drop w := by
  rcases Nat.lt_or_ge bits.length w with h | h
  · rw [List.drop_of_length_le (by omega), List.drop_of_length_le (by omega)]
  · rw [Nat.min_eq_left h]

theorem flatten_pushData_length_eq (keys : List Data) (hall : ∀ k ∈ keys, k.length = 33) :
    ((keys.map pushData).flatten).length = 34 * keys.length := by
  induction keys with
  | nil => simp
  | cons k ks ih =>
    have hk := hall k (List.mem_cons_self _ _)
    have hp : (pushData k).length = 34 := by
      unfold pushData
      rw [if_pos (by omega), List.length_cons, hk]
    rw [List.map_cons, List.flatten_cons, List.length_append, hp,
      ih (fun q hq => hall q (List.mem_cons_of_mem _ hq)), List.length_cons]
    omega

theorem SuffixInvariant_le (KeyMap : DataBits → Option Data) (s : Nat)
    (h : SuffixInvariant KeyMap s) : s ≤ 264 := by
  obtain ⟨pk, _, h33, _, hdrop⟩ := h (List.replicate s false) (List.length_replicate _ _)
  have := congrArg List.length hdrop
  rw [List.length_drop, DataToBits_length, List.length_replicate, h33] at this
  omega

/-- `PackDataIntoP2SH` followed by `UnpackDataFromP2SH` on the signed input: the first
`s + 250 * E` bits travel, `E = min(11, ceil(max(L - s, 0) / 250))` being the number of
extra keys. -/
theorem PackDataIntoP2SH_spec (ctx : Context) (s : Nat) (hs : ctx.KeymapSuffixBits = (s : Int))
    (hkm : SuffixInvariant ctx.KeyMap s) (hctx : DrawsValid ctx) (bits : DataBits)
    (hL : bits.length < 2 ^ 31) (txOut : CTxOut) (tx : CTransaction) (nInput c : Nat)
    (txin : CTxIn) (hin : tx.vin.get? nInput = some txin)
    (hsign : ∀ rs, ∃ sig, ctx.sign rs tx nInput = some sig ∧ sig.length < W32) :
    ∃ keys redeemScript sig,
      keys.length = 1 + min 11 ((bits.length - s + 249) / 250) ∧
      SetMultisig keys = some redeemScript ∧
      PackDataIntoP2SH ctx bits txOut tx nInput c
        = some (bits.drop (s + 250 * min 11 ((bits.length - s + 249) / 250)),
            { txOut with scriptPubKey := SetDestination ctx.Hash160 redeemScript },
            { tx with vin := (tx.vin.set nInput
                { txin with scriptSig := OP_0 :: (pushData sig ++ pushData redeemScript) }) },
            c + min 11 ((bits.length - s + 249) / 250)) ∧
      UnpackDataFromP2SH ctx.KeymapSuffixBits
          { txin with scriptSig := OP_0 :: (pushData sig ++ pushData redeemScript) }
        = some (bits.take (s + 250 * min 11 ((bits.length - s + 249) / 250))
            ++ List.replicate (s + 250 * min 11 ((bits.length - s + 249) / 250) - bits.length)
              false) := by
  have hW := W32_val
  have hs264 := SuffixInvariant_le ctx.KeyMap s hkm
  have hslice := pad_slice bits s (by omega)
  rw [take_min_length, drop_min_length, show s - min s bits.length = s - bits.length by omega]
    at hslice
  have hslen : (bits.take s ++ List.replicate (s - bits.length) false).length = s := by
    rw [List.length_append, List.length_take, List.length_replicate]
    omega
  obtain ⟨pk0, hpk0, hpk33, hpkh, hpkdrop⟩ := hkm _ hslen
  have hdl : (bits.drop s).length = bits.length - s := List.length_drop _ _
  generalize hE : min 11 ((bits.length - s + 249) / 250) = E
  have hE11 : E ≤ 11 := by omega
  obtain ⟨pks, hpks, hpn, hpall, hpdec⟩ :=
    PackDataIntoP2SH_keys_spec ctx hctx E (bits.drop s) c (by omega)
  have hkeys : ∀ k ∈ pk0 :: pks, k.length = 33 ∧ (k.headD 0 = 2 ∨ k.headD 0 = 3) := by
    intro k hk
    rcases List.mem_cons.mp hk with h | h
    · rw [h]
      exact ⟨hpk33, hpkh⟩
    · exact ⟨(hpall k h).1, Or.inl (hpall k h).2⟩
  have hms : SetMultisig (pk0 :: pks)
      = some (OP_1 :: (((pk0 :: pks).map pushData).flatten
          ++ [OP_1 + (pk0 :: pks).length - 1, OP_CHECKMULTISIG])) := by
    unfold SetMultisig
    rw [if_pos (by rw [List.length_cons, hpn]; omega)]
  generalize hrs : OP_1 :: (((pk0 :: pks).map pushData).flatten
      ++ [OP_1 + (pk0 :: pks).length - 1, OP_CHECKMULTISIG]) = redeemScript at hms
  have hrlen : redeemScript.length < W32 := by
    rw [← hrs, List.length_cons, List.length_append,
      flatten_pushData_length_eq _ (fun k hk => (hkeys k hk).1), List.length_cons, hpn]
    simp only [List.length_cons, List.length_nil]
    omega
  obtain ⟨sig, hsig, hsiglen⟩ := hsign redeemScript
  refine ⟨pk0 :: pks, redeemScript, sig, by rw [List.length_cons, hpn]; omega, hms, ?_, ?_⟩
  · unfold PackDataIntoP2SH
    simp only [hs]
    rw [toInt32_of_lt hL]
    have e1 : (s : Int) - min (s : Int) (bits.length : Int)
        = ((s - bits.length : Nat) : Int) := by omega
    have e2 : (((s - bits.length : Nat) : Int) % (W32 : Int)).toNat = s - bits.length := by
      rw [Int.emod_eq_of_lt (by omega) (by omega)]
      exact Int.toNat_ofNat _
    have e3 : ((s : Int) % (W32 : Int)).toNat = s := by
      rw [Int.emod_eq_of_lt (by omega) (by omega)]
      exact Int.toNat_ofNat _
    rw [e1, e2, e3, if_neg (by omega), hslice]
    simp only [hpk0]
    rw [hdl, if_neg (by omega), hE]
    simp only [hpks, hms]
    unfold SignSignature
    simp only [hin, hsig]
    rw [List.drop_drop]
  · unfold UnpackDataFromP2SH
    simp only []
    rw [lastData_scriptSig sig redeemScript hsiglen hrlen,
      pubkeys_SetMultisig (pk0 :: pks) redeemScript hkeys hms]
    simp only [hs]
    have hbl : (DataToBits pk0).length = 264 := by rw [DataToBits_length, hpk33]
    rw [hbl, if_pos (by omega), hpdec]
    simp only [Int.toNat_ofNat]
    rw [hpkdrop, take_pad_append bits s (250 * E)]

theorem DataToBits_append : ∀ (a b : Data), DataToBits (a ++ b) = DataToBits a ++ DataToBits b := by
  intro a b
  induction a with
  | nil => rfl
  | cons x xs ih => rw [List.cons_append, DataToBits, DataToBits, ih, List.append_assoc]

/-- The table `suffixKeyMap` has the suffix invariant for 8 bits. -/
theorem suffixKeyMap_invariant : SuffixInvariant suffixKeyMap 8 := by
  intro slice hlen
  obtain ⟨b0, b1, b2, b3, b4, b5, b6, b7, rfl⟩ := list_length_eight hlen
  obtain ⟨v, hv, _, hback⟩ := byte_of_bits_roundtrip b0 b1 b2 b3 b4 b5 b6 b7
  refine ⟨2 :: (List.replicate 31 0 ++ [v]), ?_, by simp, Or.inl rfl, ?_⟩
  · unfold suffixKeyMap
    rw [if_pos hlen, hv]
    rfl
  · have e : (2 :: (List.replicate 31 0 ++ [v]) : Data) = (2 :: List.replicate 31 0) ++ [v] := rfl
    rw [e, DataToBits_append]
    have hl : (DataToBits (2 :: List.replicate 31 0)).length = 264 - 8 := by
      rw [DataToBits_length]
      simp
    rw [← hl, List.drop_left]
    simp only [DataToBits, List.append_nil]
    exact hback

theorem testContext_draws : DrawsValid testContext := by
  refine ⟨fun _ _ => by simp [testContext], fun c b _ => ⟨0, by decide, fun _ _ => rfl⟩⟩

/-- C12 (as amended): for every bit vector `bits` of length `L < 2^31` and suffix width
`s` with a keypair table that has its suffix invariant (and a random source and signer
that deliver), `PackDataIntoP2SH` builds a 1-of-M redeemScript with
`M = 1 + min(11, ceil(max(L - s, 0) / 250)) <= 12` public keys, removes exactly the first
`min(L, s + 250 * (M - 1))` bits from `bits`, and `UnpackDataFromP2SH` on the signed input
returns the removed bits padded on the right with zeros to `s + 250 * (M - 1)` bits. -/
theorem p2sh_channel (ctx : Context) (s : Nat) (hs : ctx.KeymapSuffixBits = (s : Int))
    (hkm : SuffixInvariant ctx.KeyMap s) (hctx : DrawsValid ctx) (bits : DataBits)
    (hL : bits.length < 2 ^ 31) (txOut : CTxOut) (tx : CTransaction) (nInput c : Nat)
    (txin : CTxIn) (hin : tx.vin.get? nInput = some txin)
    (hsign : ∀ rs, ∃ sig, ctx.sign rs tx nInput = some sig ∧ sig.length < W32) :
    ∃ keys redeemScript bits1 txOut1 tx1 c1 txin1,
      PackDataIntoP2SH ctx bits txOut tx nInput c = some (bits1, txOut1, tx1, c1) ∧
      SetMultisig keys = some redeemScript ∧
      txOut1.scriptPubKey = SetDestination ctx.Hash160 redeemScript ∧
      keys.length = 1 + min 11 ((bits.length - s + 249) / 250) ∧ keys.length ≤ 12 ∧
      bits1 = bits.drop (min bits.length (s + 250 * (keys.length - 1))) ∧
      tx1.vin.get? nInput = some txin1 ∧
      UnpackDataFromP2SH ctx.KeymapSuffixBits txin1
        = some (bits.take (min bits.length (s + 250 * (keys.length - 1)))
            ++ List.replicate (s + 250 * (keys.length - 1)
                - min bits.length (s + 250 * (keys.length - 1))) false) := by
  obtain ⟨keys, redeemScript, sig, hlen, hms, hpack, hunpack⟩ :=
    PackDataIntoP2SH_spec ctx s hs hkm hctx bits hL txOut tx nInput c txin hin hsign
  have hlt : nInput < tx.vin.length := by
    rcases Nat.lt_or_ge nInput tx.vin.length with h | h
    · exact h
    · rw [List.get?_eq_none.mpr h] at hin
      simp at hin
  have hW : s + 250 * (keys.length - 1) = s + 250 * min 11 ((bits.length - s + 249) / 250) := by
    rw [hlen, Nat.add_sub_cancel_left]
  refine ⟨keys, redeemScript, _, _, _, _,
    { txin with scriptSig := OP_0 :: (pushData sig ++ pushData redeemScript) },
    hpack, hms, rfl, hlen, by omega, ?_, ?_, ?_⟩
  · rw [hW, Nat.min_comm bits.length, drop_min_length]
  · simp only [List.get?_eq_getElem?]
    rw [List.getElem?_set_self hlt]
  · rw [hunpack, hW, Nat.min_comm bits.length, take_min_length]
    congr 3
    omega

/-- Witness of C12: 300 one bits with the configuration of the tests; the redeemScript
has three keys. -/
theorem p2sh_channel_witness :
    ∃ keys redeemScript bits1 txOut1 tx1 c1 txin1,
      PackDataIntoP2SH testContext (List.replicate 300 true) CTxOut.null
          ⟨[⟨⟨0, 0⟩, [], 0⟩], []⟩ 0 0 = some (bits1, txOut1, tx1, c1) ∧
      SetMultisig keys = some redeemScript ∧
      txOut1.scriptPubKey = SetDestination testContext.Hash160 redeemScript ∧
      keys.length = 1 + min 11 (((List.replicate 300 true).length - 8 + 249) / 250) ∧
      keys.length ≤ 12 ∧
      bits1 = (List.replicate 300 true).drop
        (min (List.replicate 300 true).length (8 + 250 * (keys.length - 1))) ∧
      tx1.vin.get? 0 = some txin1 ∧
      UnpackDataFromP2SH testContext.KeymapSuffixBits txin1
        = some ((List.replicate 300 true).take
              (min (List.replicate 300 true).length (8 + 250 * (keys.length - 1)))
            ++ List.replicate (8 + 250 * (keys.length - 1)
                - min (List.replicate 300 true).length (8 + 250 * (keys.length - 1))) false) :=
  p2sh_channel testContext 8 rfl suffixKeyMap_invariant testContext_draws
    (List.replicate 300 true) (by rw [List.length_replicate]; decide) CTxOut.null
    ⟨[⟨⟨0, 0⟩, [], 0⟩], []⟩ 0 0 ⟨⟨0, 0⟩, [], 0⟩ rfl
    (fun _ => ⟨List.replicate 72 0, rfl, by rw [List.length_replicate, W32_val]; decide⟩)

theorem toInt32_W32 : toInt32 W32 = 0 := by
  unfold toInt32
  rw [Nat.mod_self]
  simp

/-- The loop over the extra keys on a vector of `2^32` bits: `(int)bits.size()` is `0`
in every pass, 250 zero bits are appended and 250 bits are sliced off, so the length
stays `2^32`. -/
theorem PackDataIntoP2SH_keys_wraps (ctx : Context) (hctx : DrawsValid ctx) :
    ∀ (n : Nat) (bits : DataBits) (c : Nat), bits.length = W32 →
    ∃ bits1 pks c1, PackDataIntoP2SH.keys ctx n bits c = some (bits1, pks, c1) ∧
      bits1.length = W32 ∧ pks.length = n := by
  intro n
  induction n with
  | zero =>
    intro bits c h
    exact ⟨bits, [], c, rfl, h, rfl⟩
  | succ n ih =>
    intro bits c h
    have hW := W32_val
    have hslen : ((bits ++ List.replicate 250 false).take 250).length = 250 := by
      rw [List.length_take, List.length_append, List.length_replicate]
      omega
    obtain ⟨pk, hpk, _, _, _⟩ := EncodeDataInPubkey_returns ctx.IsFullyValid
      (ctx.draw c) ctx.fuel _ hslen (hctx.1 c) (hctx.2 c _ hslen)
    obtain ⟨bits1, pks, c1, hrec, hl1, hn⟩ :=
      ih ((bits ++ List.replicate 250 false).drop 250) (c + 1) (by
        rw [List.length_drop, List.length_append, List.length_replicate]
        omega)
    refine ⟨bits1, pk :: pks, c1, ?_, hl1, by rw [List.length_cons, hn]⟩
    rw [PackDataIntoP2SH.keys, h, toInt32_W32]
    have e1 : (250 : Int) - min 250 (0 : Int) = ((250 : Nat) : Int) := by decide
    simp only [e1, Int.toNat_ofNat]
    rw [if_neg (by decide)]
    unfold SliceBits PadBits
    have e2 : 250 % W32 = 250 := by
      rw [hW]
    rw [e2, if_pos (by rw [List.length_append]; omega)]
    simp only [hpk, hrec]

/-- What `PackDataIntoP2SH` does on a vector of `2^32` bits: every `(int)bits.size()` is
`0`, so each slice is preceded by a padding of its full width and the vector that is left
still has `2^32` bits. -/
theorem PackDataIntoP2SH_wraps (ctx : Context) (s : Nat)
    (hs : ctx.KeymapSuffixBits = (s : Int)) (hkm : SuffixInvariant ctx.KeyMap s)
    (hctx : DrawsValid ctx) (bits : DataBits) (hL : bits.length = W32) (txOut : CTxOut)
    (tx : CTransaction) (nInput c : Nat) (txin : CTxIn) (hin : tx.vin.get? nInput = some txin)
    (hsign : ∀ rs, ∃ sig, ctx.sign rs tx nInput = some sig) :
    ∃ r, PackDataIntoP2SH ctx bits txOut tx nInput c = some r ∧ r.1.length = W32 := by
  have hW := W32_val
  have hs264 := SuffixInvariant_le ctx.KeyMap s hkm
  have hslen : ((bits ++ List.replicate s false).take s).length = s := by
    rw [List.length_take, List.length_append, List.length_replicate]
    omega
  obtain ⟨pk0, hpk0, _, _, _⟩ := hkm _ hslen
  have hdl : ((bits ++ List.replicate s false).drop s).length = W32 := by
    rw [List.length_drop, List.length_append, List.length_replicate]
    omega
  obtain ⟨bits2, pks, c1, hkeys, hl2, hn⟩ :=
    PackDataIntoP2SH_keys_wraps ctx hctx 11 _ c hdl
  have hms : SetMultisig (pk0 :: pks)
      = some (OP_1 :: (((pk0 :: pks).map pushData).flatten
          ++ [OP_1 + (pk0 :: pks).length - 1, OP_CHECKMULTISIG])) := by
    unfold SetMultisig
    rw [if_pos (by rw [List.length_cons, hn]; omega)]
  obtain ⟨sig, hsig⟩ := hsign (OP_1 :: (((pk0 :: pks).map pushData).flatten
          ++ [OP_1 + (pk0 :: pks).length - 1, OP_CHECKMULTISIG]))
  unfold PackDataIntoP2SH
  simp only [hs]
  rw [hL, toInt32_W32]
  have e1 : (s : Int) - min (s : Int) (0 : Int) = (s : Int) := by omega
  have e3 : ((s : Int) % (W32 : Int)).toNat = s := by
    rw [Int.emod_eq_of_lt (by omega) (by omega)]
    exact Int.toNat_ofNat _
  rw [e1, e3, if_neg (by omega)]
  unfold SliceBits PadBits
  have e2 : s % W32 = s := Nat.mod_eq_of_lt (by omega)
  rw [e2, if_pos (by rw [List.length_append]; omega)]
  simp only [hpk0]
  rw [hdl, if_neg (by omega), show min 11 ((W32 + 249) / 250) = 11 by omega]
  simp only [hkeys, hms]
  unfold SignSignature
  simp only [hin, hsig]
  exact ⟨_, rfl, hl2⟩

/-- C12, counterexample: on the vector of `2^32` zero bits `PackDataIntoP2SH` leaves
`2^32` bits, not the `2^32 - 2758` bits after the first `8 + 250 * 11`. -/
theorem p2sh_channel_counterexample :
    ¬ ∃ txOut1 tx1 c1, PackDataIntoP2SH testContext (List.replicate 4294967296 false)
        CTxOut.null ⟨[⟨⟨0, 0⟩, [], 0⟩], []⟩ 0 0
      = some ((List.replicate 4294967296 false).drop
          (min (List.replicate 4294967296 false).length (8 + 250 * 11)), txOut1, tx1, c1) := by
  rintro ⟨txOut1, tx1, c1, h⟩
  obtain ⟨r, h2, hlen⟩ := PackDataIntoP2SH_wraps testContext 8 rfl
    suffixKeyMap_invariant testContext_draws (List.replicate 4294967296 false)
    (by rw [List.length_replicate, W32_val]) CTxOut.null ⟨[⟨⟨0, 0⟩, [], 0⟩], []⟩ 0 0
    ⟨⟨0, 0⟩, [], 0⟩ rfl (fun _ => ⟨List.replicate 72 0, rfl⟩)
  rw [h2] at h
  simp only [Option.some.injEq] at h
  have h1 : r.1 = (List.replicate 4294967296 false).drop
      (min (List.replicate 4294967296 false).length (8 + 250 * 11)) := by rw [h]
  rw [h1, List.length_drop, List.length_replicate, W32_val] at hlen
  omega

/-! ## The chain: channel lemmas in the form the chain builder uses -/

/-- `PackDataIntoSeqNr` takes the next 32 bits, padded with zeros. -/
theorem seqnr_spec (bits : DataBits) (txIn : CTxIn) (hL : bits.length < 2 ^ 31) :
    ∃ s, PackDataIntoSeqNr bits txIn = some (bits.drop 32, { txIn with nSequence := s }) ∧
      DecodeDataInSequenceNr s = bits.take 32 ++ List.replicate (32 - bits.length) false := by
  have hslice := pad_slice bits 32 (by norm_num [W32])
  rw [take_min_length, drop_min_length, show 32 - min 32 bits.length = 32 - bits.length by omega]
    at hslice
  obtain ⟨s, hs, _, hdec⟩ := seqnr_codec
    (bits.take 32 ++ List.replicate (32 - bits.length) false) (by
      rw [List.length_append, List.length_take, List.length_replicate]
      omega)
  refine ⟨s, ?_, hdec⟩
  unfold PackDataIntoSeqNr
  rw [toInt32_of_lt hL]
  have e1 : (32 : Int) - min 32 (bits.length : Int) = ((32 - bits.length : Nat) : Int) := by
    omega
  simp only [e1, Int.toNat_ofNat]
  rw [if_neg (by omega), hslice]
  simp only [hs]

/-- `PackDataIntoNulldata` takes the next 320 bits, padded with zeros. -/
theorem nulldata_spec (bits : DataBits) (txOut : CTxOut) (hL : bits.length < 2 ^ 31) :
    ∃ out, PackDataIntoNulldata bits txOut = some (bits.drop 320, out) ∧
      UnpackDataFromNulldata out
        = some (bits.take 320 ++ List.replicate (320 - bits.length) false) := by
  have hslice := pad_slice bits 320 (by norm_num [W32])
  rw [take_min_length, drop_min_length,
    show 320 - min 320 bits.length = 320 - bits.length by omega] at hslice
  obtain ⟨data, hdata, hlen, _, hbits⟩ := BitsToData_spec
    (bits.take 320 ++ List.replicate (320 - bits.length) false) 40 (by
      rw [List.length_append, List.length_take, List.length_replicate]
      omega) (by norm_num [W32])
  refine ⟨{ nValue := 0, scriptPubKey := OP_RETURN :: pushData data }, ?_, ?_⟩
  · unfold PackDataIntoNulldata
    rw [toInt32_of_lt hL]
    have e1 : (320 : Int) - min 320 (bits.length : Int)
        = ((320 - bits.length : Nat) : Int) := by omega
    simp only [e1, Int.toNat_ofNat]
    rw [if_neg (by omega), hslice]
    simp only [hdata]
  · have hp : pushData data = 40 :: data := by
      unfold pushData
      rw [hlen]
      simp
    unfold UnpackDataFromNulldata
    rw [hp]
    simp only [List.length_cons, List.drop_succ_cons, List.drop_zero]
    rw [if_pos (by omega), hbits]

/-- `UnpackDataFromBudgetClaim` reads only the `prevout.n` fields. -/
theorem UnpackDataFromBudgetClaim_congr (lg : Nat → Nat) (a b : List CTxIn)
    (h : a.map (fun (i : CTxIn) => i.prevout.n) = b.map (fun (i : CTxIn) => i.prevout.n)) :
    UnpackDataFromBudgetClaim lg a = UnpackDataFromBudgetClaim lg b := by
  have hlen : a.length = b.length := by
    have := congrArg List.length h
    rwa [List.length_map, List.length_map] at this
  unfold UnpackDataFromBudgetClaim
  have e : ∀ l : List CTxIn, (l.take (l.length % W32)).map (fun (i : CTxIn) => i.prevout.n % W16)
      = ((l.map (fun (i : CTxIn) => i.prevout.n)).take (l.length % W32)).map (fun n => n % W16) := by
    intro l
    rw [← List.map_take, List.map_map]
    rfl
  rw [e a, e b, h, hlen]

/-- `UnpackDataFromBudgetSplit` reads only the values. -/
theorem UnpackDataFromBudgetSplit_congr (lg : Nat → Nat) (a b : List CTxOut) (lbound : Nat)
    (h : a.map (fun (o : CTxOut) => o.nValue) = b.map (fun (o : CTxOut) => o.nValue)) :
    UnpackDataFromBudgetSplit lg a lbound = UnpackDataFromBudgetSplit lg b lbound := by
  have hlen : a.length = b.length := by
    have := congrArg List.length h
    rwa [List.length_map, List.length_map] at this
  unfold UnpackDataFromBudgetSplit
  have e : ∀ l : List CTxOut, (l.take (l.length % W32)).map (fun (o : CTxOut) => sub64 o.nValue lbound)
      = ((l.map (fun (o : CTxOut) => o.nValue)).take (l.length % W32)).map
          (fun v => sub64 v lbound) := by
    intro l
    rw [← List.map_take, List.map_map]
    rfl
  rw [e a, e b, h, hlen]

theorem replicate_append_cons {α : Type} (n : Nat) (a : α) (l : List α) :
    List.replicate n a ++ a :: l = List.replicate (n + 1) a ++ l := by
  induction n with
  | zero => rfl
  | succ n ih =>
    rw [List.replicate_succ, List.cons_append, ih]
    rfl

/-- The first loop of a pass adds `cnt` null outputs and `cnt` inputs. -/
theorem EmbedData_insert_spec : ∀ (cnt i : Nat) (vout : List CTxOut) (vin : List CTxIn),
    vin.length = i →
    ∃ vin1, EmbedData.insert cnt i vout vin
        = some (List.replicate cnt CTxOut.null ++ vout, vin1) ∧ vin1.length = i + cnt := by
  intro cnt
  induction cnt with
  | zero =>
    intro i vout vin h
    exact ⟨vin, rfl, h⟩
  | succ cnt ih =>
    intro i vout vin h
    have hlt : i < (CTxIn.null :: vin).length := by
      rw [List.length_cons]
      omega
    rw [EmbedData.insert]
    simp only [List.get?_eq_getElem?]
    rw [List.getElem?_eq_getElem hlt]
    simp only []
    obtain ⟨vin1, h1, h2⟩ := ih (i + 1) (CTxOut.null :: vout)
      ((CTxIn.null :: vin).set i
        { ((CTxIn.null :: vin)[i]) with
          prevout := { ((CTxIn.null :: vin)[i]).prevout with n := i % W32 } })
      (by rw [List.length_set, List.length_cons, h])
    refine ⟨vin1, ?_, by omega⟩
    rw [h1, replicate_append_cons]

theorem NumberCompositions_fits (n k : Nat) (hn1 : 1 ≤ n) (hn : n + 13 < W64) (hk2 : 2 ≤ k)
    (hk14 : k ≤ 14) :
    2 ≤ NumberCompositions n k ∧ NumberCompositions n k < 2 ^ 1024 := by
  have hW := W64_val
  have hW16 := W16_val
  rw [NumberCompositions_word (by omega) (by omega) (by omega), if_pos (by omega)]
  constructor
  · have h1 : weakCompositions 1 k ≤ weakCompositions n k := weakCompositions_mono k hn1
    have h2 : weakCompositions 1 k = k := by
      unfold weakCompositions
      rw [show 1 + k - 1 = (k - 1) + 1 by omega, Nat.choose_succ_self_right]
      omega
    omega
  · unfold weakCompositions
    have h1 : (n + k - 1).choose (k - 1) ≤ (n + k - 1) ^ (k - 1) := Nat.choose_le_pow _ _
    have h2 : (n + k - 1) ^ (k - 1) ≤ (2 ^ 64) ^ (k - 1) :=
      Nat.pow_le_pow_left (by omega) _
    have h3 : (2 ^ 64) ^ (k - 1) ≤ (2 ^ 64) ^ 13 :=
      Nat.pow_le_pow_right (by norm_num) (by omega)
    have h4 : ((2 : Nat) ^ 64) ^ 13 < 2 ^ 1024 := by norm_num
    omega

theorem Factorial_fits (k : Nat) (hk2 : 2 ≤ k) (hk14 : k ≤ 14) :
    2 ≤ Factorial k ∧ Factorial k < 2 ^ 1024 := by
  have hW16 := W16_val
  rw [Factorial_eq (by omega)]
  constructor
  · have := Nat.factorial_le hk2
    simpa using this
  · have h1 := Nat.factorial_le hk14
    have h2 : Nat.factorial 14 < 2 ^ 1024 := by norm_num [Nat.factorial]
    omega

theorem floorLog2_loop_spec : ∀ (fuel x : Nat), 1 ≤ x → x ≤ fuel →
    2 ^ floorLog2.loop fuel x ≤ x ∧ x < 2 ^ (floorLog2.loop fuel x + 1) := by
  intro fuel
  induction fuel with
  | zero => intro x h1 h2; omega
  | succ fuel ih =>
    intro x h1 h2
    rw [floorLog2.loop]
    by_cases hx : x < 2
    · rw [if_pos hx]
      simp only [pow_zero, zero_add, pow_one]
      omega
    · rw [if_neg hx]
      obtain ⟨ha, hb⟩ := ih (x / 2) (by omega) (by omega)
      rw [pow_succ, pow_succ]
      constructor <;> omega

/-- The floor of the binary logarithm fits every argument from `2` up to `2^1024`. -/
theorem floorLog2_ok : LogOk floorLog2 := by
  intro x h2 hx
  obtain ⟨ha, hb⟩ := floorLog2_loop_spec x x (by omega) (le_refl x)
  have hW := W32_val
  refine ⟨?_, ?_, ha⟩
  · unfold floorLog2
    by_contra h
    have h0 : floorLog2.loop x x = 0 := by omega
    rw [h0] at hb
    simp at hb
    omega
  · unfold floorLog2
    have : floorLog2.loop x x < 1024 := by
      by_contra h
      have := Nat.pow_le_pow_right (show 0 < 2 by omega) (show 1024 ≤ floorLog2.loop x x by omega)
      omega
    omega

theorem zipWith_prevout : ∀ (xs : List CTxIn) (p : List Nat), xs.length = p.length →
    (List.zipWith (fun (i : CTxIn) q => { i with prevout := { i.prevout with n := q } })
      xs p).map (fun (i : CTxIn) => i.prevout.n) = p := by
  intro xs
  induction xs with
  | nil =>
    intro p h
    have : p = [] := List.length_eq_zero.mp h.symm
    subst this
    rfl
  | cons x xs ih =>
    intro p h
    match p, h with
    | q :: p, h =>
      simp only [List.length_cons, Nat.add_right_cancel_iff] at h
      simp only [List.zipWith_cons_cons, List.map_cons]
      rw [ih p h]

/-- `PackDataIntoBudgetClaim` on `k` inputs takes the next
`EmbeddableBitsInPermutation(k)` bits and writes a permutation of `0, ..., k-1` to the
`prevout.n` fields. -/
theorem budget_claim_spec (lg : Nat → Nat) (bits : DataBits) (txInputs : List CTxIn)
    (k : Nat) (hk : txInputs.length = k) (hk2 : 2 ≤ k) (hk16 : k < W16)
    (hL : bits.length < W32) (hlg : LogFits lg (Factorial k)) :
    ∃ p : List Nat, p.Perm (List.range k) ∧
      PackDataIntoBudgetClaim lg bits txInputs
        = some (bits.drop (EmbeddableBitsInPermutation lg k),
            List.zipWith
              (fun (i : CTxIn) q => { i with prevout := { i.prevout with n := q } })
              txInputs p) ∧
      DecodeDataInPermutation lg p
        = some (bits.take (EmbeddableBitsInPermutation lg k)
          ++ List.replicate (EmbeddableBitsInPermutation lg k - bits.length) false) := by
  have hW := W32_val
  have hW16 := W16_val
  have hk32 : k % W32 = k := Nat.mod_eq_of_lt (by omega)
  obtain ⟨hslice, hpad, hlen⟩ := slice_then_pad bits (EmbeddableBitsInPermutation lg k)
    hlg.2.1 hL
  obtain ⟨p, henc, hperm, hdec⟩ := perm_codec lg _ k hk2 hk16 hlg hlen
  have hplen : p.length = k := by rw [hperm.length_eq, List.length_range]
  refine ⟨p, hperm, ?_, ?_⟩
  · unfold PackDataIntoBudgetClaim
    simp only [hk, hk32, hslice, hpad, henc]
    rw [if_neg (by omega), List.take_of_length_le (by omega),
      List.drop_of_length_le (l := txInputs) (by omega), List.append_nil, drop_min_length]
  · rw [hdec, take_min_length]
    congr 3
    omega

/-- `UnpackDataFromBudgetClaim` on inputs whose `prevout.n` fields hold a permutation of
`0, ..., k-1`. -/
theorem UnpackDataFromBudgetClaim_perm (lg : Nat → Nat) (vin : List CTxIn) (p : List Nat)
    (k : Nat) (hk16 : k < W16) (hperm : p.Perm (List.range k))
    (h : vin.map (fun (i : CTxIn) => i.prevout.n) = p) :
    UnpackDataFromBudgetClaim lg vin = DecodeDataInPermutation lg p := by
  have hW := W32_val
  have hW16 := W16_val
  have hplen : p.length = k := by rw [hperm.length_eq, List.length_range]
  have hvlen : vin.length = k := by
    have := congrArg List.length h
    rw [List.length_map] at this
    omega
  have hplt : ∀ q ∈ p, q < W16 := by
    intro q hq
    have := List.mem_range.mp (hperm.mem_iff.mp hq)
    omega
  unfold UnpackDataFromBudgetClaim
  rw [hvlen, Nat.mod_eq_of_lt (show k < W32 by omega), List.take_of_length_le (by omega)]
  have e : vin.map (fun (i : CTxIn) => i.prevout.n % W16)
      = (vin.map (fun (i : CTxIn) => i.prevout.n)).map (fun q => q % W16) := by
    rw [List.map_map]
    rfl
  rw [e, h, map_mod_of_lt p W16 hplt]

/-- `UnpackDataFromBudgetSplit` on outputs whose values are a composition `c` shifted by
`lbound`. -/
theorem UnpackDataFromBudgetSplit_values (lg : Nat → Nat) (vout : List CTxOut) (c : List Nat)
    (k lbound : Nat) (hk16 : k < W16) (hclen : c.length = k)
    (hlt : ∀ v ∈ c, v + lbound < W64)
    (h : vout.map (fun (o : CTxOut) => o.nValue) = c.map (fun v => v + lbound)) :
    UnpackDataFromBudgetSplit lg vout lbound = DecodeDataInValues lg c := by
  have hW := W32_val
  have hW16 := W16_val
  have hvlen : vout.length = k := by
    have := congrArg List.length h
    rw [List.length_map, List.length_map] at this
    omega
  unfold UnpackDataFromBudgetSplit
  rw [hvlen, Nat.mod_eq_of_lt (show k < W32 by omega), List.take_of_length_le (by omega)]
  have e : vout.map (fun (o : CTxOut) => sub64 o.nValue lbound)
      = (vout.map (fun (o : CTxOut) => o.nValue)).map (fun w => sub64 w lbound) := by
    rw [List.map_map]
    rfl
  rw [e, h, map_sub64_add c lbound hlt]

/-- The budget part of a pass with `k >= 2` outputs and a budget above the fee plus the
dust of every output: the split takes `C1 = EmbeddableBitsInValues(budget - fee - 546 k, k)`
bits, the claim the next `C2 = EmbeddableBitsInPermutation(k)`; the values are a
composition shifted by 546 and the claimed indices a permutation. -/
theorem EmbedData_budget_many (ctx : Context) (hlog : LogOk ctx.lg) (bits : DataBits)
    (vout : List CTxOut) (vin : List CTxIn) (k nBudget nFees : Nat) (hvout : vout.length = k)
    (hvin : vin.length = k) (hk2 : 2 ≤ k) (hk14 : k ≤ 14) (hL : bits.length < 2 ^ 31)
    (hb : nBudget < W64) (hfee : nFees + 546 * k < nBudget) :
    ∃ (c p : List Nat) (W : Nat), c.length = k ∧ (∀ v ∈ c, v + 546 < W64) ∧
      p.Perm (List.range k) ∧
      EmbedData.budget ctx bits vout vin nBudget nFees
        = some (bits.drop W,
            List.zipWith (fun (o : CTxOut) v => { o with nValue := (v + 546 % W64) % W64 })
              vout c,
            List.zipWith
              (fun (i : CTxIn) q => { i with prevout := { i.prevout with n := q } }) vin p) ∧
      ∃ a b, DecodeDataInValues ctx.lg c = some a ∧ DecodeDataInPermutation ctx.lg p = some b ∧
        a ++ b = bits.take W ++ List.replicate (W - bits.length) false := by
  have hW := W32_val
  have hW16 := W16_val
  have hW64 := W64_val
  have hsub : sub64 nBudget nFees = nBudget - nFees := sub64_of_le (by omega) hb
  have hfit := NumberCompositions_fits (nBudget - nFees - k * 546) k (by omega) (by omega)
    hk2 hk14
  have hlg1 := hlog _ hfit.1 hfit.2
  have hfac := Factorial_fits k hk2 hk14
  have hlg2 := hlog _ hfac.1 hfac.2
  obtain ⟨c, hclen, hcsum, hpack, hdec⟩ := budget_split_spec ctx.lg ctx.root bits vout k
    (nBudget - nFees) 546 hvout hk2 (by omega) (by omega) (by omega) hlg1
  rw [Nat.mod_eq_of_lt (show bits.length < W32 by omega), drop_min_length]
    at hpack
  rw [Nat.mod_eq_of_lt (show bits.length < W32 by omega), take_min_length]
    at hdec
  generalize hC1 : EmbeddableBitsInValues ctx.lg (nBudget - nFees - k * 546) k = C1
    at hpack hdec
  obtain ⟨p, hperm, hpack2, hdec2⟩ := budget_claim_spec ctx.lg (bits.drop C1) vin k hvin hk2
    (by omega) (by rw [List.length_drop]; omega) hlg2
  generalize hC2 : EmbeddableBitsInPermutation ctx.lg k = C2 at hpack2 hdec2
  refine ⟨c, p, C1 + C2, hclen, ?_, hperm, ?_, _, _, hdec, hdec2, ?_⟩
  · intro v hv
    have := le_sum_of_mem c v hv
    omega
  · unfold EmbedData.budget
    rw [if_neg (by omega), if_pos (by omega), if_pos (by
      rw [Nat.mod_eq_of_lt hb, Nat.mod_eq_of_lt (show nFees < W64 by omega)]; omega), hsub,
      hpack]
    simp only [hpack2]
    rw [List.drop_drop]
  · have h := take_pad_append bits C1 C2
    rw [show C1 - min C1 bits.length = C1 - bits.length by omega]
    exact h

theorem map_set_same {α β : Type} (f : α → β) : ∀ (l : List α) (i : Nat) (x y : α),
    l.get? i = some y → f x = f y → (l.set i x).map f = l.map f := by
  intro l
  induction l with
  | nil => intro i x y h; simp at h
  | cons a l ih =>
    intro i x y h hf
    cases i with
    | zero =>
      simp only [List.get?_cons_zero, Option.some.injEq] at h
      rw [List.set_cons_zero, List.map_cons, List.map_cons, hf, h]
    | succ i =>
      simp only [List.get?_cons_succ] at h
      rw [List.set_cons_succ, List.map_cons, List.map_cons, ih i x y h hf]

theorem toInt32_small {n : Nat} (h : n < 14) : ¬ toInt32 n < 0 ∧ (toInt32 n).toNat = n := by
  rw [toInt32_of_lt (by omega)]
  exact ⟨by omega, Int.toNat_ofNat n⟩

/-- `UnpackDataFromP2SH` reads only the signature script. -/
theorem UnpackDataFromP2SH_nSequence (s : Int) (txin : CTxIn) (q : Nat) :
    UnpackDataFromP2SH s { txin with nSequence := q } = UnpackDataFromP2SH s txin := rfl

/-- The last loop of a pass: for each of the remaining inputs the P2SH channel and the
sequence number take the next bits; the values of the outputs, the outputs from
position `K` on, the outpoints of the inputs and the inputs already done stay as they
are, and the reader's loop over the same inputs returns the bits taken, padded with
zeros. -/
theorem EmbedData_scripts_spec (ctx : Context) (s : Nat) (henv : ChainEnv ctx s) :
    ∀ (cnt i : Nat) (bits : DataBits) (vout : List CTxOut) (next : CTransaction) (c : Nat),
    bits.length < 2 ^ 31 → i + cnt = next.vin.length → next.vin.length ≤ 14 →
    next.vin.length ≤ vout.length →
    (∀ q ∈ next.vin.map (fun (x : CTxIn) => x.prevout.n), q < next.vin.length) →
    ∃ vout1 next1 c1 W,
      EmbedData.scripts ctx cnt i bits vout next c = some (bits.drop W, vout1, next1, c1) ∧
      next1.vout = next.vout ∧ next1.vin.length = next.vin.length ∧
      next1.vin.map (fun (x : CTxIn) => x.prevout.n)
        = next.vin.map (fun (x : CTxIn) => x.prevout.n) ∧
      vout1.map (fun (o : CTxOut) => o.nValue) = vout.map (fun (o : CTxOut) => o.nValue) ∧
      vout1.drop next.vin.length = vout.drop next.vin.length ∧
      (∀ j, j < i → next1.vin.get? j = next.vin.get? j) ∧
      ExtractData.scripts ctx next1.vin cnt i
        = some (bits.take W ++ List.replicate (W - bits.length) false) ∧
      32 * cnt ≤ W ∧ W ≤ (s + 2782) * cnt := by
  obtain ⟨hs, hkm, _, hdraws, hsign, _⟩ := henv
  intro cnt
  induction cnt with
  | zero =>
    intro i bits vout next c _ _ _ _ _
    refine ⟨vout, next, c, 0, rfl, rfl, rfl, rfl, rfl, rfl, fun _ _ => rfl, ?_, by omega,
      by omega⟩
    simp [ExtractData.scripts]
  | succ cnt ih =>
    intro i bits vout next c hL hi hK14 hKv hbound
    have hilt : i < next.vin.length := by omega
    have hin : next.vin.get? i = some (next.vin[i]) := by
      simp only [List.get?_eq_getElem?]
      exact List.getElem?_eq_getElem hilt
    generalize htx : next.vin[i] = txin at hin
    have hn : txin.prevout.n < next.vin.length := by
      apply hbound
      rw [List.mem_map]
      exact ⟨txin, by rw [← htx]; exact List.getElem_mem _, rfl⟩
    obtain ⟨hn0, hnat⟩ := toInt32_small (show txin.prevout.n < 14 by omega)
    have hnv : txin.prevout.n < vout.length := by omega
    obtain ⟨txOut, hout⟩ : ∃ txOut, vout.get? txin.prevout.n = some txOut := by
      simp only [List.get?_eq_getElem?]
      exact ⟨vout[txin.prevout.n], List.getElem?_eq_getElem hnv⟩
    obtain ⟨keys, redeemScript, sig, _, _, hpack, hunpack⟩ :=
      PackDataIntoP2SH_spec ctx s hs hkm hdraws bits hL txOut next i c txin hin
        (fun rs => hsign rs next i)
    generalize hW1 : s + 250 * min 11 ((bits.length - s + 249) / 250) = W1 at hpack hunpack
    generalize hc1 : c + min 11 ((bits.length - s + 249) / 250) = c1 at hpack
    generalize hsg : OP_0 :: (pushData sig ++ pushData redeemScript) = scriptSig
      at hpack hunpack
    obtain ⟨q, hseq, hdecq⟩ := seqnr_spec (bits.drop W1)
      { txin with scriptSig := scriptSig } (by rw [List.length_drop]; omega)
    have hget1 : (next.vin.set i { txin with scriptSig := scriptSig }).get? i
        = some { txin with scriptSig := scriptSig } := by
      simp only [List.get?_eq_getElem?]
      exact List.getElem?_set_self hilt
    have hmapn : ((next.vin.set i { txin with scriptSig := scriptSig }).set i
          { txin with scriptSig := scriptSig, nSequence := q }).map
            (fun (x : CTxIn) => x.prevout.n)
        = next.vin.map (fun (x : CTxIn) => x.prevout.n) := by
      rw [List.set_set]
      exact map_set_same _ next.vin i _ txin hin rfl
    have hlen2 : ((next.vin.set i { txin with scriptSig := scriptSig }).set i
          { txin with scriptSig := scriptSig, nSequence := q }).length = next.vin.length := by
      rw [List.length_set, List.length_set]
    have hW1u : W1 ≤ s + 2750 := by omega
    obtain ⟨vout1, next1, c2, W2, hrec, hnv, hnl, hnm, hvm, hvd, hframe, hext, hW2, hW2u⟩ :=
      ih (i + 1) (List.drop 32 (List.drop W1 bits))
        (vout.set txin.prevout.n
          { txOut with scriptPubKey := SetDestination ctx.Hash160 redeemScript })
        { vin := (next.vin.set i { txin with scriptSig := scriptSig }).set i
            { txin with scriptSig := scriptSig, nSequence := q }, vout := next.vout } c1
        (by rw [List.length_drop, List.length_drop]; omega)
        (by rw [hlen2]; omega) (by rw [hlen2]; exact hK14)
        (by rw [hlen2, List.length_set]; exact hKv)
        (by rw [hmapn, hlen2]; exact hbound)
    rw [hlen2] at hnl hvd
    rw [hmapn] at hnm
    refine ⟨vout1, next1, c2, W1 + 32 + W2, ?_, hnv, hnl, hnm, ?_, ?_, ?_, ?_, by omega, by
      rw [Nat.mul_succ]
      omega⟩
    · rw [EmbedData.scripts]
      simp only [hin, hnat, hout, hpack, hget1, hseq]
      rw [if_neg hn0, hrec, List.drop_drop, List.drop_drop, Nat.add_assoc]
    · rw [hvm]
      exact map_set_same _ vout _ _ txOut hout rfl
    · rw [hvd]
      exact List.drop_set_of_lt _ _ hn
    · intro j hj
      rw [hframe j (by omega)]
      simp only [List.get?_eq_getElem?]
      rw [List.getElem?_set_ne (by omega), List.getElem?_set_ne (by omega)]
    · rw [ExtractData.scripts, hframe i (by omega)]
      have hget2 : ((next.vin.set i { txin with scriptSig := scriptSig }).set i
          { txin with scriptSig := scriptSig, nSequence := q }).get? i
          = some { txin with scriptSig := scriptSig, nSequence := q } := by
        simp only [List.get?_eq_getElem?]
        exact List.getElem?_set_self (by rw [List.length_set]; exact hilt)
      have hunpack2 : UnpackDataFromP2SH ctx.KeymapSuffixBits
          { txin with scriptSig := scriptSig, nSequence := q }
          = some (bits.take W1 ++ List.replicate (W1 - bits.length) false) := hunpack
      simp only [hget2]
      rw [hunpack2, hext]
      simp only [UnpackDataFromSeqNr]
      rw [hdecq, take_pad_append bits W1 32, List.drop_drop,
        take_pad_append bits (W1 + 32) W2]

/-- What a pass uses of the planner's result: on the empty vector no output and the fee
of the transaction as it is; otherwise `1 <= nScriptHash <= 14`, at most one nulldata
output, and a nulldata output whenever there are two or more P2SH outputs. The fee is a
64-bit value. -/
theorem planner_facts (ctx : Context) (s : Nat) (henv : ChainEnv ctx s)
    (tx : CTransaction) (bits : DataBits) (nBudget : Nat) (p0 : Parameters) :
    ∃ p, OptimizeParams ctx.KeymapSuffixBits ctx.RandomSuffixBits ctx.TransactionFee ctx.lg tx
        bits nBudget p0 = some p ∧ p.nFees < W64 ∧
      (bits = [] → p = ⟨0, 0, ctx.TransactionFee tx % W64⟩) ∧
      (bits ≠ [] → 1 ≤ p.nScriptHash ∧ p.nScriptHash ≤ 14 ∧
        (p.nNulldata = 0 ∨ p.nNulldata = 1) ∧ (2 ≤ p.nScriptHash → p.nNulldata = 1)) := by
  obtain ⟨_, _, hr, _, _, _⟩ := henv
  have hW64 : 0 < W64 := by rw [W64_val]; omega
  by_cases hb : bits = []
  · subst hb
    refine ⟨{ nScriptHash := 0, nNulldata := 0, nFees := ctx.TransactionFee tx % W64 }, ?_,
      Nat.mod_lt _ hW64, fun _ => rfl, fun h => absurd rfl h⟩
    unfold OptimizeParams
    rw [if_neg (by omega)]
    rfl
  · obtain ⟨q, hq, h1, h14, hpass, _, _⟩ := OptimizeParams_spec ctx.KeymapSuffixBits
      ctx.RandomSuffixBits ctx.TransactionFee ctx.lg tx bits nBudget p0 hr hb
    refine ⟨q, hq, ?_, fun h => absurd h hb, fun _ => ⟨h1, h14, ?_, ?_⟩⟩
    · rw [hpass]
      exact Nat.mod_lt _ hW64
    · rw [hpass]
      simp only [OptimizeParams.pass]
      split_ifs <;> simp
    · intro h2
      have hk : (OptimizeParams.pass (ctx.KeymapSuffixBits % (W32 : Int)).toNat
          ((255 - ctx.RandomSuffixBits) % (W32 : Int)).toNat ctx.TransactionFee ctx.lg tx
          bits.length nBudget q.nScriptHash).1.nNulldata = 1 := by
        simp only [OptimizeParams.pass]
        rw [if_pos (by
          rw [decide_eq_true_eq]
          exact Or.inr h2)]
      rw [hpass]
      exact hk

/-- The nulldata part of a pass: with a nulldata output the next 320 bits travel in a
new last output. -/
theorem EmbedData_nulldata_spec (bits : DataBits) (vout : List CTxOut) (nN : Nat)
    (hL : bits.length < 2 ^ 31) (hN : nN = 0 ∨ nN = 1) :
    ∃ (outs : List CTxOut) (W : Nat), EmbedData.nulldata bits vout nN
        = some (bits.drop W, vout ++ outs) ∧ outs.length = nN ∧
      (nN = 0 → W = 0) ∧
      (nN = 1 → ∃ out, outs = [out] ∧ W = 320 ∧
        UnpackDataFromNulldata out
          = some (bits.take 320 ++ List.replicate (320 - bits.length) false)) := by
  have hW := W32_val
  rcases hN with h | h
  · subst h
    refine ⟨[], 0, ?_, rfl, fun _ => rfl, fun h => by omega⟩
    unfold EmbedData.nulldata
    simp
  · subst h
    obtain ⟨out, hpack, hunpack⟩ := nulldata_spec bits CTxOut.null hL
    refine ⟨[out], 320, ?_, rfl, fun h => by omega, fun _ => ⟨out, rfl, rfl, hunpack⟩⟩
    unfold EmbedData.nulldata
    rw [if_pos (by rw [hW]; decide), hpack]

/-- The budget part of a pass with `k >= 2` outputs and a budget below the fee: the split
is left out, the claim takes the next `EmbeddableBitsInPermutation(k)` bits. -/
theorem EmbedData_budget_skip (ctx : Context) (hlog : LogOk ctx.lg) (bits : DataBits)
    (vout : List CTxOut) (vin : List CTxIn) (k nBudget nFees : Nat) (hvout : vout.length = k)
    (hvin : vin.length = k) (hk2 : 2 ≤ k) (hk14 : k ≤ 14) (hL : bits.length < 2 ^ 31)
    (hb : nBudget < W64) (hf : nFees < W64) (hfee : nBudget < nFees) :
    ∃ (p : List Nat) (W : Nat), p.Perm (List.range k) ∧
      EmbedData.budget ctx bits vout vin nBudget nFees
        = some (bits.drop W, vout,
            List.zipWith
              (fun (i : CTxIn) q => { i with prevout := { i.prevout with n := q } }) vin p) := by
  have hW := W32_val
  have hW16 := W16_val
  have hfac := Factorial_fits k hk2 hk14
  have hlg2 := hlog _ hfac.1 hfac.2
  obtain ⟨p, hperm, hpack2, _⟩ := budget_claim_spec ctx.lg bits vin k hvin hk2
    (by omega) (by omega) hlg2
  refine ⟨p, EmbeddableBitsInPermutation ctx.lg k, hperm, ?_⟩
  unfold EmbedData.budget
  rw [if_neg (by omega), if_pos (by omega), if_neg (by
    rw [Nat.mod_eq_of_lt hb, Nat.mod_eq_of_lt hf]; omega)]
  simp only [hpack2]

/-- The budget part of a pass for `1 <= k <= 14` outputs, when the budget is either
below the fee or above the fee plus the dust of the outputs: with one output no bit
travels; with more, the claim and (with enough budget) the split take the next `W` bits.
With enough budget every reader of outputs with these values and inputs with these
claimed indices gets the bits back. -/
theorem EmbedData_budget_spec (ctx : Context) (hlog : LogOk ctx.lg) (bits : DataBits)
    (vout : List CTxOut) (vin : List CTxIn) (k nBudget nFees : Nat) (hvout : vout.length = k)
    (hvin : vin.length = k) (hk1 : 1 ≤ k) (hk14 : k ≤ 14) (hL : bits.length < 2 ^ 31)
    (hb : nBudget < W64) (hf : nFees < W64)
    (hsafe : 2 ≤ k → nBudget < nFees ∨ nFees + 546 * k < nBudget) :
    ∃ (vout1 : List CTxOut) (vin1 : List CTxIn) (W : Nat),
      EmbedData.budget ctx bits vout vin nBudget nFees = some (bits.drop W, vout1, vin1) ∧
      vout1.length = k ∧ vin1.length = k ∧
      (∀ q ∈ vin1.map (fun (x : CTxIn) => x.prevout.n), q < k) ∧
      (k = 1 → W = 0) ∧
      (2 ≤ k → nFees + 546 * k < nBudget → ∀ (vout2 : List CTxOut) (vin2 : List CTxIn),
        vout2.map (fun (o : CTxOut) => o.nValue) = vout1.map (fun (o : CTxOut) => o.nValue) →
        vin2.map (fun (x : CTxIn) => x.prevout.n) = vin1.map (fun (x : CTxIn) => x.prevout.n) →
        ∃ a b, UnpackDataFromBudgetSplit ctx.lg vout2 546 = some a ∧
          UnpackDataFromBudgetClaim ctx.lg vin2 = some b ∧
          a ++ b = bits.take W ++ List.replicate (W - bits.length) false) := by
  have hW16 := W16_val
  rcases Nat.lt_or_ge k 2 with hk | hk
  · have hk : k = 1 := by omega
    subst hk
    match vout, hvout, vin, hvin with
    | [o], _, [i0], _ =>
      refine ⟨[{ o with nValue := sub64 nBudget nFees }],
        [{ i0 with prevout := { i0.prevout with n := 0 } }], 0, rfl, rfl, rfl, ?_,
        fun _ => rfl, fun h => by omega⟩
      intro q hq
      simp only [List.map_cons, List.map_nil, List.mem_singleton] at hq
      omega
  · rcases hsafe hk with hlow | hhigh
    · obtain ⟨p, W, hperm, hbud⟩ := EmbedData_budget_skip ctx hlog bits vout vin k nBudget
        nFees hvout hvin hk hk14 hL hb hf hlow
      have hplen : p.length = k := by rw [hperm.length_eq, List.length_range]
      have hmapn := zipWith_prevout vin p (by omega)
      refine ⟨_, _, W, hbud, hvout, ?_, ?_, fun h => by omega, fun _ h => by omega⟩
      · rw [List.length_zipWith, hvin, hplen, Nat.min_self]
      · intro q hq
        rw [hmapn] at hq
        exact List.mem_range.mp (hperm.mem_iff.mp hq)
    · obtain ⟨c, p, W, hclen, hclt, hperm, hbud, a, b, hda, hdb, hab⟩ :=
        EmbedData_budget_many ctx hlog bits vout vin k nBudget nFees hvout hvin hk hk14 hL hb
          hhigh
      have hplen : p.length = k := by rw [hperm.length_eq, List.length_range]
      have hmapn := zipWith_prevout vin p (by omega)
      have hmapv := zipWith_nValue vout c 546 (by omega) hclt
      refine ⟨_, _, W, hbud, ?_, ?_, ?_, fun h => by omega, ?_⟩
      · rw [List.length_zipWith, hvout, hclen, Nat.min_self]
      · rw [List.length_zipWith, hvin, hplen, Nat.min_self]
      · intro q hq
        rw [hmapn] at hq
        exact List.mem_range.mp (hperm.mem_iff.mp hq)
      · intro _ _ vout2 vin2 hv hn
        refine ⟨a, b, ?_, ?_, hab⟩
        · rw [UnpackDataFromBudgetSplit_values ctx.lg vout2 c k 546 (by omega) hclen hclt
            (by rw [hv, hmapv]), hda]
        · rw [UnpackDataFromBudgetClaim_perm ctx.lg vin2 p k (by omega) hperm
            (by rw [hn, hmapn]), hdb]

/-- The reader's pass on `k` P2SH outputs followed by `nN` nulldata outputs: the counts
it computes from the number of outputs are `nN` and `k`. -/
theorem ExtractData_pair_counts (ctx : Context) (vout : List CTxOut) (vin : List CTxIn)
    (k nN : Nat) (hlen : vout.length = k + nN) (hk1 : 1 ≤ k) (hk14 : k ≤ 14)
    (hN : nN = 0 ∨ nN = 1) (h2 : 2 ≤ k → nN = 1) :
    ExtractData.pair ctx vout vin =
      match (if k ≥ 2 then
          (match UnpackDataFromBudgetSplit ctx.lg (if nN = 1 then vout.dropLast else vout) 546,
              UnpackDataFromBudgetClaim ctx.lg vin with
            | some a, some b => some (a ++ b)
            | _, _ => none)
          else some []),
        (if nN = 1 then
          (match vout.getLast? with
            | some buf => UnpackDataFromNulldata buf
            | none => none)
          else some []),
        ExtractData.scripts ctx vin k 0 with
      | some a, some b, some d => some (a ++ b ++ d)
      | _, _, _ => none := by
  have hW := W32_val
  have e0 : vout.length % W32 = k + nN := by
    rw [hlen]
    exact Nat.mod_eq_of_lt (by omega)
  have e1 : (if vout.length % W32 ≥ 2 then 1 else 0) = nN := by
    rw [e0]
    split_ifs <;> omega
  have e2 : (vout.length % W32 + (W32 - nN)) % W32 = k := by
    rw [e0, W32_val]
    omega
  unfold ExtractData.pair
  simp only [e1, e2]
  rfl

theorem getLast?_of_drop {α : Type} (l : List α) (k : Nat) (x : α) (h : l.drop k = [x]) :
    l.getLast? = some x := by
  have e : l = l.take k ++ [x] := by
    rw [← h, List.take_append_drop]
  rw [e, List.getLast?_append]
  rfl

theorem dropLast_of_drop {α : Type} (l : List α) (k : Nat) (x : α) (h : l.drop k = [x]) :
    l.dropLast = l.take k := by
  have e : l = l.take k ++ [x] := by
    rw [← h, List.take_append_drop]
  rw [e, List.dropLast_concat, ← e]

theorem ExtractData_pair_nil (ctx : Context) : ExtractData.pair ctx [] [] = some [] := by
  have e1 : (if ([] : List CTxOut).length % W32 ≥ 2 then 1 else 0) = 0 := by simp
  have e2 : (([] : List CTxOut).length % W32 + (W32 - 0)) % W32 = 0 := by simp
  unfold ExtractData.pair
  simp only [e1, e2]
  rfl

/-- One pass of the chain builder on a fresh pair of transactions, when the budget is
either below the planned fee or above the fee plus the dust of the planned outputs (two
or more): it returns, the bits taken are the first `W` of the vector (at least 32 when
there are any), and with enough budget the reader's pass on the outputs of the first and
the inputs of the second transaction returns them, padded with zeros to `W` bits. -/
theorem EmbedData_pass_spec (ctx : Context) (s : Nat) (henv : ChainEnv ctx s)
    (cur next : CTransaction) (bits : DataBits) (nBudget c : Nat) (params : Parameters)
    (hcur : cur.vout = []) (hnext : next.vin = []) (hL : bits.length < 2 ^ 31)
    (hb : nBudget < W64)
    (hsafe : ∀ p, OptimizeParams ctx.KeymapSuffixBits ctx.RandomSuffixBits ctx.TransactionFee
        ctx.lg cur bits nBudget params = some p → 2 ≤ p.nScriptHash →
      nBudget < p.nFees ∨ p.nFees + 546 * p.nScriptHash < nBudget) :
    ∃ cur1 next1 c1 p W,
      EmbedData.pass ctx cur next bits nBudget c params
        = some (cur1, next1, bits.drop W, sub64 nBudget p.nFees, c1, p) ∧
      OptimizeParams ctx.KeymapSuffixBits ctx.RandomSuffixBits ctx.TransactionFee ctx.lg cur
        bits nBudget params = some p ∧
      cur1.vin = cur.vin ∧ next1.vout = next.vout ∧ (bits ≠ [] → 32 ≤ W) ∧
      ((2 ≤ p.nScriptHash → p.nFees + 546 * p.nScriptHash < nBudget) →
        ExtractData.pair ctx cur1.vout next1.vin
          = some (bits.take W ++ List.replicate (W - bits.length) false)) := by
  have hW := W32_val
  obtain ⟨p, hplan, hpf, hempty, hfull⟩ :=
    planner_facts ctx s henv cur bits nBudget params
  have hsafe := hsafe p hplan
  by_cases hbits : bits = []
  · have hp := hempty hbits
    subst hbits
    refine ⟨{ cur with vout := [] }, { next with vin := [] }, c, p, 0, ?_, hplan, rfl, rfl,
      fun h => absurd rfl h, fun _ => ExtractData_pair_nil ctx⟩
    unfold EmbedData.pass
    simp only [hplan]
    rw [hp, hcur, hnext]
    rfl
  · obtain ⟨hk1, hk14, hN, hN2⟩ := hfull hbits
    generalize hk : p.nScriptHash = k at hk1 hk14 hN2 hsafe
    obtain ⟨vin0, hins, hvin0⟩ := EmbedData_insert_spec k 0 cur.vout next.vin (by
      rw [hnext]; rfl)
    rw [hcur, List.append_nil] at hins
    rw [Nat.zero_add] at hvin0
    obtain ⟨vout1, vin1, Wb, hbudget, hv1, hi1, hbound, hWb1, hdecode⟩ :=
      EmbedData_budget_spec ctx henv.2.2.2.2.2 bits (List.replicate k CTxOut.null) vin0 k
        nBudget p.nFees (List.length_replicate _ _) hvin0 hk1 hk14 hL hb hpf hsafe
    obtain ⟨outs, Wn, hnull, houts, hWn0, hWn1⟩ :=
      EmbedData_nulldata_spec (bits.drop Wb) vout1 p.nNulldata (by
        rw [List.length_drop]; omega) hN
    obtain ⟨vout3, next3, c3, Ws, hscr, hnv, hnl, hnm, hvm, hvd, _, hext, hWs, _⟩ :=
      EmbedData_scripts_spec ctx s henv k 0 ((bits.drop Wb).drop Wn) (vout1 ++ outs)
        { next with vin := vin1 } c (by rw [List.length_drop, List.length_drop]; omega)
        (by rw [Nat.zero_add]; exact hi1.symm) (by rw [hi1]; exact hk14)
        (by rw [hi1, List.length_append, hv1]; omega)
        (by rw [hi1]; exact hbound)
    have hlen3 : vout3.length = k + p.nNulldata := by
      have := congrArg List.length hvm
      rw [List.length_map, List.length_map, List.length_append, hv1, houts] at this
      exact this
    have hdrop3 : vout3.drop k = outs := by
      have h := hvd
      simp only [] at h
      rw [hi1] at h
      rw [h, List.drop_left' hv1]
    refine ⟨{ cur with vout := vout3 }, next3, c3, p, Wb + Wn + Ws, ?_, hplan, rfl, hnv,
      fun _ => by omega, ?_⟩
    · unfold EmbedData.pass
      simp only [hplan]
      rw [hk, Nat.mod_eq_of_lt (show k < W32 by omega), hcur, hins]
      simp only [hbudget, hnull, hscr]
      rw [List.drop_drop, List.drop_drop, Nat.add_assoc]
    · intro hkeep
      rw [hk] at hkeep
      have hA : (if k ≥ 2 then
            (match UnpackDataFromBudgetSplit ctx.lg
                (if p.nNulldata = 1 then vout3.dropLast else vout3) 546,
                UnpackDataFromBudgetClaim ctx.lg next3.vin with
              | some a, some b => some (a ++ b)
              | _, _ => none)
            else some [])
          = some (bits.take Wb ++ List.replicate (Wb - bits.length) false) := by
        by_cases hk2 : k ≥ 2
        · rw [if_pos hk2, if_pos (hN2 hk2)]
          obtain ⟨out, hout, _, _⟩ := hWn1 (hN2 hk2)
          rw [hout] at hdrop3 hvm
          obtain ⟨a, b, ha, hb2, hab⟩ := hdecode hk2 (hkeep hk2) vout3.dropLast next3.vin (by
              rw [dropLast_of_drop vout3 k out hdrop3, List.map_take, hvm, List.map_append,
                List.take_left' (by rw [List.length_map]; exact hv1)]) hnm
          simp only [ha, hb2, hab]
        · rw [if_neg hk2, hWb1 (by omega)]
          simp
      have hB : (if p.nNulldata = 1 then
            (match vout3.getLast? with
              | some buf => UnpackDataFromNulldata buf
              | none => none)
            else some [])
          = some ((bits.drop Wb).take Wn
              ++ List.replicate (Wn - (bits.drop Wb).length) false) := by
        by_cases hn1 : p.nNulldata = 1
        · obtain ⟨out, hout, hW320, hun⟩ := hWn1 hn1
          rw [hout] at hdrop3
          rw [if_pos hn1, getLast?_of_drop vout3 k out hdrop3, hW320]
          exact hun
        · rw [if_neg hn1, hWn0 (by omega)]
          simp
      rw [ExtractData_pair_counts ctx vout3 next3.vin k p.nNulldata hlen3 hk1 hk14 hN hN2, hA,
        hB, hext]
      simp only []
      rw [take_pad_append bits Wb Wn, List.drop_drop, take_pad_append bits (Wb + Wn) Ws]

theorem sub64_sub64 (a b c : Nat) : sub64 (sub64 a b) c = sub64 a (b + c) := by
  unfold sub64
  rw [W64_val]
  omega

theorem sub64_zero (a : Nat) (h : a < W64) : sub64 a 0 = a := by
  unfold sub64
  rw [W64_val] at *
  omega

theorem sub64_lt_W64 (a b : Nat) : sub64 a b < W64 := by
  unfold sub64
  exact Nat.mod_lt _ (by rw [W64_val]; omega)

theorem ExtractData_loop_cons (ctx : Context) (t : CTransaction) (tmp : List CTransaction) :
    ∀ (cnt idx : Nat), ExtractData.loop ctx (t :: tmp) cnt (idx + 1)
      = ExtractData.loop ctx tmp cnt idx := by
  intro cnt
  induction cnt with
  | zero => intro idx; rfl
  | succ cnt ih =>
    intro idx
    rw [ExtractData.loop, ExtractData.loop, ih (idx + 1)]
    simp only [List.get?_cons_succ]

/-- One pass of the reader's loop, on the first two transactions of the chain. -/
theorem ExtractData_loop_step (ctx : Context) (t0 t1 : CTransaction)
    (rest : List CTransaction) (cnt : Nat) (a b : DataBits)
    (ha : ExtractData.pair ctx t0.vout t1.vin = some a)
    (hb : ExtractData.loop ctx (t1 :: rest) cnt 0 = some b) :
    ExtractData.loop ctx (t0 :: t1 :: rest) (cnt + 1) 0 = some (a ++ b) := by
  rw [ExtractData.loop, ExtractData_loop_cons]
  simp only [List.get?_cons_zero, List.get?_cons_succ, ha, hb]

/-- The loop of the chain builder under a condition `P` on the planned budgets that makes
them safe: it returns the passes' transactions `t :: rest` and the terminator `last`
(still without outputs), one planner result for each pass, and the budget less the
planned fees. When `P` makes every planned budget sufficient, the reader's loop over
`t :: rest` followed by a transaction with the inputs of `last` returns the bits,
followed by zeros. -/
theorem EmbedData_loop_spec (ctx : Context) (s : Nat) (henv : ChainEnv ctx s)
    (P : Nat → Parameters → Prop)
    (hP : ∀ b p, P b p → b < p.nFees ∨ p.nFees + 546 * p.nScriptHash < b) :
    ∀ (fuel : Nat) (done : List CTransaction) (cur next : CTransaction) (bits : DataBits)
      (nBudget c : Nat) (params : Parameters) (plans : List Parameters),
    cur.vout = [] → next = CTransaction.null → bits.length < 2 ^ 31 → bits.length < fuel →
    nBudget < W64 → EmbedData.budgets ctx P fuel cur next bits nBudget c params →
    ∃ (t : CTransaction) (rest : List CTransaction) (last : CTransaction)
      (plans1 : List Parameters) (p : Parameters),
      EmbedData.loop ctx fuel done cur next bits nBudget c params plans
        = some (done ++ t :: rest, last,
            sub64 nBudget (plans1.map (fun (q : Parameters) => q.nFees)).sum, p,
            plans ++ plans1) ∧
      plans1.length = rest.length + 1 ∧ rest.length < fuel ∧ last.vout = [] ∧
      t.vin = cur.vin ∧
      ((∀ b p, P b p → p.nFees + 546 * p.nScriptHash < b) →
        ∀ last2 : CTransaction, last2.vin = last.vin →
          ∃ z, ExtractData.loop ctx (t :: rest ++ [last2]) (rest.length + 1) 0
            = some (bits ++ List.replicate z false)) := by
  intro fuel
  induction fuel with
  | zero => intro _ _ _ _ _ _ _ _ _ _ _ h; omega
  | succ fuel ih =>
    intro done cur next bits nBudget c params plans hcur hnext hL hfuel hb hbud
    obtain ⟨hb1, hb2⟩ := hbud
    obtain ⟨cur1, next1, c1, p, W, hpass, hplan, hcv, hnv, hW32, hext⟩ :=
      EmbedData_pass_spec ctx s henv cur next bits nBudget c params hcur (by rw [hnext]; rfl)
        hL hb (fun q hq h2 => hP _ _ (hb1 q hq h2))
    have hnv0 : next1.vout = [] := by rw [hnv, hnext]; rfl
    rw [EmbedData.loop]
    simp only [hpass]
    by_cases hrem : (bits.drop W).length > 0
    · rw [if_pos hrem]
      have hne : bits ≠ [] := by
        intro h
        rw [h] at hrem
        simp at hrem
      have hW := hW32 hne
      have hlt : W < bits.length := by
        rw [List.length_drop] at hrem
        omega
      obtain ⟨t, rest, last, plans1, q, hloop, hlen, hrl, hlast, htv, hread⟩ :=
        ih (done ++ [cur1]) next1 CTransaction.null (bits.drop W) (sub64 nBudget p.nFees) c1 p
          (plans ++ [p]) hnv0 rfl (by rw [List.length_drop]; omega)
          (by rw [List.length_drop]; omega) (sub64_lt_W64 _ _)
          (hb2 _ hpass hrem)
      refine ⟨cur1, t :: rest, last, p :: plans1, q, ?_, by
        rw [List.length_cons, List.length_cons, hlen], by
        rw [List.length_cons]; omega, hlast, hcv, ?_⟩
      · rw [hloop, sub64_sub64]
        simp only [List.append_assoc, List.singleton_append, List.map_cons, List.sum_cons]
      · intro hkept last2 hl2
        obtain ⟨z, hz⟩ := hread hkept last2 hl2
        have hpair := hext (fun h2 => hkept _ _ (hb1 p hplan h2))
        rw [← htv] at hpair
        refine ⟨z, ?_⟩
        have hstep := ExtractData_loop_step ctx cur1 t (rest ++ [last2]) (rest.length + 1) _ _
          hpair hz
        rw [show W - bits.length = 0 by omega, List.replicate_zero, List.append_nil,
          ← List.append_assoc, List.take_append_drop] at hstep
        exact hstep
    · rw [if_neg hrem]
      refine ⟨cur1, [], next1, [p], p, ?_, rfl, by
        rw [List.length_nil]; omega, hnv0, hcv, ?_⟩
      · simp only [List.map_cons, List.map_nil, List.sum_cons, List.sum_nil, Nat.add_zero]
      · intro hkept last2 hl2
        have hpair := hext (fun h2 => hkept _ _ (hb1 p hplan h2))
        rw [← hl2] at hpair
        have hstep := ExtractData_loop_step ctx cur1 last2 [] 0 _ [] hpair rfl
        have hle : bits.length ≤ W := by
          rw [List.length_drop] at hrem
          omega
        rw [List.take_of_length_le hle, List.append_nil] at hstep
        exact ⟨W - bits.length, hstep⟩

theorem planner_fee_le (ctx : Context) (s F : Nat) (henv : ChainEnv ctx s)
    (hF : ∀ tx, ctx.TransactionFee tx ≤ F) (tx : CTransaction) (bits : DataBits)
    (nBudget : Nat) (p0 p : Parameters)
    (h : OptimizeParams ctx.KeymapSuffixBits ctx.RandomSuffixBits ctx.TransactionFee ctx.lg tx
      bits nBudget p0 = some p) : p.nFees ≤ F ∧ p.nScriptHash ≤ 14 := by
  obtain ⟨_, _, hr, _, _, _⟩ := henv
  have hmodle : ∀ t, ctx.TransactionFee t % W64 ≤ F :=
    fun t => Nat.le_trans (Nat.mod_le _ _) (hF t)
  by_cases hb : bits = []
  · subst hb
    unfold OptimizeParams at h
    rw [if_neg (by omega)] at h
    have h2 : some (⟨0, 0, ctx.TransactionFee tx % W64⟩ : Parameters) = some p := h
    simp only [Option.some.injEq] at h2
    rw [← h2]
    exact ⟨hmodle tx, Nat.zero_le 14⟩
  · obtain ⟨q, hq, _, h14, hpass, _, _⟩ := OptimizeParams_spec ctx.KeymapSuffixBits
      ctx.RandomSuffixBits ctx.TransactionFee ctx.lg tx bits nBudget p0 hr hb
    rw [hq] at h
    simp only [Option.some.injEq] at h
    subst h
    refine ⟨?_, h14⟩
    rw [hpass]
    exact hmodle _

/-- A sufficient condition for the budgets of the chain: when no transaction costs more
than `F` satoshi and the budget exceeds `(L + 1) * F` plus the dust of 14 outputs, `L`
being the number of bits, every planned transaction keeps more than the dust of its
outputs. -/
theorem budgets_of_fee_bound (ctx : Context) (s F : Nat) (henv : ChainEnv ctx s)
    (hF : ∀ tx, ctx.TransactionFee tx ≤ F) :
    ∀ (fuel : Nat) (cur next : CTransaction) (bits : DataBits) (nBudget c : Nat)
      (params : Parameters),
    cur.vout = [] → next = CTransaction.null → bits.length < 2 ^ 31 → nBudget < W64 →
    (bits.length + 1) * F + 546 * 14 < nBudget →
    EmbedData.budgets ctx (fun b p => p.nFees + 546 * p.nScriptHash < b)
      fuel cur next bits nBudget c params := by
  intro fuel
  induction fuel with
  | zero => intro _ _ _ _ _ _ _ _ _ _ _; trivial
  | succ fuel ih =>
    intro cur next bits nBudget c params hcur hnext hL hb hbud
    have hmul : (bits.length + 1) * F = bits.length * F + F := by ring
    have hkeep : ∀ p, OptimizeParams ctx.KeymapSuffixBits ctx.RandomSuffixBits
        ctx.TransactionFee ctx.lg cur bits nBudget params = some p →
        p.nFees + 546 * p.nScriptHash < nBudget := by
      intro p hp
      obtain ⟨h1, h2⟩ := planner_fee_le ctx s F henv hF cur bits nBudget params p hp
      omega
    refine ⟨fun p hp _ => hkeep p hp, ?_⟩
    intro r hr hrem
    obtain ⟨cur1, next1, c1, p, W, hpass, hplan, _, hnv, hW32, _⟩ :=
      EmbedData_pass_spec ctx s henv cur next bits nBudget c params hcur (by rw [hnext]; rfl)
        hL hb (fun q hq _ => Or.inr (hkeep q hq))
    rw [hpass] at hr
    simp only [Option.some.injEq] at hr
    subst hr
    simp only [] at hrem ⊢
    have hne : bits ≠ [] := by
      intro h
      rw [h] at hrem
      simp at hrem
    have hW := hW32 hne
    obtain ⟨hpF, _⟩ := planner_fee_le ctx s F henv hF cur bits nBudget params p hplan
    have hsub : sub64 nBudget p.nFees = nBudget - p.nFees := sub64_of_le (by omega) hb
    rw [List.length_drop] at hrem
    apply ih next1 CTransaction.null (bits.drop W) (sub64 nBudget p.nFees) c1 p
      (by rw [hnv, hnext]; rfl) rfl (by rw [List.length_drop]; omega) (sub64_lt_W64 _ _)
    rw [hsub, List.length_drop]
    have h3 : (bits.length - W + 1) * F ≤ bits.length * F := Nat.mul_le_mul_right F (by omega)
    omega

theorem testContext_env : ChainEnv testContext 8 :=
  ⟨rfl, suffixKeyMap_invariant, by decide, testContext_draws,
    fun _ _ _ => ⟨List.replicate 72 0, rfl, by rw [List.length_replicate, W32_val]; decide⟩,
    floorLog2_ok⟩

/-- The result of `EmbedData` under a condition `P` on the planned budgets that makes
them safe: the chain `t :: rest ++ [last]`, the planner results `plans ++ [p]`, the
change output and the terminator's planner result; with sufficient budgets the reader
returns the payload followed by zeros. -/
theorem EmbedData_run_spec (ctx : Context) (s : Nat) (henv : ChainEnv ctx s)
    (P : Nat → Parameters → Prop)
    (hP : ∀ b p, P b p → b < p.nFees ∨ p.nFees + 546 * p.nScriptHash < b)
    (data : DataBits) (nBudget : Nat) (prevOut : List COutPoint) (changeScript : Data)
    (hL : data.length < 2 ^ 31) (hb : nBudget < W64)
    (hbud : EmbedData.budgets ctx P (data.length + 1)
      { vin := prevOut.map (fun o => { CTxIn.null with prevout := o }), vout := [] }
      CTransaction.null data nBudget 0 { nScriptHash := 0, nNulldata := 0, nFees := 0 }) :
    ∃ (chain : List CTransaction) (last : CTransaction) (plans : List Parameters),
      EmbedData.run ctx data nBudget prevOut changeScript = some (chain ++ [last], plans) ∧
      1 ≤ chain.length ∧ plans.length = chain.length + 1 ∧
      last.vout
        = [⟨sub64 nBudget (plans.map (fun (q : Parameters) => q.nFees)).sum, changeScript⟩] ∧
      plans.getLast? = some ⟨0, 0, ctx.TransactionFee { last with vout := [] } % W64⟩ ∧
      ((∀ b p, P b p → p.nFees + 546 * p.nScriptHash < b) →
        ∃ z, ExtractData ctx (chain ++ [last]) = some (data ++ List.replicate z false)) := by
  have hW := W32_val
  obtain ⟨t, rest, last, plans1, q, hloop, hlen, hrl, hlast, _, hread⟩ :=
    EmbedData_loop_spec ctx s henv P hP (data.length + 1) []
      { vin := prevOut.map (fun o => { CTxIn.null with prevout := o }), vout := [] }
      CTransaction.null data nBudget 0 { nScriptHash := 0, nNulldata := 0, nFees := 0 } []
      rfl rfl hL (by omega) hb hbud
  obtain ⟨p, hplan, _, hempty, _⟩ := planner_facts ctx s henv last []
    (sub64 nBudget (plans1.map (fun (q : Parameters) => q.nFees)).sum) q
  have hp := hempty rfl
  have hlast2 : ({ last with vout := [] } : CTransaction) = last := by
    cases last
    simp only [] at hlast
    rw [hlast]
  generalize hout : (⟨sub64 (sub64 nBudget (plans1.map (fun (q : Parameters) => q.nFees)).sum)
      p.nFees, changeScript⟩ : CTxOut) = out
  refine ⟨t :: rest, ⟨last.vin, last.vout ++ [out]⟩, plans1 ++ [p], ?_, ?_, ?_, ?_, ?_, ?_⟩
  · unfold EmbedData.run
    simp only [hloop, hplan, List.nil_append]
    rw [← hout]
  · rw [List.length_cons]
    omega
  · rw [List.length_append, List.length_cons, hlen]
    rfl
  · simp only [hlast, List.nil_append]
    rw [← hout, sub64_sub64, List.map_append, List.sum_append]
    simp only [List.map_cons, List.map_nil, List.sum_cons, List.sum_nil, Nat.add_zero]
  · rw [List.getLast?_append]
    simp only [List.getLast?_singleton]
    rw [hp]
    have e : (⟨last.vin, []⟩ : CTransaction) = last := hlast2
    simp only [e]
    rfl
  · intro hkept
    obtain ⟨z, hz⟩ := hread hkept (⟨last.vin, last.vout ++ [out]⟩ : CTransaction) rfl
    refine ⟨z, ?_⟩
    unfold ExtractData
    have hcnt : ((t :: rest ++ [(⟨last.vin, last.vout ++ [out]⟩ : CTransaction)]).length % W32
        + (W32 - 1)) % W32 = rest.length + 1 := by
      rw [List.length_append, List.length_cons, List.length_singleton, hW]
      omega
    rw [hcnt]
    exact hz

/-! ## The chain: budgets that make the builder fail -/

theorem budgets_mono (ctx : Context) (P Q : Nat → Parameters → Prop)
    (hPQ : ∀ b p, P b p → Q b p) :
    ∀ (fuel : Nat) (cur next : CTransaction) (bits : DataBits) (nBudget c : Nat)
      (params : Parameters),
    EmbedData.budgets ctx P fuel cur next bits nBudget c params →
    EmbedData.budgets ctx Q fuel cur next bits nBudget c params := by
  intro fuel
  induction fuel with
  | zero => intro _ _ _ _ _ _ _; trivial
  | succ fuel ih =>
    intro cur next bits nBudget c params h
    exact ⟨fun p hp h2 => hPQ _ _ (h.1 p hp h2), fun r hr hrem => ih _ _ _ _ _ _ (h.2 r hr hrem)⟩


set_option maxRecDepth 100000 in
theorem planner_loop_at_fee :
    OptimizeParams.loop ((8 : Int) % (W32 : Int)).toNat ((255 - (5 : Int)) % (W32 : Int)).toNat
      testContext.TransactionFee floorLog2 ⟨[], []⟩ 4000 10000 14 14 ⟨0, 0, 0⟩
      = some ⟨2, 1, 10000⟩ := by
  decide

theorem planner_at_fee :
    OptimizeParams 8 5 testContext.TransactionFee floorLog2 ⟨[], []⟩ (List.replicate 4000 true)
        10000 ⟨0, 0, 0⟩ = some ⟨2, 1, 10000⟩ := by
  unfold OptimizeParams
  rw [if_neg (by decide), List.length_replicate, if_neg (by decide)]
  exact planner_loop_at_fee

set_option maxRecDepth 100000 in
theorem planner_loop_at_dust :
    OptimizeParams.loop ((8 : Int) % (W32 : Int)).toNat ((255 - (5 : Int)) % (W32 : Int)).toNat
      testContext.TransactionFee floorLog2 ⟨[], []⟩ 4000 11092 14 14 ⟨0, 0, 0⟩
      = some ⟨2, 1, 10000⟩ := by
  decide

theorem planner_at_dust :
    OptimizeParams 8 5 testContext.TransactionFee floorLog2 ⟨[], []⟩ (List.replicate 4000 true)
        11092 ⟨0, 0, 0⟩ = some ⟨2, 1, 10000⟩ := by
  unfold OptimizeParams
  rw [if_neg (by decide), List.length_replicate, if_neg (by decide)]
  exact planner_loop_at_dust

theorem insert_two : EmbedData.insert (2 % W32) 0 [] []
    = some ([CTxOut.null, CTxOut.null],
        [CTxIn.null, { CTxIn.null with prevout := { CTxIn.null.prevout with n := 1 } }]) := by
  decide

/-- The assertion `budget >= nOutputs * lbound` of `PackDataIntoBudgetSplit` fails for two
outputs and no budget. -/
theorem PackDataIntoBudgetSplit_assert (lg : Nat → Nat) (root : Int → Nat → Nat)
    (bits : DataBits) (o1 o2 : CTxOut) :
    PackDataIntoBudgetSplit lg root bits [o1, o2] 0 546 = none := by
  have e0 : ¬ (([o1, o2].length % W32 * (546 % W64)) % W64 ≤ 0 % W64) := by
    simp only [List.length_cons, List.length_nil]
    decide
  unfold PackDataIntoBudgetSplit
  simp only []
  rw [if_neg e0]

theorem width_at_dust :
    EmbeddableBitsInValues floorLog2 (sub64 1092 ((2 % W32 * (546 % W64)) % W64)) (2 % W32) = 0 := by
  decide

theorem EncodeDataInValues_nil (lg : Nat → Nat) (root : Int → Nat → Nat) (n k : Nat) :
    EncodeDataInValues lg root [] n k = none := by
  unfold EncodeDataInValues
  split_ifs
  · rfl
  · rfl

/-- With two outputs and a budget of exactly their dust the width of the channel is `0`
and `DataBitsToInt` is called on an empty slice. -/
theorem PackDataIntoBudgetSplit_dust (root : Int → Nat → Nat) (bits : DataBits)
    (o1 o2 : CTxOut) :
    PackDataIntoBudgetSplit floorLog2 root bits [o1, o2] 1092 546 = none := by
  have hlen : [o1, o2].length = 2 := rfl
  have e0 : (2 % W32 * (546 % W64)) % W64 ≤ 1092 % W64 := by decide
  have e2 : SliceBits bits 0 = some ([], bits) := by
    unfold SliceBits
    simp
  unfold PackDataIntoBudgetSplit
  simp only [hlen, width_at_dust, Nat.zero_min, Nat.sub_zero]
  rw [if_pos e0, e2]
  simp only [PadBits, Nat.zero_mod, List.replicate_zero, List.append_nil,
    EncodeDataInValues_nil]

theorem EmbedData_budget_none (ctx : Context) (bits : DataBits) (o1 o2 : CTxOut)
    (vin : List CTxIn) (nBudget nFees : Nat) (hge : nBudget % W64 ≥ nFees % W64)
    (h : PackDataIntoBudgetSplit ctx.lg ctx.root bits [o1, o2] (sub64 nBudget nFees) 546 = none) :
    EmbedData.budget ctx bits [o1, o2] vin nBudget nFees = none := by
  unfold EmbedData.budget
  rw [if_neg (by simp), if_pos (by simp), if_pos hge, h]

theorem EmbedData_none_of_budget (ctx : Context) (data : DataBits) (nBudget : Nat)
    (changeScript : Data) (p : Parameters) (vout0 : List CTxOut) (vin0 : List CTxIn)
    (hplan : OptimizeParams ctx.KeymapSuffixBits ctx.RandomSuffixBits ctx.TransactionFee ctx.lg
      ⟨[], []⟩ data nBudget ⟨0, 0, 0⟩ = some p)
    (hins : EmbedData.insert (p.nScriptHash % W32) 0 [] [] = some (vout0, vin0))
    (hbud : EmbedData.budget ctx data vout0 vin0 nBudget p.nFees = none) :
    EmbedData ctx data nBudget [] changeScript = none := by
  have hpass : EmbedData.pass ctx ⟨[], []⟩ CTransaction.null data nBudget 0 ⟨0, 0, 0⟩ = none := by
    unfold EmbedData.pass
    simp only [hplan]
    have e : CTransaction.null.vin = [] := rfl
    rw [e, hins]
    simp only [hbud]
  unfold EmbedData EmbedData.run
  simp only [List.map_nil]
  rw [EmbedData.loop, hpass]
  rfl

/-- `EmbedData` on 4000 bits with a budget equal to the fee of the first transaction:
two outputs are planned, the budget covers the fee, and the assertion of
`PackDataIntoBudgetSplit` fails. -/
theorem EmbedData_assert_fails :
    EmbedData testContext (List.replicate 4000 true) 10000 [] [] = none := by
  exact EmbedData_none_of_budget testContext _ _ _ ⟨2, 1, 10000⟩ _ _ planner_at_fee insert_two
    (EmbedData_budget_none testContext _ _ _ _ _ _ (by decide)
      (PackDataIntoBudgetSplit_assert _ _ _ _ _))

/-- `EmbedData` on 4000 bits with a budget of the fee plus exactly the dust of the two
planned outputs: the budget split has width `0` and converts an empty slice. -/
theorem EmbedData_dust_fails :
    EmbedData testContext (List.replicate 4000 true) 11092 [] [] = none := by
  exact EmbedData_none_of_budget testContext _ _ _ ⟨2, 1, 10000⟩ _ _ planner_at_dust insert_two
    (EmbedData_budget_none testContext _ _ _ _ _ _ (by decide)
      (PackDataIntoBudgetSplit_dust _ _ _ _))

/-! ## The chain builder and the chain reader (C15, C1) -/

/-- C15 (as amended): for every payload of fewer than `2^31` bits (the empty one
included) and every 64-bit budget such that each transaction planned with `k >= 2`
outputs has a budget below its fee or above its fee plus `546 * k`, in an environment
that delivers keys, signatures and logarithms, `EmbedData` returns a chain of at least 2
transactions whose last transaction has exactly one output; the value of that output is
the budget minus the sum of the fees that the planner returned for the transactions of
the chain (modulo `2^64`), and the planner's result for the terminator is the zero-bit
result: no P2SH output, no nulldata output, the fee of the terminator without the change
output. -/
theorem embed_terminator (ctx : Context) (s : Nat) (henv : ChainEnv ctx s) (data : DataBits)
    (nBudget : Nat) (prevOut : List COutPoint) (changeScript : Data)
    (hL : data.length < 2 ^ 31) (hb : nBudget < W64)
    (hsafe : BudgetSafe ctx data nBudget prevOut) :
    ∃ (chain : List CTransaction) (last : CTransaction) (plans : List Parameters),
      EmbedData.run ctx data nBudget prevOut changeScript = some (chain ++ [last], plans) ∧
      EmbedData ctx data nBudget prevOut changeScript = some (chain ++ [last]) ∧
      2 ≤ (chain ++ [last]).length ∧ plans.length = (chain ++ [last]).length ∧
      last.vout
        = [⟨sub64 nBudget (plans.map (fun (q : Parameters) => q.nFees)).sum, changeScript⟩] ∧
      plans.getLast? = some ⟨0, 0, ctx.TransactionFee { last with vout := [] } % W64⟩ := by
  obtain ⟨chain, last, plans, hrun, h1, hlen, hout, hlastp, _⟩ :=
    EmbedData_run_spec ctx s henv _ (fun _ _ h => h) data nBudget prevOut changeScript hL hb
      hsafe
  refine ⟨chain, last, plans, hrun, ?_, ?_, ?_, hout, hlastp⟩
  · unfold EmbedData
    rw [hrun]
    rfl
  · rw [List.length_append, List.length_singleton]
    omega
  · rw [List.length_append, List.length_singleton]
    exact hlen

/-- The budgets of the witnesses: three bits, `10^7` satoshi, a fee of `10^4` satoshi. -/
theorem testContext_budgets :
    EmbedData.budgets testContext (fun b p => p.nFees + 546 * p.nScriptHash < b)
      ([true, false, true].length + 1) ⟨[], []⟩ CTransaction.null [true, false, true] 10000000
      0 ⟨0, 0, 0⟩ :=
  budgets_of_fee_bound testContext 8 10000 testContext_env (fun _ => Nat.le_refl _) _ _ _ _ _ _
    _ rfl rfl (by decide) (by decide) (by decide)

/-- Witness of C15: three bits, a budget of `10^7` satoshi and the context of the
tests. -/
theorem embed_terminator_witness :
    ∃ (chain : List CTransaction) (last : CTransaction) (plans : List Parameters),
      EmbedData.run testContext [true, false, true] 10000000 [] []
        = some (chain ++ [last], plans) ∧
      EmbedData testContext [true, false, true] 10000000 [] [] = some (chain ++ [last]) ∧
      2 ≤ (chain ++ [last]).length ∧ plans.length = (chain ++ [last]).length ∧
      last.vout
        = [⟨sub64 10000000 (plans.map (fun (q : Parameters) => q.nFees)).sum, []⟩] ∧
      plans.getLast?
        = some ⟨0, 0, testContext.TransactionFee { last with vout := [] } % W64⟩ :=
  embed_terminator testContext 8 testContext_env [true, false, true] 10000000 [] []
    (by decide) (by decide)
    (budgets_mono testContext _ _ (fun _ _ h => Or.inr h) _ _ _ _ _ _ _ testContext_budgets)

/-- Counterexample to C15 as stated for every budget: 4000 bits and a budget of `10^4`
satoshi, the fee of the first transaction. The planner returns two outputs, the budget
covers the fee, and the assertion `budget >= nOutputs * lbound` of
`PackDataIntoBudgetSplit` fails: no chain is returned. -/
theorem embed_terminator_counterexample :
    OptimizeParams 8 5 testContext.TransactionFee floorLog2 ⟨[], []⟩ (List.replicate 4000 true)
        10000 ⟨0, 0, 0⟩ = some ⟨2, 1, 10000⟩ ∧
      EmbedData testContext (List.replicate 4000 true) 10000 [] [] = none :=
  ⟨planner_at_fee, EmbedData_assert_fails⟩

/-- The round trip of the chain builder away from the boundary of the budget split (the
statement of C1 with `budget - fees > 546 * k`): for every bit vector `b` of fewer than
`2^31` bits and every 64-bit budget such that each transaction planned with `k >= 2`
outputs keeps `budget - fees > 546 * k`, in an environment that delivers keys, signatures
and logarithms (the keypair table has its suffix invariant), `EmbedData` returns a chain
and `ExtractData` of the chain is `b` followed by zero bits only. -/
theorem embed_extract (ctx : Context) (s : Nat) (henv : ChainEnv ctx s) (data : DataBits)
    (nBudget : Nat) (prevOut : List COutPoint) (changeScript : Data)
    (hL : data.length < 2 ^ 31) (hb : nBudget < W64)
    (hkept : BudgetKept ctx data nBudget prevOut) :
    ∃ (chain : List CTransaction) (out : DataBits) (z : Nat),
      EmbedData ctx data nBudget prevOut changeScript = some chain ∧
      ExtractData ctx chain = some out ∧ data.length ≤ out.length ∧
      out.take data.length = data ∧ out.drop data.length = List.replicate z false := by
  obtain ⟨chain, last, plans, hrun, _, _, _, _, hread⟩ :=
    EmbedData_run_spec ctx s henv _ (fun _ _ h => Or.inr h) data nBudget prevOut changeScript
      hL hb hkept
  obtain ⟨z, hz⟩ := hread (fun _ _ h => h)
  refine ⟨chain ++ [last], data ++ List.replicate z false, z, ?_, hz, ?_, ?_, ?_⟩
  · unfold EmbedData
    rw [hrun]
    rfl
  · rw [List.length_append]
    omega
  · rw [List.take_left]
  · rw [List.drop_left]

/-- The round trip on three bits with a budget of `10^7` satoshi in the context of the
tests. -/
theorem embed_extract_witness :
    ∃ (chain : List CTransaction) (out : DataBits) (z : Nat),
      EmbedData testContext [true, false, true] 10000000 [] [] = some chain ∧
      ExtractData testContext chain = some out ∧ [true, false, true].length ≤ out.length ∧
      out.take [true, false, true].length = [true, false, true] ∧
      out.drop [true, false, true].length = List.replicate z false :=
  embed_extract testContext 8 testContext_env [true, false, true] 10000000 [] []
    (by decide) (by decide) testContext_budgets

/-- C1, the failing input: 4000 bits and a budget of `11092` satoshi in the context of
the tests, whose keypair table has its suffix invariant. The planner returns two outputs
and a fee of `10^4`, so `budget - fees = 1092 = 546 * 2`, which the claim and the
assertion `budget >= nOutputs * lbound` of `PackDataIntoBudgetSplit` both admit; the
budget split then has the width `EmbeddableBitsInValues(0, 2) = 0`, `DataBitsToInt` is
called on an empty slice and reads out of range, and `EmbedData` returns no chain. -/
theorem embed_extract_at_dust :
    OptimizeParams 8 5 testContext.TransactionFee floorLog2 ⟨[], []⟩ (List.replicate 4000 true)
        11092 ⟨0, 0, 0⟩ = some ⟨2, 1, 10000⟩ ∧
      546 * 2 ≤ 11092 - 10000 ∧
      EmbeddableBitsInValues floorLog2 (11092 - 10000 - 2 * 546) 2 = 0 ∧
      DataBitsToInt [] = none ∧
      EmbedData testContext (List.replicate 4000 true) 11092 [] [] = none :=
  ⟨planner_at_dust, by decide, by decide, by decide, EmbedData_dust_fails⟩
/-! ## Counting functions -/

theorem NumberCompositions_test :
    NumberCompositions 4 3 = 15 ∧ NumberCompositions 1000000 20
      = 8222197305558737804414070673944635215122022458298030777261095087856400805804158672921856713387501 := by
  constructor
  · decide
  · rw [NumberCompositions_word (by decide) (by decide) (by decide), if_pos (by decide)]
    unfold weakCompositions
    rw [Nat.choose_eq_descFactorial_div_factorial]
    decide

/-- C21: for every `n` and `k >= 1` (`k` a `uint16_t`) with `n + k - 1` within 64 bits,
`NumberCompositions(n, k)` is `C(n + k - 1, k - 1)`, and this is the number of sequences
of `k` non-negative integers with sum `n`: there is a list without repetitions that holds
exactly these sequences and has `NumberCompositions(n, k)` entries. The values of the
test suite are `NumberCompositions(4, 3) = 15` and `NumberCompositions(10^6, 20)`. -/
theorem NumberCompositions_counts (n k : Nat) (hk1 : 1 ≤ k) (hk16 : k < W16)
    (hn : n + k - 1 < W64) :
    NumberCompositions n k = Nat.choose (n + k - 1) (k - 1) ∧
      (∃ l : List (List Nat), l.Nodup ∧ (∀ d : List Nat, d ∈ l ↔ d.length = k ∧ d.sum = n) ∧
        l.length = NumberCompositions n k) ∧
      NumberCompositions 4 3 = 15 ∧
      NumberCompositions 1000000 20
        = 8222197305558737804414070673944635215122022458298030777261095087856400805804158672921856713387501 := by
  have hW := W64_val
  have e : NumberCompositions n k = weakCompositions n k := by
    rw [NumberCompositions_word (by omega) hk1 hk16, if_pos hn]
  refine ⟨by rw [e, weakCompositions], ⟨allCompositions k n, allCompositions_nodup k n,
    mem_allCompositions k n, ?_⟩, NumberCompositions_test.1, NumberCompositions_test.2⟩
  obtain ⟨j, rfl⟩ : ∃ j, k = j + 1 := ⟨k - 1, by omega⟩
  rw [e, length_allCompositions]

/-- Witness of C21: the `15` compositions of `4` into `3` parts. -/
theorem NumberCompositions_counts_witness :
    NumberCompositions 4 3 = Nat.choose (4 + 3 - 1) (3 - 1) ∧
      (∃ l : List (List Nat), l.Nodup ∧ (∀ d : List Nat, d ∈ l ↔ d.length = 3 ∧ d.sum = 4) ∧
        l.length = NumberCompositions 4 3) :=
  ⟨(NumberCompositions_counts 4 3 (by decide) (by decide) (by decide)).1,
    (NumberCompositions_counts 4 3 (by decide) (by decide) (by decide)).2.1⟩

/-- C22: for every `n` in `[0, 65535]`, `Factorial(n)` is `n!`; in particular
`Factorial(0) = Factorial(1) = 1`, and the values of the test suite are
`Factorial(15) = 1307674368000` and `Factorial(20) = 2432902008176640000`. -/
theorem Factorial_spec (n : Nat) (hn : n ≤ 65535) :
    Factorial n = Nat.factorial n ∧ Factorial 0 = 1 ∧ Factorial 1 = 1 ∧
      Factorial 15 = 1307674368000 ∧ Factorial 20 = 2432902008176640000 :=
  ⟨Factorial_eq (by rw [W16_val]; omega), by decide, by decide, by decide, by decide⟩

/-- Witness of C22: the largest argument, `65535`. -/
theorem Factorial_spec_witness : Factorial 65535 = Nat.factorial 65535 :=
  (Factorial_spec 65535 (by decide)).1
/-! ## Bytes and bits -/

theorem BitsToData_loop_DataToBits : ∀ (d : Data), (∀ x ∈ d, x < 256) →
    BitsToData.loop d.length (DataToBits d) = some d := by
  intro d
  induction d with
  | nil =>
    intro _
    rfl
  | cons ch rest ih =>
    intro hd
    rw [List.length_cons, DataToBits, BitsToData.loop,
      List.take_left' (CharToBoolVec_length ch), List.drop_left' (CharToBoolVec_length ch),
      char_of_byte_roundtrip ch (hd ch (List.mem_cons_self _ _)),
      ih (fun x hx => hd x (List.mem_cons_of_mem _ hx))]

theorem CharToBoolVec_getElem (ch j : Nat) (hj : j < 8) :
    (CharToBoolVec ch)[j]? = some (decide (ch / 2 ^ (7 - j) % 2 = 1)) := by
  unfold CharToBoolVec
  rw [List.getElem?_map, List.getElem?_range hj]
  rfl

/-- Bit `8 * i + j` of `DataToBits(d)` is bit `7 - j` of byte `i`. -/
theorem DataToBits_getElem : ∀ (d : Data) (i j : Nat) (x : Nat), d[i]? = some x → j < 8 →
    (DataToBits d)[8 * i + j]? = some (decide (x / 2 ^ (7 - j) % 2 = 1)) := by
  intro d
  induction d with
  | nil =>
    intro i j x hx _
    simp at hx
  | cons ch rest ih =>
    intro i j x hx hj
    rw [DataToBits]
    cases i with
    | zero =>
      simp only [List.getElem?_cons_zero, Option.some.injEq] at hx
      subst hx
      rw [Nat.mul_zero, Nat.zero_add,
        List.getElem?_append_left (by rw [CharToBoolVec_length]; exact hj)]
      exact CharToBoolVec_getElem ch j hj
    | succ i =>
      rw [List.getElem?_cons_succ] at hx
      rw [List.getElem?_append_right (by rw [CharToBoolVec_length]; omega),
        CharToBoolVec_length, show 8 * (i + 1) + j - 8 = 8 * i + j by omega]
      exact ih i j x hx hj

/-- C23 with the size bound of the 32-bit loop counter of `BitsToData`: for every byte
vector `d` of fewer than `2^29` bytes, `DataToBits(d)` has `8*|d|` bits, bit `8*i + j` is
bit `7 - j` of byte `i` (most significant bit first; `CharToBoolVec('a')` is
`[0,1,1,0,0,0,0,1]`), and `BitsToData(DataToBits(d)) = d`; for every bit vector `v` of
fewer than `2^32` bits whose length is a multiple of 8, `BitsToData(v)` returns bytes
with `DataToBits(BitsToData(v)) = v`. -/
theorem bytes_bits_roundtrip (d : Data) (v : DataBits) (hd : ∀ x ∈ d, x < 256)
    (hdl : d.length < 2 ^ 29) (hv8 : v.length % 8 = 0) (hvl : v.length < 2 ^ 32) :
    (DataToBits d).length = 8 * d.length ∧
      (∀ (i j x : Nat), d[i]? = some x → j < 8 →
        (DataToBits d)[8 * i + j]? = some (decide (x / 2 ^ (7 - j) % 2 = 1))) ∧
      CharToBoolVec 97 = [false, true, true, false, false, false, false, true] ∧
      BitsToData (DataToBits d) = some d ∧
      ∃ data, BitsToData v = some data ∧ DataToBits data = v := by
  have hW := W32_val
  refine ⟨DataToBits_length d, DataToBits_getElem d, by decide, ?_, ?_⟩
  · unfold BitsToData
    rw [DataToBits_length, if_pos ⟨by omega, by omega⟩,
      show 8 * d.length / 8 = d.length by omega]
    exact BitsToData_loop_DataToBits d hd
  · obtain ⟨data, h1, _, _, h4⟩ := BitsToData_spec v (v.length / 8) (by omega) (by omega)
    exact ⟨data, h1, h4⟩

/-- Witness of C23: the bytes `'a', 'b'` and the 8 bits of `'a'`. -/
theorem bytes_bits_roundtrip_witness :
    BitsToData (DataToBits [97, 98]) = some [97, 98] ∧
      ∃ data, BitsToData [false, true, true, false, false, false, false, true] = some data ∧
        DataToBits data = [false, true, true, false, false, false, false, true] :=
  (bytes_bits_roundtrip [97, 98] [false, true, true, false, false, false, false, true]
    (by decide) (by decide) (by decide) (by decide)).2.2.2

/-- Counterexample to C23 as stated for every byte vector: for `2^29` zero bytes
`DataToBits` yields `2^32` bits, the 32-bit counter of `BitsToData` wraps before it
reaches the bound, and no byte vector is returned. -/
theorem bytes_bits_roundtrip_counterexample :
    (∀ x ∈ List.replicate 536870912 0, x < 256) ∧
      BitsToData (DataToBits (List.replicate 536870912 0)) = none := by
  have hW := W32_val
  constructor
  · intro x hx
    rw [List.eq_of_mem_replicate hx]
    decide
  · unfold BitsToData
    rw [DataToBits_length, List.length_replicate, if_neg (by omega)]
/-! ## Bit vectors and integers -/

theorem bitsVal_cons (b : Bool) : ∀ (l : DataBits),
    bitsVal (b :: l) = b.toNat * 2 ^ l.length + bitsVal l := by
  intro l
  induction l using List.reverseRecOn with
  | nil => simp [bitsVal]
  | append_singleton l x ih =>
    rw [← List.cons_append, bitsVal_concat, bitsVal_concat, ih, List.length_append,
      List.length_singleton, Nat.pow_succ]
    ring

/-- The big-endian sum of a bit vector: `sum over i of b[i] * 2^(L-1-i)`. -/
theorem bitsVal_eq_sum : ∀ (b : DataBits),
    bitsVal b = ∑ i ∈ Finset.range b.length, (b.getD i false).toNat * 2 ^ (b.length - 1 - i) := by
  intro b
  induction b using List.reverseRecOn with
  | nil => rfl
  | append_singleton l x ih =>
    rw [bitsVal_concat, List.length_append, List.length_singleton, Finset.sum_range_succ, ih,
      Finset.mul_sum]
    congr 1
    · apply Finset.sum_congr rfl
      intro i hi
      have hi2 : i < l.length := Finset.mem_range.mp hi
      rw [List.getD_append _ _ _ _ hi2,
        show l.length + 1 - 1 - i = (l.length - 1 - i) + 1 by omega, Nat.pow_succ]
      ring
    · rw [List.getD_append_right _ _ _ _ (Nat.le_refl _)]
      simp

theorem IntToDataBits_leading : ∀ (l : DataBits),
    IntToDataBits ((bitsVal (true :: l) : Nat) : Int) = true :: l := by
  intro l
  induction l using List.reverseRecOn with
  | nil => decide
  | append_singleton l x ih =>
    have hpos : 0 < bitsVal (true :: l) := by
      rw [bitsVal_cons]
      have : 0 < 2 ^ l.length := Nat.pow_pos (by decide)
      simp only [Bool.toNat_true, Nat.one_mul]
      omega
    rw [← List.cons_append, bitsVal_concat, IntToDataBits_double _ _ (by omega), ih]

theorem IntToDataBits_bitsVal : ∀ (b : DataBits),
    IntToDataBits ((bitsVal b : Nat) : Int) = b.dropWhile (fun x => !x) := by
  intro b
  induction b with
  | nil => rfl
  | cons x l ih =>
    cases x with
    | true =>
      rw [IntToDataBits_leading]
      rfl
    | false =>
      rw [bitsVal_cons, List.dropWhile_cons]
      simp only [Bool.toNat_false, Nat.zero_mul, Nat.zero_add, Bool.not_false, if_true]
      exact ih

/-- Every `n >= 1` is the value of its encoding, and the encoding starts with a 1 bit. -/
theorem IntToDataBits_pos : ∀ (n : Nat), 1 ≤ n →
    ∃ rest, IntToDataBits (n : Int) = true :: rest ∧ bitsVal (true :: rest) = n := by
  intro n
  induction n using Nat.strong_induction_on with
  | _ n ih =>
    intro hn
    have hsplit : n = 2 * (n / 2) + (decide (n % 2 = 1)).toNat := by
      rcases Nat.mod_two_eq_zero_or_one n with h | h <;> simp [h] <;> omega
    by_cases hv : n / 2 = 0
    · have h1 : n = 1 := by omega
      subst h1
      exact ⟨[], by decide, by decide⟩
    · obtain ⟨rest, hrest, hval⟩ := ih (n / 2) (by omega) (by omega)
      refine ⟨rest ++ [decide (n % 2 = 1)], ?_, ?_⟩
      · have e := IntToDataBits_double (n / 2) (decide (n % 2 = 1)) (by omega)
        rw [← hsplit, hrest] at e
        exact e
      · rw [← List.cons_append, bitsVal_concat, hval]
        exact hsplit.symm

set_option maxRecDepth 100000 in
theorem DataBitsToInt_test :
    DataBitsToInt (DataToBits [0x41, 0x41, 0x41, 0x41, 0x42, 0x42, 0x42, 0x42,
      0x43, 0x43, 0x43, 0x43, 0x44, 0x44, 0x44, 0x44])
      = some 86738642548785208971184551234260714564 := by
  decide
/-! ## Bit vectors and integers: claims -/

/-- C24 with the size bound of the 32-bit loop counter: for every non-empty bit vector
`b` of length `L <= 2^32`, `DataBitsToInt(b)` returns the sum over `i` of
`b[i] * 2^(L-1-i)` (first bit most significant), which is below `2^L`. The value of the
test suite: the 16 bytes `0x41 x4, 0x42 x4, 0x43 x4, 0x44 x4` give
`86738642548785208971184551234260714564`. -/
theorem DataBitsToInt_value (b : DataBits) (h0 : b ≠ []) (hL : b.length ≤ 2 ^ 32) :
    ∃ v : Nat, DataBitsToInt b = some (v : Int) ∧
      v = ∑ i ∈ Finset.range b.length, (b.getD i false).toNat * 2 ^ (b.length - 1 - i) ∧
      v < 2 ^ b.length ∧
      DataBitsToInt (DataToBits [0x41, 0x41, 0x41, 0x41, 0x42, 0x42, 0x42, 0x42,
        0x43, 0x43, 0x43, 0x43, 0x44, 0x44, 0x44, 0x44])
        = some 86738642548785208971184551234260714564 := by
  have hW := W32_val
  have hpos : 0 < b.length := List.length_pos.mpr h0
  exact ⟨bitsVal b, DataBitsToInt_eq b hpos (by omega), bitsVal_eq_sum b, bitsVal_lt b,
    DataBitsToInt_test⟩

/-- Witness of C24: the bits `101` have the value `5`. -/
theorem DataBitsToInt_value_witness :
    ∃ v : Nat, DataBitsToInt [true, false, true] = some (v : Int) ∧
      v = ∑ i ∈ Finset.range 3, ([true, false, true].getD i false).toNat * 2 ^ (3 - 1 - i) ∧
      v < 2 ^ 3 :=
  (DataBitsToInt_value [true, false, true] (by decide) (by decide)).imp
    (fun _ h => ⟨h.1, h.2.1, h.2.2.1⟩)

/-- Counterexample to C24 as stated for every non-empty bit vector: with `2^32 + 1` bits
the 32-bit counter of the loop wraps to `0` before it reaches `data.size() - 1`, the loop
does not end and no integer is returned. -/
theorem DataBitsToInt_value_counterexample :
    List.replicate 4294967297 false ≠ [] ∧
      DataBitsToInt (List.replicate 4294967297 false) = none := by
  have hW := W32_val
  constructor
  · intro h
    have hlen := congrArg List.length h
    rw [List.length_replicate, List.length_nil] at hlen
    omega
  · unfold DataBitsToInt
    rw [List.length_replicate, if_pos (Or.inr (by omega))]

theorem bitsVal_leading_pos (l : DataBits) : 1 ≤ bitsVal (true :: l) := by
  rw [bitsVal_cons, Bool.toNat_true, Nat.one_mul]
  exact le_trans (Nat.one_le_two_pow) (Nat.le_add_right _ _)

/-- C25 with the size bound of `DataBitsToInt`: `IntToDataBits(0)` is the empty vector;
for every integer `n >= 1` the result starts with a 1 bit, and when `n < 2^L` for some
`L <= 2^32`, `DataBitsToInt(IntToDataBits(n)) = n`; for every non-empty bit vector `b` of
at most `2^32` bits, `IntToDataBits(DataBitsToInt(b))` is `b` with its leading zero bits
removed. -/
theorem IntToDataBits_minimal (n L : Nat) (b : DataBits) (hn : 1 ≤ n) (hL : L ≤ 2 ^ 32)
    (hnL : n < 2 ^ L) (hb : b ≠ []) (hbL : b.length ≤ 2 ^ 32) :
    IntToDataBits 0 = [] ∧
      (∃ rest, IntToDataBits (n : Int) = true :: rest) ∧
      DataBitsToInt (IntToDataBits (n : Int)) = some (n : Int) ∧
      ∃ v : Int, DataBitsToInt b = some v ∧ IntToDataBits v = b.dropWhile (fun x => !x) := by
  have hW := W32_val
  obtain ⟨rest, hrest, hval⟩ := IntToDataBits_pos n hn
  refine ⟨rfl, ⟨rest, hrest⟩, ?_, ?_⟩
  · have hlen : rest.length < L := by
      have h1 : 2 ^ rest.length ≤ n := by
        rw [← hval, bitsVal_cons]
        simp
      exact (Nat.pow_lt_pow_iff_right (by decide : 1 < 2)).mp (lt_of_le_of_lt h1 hnL)
    rw [hrest, DataBitsToInt_eq _ (by simp) (by rw [List.length_cons]; omega), hval]
  · exact ⟨_, DataBitsToInt_eq b (List.length_pos.mpr hb) (by omega), IntToDataBits_bitsVal b⟩

/-- Witness of C25: `n = 5` is encoded as `101`, and `0011` is decoded to `3`, which is
encoded as `11`. -/
theorem IntToDataBits_minimal_witness :
    IntToDataBits 0 = [] ∧
      (∃ rest, IntToDataBits ((5 : Nat) : Int) = true :: rest) ∧
      DataBitsToInt (IntToDataBits ((5 : Nat) : Int)) = some ((5 : Nat) : Int) ∧
      ∃ v : Int, DataBitsToInt [false, false, true, true] = some v ∧
        IntToDataBits v = [false, false, true, true].dropWhile (fun x => !x) :=
  IntToDataBits_minimal 5 3 [false, false, true, true] (by decide) (by decide) (by decide)
    (by decide) (by decide)

/-- Counterexample to C25 as stated for every integer and every non-empty bit vector:
`b` is a 1 bit followed by `2^32` zero bits and `n = 2^(2^32)` is its value. `n >= 1` and
`IntToDataBits(n) = b`, but `DataBitsToInt` does not return on the `2^32 + 1` bits of `b`
(its 32-bit counter wraps), so neither round trip yields a result. -/
theorem IntToDataBits_minimal_counterexample :
    1 ≤ bitsVal (true :: List.replicate 4294967296 false) ∧
      DataBitsToInt (IntToDataBits
        ((bitsVal (true :: List.replicate 4294967296 false) : Nat) : Int)) = none ∧
      true :: List.replicate 4294967296 false ≠ [] ∧
      DataBitsToInt (true :: List.replicate 4294967296 false) = none := by
  have hW := W32_val
  have hnone : DataBitsToInt (true :: List.replicate 4294967296 false) = none := by
    unfold DataBitsToInt
    rw [List.length_cons, List.length_replicate, if_pos (Or.inr (by omega))]
  refine ⟨?_, ?_, fun h => List.noConfusion h, hnone⟩
  · exact bitsVal_leading_pos (List.replicate 4294967296 false)
  · rw [IntToDataBits_leading]
    exact hnone

/-- C26 (amended): for every bit vector `bv` and every `m` (a `uint32_t`) with
`m <= |bv|`, `SliceBits(bv, m)` returns the first `m` bits of `bv` and leaves `bv` with
the remaining `|bv| - m` bits in order. `SliceBits` has no failure path, no call ends in
a failure that the code signals: for `m > |bv|` the range `[begin, begin + m)` is not
valid and the behaviour is undefined. -/
theorem SliceBits_spec (bv : DataBits) (m : Nat) (hm : m < W32) :
    (m ≤ bv.length → ∃ slice rest, SliceBits bv m = some (slice, rest) ∧
        SliceBits.ending bv m = Ending.value (slice, rest) ∧
        slice = bv.take m ∧ slice.length = m ∧ rest = bv.drop m ∧
        rest.length = bv.length - m ∧ slice ++ rest = bv) ∧
      SliceBits.ending bv m ≠ Ending.signalled ∧
      (bv.length < m → SliceBits.ending bv m = Ending.undefined) := by
  unfold SliceBits.ending SliceBits
  rw [Nat.mod_eq_of_lt hm]
  refine ⟨?_, ?_, ?_⟩
  · intro h
    rw [if_pos h]
    exact ⟨_, _, rfl, rfl, rfl, by rw [List.length_take]; omega, rfl, List.length_drop _ _,
      List.take_append_drop _ _⟩
  · by_cases h : m ≤ bv.length
    · rw [if_pos h]
      exact fun e => Ending.noConfusion e
    · rw [if_neg h]
      exact fun e => Ending.noConfusion e
  · intro h
    rw [if_neg (by omega)]

/-- Witness of C26: two bits sliced off `101`. -/
theorem SliceBits_spec_witness :
    (2 ≤ [true, false, true].length → ∃ slice rest,
        SliceBits [true, false, true] 2 = some (slice, rest) ∧
        SliceBits.ending [true, false, true] 2 = Ending.value (slice, rest) ∧
        slice = [true, false, true].take 2 ∧ slice.length = 2 ∧
        rest = [true, false, true].drop 2 ∧
        rest.length = [true, false, true].length - 2 ∧ slice ++ rest = [true, false, true]) ∧
      SliceBits.ending [true, false, true] 2 ≠ Ending.signalled ∧
      ([true, false, true].length < 2 →
        SliceBits.ending [true, false, true] 2 = Ending.undefined) :=
  SliceBits_spec [true, false, true] 2 (by decide)

/-- Counterexample to C26 as stated with a failure for `m > |bv|`: two bits sliced off
the one-bit vector `1`. The call does not fail, it has no way to: it builds the range
`[begin, begin + 2)` on a vector of one bit, and its behaviour is undefined. -/
theorem SliceBits_spec_counterexample :
    [true].length < 2 ∧ SliceBits.ending [true] 2 ≠ Ending.signalled ∧
      SliceBits.ending [true] 2 = Ending.undefined := by
  refine ⟨by decide, by decide, by decide⟩

/-- C29: for every string `text`, `TransformCharDomain(text)` is the subsequence of `text`,
in the original order, of the bytes that are newline (`0x0A`) or lie in `0x20-0x5A` or
`0x61-0x7A`; every other byte, `EoF` (`0x03`) and the bytes from `0x80` on among them,
is removed, and applying the filter twice gives the same as applying it once. -/
theorem TransformCharDomain_spec (text : Data) :
    TransformCharDomain text
        = text.filter (fun c => decide (c = 0x0A ∨ (0x20 ≤ c ∧ c ≤ 0x5A) ∨ (0x61 ≤ c ∧ c ≤ 0x7A))) ∧
      List.Sublist (TransformCharDomain text) text ∧
      EoF ∉ TransformCharDomain text ∧
      (∀ c ∈ TransformCharDomain text, c < 0x80) ∧
      TransformCharDomain (TransformCharDomain text) = TransformCharDomain text := by
  have hvalid : ∀ c : Nat, (!IsCharInvalid c)
      = decide (c = 0x0A ∨ (0x20 ≤ c ∧ c ≤ 0x5A) ∨ (0x61 ≤ c ∧ c ≤ 0x7A)) := by
    intro c
    unfold IsCharInvalid
    by_cases h1 : 0x0A = c
    · simp [h1.symm]
    · rw [Bool.eq_iff_iff]
      simp only [h1, if_false]
      split_ifs <;> simp <;> omega
  have hfilter : TransformCharDomain text = text.filter
      (fun c => decide (c = 0x0A ∨ (0x20 ≤ c ∧ c ≤ 0x5A) ∨ (0x61 ≤ c ∧ c ≤ 0x7A))) := by
    unfold TransformCharDomain
    congr 1
    funext c
    exact hvalid c
  refine ⟨hfilter, ?_, ?_, ?_, ?_⟩
  · unfold TransformCharDomain
    exact List.filter_sublist _
  · rw [hfilter]
    intro h
    have := (List.mem_filter.mp h).2
    revert this
    decide
  · intro c hc
    rw [hfilter] at hc
    have := (List.mem_filter.mp hc).2
    simp only [decide_eq_true_eq] at this
    omega
  · unfold TransformCharDomain
    rw [List.filter_filter]
    congr 1
    funext c
    simp
/-! ## Decompression: trailing bits and streams without `EoF` -/

theorem rightFind_mem {Codes : HuffCodeMap} {s : Nat} {code : List Bool}
    (h : Codes.rightFind code = some s) : (s, code) ∈ Codes := by
  unfold HuffCodeMap.rightFind at h
  cases hf : Codes.find? (fun e => e.2 == code) with
  | none => rw [hf] at h; simp at h
  | some e =>
    rw [hf] at h
    simp only [Option.map_some', Option.some.injEq] at h
    have hmem := List.mem_of_find?_eq_some hf
    have hs := List.find?_some hf
    simp only [beq_iff_eq] at hs
    rw [← h, ← hs]
    exact hmem

/-- When no non-empty extension of the accumulated prefix by the first bits of `p` is a
codeword, the loop consumes `p` without decoding a byte. -/
theorem Decompress_loop_stuck (Codes : HuffCodeMap) : ∀ (p ch : List Bool) (acc : Data),
    (∀ q, q ≠ [] → q <+: p → Codes.rightFind (ch ++ q) = none) →
    Decompress.loop Codes p ch acc = acc := by
  intro p
  induction p with
  | nil =>
    intro ch acc _
    rfl
  | cons b p ih =>
    intro ch acc h
    have h1 := h [b] (List.cons_ne_nil _ _) ⟨p, rfl⟩
    rw [Decompress.loop, h1]
    apply ih
    intro q hq hpre
    have := h (b :: q) (List.cons_ne_nil _ _) ((List.prefix_cons_inj b).mpr hpre)
    rw [List.append_assoc]
    exact this

/-- An accumulated prefix that is at least as long as every codeword is never completed:
the rest of the bits is consumed and the bytes decoded so far are returned. -/
theorem Decompress_loop_long (Codes : HuffCodeMap) (bits ch : List Bool) (acc : Data)
    (h : ∀ e ∈ Codes, e.2.length ≤ ch.length) : Decompress.loop Codes bits ch acc = acc := by
  apply Decompress_loop_stuck
  intro q hq _
  cases hf : Codes.rightFind (ch ++ q) with
  | none => rfl
  | some s =>
    have := h _ (rightFind_mem hf)
    simp only [List.length_append] at this
    have : q.length = 0 := by omega
    exact absurd (List.length_eq_zero.mp this) hq

/-- The codewords of the bytes of `x` (the output of `Compress` without the codeword of
`EoF`) decode to `x`, whatever follows. -/
theorem Compress_body (Codes : HuffCodeMap) (hpf : PrefixFree Codes) (cE : List Bool)
    (hcE : Codes.leftAt EoF = some cE) :
    ∀ (x : Data), (∀ b ∈ x, b ≠ EoF ∧ ∃ c, Codes.leftAt b = some c) →
      ∃ body, Compress x Codes = some (body ++ cE) ∧ ∀ (rest : DataBits) (acc : Data),
        Decompress.loop Codes (body ++ rest) [] acc
          = Decompress.loop Codes rest [] (acc ++ x) := by
  have hmemE := leftAt_mem hcE
  intro x
  induction x with
  | nil =>
    intro _
    refine ⟨[], ?_, ?_⟩
    · rw [Compress, hcE, List.nil_append]
    · intro rest acc
      rw [List.nil_append, List.append_nil]
  | cons s xs ih =>
    intro hx
    obtain ⟨hsE, c, hc⟩ := hx s (List.mem_cons_self _ _)
    have hmem := leftAt_mem hc
    have hcne : c ≠ [] := by
      intro h
      have := hpf (s, c) hmem (EoF, cE) hmemE (by rw [h]; exact List.nil_prefix)
      exact hsE (congrArg Prod.fst this)
    obtain ⟨body, hbody, hdec⟩ := ih (fun b hb => hx b (List.mem_cons_of_mem _ hb))
    refine ⟨c ++ body, ?_, ?_⟩
    · rw [Compress, hc, hbody, List.append_assoc]
    · intro rest acc
      rw [List.append_assoc, Decompress_loop_code hpf hmem (body ++ rest) acc c [] rfl hcne,
        if_neg hsE, hdec, List.append_assoc, List.singleton_append]

/-- C27: for every prefix-free table `H` with a codeword for `EoF`, every byte sequence
`x` without `EoF` whose bytes all have codewords, and every bit vector `t` of trailing
bits, `Compress(x, H)` returns a bit vector and `Decompress(Compress(x, H) ++ t, H) = x`. -/
theorem decompress_trailing (H : HuffCodeMap) (x : Data) (t : DataBits) (hpf : PrefixFree H)
    (hEoF : ∃ c, H.leftAt EoF = some c)
    (hx : ∀ b ∈ x, b ≠ EoF ∧ ∃ c, H.leftAt b = some c) :
    ∃ bits, Compress x H = some bits ∧ Decompress (bits ++ t) H = x := by
  obtain ⟨cE, hcE⟩ := hEoF
  have hmemE := leftAt_mem hcE
  obtain ⟨body, hbody, hdec⟩ := Compress_body H hpf cE hcE x hx
  refine ⟨body ++ cE, hbody, ?_⟩
  unfold Decompress
  rw [List.append_assoc, hdec, List.nil_append]
  by_cases hc : cE = []
  · subst hc
    rw [List.nil_append]
    have hxnil : x = [] := by
      cases x with
      | nil => rfl
      | cons s xs =>
        obtain ⟨hsE, c, hc⟩ := hx s (List.mem_cons_self _ _)
        have := hpf (EoF, []) hmemE (s, c) (leftAt_mem hc) List.nil_prefix
        exact absurd (congrArg Prod.fst this).symm hsE
    subst hxnil
    apply Decompress_loop_stuck
    intro q hq _
    cases hf : H.rightFind ([] ++ q) with
    | none => rfl
    | some s =>
      have := hpf (EoF, []) hmemE (s, [] ++ q) (rightFind_mem hf) List.nil_prefix
      have h2 := congrArg Prod.snd this
      simp only [List.nil_append] at h2
      exact absurd h2.symm hq
  · rw [Decompress_loop_code hpf hmemE t x cE [] rfl hc, if_pos rfl]

/-- Witness of C27: a three-symbol table (`EoF`, `'a'`, `'b'`), the text `"abba"` and the
trailing bits `101`. -/
theorem decompress_trailing_witness :
    ∃ bits, Compress [0x61, 0x62, 0x62, 0x61]
        [(EoF, [false]), (0x61, [true, false]), (0x62, [true, true])] = some bits ∧
      Decompress (bits ++ [true, false, true])
        [(EoF, [false]), (0x61, [true, false]), (0x62, [true, true])]
        = [0x61, 0x62, 0x62, 0x61] :=
  decompress_trailing [(EoF, [false]), (0x61, [true, false]), (0x62, [true, true])]
    [0x61, 0x62, 0x62, 0x61] [true, false, true]
    (by unfold PrefixFree; decide) ⟨[false], by decide⟩
    (by
      intro b hb
      simp only [List.mem_cons, List.mem_singleton, List.not_mem_nil, or_false] at hb
      rcases hb with h | h | h | h <;> subst h <;>
        first
        | exact ⟨by decide, [true, false], by decide⟩
        | exact ⟨by decide, [true, true], by decide⟩)

/-- C28 as the code has it: `Decompress` has no failure result. For every table `H`:
when the bits are exhausted the bytes decoded up to there are returned, whatever prefix
has been accumulated; when the accumulated prefix is at least as long as every codeword
of `H` the remaining bits are consumed and the bytes decoded up to there are returned;
and for a prefix-free `H`, the codewords of a byte sequence `x` (`body`, the output of
`Compress` without the codeword of `EoF`) followed by bits `p` of which no non-empty
initial segment is a codeword are decompressed to `x`, although `EoF` was never
decoded. -/
theorem decompress_without_EoF (H : HuffCodeMap) (x : Data) (cE body p : DataBits)
    (hpf : PrefixFree H) (hE : H.leftAt EoF = some cE)
    (hx : ∀ b ∈ x, b ≠ EoF ∧ ∃ c, H.leftAt b = some c)
    (hbody : Compress x H = some (body ++ cE))
    (hp : ∀ q ∈ p.inits, q ≠ [] → H.rightFind q = none) :
    (∀ (ch : List Bool) (acc : Data), Decompress.loop H [] ch acc = acc) ∧
      (∀ (bits ch : List Bool) (acc : Data), (∀ e ∈ H, e.2.length ≤ ch.length) →
        Decompress.loop H bits ch acc = acc) ∧
      Decompress (body ++ p) H = x := by
  refine ⟨fun _ _ => rfl, fun bits ch acc h => Decompress_loop_long H bits ch acc h, ?_⟩
  obtain ⟨body2, hbody2, hdec⟩ := Compress_body H hpf cE hE x hx
  have hb : body = body2 := by
    rw [hbody] at hbody2
    exact List.append_cancel_right (Option.some.inj hbody2)
  subst hb
  unfold Decompress
  rw [hdec, List.nil_append]
  apply Decompress_loop_stuck
  intro q hq hpre
  rw [List.nil_append]
  exact hp q ((List.mem_inits q p).mpr hpre) hq

/-- Witness of C28: the table `EoF -> 00`, `'a' -> 1`; the bits `1` of `"a"` followed by
`011`. -/
theorem decompress_without_EoF_witness :
    Decompress ([true] ++ [false, true, true]) [(EoF, [false, false]), (0x61, [true])]
      = [0x61] :=
  (decompress_without_EoF [(EoF, [false, false]), (0x61, [true])] [0x61] [false, false]
    [true] [false, true, true] (by unfold PrefixFree; decide) (by decide)
    (by
      intro b hb
      rw [List.mem_singleton] at hb
      subst hb
      exact ⟨by decide, [true], by decide⟩)
    (by decide) (by decide)).2.2

/-- Counterexample to C28: with the table `EoF -> 00`, `'a' -> 1`, the bits `1011` are
decompressed to `"a"`. The only codeword of `EoF` is `00` and the bits do not contain it,
so the bits are exhausted before `EoF` is decoded; the prefix `011` accumulated at the
end is longer than every codeword; still a byte sequence is returned. -/
theorem decompress_without_EoF_counterexample :
    Decompress [true, false, true, true] [(EoF, [false, false]), (0x61, [true])] = [0x61] ∧
      (∀ c, HuffCodeMap.rightFind [(EoF, [false, false]), (0x61, [true])] c = some EoF →
        c = [false, false]) ∧
      ¬ [false, false] <:+: [true, false, true, true] ∧
      ∀ e ∈ [(EoF, [false, false]), (0x61, [true])], e.2.length < [false, true, true].length := by
  refine ⟨by decide, ?_, by decide, by decide⟩
  intro c hc
  have hm := rightFind_mem hc
  simp only [List.mem_cons, Prod.mk.injEq, List.mem_singleton, List.not_mem_nil, or_false] at hm
  rcases hm with ⟨_, h⟩ | ⟨h, _⟩
  · exact h
  · exact absurd h (by decide)
/-! ## Code generation -/

theorem node_eq_foldl : ∀ (t : BaseNode) (p : HuffCode) (codes : HuffCodeMap),
    GenerateCodes.node t p codes = (t.codes p).foldl HuffCodeMap.insert codes := by
  intro t
  induction t with
  | LeafNode ch f =>
    intro p codes
    rfl
  | InternalNode l r ihl ihr =>
    intro p codes
    rw [GenerateCodes.node, BaseNode.codes, List.foldl_append, ihl, ihr]

theorem foldl_insert_fresh : ∀ (es acc : HuffCodeMap),
    ((acc ++ es).map Prod.fst).Nodup → ((acc ++ es).map Prod.snd).Nodup →
    es.foldl HuffCodeMap.insert acc = acc ++ es := by
  intro es
  induction es with
  | nil =>
    intro acc _ _
    rw [List.foldl_nil, List.append_nil]
  | cons e es ih =>
    intro acc h1 h2
    have e1 : acc ++ e :: es = (acc ++ [e]) ++ es := by rw [List.append_assoc]; rfl
    rw [e1] at h1 h2
    have hins : HuffCodeMap.insert acc e = acc ++ [e] := by
      unfold HuffCodeMap.insert
      rw [if_neg]
      intro hany
      obtain ⟨x, hx, hxe⟩ := List.any_eq_true.mp hany
      rw [Bool.or_eq_true, beq_iff_eq, beq_iff_eq] at hxe
      rw [List.map_append, List.map_append] at h1 h2
      have n1 := (List.nodup_append.mp (List.nodup_append.mp h1).1).2.2
      have n2 := (List.nodup_append.mp (List.nodup_append.mp h2).1).2.2
      rcases hxe with h | h
      · exact n1 (List.mem_map_of_mem Prod.fst hx) (by rw [h]; simp)
      · exact n2 (List.mem_map_of_mem Prod.snd hx) (by rw [h]; simp)
    rw [List.foldl_cons, hins, ih (acc ++ [e]) h1 h2, e1]

theorem codes_symbols : ∀ (t : BaseNode) (p : HuffCode),
    (t.codes p).map Prod.fst = t.symbols := by
  intro t
  induction t with
  | LeafNode ch f =>
    intro p
    rfl
  | InternalNode l r ihl ihr =>
    intro p
    rw [BaseNode.codes, List.map_append, ihl, ihr, BaseNode.symbols]

theorem codes_extend : ∀ (t : BaseNode) (p : HuffCode), ∀ e ∈ t.codes p, p <+: e.2 := by
  intro t
  induction t with
  | LeafNode ch f =>
    intro p e he
    rw [BaseNode.codes, List.mem_singleton] at he
    rw [he]
  | InternalNode l r ihl ihr =>
    intro p e he
    rw [BaseNode.codes, List.mem_append] at he
    rcases he with h | h
    · exact List.IsPrefix.trans (List.prefix_append p _) (ihl _ e h)
    · exact List.IsPrefix.trans (List.prefix_append p _) (ihr _ e h)

/-- Codewords below the left and below the right child of a node are not prefixes of
one another. -/
theorem sides_apart (p a b : List Bool) (x y : Bool) (hxy : x ≠ y) (ha : p ++ [x] <+: a)
    (hb : p ++ [y] <+: b) : ¬ a <+: b := by
  intro hab
  have h1 : p ++ [x] <+: b := List.IsPrefix.trans ha hab
  have h2 : p ++ [x] <+: p ++ [y] :=
    List.prefix_of_prefix_length_le h1 hb (by simp)
  have h3 := List.IsPrefix.eq_of_length h2 (by simp)
  have h4 := List.append_cancel_left h3
  exact hxy (List.singleton_inj.mp h4)

theorem codes_apart : ∀ (t : BaseNode) (p : HuffCode),
    (t.codes p).Pairwise (fun a b => ¬ a.2 <+: b.2 ∧ ¬ b.2 <+: a.2) := by
  intro t
  induction t with
  | LeafNode ch f =>
    intro p
    rw [BaseNode.codes]
    exact List.pairwise_singleton _ _
  | InternalNode l r ihl ihr =>
    intro p
    rw [BaseNode.codes, List.pairwise_append]
    refine ⟨ihl _, ihr _, ?_⟩
    intro a ha b hb
    exact ⟨sides_apart p a.2 b.2 false true (by decide) (codes_extend l _ a ha)
        (codes_extend r _ b hb),
      sides_apart p b.2 a.2 true false (by decide) (codes_extend r _ b hb)
        (codes_extend l _ a ha)⟩

theorem codes_longer (l r : BaseNode) (p : HuffCode) :
    ∀ e ∈ (BaseNode.InternalNode l r).codes p, p.length < e.2.length := by
  intro e he
  rw [BaseNode.codes, List.mem_append] at he
  rcases he with h | h
  · have := List.IsPrefix.length_le (codes_extend l _ e h)
    rw [List.length_append, List.length_singleton] at this
    omega
  · have := List.IsPrefix.length_le (codes_extend r _ e h)
    rw [List.length_append, List.length_singleton] at this
    omega

theorem perm_eraseIdx : ∀ (l : List BaseNode) (i : Nat) (a : BaseNode), l[i]? = some a →
    List.Perm l (a :: l.eraseIdx i) := by
  intro l
  induction l with
  | nil =>
    intro i a h
    simp at h
  | cons x l ih =>
    intro i a h
    cases i with
    | zero =>
      simp only [List.getElem?_cons_zero, Option.some.injEq] at h
      rw [h, List.eraseIdx_cons_zero]
    | succ i =>
      rw [List.getElem?_cons_succ] at h
      rw [List.eraseIdx_cons_succ]
      exact List.Perm.trans (List.Perm.cons x (ih i a h)) (List.Perm.swap a x _)

theorem exists_least : ∀ (l : List BaseNode), l ≠ [] →
    ∃ a ∈ l, ∀ b ∈ l, a.frequency ≤ b.frequency := by
  intro l
  induction l with
  | nil => intro h; exact absurd rfl h
  | cons x l ih =>
    intro _
    by_cases hl : l = []
    · subst hl
      exact ⟨x, List.mem_singleton.mpr rfl, fun b hb => by rw [List.mem_singleton.mp hb]⟩
    · obtain ⟨m, hm, hmin⟩ := ih hl
      by_cases hx : x.frequency ≤ m.frequency
      · refine ⟨x, List.mem_cons_self _ _, ?_⟩
        intro b hb
        rcases List.mem_cons.mp hb with h | h
        · rw [h]
        · exact le_trans hx (hmin b h)
      · refine ⟨m, List.mem_cons_of_mem _ hm, ?_⟩
        intro b hb
        rcases List.mem_cons.mp hb with h | h
        · rw [h]
          omega
        · exact hmin b h

/-- On a non-empty queue `popTop` returns a node of the queue and the queue without it. -/
theorem popTop_spec (tie : List BaseNode → Nat) (tree : List BaseNode) (h : tree ≠ []) :
    ∃ a rest, popTop tie tree = some (a, rest) ∧ List.Perm tree (a :: rest) ∧
      ∀ b ∈ tree, a.frequency ≤ b.frequency := by
  obtain ⟨m, hm, hmin⟩ := exists_least tree h
  obtain ⟨i, hi, him⟩ := List.getElem_of_mem hm
  have hne : (tree.enum.filter
      (fun e => tree.all (fun b => decide (e.2.frequency ≤ b.frequency)))) ≠ [] := by
    intro hnil
    have hmem : (i, m) ∈ tree.enum.filter
        (fun e => tree.all (fun b => decide (e.2.frequency ≤ b.frequency))) := by
      rw [List.mem_filter]
      refine ⟨?_, ?_⟩
      · rw [List.mk_mem_enum_iff_getElem?, List.getElem?_eq_getElem hi, him]
      · rw [List.all_eq_true]
        intro b hb
        exact decide_eq_true (hmin b hb)
    rw [hnil] at hmem
    exact absurd hmem (List.not_mem_nil _)
  have hpos := List.length_pos.mpr hne
  have hlt := Nat.mod_lt (tie tree) hpos
  unfold popTop
  simp only []
  rw [List.getElem?_eq_getElem hlt]
  have hmem := List.getElem_mem hlt
  generalize (tree.enum.filter
      (fun e => tree.all (fun b => decide (e.2.frequency ≤ b.frequency))))[tie tree %
      (tree.enum.filter
        (fun e => tree.all (fun b => decide (e.2.frequency ≤ b.frequency)))).length] = e at hmem
  obtain ⟨he1, he2⟩ := List.mem_filter.mp hmem
  obtain ⟨j, a⟩ := e
  rw [List.mk_mem_enum_iff_getElem?] at he1
  refine ⟨a, tree.eraseIdx j, rfl, perm_eraseIdx tree j a he1, ?_⟩
  intro b hb
  exact of_decide_eq_true (List.all_eq_true.mp he2 b hb)
/-! ## Code generation: the tree and the table -/

theorem symbols_flatten_perm {t1 t2 : List BaseNode} (h : List.Perm t1 t2) :
    List.Perm (t1.map BaseNode.symbols).flatten (t2.map BaseNode.symbols).flatten :=
  List.Perm.flatten (List.Perm.map _ h)

/-- The loop of `BuildTree` on a non-empty queue returns a tree whose leaves are the
leaves of the queue; the tree is an internal node unless the queue consists of it. -/
theorem BuildTree_loop_spec (tie : List BaseNode → Nat) : ∀ (fuel : Nat) (tree : List BaseNode),
    tree ≠ [] → tree.length ≤ fuel →
    ∃ root, BuildTree.loop tie fuel tree = some root ∧
      List.Perm root.symbols (tree.map BaseNode.symbols).flatten ∧
      ((∃ l r, root = BaseNode.InternalNode l r) ∨ tree = [root]) := by
  intro fuel
  induction fuel with
  | zero =>
    intro tree hne hlen
    exact absurd (List.length_eq_zero.mp (by omega)) hne
  | succ fuel ih =>
    intro tree hne hlen
    rw [BuildTree.loop]
    by_cases h1 : 1 < tree.length
    · rw [if_pos h1]
      obtain ⟨a, tree1, hpop1, hperm1, _⟩ := popTop_spec tie tree hne
      have hl1 : tree.length = tree1.length + 1 := by
        rw [List.Perm.length_eq hperm1, List.length_cons]
      have hne1 : tree1 ≠ [] := by
        intro h
        rw [h] at hl1
        simp only [List.length_nil] at hl1
        omega
      obtain ⟨b, tree2, hpop2, hperm2, _⟩ := popTop_spec tie tree1 hne1
      have hl2 : tree1.length = tree2.length + 1 := by
        rw [List.Perm.length_eq hperm2, List.length_cons]
      rw [hpop1]
      simp only []
      rw [hpop2]
      simp only []
      obtain ⟨root, hroot, hsym, hint⟩ := ih (tree2 ++ [BaseNode.InternalNode a b])
        (by simp) (by rw [List.length_append, List.length_singleton]; omega)
      refine ⟨root, hroot, ?_, Or.inl ?_⟩
      · refine List.Perm.trans hsym ?_
        have hp : List.Perm tree (tree2 ++ [a, b]) := by
          refine List.Perm.trans hperm1 ?_
          refine List.Perm.trans (List.Perm.cons a hperm2) ?_
          exact (show List.Perm (tree2 ++ [a, b]) ([a, b] ++ tree2) from List.perm_append_comm).symm
        refine List.Perm.trans ?_ (symbols_flatten_perm hp).symm
        rw [List.map_append, List.map_append, List.flatten_append, List.flatten_append]
        simp [BaseNode.symbols]
      · rcases hint with h | h
        · exact h
        · cases tree2 with
          | nil =>
            simp only [List.nil_append, List.cons.injEq, and_true] at h
            exact ⟨a, b, h.symm⟩
          | cons x xs =>
            have := congrArg List.length h
            simp at this
    · rw [if_neg h1]
      match tree, hne, h1 with
      | [a], _, _ =>
        exact ⟨a, rfl, by simp, Or.inr rfl⟩
      | _ :: _ :: _, _, h1 =>
        simp only [List.length_cons] at h1
        omega

/-- For a frequency map with distinct symbols and at least two entries, `GenerateCodes`
returns the leaves of a tree with their paths: one entry for every symbol of the map,
with codewords that are not empty and of which none is a prefix of another. -/
theorem GenerateCodes_spec (tie : List BaseNode → Nat) (Frequencies : FreqMap)
    (hkeys : (Frequencies.map Prod.fst).Nodup) (h2 : 2 ≤ Frequencies.length) :
    ∃ codes, GenerateCodes tie Frequencies = some codes ∧
      List.Perm (codes.map Prod.fst) (Frequencies.map Prod.fst) ∧
      codes.Pairwise (fun a b => ¬ a.2 <+: b.2 ∧ ¬ b.2 <+: a.2) ∧
      ∀ e ∈ codes, e.2 ≠ [] := by
  have hne : Frequencies.map (fun e => BaseNode.LeafNode e.1 e.2) ≠ [] := by
    intro h
    have := congrArg List.length h
    rw [List.length_map, List.length_nil] at this
    omega
  obtain ⟨root, hroot, hsym, hint⟩ := BuildTree_loop_spec tie Frequencies.length
    (Frequencies.map (fun e => BaseNode.LeafNode e.1 e.2)) hne (by rw [List.length_map])
  have hsym2 : List.Perm root.symbols (Frequencies.map Prod.fst) := by
    refine List.Perm.trans hsym (List.Perm.of_eq ?_)
    rw [List.map_map]
    clear hne hroot hsym hint hkeys h2
    induction Frequencies with
    | nil => rfl
    | cons e es ih =>
      rw [List.map_cons, List.map_cons, List.flatten_cons, ih]
      rfl
  obtain ⟨l, r, hlr⟩ : ∃ l r, root = BaseNode.InternalNode l r := by
    rcases hint with h | h
    · exact h
    · have := congrArg List.length h
      rw [List.length_map, List.length_singleton] at this
      omega
  have hapart := codes_apart root []
  have hcodes : GenerateCodes.node root [] [] = root.codes [] := by
    rw [node_eq_foldl, foldl_insert_fresh, List.nil_append]
    · rw [List.nil_append, codes_symbols]
      exact (List.Perm.nodup_iff hsym2).mpr hkeys
    · rw [List.nil_append, List.Nodup, List.pairwise_map]
      refine List.Pairwise.imp ?_ hapart
      intro a b hab heq
      exact hab.1 (by rw [heq])
  refine ⟨root.codes [], ?_, ?_, hapart, ?_⟩
  · unfold GenerateCodes BuildTree
    rw [hroot, Option.map_some', hcodes]
  · rw [codes_symbols]
    exact hsym2
  · intro e he hnil
    rw [hlr] at he
    have := codes_longer l r [] e he
    rw [hnil] at this
    simp at this

/-- C30: for every frequency map with at least two symbols, and whatever node of least
frequency the priority queue puts on top (`tie`), `GenerateCodes` returns a table with
exactly one entry per symbol of the map (8 entries for the frequencies of
`"go go gophers"`); the codewords are pairwise distinct and non-empty, and no codeword
is a prefix of another. -/
theorem GenerateCodes_table (tie : List BaseNode → Nat) (Frequencies : FreqMap)
    (hkeys : (Frequencies.map Prod.fst).Nodup) (h2 : 2 ≤ Frequencies.length) :
    ∃ codes, GenerateCodes tie Frequencies = some codes ∧
      List.Perm (codes.map Prod.fst) (Frequencies.map Prod.fst) ∧
      (codes.map Prod.fst).Nodup ∧ codes.length = Frequencies.length ∧
      (codes.map Prod.snd).Nodup ∧ (∀ e ∈ codes, e.2 ≠ []) ∧ PrefixFree codes ∧
      ∀ tie2, (GenerateCodes tie2 gophers).map List.length = some 8 := by
  obtain ⟨codes, hcodes, hperm, hapart, hne⟩ := GenerateCodes_spec tie Frequencies hkeys h2
  have hnd2 : (codes.map Prod.snd).Nodup := by
    rw [List.Nodup, List.pairwise_map]
    refine List.Pairwise.imp ?_ hapart
    intro a b hab heq
    exact hab.1 (by rw [heq])
  refine ⟨codes, hcodes, hperm, (List.Perm.nodup_iff hperm).mpr hkeys, ?_, hnd2, hne, ?_, ?_⟩
  · have := List.Perm.length_eq hperm
    rw [List.length_map, List.length_map] at this
    exact this
  · intro e1 h1 e2 h2 hpre
    by_contra hneq
    have hsym : Symmetric (fun a b : Nat × List Bool => ¬ a.2 <+: b.2 ∧ ¬ b.2 <+: a.2) :=
      fun a b h => ⟨h.2, h.1⟩
    exact (List.Pairwise.forall hsym hapart h1 h2 hneq).1 hpre
  · intro tie2
    obtain ⟨c2, hc2, hp2, _, _⟩ := GenerateCodes_spec tie2 gophers (by decide) (by decide)
    have := List.Perm.length_eq hp2
    rw [List.length_map, List.length_map] at this
    rw [hc2, Option.map_some', this]
    rfl

/-- Witness of C30: the frequencies of `"go go gophers"`, the first node of least
frequency on top. -/
theorem GenerateCodes_table_witness :
    ∃ codes, GenerateCodes (fun _ => 0) gophers = some codes ∧
      List.Perm (codes.map Prod.fst) (gophers.map Prod.fst) ∧
      (codes.map Prod.fst).Nodup ∧ codes.length = gophers.length ∧
      (codes.map Prod.snd).Nodup ∧ (∀ e ∈ codes, e.2 ≠ []) ∧ PrefixFree codes :=
  (GenerateCodes_table (fun _ => 0) gophers (by decide) (by decide)).imp
    (fun _ h => ⟨h.1, h.2.1, h.2.2.1, h.2.2.2.1, h.2.2.2.2.1, h.2.2.2.2.2.1, h.2.2.2.2.2.2.1⟩)
/-! ## The search for a part, the nulldata decision, the placeholders -/

/-- C33: in a step of `IntegerToComposition` with `n >= 1`, `k >= 2` (`k` a `uint16_t`,
`n + k - 1` within 64 bits) and `0 <= idx < NumberCompositions(n, k)`, for every 64-bit
value `mu0` of the initial estimate the two correction loops return, and the value `mu`
they leave is the largest one in `[0, n]` with
`NumberCompositions(n, k) - NumberCompositions(n - mu, k) <= idx`; the result of
`IntegerToComposition` is the same for any two estimates `root1` and `root2`. -/
theorem mu_correction (root1 root2 : Int → Nat → Nat) (idx : Int) (n k mu0 : Nat)
    (hn1 : 1 ≤ n) (hk2 : 2 ≤ k) (hk16 : k < W16) (hn : n + k - 1 < W64) (h0 : 0 ≤ idx)
    (h1 : idx < (NumberCompositions n k : Int)) (hmu0 : mu0 < W64) :
    ∃ mu1 mu, IntegerToComposition.up idx n k (W64 + 1) mu0 = some mu1 ∧
      IntegerToComposition.down idx n k (W64 + 1) mu1 = some mu ∧ mu ≤ n ∧
      (NumberCompositions n k : Int) - (NumberCompositions (n - mu) k : Int) ≤ idx ∧
      (∀ m, m ≤ n →
        (NumberCompositions n k : Int) - (NumberCompositions (n - m) k : Int) ≤ idx → m ≤ mu) ∧
      ∃ c, IntegerToComposition root1 idx n k = some c ∧
        IntegerToComposition root2 idx n k = some c := by
  have hW := W64_val
  have hW16 := W16_val
  have hk1 : 1 ≤ k := by omega
  have hN : ∀ m, m ≤ n → NumberCompositions (n - m) k = weakCompositions (n - m) k := by
    intro m hm
    rw [NumberCompositions_word (by omega) hk1 hk16, if_pos (by omega)]
  have hN0 : NumberCompositions n k = weakCompositions n k := hN 0 (Nat.zero_le n)
  let P : Nat → Prop := fun m =>
    (NumberCompositions n k : Int) - idx ≤ ((weakCompositions (n - m) k : Nat) : Int)
  have hP0 : P 0 := by
    show (NumberCompositions n k : Int) - idx ≤ ((weakCompositions (n - 0) k : Nat) : Int)
    rw [hN0, Nat.sub_zero]
    omega
  have hmus_le : Nat.findGreatest P n ≤ n := Nat.findGreatest_le n
  have hPmus : P (Nat.findGreatest P n) := Nat.findGreatest_spec (Nat.zero_le n) hP0
  have hgreat : ∀ m, Nat.findGreatest P n < m → m ≤ n → ¬ P m :=
    fun m h1 h2 => Nat.findGreatest_is_greatest h1 h2
  generalize Nat.findGreatest P n = mus at hmus_le hPmus hgreat
  have hhi : (NumberCompositions n k : Int) - idx
      ≤ ((weakCompositions (n - mus) k : Nat) : Int) := hPmus
  have hlo : (((if mus = n then 0 else weakCompositions (n - mus - 1) k) : Nat) : Int)
      < (NumberCompositions n k : Int) - idx := by
    by_cases h : mus = n
    · rw [if_pos h]
      simp only [Nat.cast_zero]
      omega
    · rw [if_neg h]
      have hnp2 : ¬ ((NumberCompositions n k : Int) - idx
          ≤ ((weakCompositions (n - (mus + 1)) k : Nat) : Int)) :=
        hgreat (mus + 1) (by omega) (by omega)
      have e : n - (mus + 1) = n - mus - 1 := by omega
      rw [e] at hnp2
      omega
  obtain ⟨mu1, hup, hdown⟩ := mu_search idx n k mus hk2 hk16 hn hmus_le hlo hhi mu0 hmu0
  refine ⟨mu1, mus, hup, hdown, hmus_le, ?_, ?_, ?_⟩
  · rw [hN mus hmus_le]
    omega
  · intro m hm hle
    by_contra hlt
    have hnp : ¬ ((NumberCompositions n k : Int) - idx
        ≤ ((weakCompositions (n - m) k : Nat) : Int)) := hgreat m (by omega) hm
    rw [hN m hm] at hle
    omega
  · obtain ⟨j, hj⟩ : ∃ j, k = j + 1 := ⟨k - 1, by omega⟩
    rw [hN0] at h1
    obtain ⟨c, hc, hlen, hsum, hrank⟩ := rank_unrank_loop root1 j n k idx hj hn hk16 h0 h1
    have hc2 := unrank_rank_loop root2 j c n k idx (by omega) hj hsum hn hk16 hrank
    refine ⟨c, ?_, ?_⟩
    · unfold IntegerToComposition
      rw [Nat.mod_eq_of_lt hk16, Nat.mod_eq_of_lt (show n < W64 by omega), if_neg (by omega),
        show k - 1 = j by omega]
      exact hc
    · unfold IntegerToComposition
      rw [Nat.mod_eq_of_lt hk16, Nat.mod_eq_of_lt (show n < W64 by omega), if_neg (by omega),
        show k - 1 = j by omega]
      exact hc2

/-- Witness of C33: rank `7` among the compositions of `4` into `3` parts, the estimate
`2^64 - 1` (a negative estimate that has wrapped). -/
theorem mu_correction_witness :
    ∃ mu1 mu, IntegerToComposition.up 7 4 3 (W64 + 1) 18446744073709551615 = some mu1 ∧
      IntegerToComposition.down 7 4 3 (W64 + 1) mu1 = some mu ∧ mu ≤ 4 ∧
      (NumberCompositions 4 3 : Int) - (NumberCompositions (4 - mu) 3 : Int) ≤ 7 ∧
      (∀ m, m ≤ 4 →
        (NumberCompositions 4 3 : Int) - (NumberCompositions (4 - m) 3 : Int) ≤ 7 → m ≤ mu) ∧
      ∃ c, IntegerToComposition (fun _ _ => 0) 7 4 3 = some c ∧
        IntegerToComposition (fun _ _ => 5) 7 4 3 = some c :=
  mu_correction (fun _ _ => 0) (fun _ _ => 5) 7 4 3 18446744073709551615 (by decide)
    (by decide) (by decide) (by decide) (by decide) (by decide) (by decide)

/-- C34: for every non-empty payload of `B` bits, with the configuration values
`s = Keymap.SuffixBits` and `r = Random.SuffixBits <= 255` such that
`s + 11 * (255 - r) + 32` fits 32 bits, the parameters that `OptimizeParams` returns
have `nNulldata = 1` when `nScriptHash >= 2`; when `nScriptHash = 1`, `nNulldata = 1` if
`B > s + 11 * (255 - r) + 32` and `nNulldata = 0` otherwise. -/
theorem planner_nulldata (s r : Nat) (fee : CTransaction → Nat) (lg : Nat → Nat)
    (tx : CTransaction) (bits : DataBits) (nBudget : Nat) (p0 : Parameters) (hr : r ≤ 255)
    (hfit : s + 11 * (255 - r) + 32 < W32) (hne : bits ≠ []) :
    ∃ q, OptimizeParams (s : Int) (r : Int) fee lg tx bits nBudget p0 = some q ∧
      (2 ≤ q.nScriptHash → q.nNulldata = 1) ∧
      (q.nScriptHash = 1 →
        (s + 11 * (255 - r) + 32 < bits.length → q.nNulldata = 1) ∧
        (bits.length ≤ s + 11 * (255 - r) + 32 → q.nNulldata = 0)) := by
  have hW := W32_val
  have e1 : ((1 * ((s + (11 * (255 - r)) % W32) % W32)) % W32 + (1 * 32) % W32) % W32
      = s + 11 * (255 - r) + 32 := by
    rw [hW] at hfit ⊢
    omega
  obtain ⟨q, hq, _, _, hpass, _, _⟩ := OptimizeParams_spec (s : Int) (r : Int) fee lg tx bits
    nBudget p0 (by omega) hne
  have eA : ((s : Int) % (W32 : Int)).toNat = s := by
    rw [hW]
    omega
  have eB : ((255 - (r : Int)) % (W32 : Int)).toNat = 255 - r := by
    rw [hW]
    omega
  rw [eA, eB] at hpass
  have hnd : q.nNulldata = (OptimizeParams.pass s (255 - r) fee lg tx bits.length nBudget
      q.nScriptHash).1.nNulldata := by
    rw [← hpass]
  simp only [OptimizeParams.pass] at hnd
  refine ⟨q, hq, ?_, ?_⟩
  · intro h2
    rw [hnd, if_pos (by
      rw [decide_eq_true_eq]
      exact Or.inr h2)]
  · intro h1
    rw [h1] at hnd
    rw [e1] at hnd
    constructor
    · intro hlt
      rw [hnd, if_pos (by
        rw [decide_eq_true_eq]
        exact Or.inl ⟨rfl, hlt⟩)]
    · intro hle
      rw [hnd, if_neg (by
        rw [decide_eq_true_eq]
        omega)]

/-- Witness of C34: the configuration of the tests (`s = 8`, `r = 5`) and a payload of
three bits. -/
theorem planner_nulldata_witness :
    ∃ q, OptimizeParams ((8 : Nat) : Int) ((5 : Nat) : Int) (fun _ => 10000) floorLog2 ⟨[], []⟩
        [true, false, true] 10000000 ⟨0, 0, 0⟩ = some q ∧
      (2 ≤ q.nScriptHash → q.nNulldata = 1) ∧
      (q.nScriptHash = 1 →
        (8 + 11 * (255 - 5) + 32 < [true, false, true].length → q.nNulldata = 1) ∧
        ([true, false, true].length ≤ 8 + 11 * (255 - 5) + 32 → q.nNulldata = 0)) :=
  planner_nulldata 8 5 (fun _ => 10000) floorLog2 ⟨[], []⟩ [true, false, true] 10000000
    ⟨0, 0, 0⟩ (by decide) (by decide) (by decide)
/-! ## Placeholders, foreign permutations, the empty vector -/

/-- The first loop of a pass, started at `i >= 1` with `i - 1` null inputs followed by the
input that carries the index `i - 1`: every pass inserts a null input at the front and
writes the index to position `i`, which holds the input written before. -/
theorem EmbedData_insert_last : ∀ (cnt i : Nat) (vout : List CTxOut),
    EmbedData.insert cnt (i + 1) vout
        (List.replicate i CTxIn.null
          ++ [{ CTxIn.null with prevout := { CTxIn.null.prevout with n := i % W32 } }])
      = some (List.replicate cnt CTxOut.null ++ vout,
          List.replicate (i + cnt) CTxIn.null ++ [{ CTxIn.null with
            prevout := { CTxIn.null.prevout with n := (i + cnt) % W32 } }]) := by
  intro cnt
  induction cnt with
  | zero =>
    intro i vout
    rfl
  | succ cnt ih =>
    intro i vout
    have hcons : CTxIn.null :: (List.replicate i CTxIn.null
          ++ [{ CTxIn.null with prevout := { CTxIn.null.prevout with n := i % W32 } }])
        = List.replicate (i + 1) CTxIn.null
          ++ [{ CTxIn.null with prevout := { CTxIn.null.prevout with n := i % W32 } }] := rfl
    have hget : (List.replicate (i + 1) CTxIn.null
          ++ [{ CTxIn.null with prevout := { CTxIn.null.prevout with n := i % W32 } }]).get?
          (i + 1)
        = some { CTxIn.null with prevout := { CTxIn.null.prevout with n := i % W32 } } := by
      simp only [List.get?_eq_getElem?]
      rw [List.getElem?_append_right (by rw [List.length_replicate]), List.length_replicate,
        Nat.sub_self]
      rfl
    have hset : (List.replicate (i + 1) CTxIn.null
          ++ [{ CTxIn.null with prevout := { CTxIn.null.prevout with n := i % W32 } }]).set
          (i + 1) { CTxIn.null with
            prevout := { CTxIn.null.prevout with n := (i + 1) % W32 } }
        = List.replicate (i + 1) CTxIn.null ++ [{ CTxIn.null with
            prevout := { CTxIn.null.prevout with n := (i + 1) % W32 } }] := by
      rw [List.set_append_right _ _ (by rw [List.length_replicate]), List.length_replicate,
        Nat.sub_self]
      rfl
    rw [EmbedData.insert, hcons, hget]
    simp only []
    rw [hset, ih (i + 1) (CTxOut.null :: vout), replicate_append_cons,
      show i + 1 + cnt = i + (cnt + 1) by omega]

/-- C36, the placeholders as the code allocates them: for `k + 2` outputs planned, after
the loop `txs[idx+1].vin.insert(txs[idx+1].vin.begin(), CTxIn()); txs[idx+1].vin[i].prevout.n = i`
the inputs are `k + 1` null inputs, whose index is `0xFFFFFFFF`, followed by one input
with index `k + 1`: the input written in a pass is the one that the next pass moves to
the written position. Only the last input has `prevout.n = j` at its position `j`. -/
theorem EmbedData_insert_indices (k : Nat) :
    EmbedData.insert (k + 2) 0 [] []
      = some (List.replicate (k + 2) CTxOut.null,
          List.replicate (k + 1) CTxIn.null ++ [{ CTxIn.null with
            prevout := { CTxIn.null.prevout with n := (k + 1) % W32 } }]) ∧
    ((List.replicate (k + 1) CTxIn.null ++ [{ CTxIn.null with
        prevout := { CTxIn.null.prevout with n := (k + 1) % W32 } }]).get? 0).map
          (fun (x : CTxIn) => x.prevout.n) = some 4294967295 := by
  constructor
  · rw [EmbedData.insert]
    have hget : (CTxIn.null :: ([] : List CTxIn)).get? 0 = some CTxIn.null := rfl
    rw [hget]
    simp only []
    have hset : (CTxIn.null :: ([] : List CTxIn)).set 0
          { CTxIn.null with prevout := { CTxIn.null.prevout with n := 0 % W32 } }
        = List.replicate 0 CTxIn.null
          ++ [{ CTxIn.null with prevout := { CTxIn.null.prevout with n := 0 % W32 } }] := rfl
    rw [hset, EmbedData_insert_last (k + 1) 0 [CTxOut.null], Nat.zero_add,
      replicate_append_cons, List.append_nil]
  · rw [List.replicate_succ, List.cons_append]
    rfl

/-- C37, a permutation that the decoder does not survive: the inputs claim the outputs
`2, 1, 0`, the reversed permutation of three elements. Its rank `5` has the three bits
`101`, the width `EmbeddableBitsInPermutation(3)` is `2`, and the count
`MaxBits - data.size()` of the front padding wraps: `UnpackDataFromBudgetClaim` returns no
bit vector. -/
theorem UnpackDataFromBudgetClaim_overflow :
    List.Perm [2, 1, 0] (List.range 3) ∧
      EmbeddableBitsInPermutation floorLog2 3 = 2 ∧
      PermutationToInteger [2, 1, 0] = some 5 ∧ IntToDataBits 5 = [true, false, true] ∧
      UnpackDataFromBudgetClaim floorLog2
        [⟨⟨0, 2⟩, [], 0⟩, ⟨⟨0, 1⟩, [], 0⟩, ⟨⟨0, 0⟩, [], 0⟩] = none := by
  refine ⟨by decide, by decide, by decide, by decide, by decide⟩

/-- C40, the empty vector: `DataBitsToInt` has no value on it (`data.size() - 1` wraps
and `data[0]` is read out of range), so `DataBitsToInt(IntToDataBits(0))` has none, and
`PackDataIntoBudgetSplit` with two outputs and a budget of exactly `2 * 546`, where the
channel has width `0` and the slice is empty, returns nothing. -/
theorem DataBitsToInt_empty :
    DataBitsToInt [] = none ∧ IntToDataBits 0 = [] ∧
      DataBitsToInt (IntToDataBits 0) = none ∧
      EmbeddableBitsInValues floorLog2 (1092 - 2 * 546) 2 = 0 ∧
      ∀ (root : Int → Nat → Nat) (bits : DataBits) (o1 o2 : CTxOut),
        PackDataIntoBudgetSplit floorLog2 root bits [o1, o2] 1092 546 = none :=
  ⟨rfl, rfl, rfl, by decide, fun root bits o1 o2 => PackDataIntoBudgetSplit_dust root bits o1 o2⟩
/-! ## The keypair table -/

theorem mem_allBits : ∀ (n : Nat) (v : DataBits), v ∈ allBits n ↔ v.length = n := by
  intro n
  induction n with
  | zero =>
    intro v
    rw [allBits, List.mem_singleton, List.length_eq_zero]
  | succ n ih =>
    intro v
    rw [allBits, List.mem_append, List.mem_map, List.mem_map]
    constructor
    · rintro (⟨w, hw, rfl⟩ | ⟨w, hw, rfl⟩)
      · rw [List.length_cons, (ih w).mp hw]
      · rw [List.length_cons, (ih w).mp hw]
    · intro h
      cases v with
      | nil => simp at h
      | cons b w =>
        have hw : w ∈ allBits n := (ih w).mpr (by simpa using h)
        cases b with
        | false => exact Or.inl ⟨w, hw, rfl⟩
        | true => exact Or.inr ⟨w, hw, rfl⟩

theorem allBits_nodup : ∀ (n : Nat), (allBits n).Nodup := by
  intro n
  induction n with
  | zero => exact List.nodup_singleton _
  | succ n ih =>
    rw [allBits, List.nodup_append]
    refine ⟨ih.map (fun a b h => (List.cons.inj h).2),
      ih.map (fun a b h => (List.cons.inj h).2), ?_⟩
    intro v h1 h2
    obtain ⟨a, _, rfl⟩ := List.mem_map.mp h1
    obtain ⟨b, _, hb⟩ := List.mem_map.mp h2
    exact absurd (List.cons.inj hb).1 (by decide)

theorem length_allBits : ∀ (n : Nat), (allBits n).length = 2 ^ n := by
  intro n
  induction n with
  | zero => rfl
  | succ n ih =>
    rw [allBits, List.length_append, List.length_map, List.length_map, ih, Nat.pow_succ]
    omega

/-- A list of distinct vectors of `n` bits has at most `2^n` entries, and with `2^n`
entries it holds every vector of `n` bits. -/
theorem keys_count (n : Nat) (keys : List DataBits) (hnd : keys.Nodup)
    (hlen : ∀ v ∈ keys, v.length = n) :
    keys.length ≤ 2 ^ n ∧ (keys.length = 2 ^ n → ∀ v : DataBits, v.length = n → v ∈ keys) := by
  have hsub : List.Subperm keys (allBits n) :=
    List.subperm_of_subset hnd (fun v hv => (mem_allBits n v).mpr (hlen v hv))
  have hle := hsub.length_le
  rw [length_allBits] at hle
  refine ⟨hle, ?_⟩
  intro heq v hv
  have hperm : List.Perm keys (allBits n) :=
    hsub.perm_of_length_le (by rw [length_allBits, heq])
  exact hperm.mem_iff.mpr ((mem_allBits n v).mpr hv)

/-- A list that holds every vector of `n` bits has at least `2^n` entries. -/
theorem keys_full (n : Nat) (keys : List DataBits)
    (hall : ∀ v : DataBits, v.length = n → v ∈ keys) : 2 ^ n ≤ keys.length := by
  have hsub : List.Subperm (allBits n) keys :=
    List.subperm_of_subset (allBits_nodup n) (fun v hv => hall v ((mem_allBits n v).mp hv))
  have := hsub.length_le
  rw [length_allBits] at this
  exact this

/-- The keys of the table after `keyMap[key] = val`. -/
theorem assign_keys (keyMap : KeypairMap) (key : DataBits) (val : CKey) :
    (keyMap.assign key val).map Prod.fst
      = if key ∈ keyMap.map Prod.fst then keyMap.map Prod.fst
        else keyMap.map Prod.fst ++ [key] := by
  unfold KeypairMap.assign
  by_cases h : key ∈ keyMap.map Prod.fst
  · have hany : keyMap.any (fun e => e.1 == key) = true := by
      rw [List.any_eq_true]
      obtain ⟨e, he, hk⟩ := List.mem_map.mp h
      exact ⟨e, he, by rw [hk]; exact beq_self_eq_true _⟩
    rw [if_pos hany, if_pos h, List.map_map]
    apply List.map_congr_left
    intro e _
    simp only [Function.comp]
    by_cases hk : e.1 = key
    · rw [if_pos (by rw [hk]; exact beq_self_eq_true _), hk]
    · rw [if_neg (by rw [beq_iff_eq]; exact hk)]
  · have hany : ¬ keyMap.any (fun e => e.1 == key) = true := by
      rw [List.any_eq_true]
      rintro ⟨e, he, hk⟩
      rw [beq_iff_eq] at hk
      exact h (List.mem_map.mpr ⟨e, he, hk⟩)
    rw [if_neg hany, if_neg h, List.map_append]
    rfl

/-- An entry of the table after `keyMap[key] = val` is an old entry or the new one. -/
theorem assign_mem (keyMap : KeypairMap) (key : DataBits) (val : CKey) :
    ∀ e ∈ keyMap.assign key val, e ∈ keyMap ∨ e = (key, val) := by
  intro e he
  unfold KeypairMap.assign at he
  split_ifs at he
  · obtain ⟨x, hx, hxe⟩ := List.mem_map.mp he
    by_cases hk : (x.1 == key) = true
    · rw [if_pos hk] at hxe
      exact Or.inr hxe.symm
    · rw [if_neg hk] at hxe
      rw [← hxe]
      exact Or.inl hx
  · rcases List.mem_append.mp he with h | h
    · exact Or.inl h
    · exact Or.inr (List.mem_singleton.mp h)

/-- Finitely many suffixes that all occur in the stream occur among its first `N` keys. -/
theorem occur_bound (suf : Nat → DataBits) : ∀ (vs : List DataBits),
    (∀ v ∈ vs, ∃ i, suf i = v) → ∃ N, ∀ v ∈ vs, ∃ i, i < N ∧ suf i = v := by
  intro vs
  induction vs with
  | nil =>
    intro _
    exact ⟨0, fun v hv => absurd hv (List.not_mem_nil _)⟩
  | cons w vs ih =>
    intro h
    obtain ⟨N, hN⟩ := ih (fun v hv => h v (List.mem_cons_of_mem _ hv))
    obtain ⟨i, hi⟩ := h w (List.mem_cons_self _ _)
    refine ⟨max N (i + 1), ?_⟩
    intro v hv
    rcases List.mem_cons.mp hv with h1 | h1
    · exact ⟨i, by omega, by rw [h1]; exact hi⟩
    · obtain ⟨j, hj, hjv⟩ := hN v h1
      exact ⟨j, by omega, hjv⟩

/-- The loop of `GenerateKeypairMap` from a table that holds the suffixes of the first
`i` keys, when every suffix occurs among the first `i + d` keys: it returns a table with
the invariants, the same for every bound above `d`. -/
theorem GenerateKeypairMap_loop_spec (MakeNewKey : Nat → CKey) (GetPubKey : CKey → Data)
    (below : Nat → Nat → Bool) (n : Nat)
    (hbelow : ∀ size, size ≤ 2 ^ n → below size n = decide (size < 2 ^ n))
    (hpk : ∀ i, n ≤ (DataToBits (GetPubKey (MakeNewKey i))).length) :
    ∀ (d i : Nat) (keyMap : KeypairMap),
    (∀ v : DataBits, v.length = n → ∃ j, j < i + d ∧
      (DataToBits (GetPubKey (MakeNewKey j))).drop
        ((DataToBits (GetPubKey (MakeNewKey j))).length - n) = v) →
    (keyMap.map Prod.fst).Nodup →
    (∀ e ∈ keyMap, e.1.length = n ∧ (DataToBits (GetPubKey e.2)).drop
      ((DataToBits (GetPubKey e.2)).length - n) = e.1 ∧ ∃ j, e.2 = MakeNewKey j) →
    (∀ j, j < i → (DataToBits (GetPubKey (MakeNewKey j))).drop
      ((DataToBits (GetPubKey (MakeNewKey j))).length - n) ∈ keyMap.map Prod.fst) →
    ∃ result : KeypairMap,
      (∀ fuel, d < fuel →
        GenerateKeypairMap.loop MakeNewKey GetPubKey below n fuel i keyMap = some result) ∧
      result.length = 2 ^ n ∧ (result.map Prod.fst).Nodup ∧
      (∀ v : DataBits, v ∈ result.map Prod.fst ↔ v.length = n) ∧
      (∀ e ∈ result, (DataToBits (GetPubKey e.2)).drop
        ((DataToBits (GetPubKey e.2)).length - n) = e.1 ∧ ∃ j, e.2 = MakeNewKey j) := by
  intro d
  induction d with
  | zero =>
    intro i keyMap hocc hnd hent hseen
    have hklen : ∀ v ∈ keyMap.map Prod.fst, v.length = n := by
      intro v hv
      obtain ⟨e, he, rfl⟩ := List.mem_map.mp hv
      exact (hent e he).1
    have hall : ∀ v : DataBits, v.length = n → v ∈ keyMap.map Prod.fst := by
      intro v hv
      obtain ⟨j, hj, hjv⟩ := hocc v hv
      rw [← hjv]
      exact hseen j hj
    have hcnt := keys_count n (keyMap.map Prod.fst) hnd hklen
    have hfull := keys_full n (keyMap.map Prod.fst) hall
    rw [List.length_map] at hcnt hfull
    have hlen : keyMap.length = 2 ^ n := by omega
    refine ⟨keyMap, ?_, hlen, hnd, fun v => ⟨hklen v, hall v⟩, fun e he => (hent e he).2⟩
    intro fuel hf
    obtain ⟨f, rfl⟩ : ∃ f, fuel = f + 1 := ⟨fuel - 1, by omega⟩
    rw [GenerateKeypairMap.loop, hbelow _ (by omega), if_neg (by
      rw [decide_eq_true_eq]
      omega)]
  | succ d ih =>
    intro i keyMap hocc hnd hent hseen
    have hklen : ∀ v ∈ keyMap.map Prod.fst, v.length = n := by
      intro v hv
      obtain ⟨e, he, rfl⟩ := List.mem_map.mp hv
      exact (hent e he).1
    have hcnt := keys_count n (keyMap.map Prod.fst) hnd hklen
    rw [List.length_map] at hcnt
    by_cases hsize : keyMap.length < 2 ^ n
    · generalize hkey : (DataToBits (GetPubKey (MakeNewKey i))).drop
        ((DataToBits (GetPubKey (MakeNewKey i))).length - n) = key
      have hkeylen : key.length = n := by
        rw [← hkey, List.length_drop]
        have := hpk i
        omega
      have hkeys := assign_keys keyMap key (MakeNewKey i)
      obtain ⟨result, hres, hfinal⟩ := ih (i + 1) (keyMap.assign key (MakeNewKey i))
        (by
          intro v hv
          obtain ⟨j, hj, hjv⟩ := hocc v hv
          exact ⟨j, by omega, hjv⟩)
        (by
          rw [hkeys]
          split_ifs with hin
          · exact hnd
          · rw [List.nodup_append]
            refine ⟨hnd, List.nodup_singleton _, ?_⟩
            intro v hv1 hv2
            rw [List.mem_singleton] at hv2
            exact hin (hv2 ▸ hv1))
        (by
          intro e he
          rcases assign_mem keyMap key (MakeNewKey i) e he with h | h
          · exact hent e h
          · rw [h]
            exact ⟨hkeylen, hkey, i, rfl⟩)
        (by
          intro j hj
          rw [hkeys]
          by_cases hji : j = i
          · rw [hji, hkey]
            split_ifs with hin
            · exact hin
            · exact List.mem_append_right _ (List.mem_singleton.mpr rfl)
          · have := hseen j (by omega)
            split_ifs
            · exact this
            · exact List.mem_append_left _ this)
      refine ⟨result, ?_, hfinal⟩
      intro fuel hf
      obtain ⟨f, rfl⟩ : ∃ f, fuel = f + 1 := ⟨fuel - 1, by omega⟩
      rw [GenerateKeypairMap.loop, hbelow _ hcnt.1, if_pos (by
        rw [decide_eq_true_eq]
        exact hsize), if_pos (hpk i), hkey]
      exact hres f (by omega)
    · have hlen : keyMap.length = 2 ^ n := by omega
      have hall := hcnt.2 hlen
      refine ⟨keyMap, ?_, hlen, hnd, fun v => ⟨hklen v, hall v⟩, fun e he => (hent e he).2⟩
      intro fuel hf
      obtain ⟨f, rfl⟩ : ∃ f, fuel = f + 1 := ⟨fuel - 1, by omega⟩
      rw [GenerateKeypairMap.loop, hbelow _ (by omega), if_neg (by
        rw [decide_eq_true_eq]
        exact hsize)]

/-- C31: for every `n >= 1` (an `unsigned int`) and every stream of generated private
keys with compressed public keys (33 bytes) in which each suffix of `n` bits occurs, when
the `double` comparison with `pow(2, n)` is exact on the sizes up to `2^n`:
`GenerateKeypairMap(n)` returns, after finitely many keys, a map with exactly `2^n`
entries whose keys are all the vectors of `n` bits, and for every entry the last `n` bits
of the public key of the stored private key are the key of the entry. -/
theorem GenerateKeypairMap_table (MakeNewKey : Nat → CKey) (GetPubKey : CKey → Data)
    (below : Nat → Nat → Bool) (n : Nat) (hn1 : 1 ≤ n) (hn32 : n < W32)
    (hbelow : ∀ size, size ≤ 2 ^ n → below size n = decide (size < 2 ^ n))
    (hpk : ∀ i, (GetPubKey (MakeNewKey i)).length = 33)
    (hstream : ∀ v : DataBits, v.length = n →
      ∃ i, (DataToBits (GetPubKey (MakeNewKey i))).drop (264 - n) = v) :
    ∃ (N : Nat) (keyMap : KeypairMap),
      (∀ fuel, N ≤ fuel →
        GenerateKeypairMap MakeNewKey GetPubKey below fuel n = some keyMap) ∧
      keyMap.length = 2 ^ n ∧ (keyMap.map Prod.fst).Nodup ∧
      (∀ v : DataBits, v ∈ keyMap.map Prod.fst ↔ v.length = n) ∧
      (∀ e ∈ keyMap, (DataToBits (GetPubKey e.2)).drop (264 - n) = e.1 ∧
        ∃ i, e.2 = MakeNewKey i) := by
  have hbits : ∀ i, (DataToBits (GetPubKey (MakeNewKey i))).length = 264 := by
    intro i
    rw [DataToBits_length, hpk i]
  have hn264 : n ≤ 264 := by
    obtain ⟨i, hi⟩ := hstream (List.replicate n false) (List.length_replicate _ _)
    have := congrArg List.length hi
    rw [List.length_drop, hbits i, List.length_replicate] at this
    omega
  obtain ⟨N, hN⟩ := occur_bound
    (fun i => (DataToBits (GetPubKey (MakeNewKey i))).drop (264 - n)) (allBits n)
    (fun v hv => hstream v ((mem_allBits n v).mp hv))
  obtain ⟨result, hres, hlen, hnd, hkeys, hent⟩ :=
    GenerateKeypairMap_loop_spec MakeNewKey GetPubKey below n hbelow
      (fun i => by rw [hbits i]; exact hn264) N 0 []
      (by
        intro v hv
        obtain ⟨j, hj, hjv⟩ := hN v ((mem_allBits n v).mpr hv)
        refine ⟨j, by omega, ?_⟩
        rw [hbits j]
        exact hjv)
      List.nodup_nil (fun e he => absurd he (List.not_mem_nil _))
      (fun j hj => absurd hj (Nat.not_lt_zero j))
  refine ⟨N + 1, result, ?_, hlen, hnd, hkeys, ?_⟩
  · intro fuel hf
    unfold GenerateKeypairMap
    rw [Nat.mod_eq_of_lt hn32]
    exact hres fuel (by omega)
  · intro e he
    obtain ⟨h1, j, hj⟩ := hent e he
    refine ⟨?_, j, hj⟩
    rw [hj] at h1 ⊢
    rw [hbits j] at h1
    exact h1

theorem testPubKey_length (k : CKey) : (testPubKey k).length = 33 := by
  simp [testPubKey]

/-- Every vector of 8 bits is the suffix of a key of the test stream. -/
theorem testPubKey_suffix (v : DataBits) (hv : v.length = 8) :
    ∃ i, (DataToBits (testPubKey i)).drop (264 - 8) = v := by
  obtain ⟨b0, b1, b2, b3, b4, b5, b6, b7, rfl⟩ := list_length_eight hv
  obtain ⟨ch, _, hlt, hch⟩ := byte_of_bits_roundtrip b0 b1 b2 b3 b4 b5 b6 b7
  refine ⟨ch, ?_⟩
  have e : testPubKey ch = (2 :: List.replicate 31 0) ++ [ch % 256] := rfl
  rw [e, DataToBits_append, List.drop_left' (by
    rw [DataToBits_length, List.length_cons, List.length_replicate]), Nat.mod_eq_of_lt hlt,
    DataToBits, DataToBits, List.append_nil, hch]

/-- Witness of C31: `n = 8` with the test stream gives 256 entries. -/
theorem GenerateKeypairMap_table_witness :
    ∃ (N : Nat) (keyMap : KeypairMap),
      (∀ fuel, N ≤ fuel →
        GenerateKeypairMap (fun i => i) testPubKey (fun size n => decide (size < 2 ^ n))
          fuel 8 = some keyMap) ∧
      keyMap.length = 2 ^ 8 ∧ (keyMap.map Prod.fst).Nodup ∧
      (∀ v : DataBits, v ∈ keyMap.map Prod.fst ↔ v.length = 8) ∧
      (∀ e ∈ keyMap, (DataToBits (testPubKey e.2)).drop (264 - 8) = e.1 ∧
        ∃ i, e.2 = (fun i => i) i) :=
  GenerateKeypairMap_table (fun i => i) testPubKey (fun size n => decide (size < 2 ^ n)) 8
    (by decide) (by decide) (fun _ _ => rfl) (fun i => testPubKey_length i) testPubKey_suffix
/-! ## What a pass of the chain builder returns -/

/-- When `PackDataIntoBudgetSplit` returns, the bits that are left are the vector without
its first `n` bits, `n` at most the width of the channel, and there are as many outputs as
before. -/
theorem PackDataIntoBudgetSplit_returns (lg : Nat → Nat) (root : Int → Nat → Nat)
    (bits : DataBits) (txOuts : List CTxOut) (budget lbound : Nat) (rest : DataBits)
    (outs : List CTxOut)
    (h : PackDataIntoBudgetSplit lg root bits txOuts budget lbound = some (rest, outs)) :
    ∃ n, rest = bits.drop n ∧
      n ≤ EmbeddableBitsInValues lg
        (sub64 budget ((txOuts.length % W32 * (lbound % W64)) % W64)) (txOuts.length % W32) ∧
      outs.length = txOuts.length := by
  have hW : 0 < W32 := by rw [W32_val]; omega
  unfold PackDataIntoBudgetSplit at h
  simp only [] at h
  split_ifs at h with h1
  generalize hM : EmbeddableBitsInValues lg
    (sub64 budget ((txOuts.length % W32 * (lbound % W64)) % W64)) (txOuts.length % W32) = M at h ⊢
  unfold SliceBits at h
  split_ifs at h with h2
  simp only [] at h
  cases henc : EncodeDataInValues lg root
      (PadBits (List.take (min M (bits.length % W32) % W32) bits)
        (M - min M (bits.length % W32)))
      (sub64 budget ((txOuts.length % W32 * (lbound % W64)) % W64)) (txOuts.length % W32) with
  | none =>
    rw [henc] at h
    exact absurd h (by simp)
  | some values =>
    rw [henc] at h
    simp only [] at h
    split_ifs at h with h3
    simp only [Option.some.injEq, Prod.mk.injEq] at h
    obtain ⟨hr, ho⟩ := h
    refine ⟨min M (bits.length % W32) % W32, hr.symm, ?_, ?_⟩
    · exact le_trans (Nat.mod_le _ _) (Nat.min_le_left _ _)
    · have hle : txOuts.length % W32 ≤ txOuts.length := Nat.mod_le _ _
      rw [← ho, List.length_append, List.length_zipWith, List.length_take, List.length_drop]
      omega

/-- When the budget part of a pass on `k <= 14` fresh outputs and inputs returns, the bits
that are left are the vector without its first `W` bits, `W` at most the widths of the
budget channels, there are `k` outputs and `k` inputs, and the claimed indices are below
`k`. -/
theorem EmbedData_budget_returns (ctx : Context) (hlog : LogOk ctx.lg) (bits : DataBits)
    (vout : List CTxOut) (vin : List CTxIn) (k nBudget nFees : Nat) (hvout : vout.length = k)
    (hvin : vin.length = k) (hk14 : k ≤ 14) (hL : bits.length < 2 ^ 31) (bits1 : DataBits)
    (vout1 : List CTxOut) (vin1 : List CTxIn)
    (h : EmbedData.budget ctx bits vout vin nBudget nFees = some (bits1, vout1, vin1)) :
    ∃ W, bits1 = bits.drop W ∧ vout1.length = k ∧ vin1.length = k ∧
      (∀ q ∈ vin1.map (fun (x : CTxIn) => x.prevout.n), q < k) ∧
      W ≤ (if 2 ≤ k then EmbeddableBitsInPermutation ctx.lg k
          + (if nBudget % W64 ≥ nFees % W64 then
              EmbeddableBitsInValues ctx.lg (sub64 (sub64 nBudget nFees) (k * 546)) k
            else 0)
        else 0) := by
  have hW := W32_val
  have hW16 := W16_val
  have hW64 := W64_val
  unfold EmbedData.budget at h
  by_cases hk1 : k = 1
  · subst hk1
    rw [if_pos hvout] at h
    match vout, vin, hvout, hvin, h with
    | [o], [i0], _, _, h =>
      simp only [Option.some.injEq, Prod.mk.injEq] at h
      obtain ⟨hb1, hv1, hi1⟩ := h
      refine ⟨0, hb1.symm, by rw [← hv1]; rfl, by rw [← hi1]; rfl, ?_, by omega⟩
      intro q hq
      rw [← hi1] at hq
      simp only [List.map_cons, List.map_nil, List.mem_singleton] at hq
      omega
  · rw [if_neg (by omega)] at h
    by_cases hk2 : 2 ≤ k
    · rw [if_pos (by omega)] at h
      have hfac := Factorial_fits k hk2 hk14
      have hlg2 := hlog _ hfac.1 hfac.2
      rw [if_pos hk2]
      have hclaim : ∀ (b1 : DataBits) (W0 : Nat), b1 = bits.drop W0 →
          ∀ (b2 : DataBits) (v1 : List CTxIn),
          PackDataIntoBudgetClaim ctx.lg b1 vin = some (b2, v1) →
          b2 = bits.drop (W0 + EmbeddableBitsInPermutation ctx.lg k) ∧ v1.length = k ∧
            ∀ q ∈ v1.map (fun (x : CTxIn) => x.prevout.n), q < k := by
        intro b1 W0 hb1 b2 v1 hc
        obtain ⟨p, hperm, hpack2, _⟩ := budget_claim_spec ctx.lg b1 vin k hvin hk2
          (by omega) (by rw [hb1, List.length_drop]; omega) hlg2
        rw [hpack2] at hc
        simp only [Option.some.injEq, Prod.mk.injEq] at hc
        obtain ⟨hc1, hc2⟩ := hc
        have hplen : p.length = k := by rw [hperm.length_eq, List.length_range]
        have hmap := zipWith_prevout vin p (by rw [hvin, hplen])
        refine ⟨by rw [← hc1, hb1, List.drop_drop], ?_, ?_⟩
        · rw [← hc2, List.length_zipWith, hvin, hplen, Nat.min_self]
        · intro q hq
          rw [← hc2, hmap] at hq
          exact List.mem_range.mp (hperm.mem_iff.mp hq)
      by_cases hge : nBudget % W64 ≥ nFees % W64
      · rw [if_pos hge] at h
        rw [if_pos hge]
        cases hsplit : PackDataIntoBudgetSplit ctx.lg ctx.root bits vout (sub64 nBudget nFees)
            546 with
        | none =>
          rw [hsplit] at h
          exact absurd h (by simp)
        | some r =>
          obtain ⟨b1, v1⟩ := r
          rw [hsplit] at h
          simp only [] at h
          obtain ⟨n, hn, hnle, hol⟩ := PackDataIntoBudgetSplit_returns _ _ _ _ _ _ _ _ hsplit
          rw [hvout, Nat.mod_eq_of_lt (show k < W32 by omega),
            Nat.mod_eq_of_lt (show 546 < W64 by omega),
            Nat.mod_eq_of_lt (show k * 546 < W64 by omega)] at hnle
          cases hcl : PackDataIntoBudgetClaim ctx.lg b1 vin with
          | none =>
            rw [hcl] at h
            exact absurd h (by simp)
          | some r2 =>
            obtain ⟨b2, i2⟩ := r2
            rw [hcl] at h
            simp only [Option.some.injEq, Prod.mk.injEq] at h
            obtain ⟨hb, hv, hi⟩ := h
            obtain ⟨e1, e2, e3⟩ := hclaim b1 n hn b2 i2 hcl
            refine ⟨n + EmbeddableBitsInPermutation ctx.lg k, by rw [← hb, e1],
              by rw [← hv, hol, hvout], by rw [← hi, e2], by rw [← hi]; exact e3, by omega⟩
      · rw [if_neg hge] at h
        rw [if_neg hge]
        simp only [] at h
        cases hcl : PackDataIntoBudgetClaim ctx.lg bits vin with
        | none =>
          rw [hcl] at h
          exact absurd h (by simp)
        | some r2 =>
          obtain ⟨b2, i2⟩ := r2
          rw [hcl] at h
          simp only [Option.some.injEq, Prod.mk.injEq] at h
          obtain ⟨hb, hv, hi⟩ := h
          obtain ⟨e1, e2, e3⟩ := hclaim bits 0 rfl b2 i2 hcl
          refine ⟨0 + EmbeddableBitsInPermutation ctx.lg k, by rw [← hb, e1],
            by rw [← hv, hvout], by rw [← hi, e2], by rw [← hi]; exact e3, by omega⟩
    · rw [if_neg (by omega)] at h
      simp only [Option.some.injEq, Prod.mk.injEq] at h
      obtain ⟨hb, hv, hi⟩ := h
      have hk0 : k = 0 := by omega
      refine ⟨0, hb.symm, by rw [← hv, hvout], by rw [← hi, hvin], ?_, by omega⟩
      intro q hq
      rw [← hi, List.length_eq_zero.mp (by omega : vin.length = 0)] at hq
      exact absurd hq (List.not_mem_nil _)

/-- When a pass of the chain builder on a fresh pair of transactions returns: the planner's
result `p` is what `OptimizeParams` returns, the first transaction has
`p.nScriptHash + p.nNulldata` outputs, the second one `p.nScriptHash` inputs, the bits
that are left are the vector without its first `W` bits, where `W` is at least 32 when
there are bits and at most the sum of the widths of the channels that are filled. -/
theorem EmbedData_pass_returns (ctx : Context) (s : Nat) (henv : ChainEnv ctx s)
    (cur next : CTransaction) (bits : DataBits) (nBudget c : Nat) (params : Parameters)
    (hcur : cur.vout = []) (hnext : next.vin = []) (hL : bits.length < 2 ^ 31)
    (cur1 next1 : CTransaction) (bits1 : DataBits) (b1 c1 : Nat) (p : Parameters)
    (h : EmbedData.pass ctx cur next bits nBudget c params
      = some (cur1, next1, bits1, b1, c1, p)) :
    OptimizeParams ctx.KeymapSuffixBits ctx.RandomSuffixBits ctx.TransactionFee ctx.lg cur
        bits nBudget params = some p ∧
      cur1.vout.length = p.nScriptHash + p.nNulldata ∧ cur1.vin = cur.vin ∧
      next1.vout = next.vout ∧ next1.vin.length = p.nScriptHash ∧
      b1 = sub64 nBudget p.nFees ∧
      ∃ W, bits1 = bits.drop W ∧ (bits ≠ [] → 32 ≤ W) ∧
        W ≤ (s + 2782) * p.nScriptHash + 320 * p.nNulldata
          + (if 2 ≤ p.nScriptHash then EmbeddableBitsInPermutation ctx.lg p.nScriptHash
              + (if nBudget % W64 ≥ p.nFees % W64 then
                  EmbeddableBitsInValues ctx.lg
                    (sub64 (sub64 nBudget p.nFees) (p.nScriptHash * 546)) p.nScriptHash
                else 0)
            else 0) := by
  have hW := W32_val
  obtain ⟨q, hplan, hpf, hempty, hfull⟩ :=
    planner_facts ctx s henv cur bits nBudget params
  have hfacts : q.nScriptHash ≤ 14 ∧ (q.nNulldata = 0 ∨ q.nNulldata = 1) ∧
      (bits ≠ [] → 1 ≤ q.nScriptHash) := by
    by_cases hbits : bits = []
    · rw [hempty hbits]
      exact ⟨Nat.zero_le 14, Or.inl rfl, fun hne => absurd hbits hne⟩
    · obtain ⟨hk1, hk14, hN, _⟩ := hfull hbits
      exact ⟨hk14, hN, fun _ => hk1⟩
  obtain ⟨hk14, hN, hk1⟩ := hfacts
  unfold EmbedData.pass at h
  simp only [hplan] at h
  generalize hk : q.nScriptHash = k at hk14 hk1 h
  obtain ⟨vin0, hins, hvin0⟩ := EmbedData_insert_spec k 0 cur.vout next.vin (by
    rw [hnext]; rfl)
  rw [hcur, List.append_nil] at hins
  rw [Nat.zero_add] at hvin0
  rw [Nat.mod_eq_of_lt (show k < W32 by omega), hcur, hins] at h
  simp only [] at h
  cases hbud : EmbedData.budget ctx bits (List.replicate k CTxOut.null) vin0 nBudget q.nFees with
  | none =>
    rw [hbud] at h
    exact absurd h (by simp)
  | some r =>
    obtain ⟨bb, vout1, vin1⟩ := r
    rw [hbud] at h
    simp only [] at h
    obtain ⟨Wb, hbb, hv1, hi1, hbound, hWb⟩ := EmbedData_budget_returns ctx henv.2.2.2.2.2 bits
      (List.replicate k CTxOut.null) vin0 k nBudget q.nFees (List.length_replicate _ _) hvin0
      hk14 hL bb vout1 vin1 hbud
    subst hbb
    obtain ⟨outs, Wn, hnull, houts, hWn0, hWn1⟩ :=
      EmbedData_nulldata_spec (bits.drop Wb) vout1 q.nNulldata (by
        rw [List.length_drop]; omega) hN
    rw [hnull] at h
    simp only [] at h
    obtain ⟨vout3, next3, c3, Ws, hscr, hnv, hnl, _, hvm, _, _, _, hWs, hWsu⟩ :=
      EmbedData_scripts_spec ctx s henv k 0 ((bits.drop Wb).drop Wn) (vout1 ++ outs)
        { next with vin := vin1 } c (by rw [List.length_drop, List.length_drop]; omega)
        (by rw [Nat.zero_add]; exact hi1.symm) (by rw [hi1]; exact hk14)
        (by rw [hi1, List.length_append, hv1]; omega)
        (by rw [hi1]; exact hbound)
    rw [hscr] at h
    simp only [Option.some.injEq, Prod.mk.injEq] at h
    obtain ⟨h1, h2, h3, h4, _, h6⟩ := h
    have hlen3 : vout3.length = k + q.nNulldata := by
      have := congrArg List.length hvm
      rw [List.length_map, List.length_map, List.length_append, hv1, houts] at this
      exact this
    have hWn : Wn ≤ 320 * q.nNulldata := by
      rcases hN with h0 | h1
      · rw [hWn0 h0]; omega
      · obtain ⟨_, _, hw, _⟩ := hWn1 h1
        rw [hw, h1]
    subst h6
    rw [hk]
    refine ⟨hplan, by rw [← h1]; exact hlen3, by rw [← h1], by rw [← h2]; exact hnv,
      by rw [← h2, hnl]; exact hi1, h4.symm, Wb + Wn + Ws, ?_, ?_, ?_⟩
    · rw [← h3, List.drop_drop, List.drop_drop, Nat.add_assoc]
    · intro hne
      have := hk1 hne
      omega
    · generalize (s + 2782) * k = X at hWsu ⊢
      omega
/-! ## Output counts and progress of the chain builder -/

/-- The loop of the chain builder does not depend on the bound of passes once the bound
is at least the number of bits (and at least one): every pass that is followed by another
one has removed a bit. -/
theorem EmbedData_loop_fuel (ctx : Context) (s : Nat) (henv : ChainEnv ctx s) :
    ∀ (fuel1 fuel2 : Nat) (done : List CTransaction) (cur next : CTransaction)
      (bits : DataBits) (nBudget c : Nat) (params : Parameters) (plans : List Parameters),
    cur.vout = [] → next = CTransaction.null → bits.length < 2 ^ 31 →
    bits.length ≤ fuel1 → 1 ≤ fuel1 → bits.length ≤ fuel2 → 1 ≤ fuel2 →
    EmbedData.loop ctx fuel1 done cur next bits nBudget c params plans
      = EmbedData.loop ctx fuel2 done cur next bits nBudget c params plans := by
  intro fuel1
  induction fuel1 with
  | zero =>
    intro fuel2 done cur next bits nBudget c params plans _ _ _ _ h1 _ _
    omega
  | succ f1 ih =>
    intro fuel2 done cur next bits nBudget c params plans hcur hnext hL hf1 _ hf2 h2
    obtain ⟨f2, rfl⟩ : ∃ f2, fuel2 = f2 + 1 := ⟨fuel2 - 1, by omega⟩
    rw [EmbedData.loop, EmbedData.loop]
    cases hpass : EmbedData.pass ctx cur next bits nBudget c params with
    | none => rfl
    | some r =>
      obtain ⟨cur1, next1, bits1, b1, c1, p⟩ := r
      simp only []
      obtain ⟨_, _, _, hnv, _, _, W, hW, hW32, _⟩ := EmbedData_pass_returns ctx s henv cur next
        bits nBudget c params hcur (by rw [hnext]; rfl) hL cur1 next1 bits1 b1 c1 p hpass
      by_cases hpos : bits1.length > 0
      · rw [if_pos hpos, if_pos hpos]
        have hne : bits ≠ [] := by
          intro h
          rw [hW, h] at hpos
          simp at hpos
        have hlt : bits1.length + 32 ≤ bits.length := by
          have := hW32 hne
          rw [hW, List.length_drop] at hpos ⊢
          omega
        exact ih f2 (done ++ [cur1]) next1 CTransaction.null bits1 b1 c1 p (plans ++ [p])
          (by rw [hnv, hnext]; rfl) rfl (by omega) (by omega) (by omega) (by omega) (by omega)
      · rw [if_neg hpos, if_neg hpos]

/-- C38: for every result `(k, nd)` that `OptimizeParams` returns in a pass of `EmbedData`
(on an empty or a non-empty payload of fewer than `2^31` bits), the transaction that the
pass builds has exactly `k + nd` outputs, and the rule of `ExtractData` on that count `o`,
`nd' = 1` if `o >= 2` else `0` and `k' = o - nd'` in `unsigned int` arithmetic, gives
`nd' = nd` and `k' = k`. The pass returns when the budget is below the planned fee or
above the fee plus the dust of the planned outputs. -/
theorem payload_outputs (ctx : Context) (s : Nat) (henv : ChainEnv ctx s)
    (cur next : CTransaction) (bits : DataBits) (nBudget c : Nat) (params : Parameters)
    (hcur : cur.vout = []) (hnext : next.vin = []) (hL : bits.length < 2 ^ 31)
    (hb : nBudget < W64) :
    (∀ cur1 next1 bits1 b1 c1 p,
      EmbedData.pass ctx cur next bits nBudget c params = some (cur1, next1, bits1, b1, c1, p) →
      OptimizeParams ctx.KeymapSuffixBits ctx.RandomSuffixBits ctx.TransactionFee ctx.lg cur
        bits nBudget params = some p ∧
      cur1.vout.length = p.nScriptHash + p.nNulldata ∧
      (if cur1.vout.length % W32 ≥ 2 then 1 else 0) = p.nNulldata ∧
      (cur1.vout.length % W32 + (W32 - p.nNulldata)) % W32 = p.nScriptHash) ∧
    ((∀ p, OptimizeParams ctx.KeymapSuffixBits ctx.RandomSuffixBits ctx.TransactionFee
        ctx.lg cur bits nBudget params = some p → 2 ≤ p.nScriptHash →
        nBudget < p.nFees ∨ p.nFees + 546 * p.nScriptHash < nBudget) →
      ∃ r, EmbedData.pass ctx cur next bits nBudget c params = some r) := by
  have hW := W32_val
  constructor
  · intro cur1 next1 bits1 b1 c1 p hpass
    obtain ⟨hplan, hlen, _⟩ := EmbedData_pass_returns ctx s henv cur next bits nBudget c
      params hcur hnext hL cur1 next1 bits1 b1 c1 p hpass
    obtain ⟨q, hq, _, hempty, hfull⟩ := planner_facts ctx s henv cur bits nBudget params
    rw [hplan] at hq
    have hqp : q = p := (Option.some.inj hq).symm
    subst hqp
    have hfacts : q.nScriptHash ≤ 14 ∧ (q.nNulldata = 0 ∨ q.nNulldata = 1) ∧
        (2 ≤ q.nScriptHash → q.nNulldata = 1) ∧ (q.nScriptHash = 0 → q.nNulldata = 0) := by
      by_cases hbits : bits = []
      · rw [hempty hbits]
        exact ⟨Nat.zero_le 14, Or.inl rfl, fun h => absurd h (Nat.not_succ_le_zero 1),
          fun _ => rfl⟩
      · obtain ⟨hk1, hk14, hN, hN2⟩ := hfull hbits
        exact ⟨hk14, hN, hN2, fun h => by omega⟩
    obtain ⟨hk14, hN, hN2, hN0⟩ := hfacts
    have e0 : (q.nScriptHash + q.nNulldata) % W32 = q.nScriptHash + q.nNulldata :=
      Nat.mod_eq_of_lt (by omega)
    refine ⟨hplan, hlen, ?_, ?_⟩
    · rw [hlen, e0]
      by_cases h2 : 2 ≤ q.nScriptHash
      · rw [if_pos (by omega), hN2 h2]
      · rcases hN with h0 | h1
        · rw [h0, if_neg (by omega)]
        · rw [h1, if_pos (by have := hN0; omega)]
    · rw [hlen, e0]
      rcases hN with h0 | h1
      · rw [h0, hW]
        omega
      · rw [h1, hW]
        omega
  · intro hsafe
    obtain ⟨cur1, next1, c1, p, W, hpass, _⟩ := EmbedData_pass_spec ctx s henv cur next bits
      nBudget c params hcur hnext hL hb hsafe
    exact ⟨_, hpass⟩

set_option maxRecDepth 100000 in
theorem planner_three_bits :
    OptimizeParams 8 5 (fun _ => 10000) floorLog2 ⟨[], []⟩ [true, false, true] 10000000
      ⟨0, 0, 0⟩ = some ⟨1, 0, 10000⟩ := by
  decide

/-- Witness of C38: the test context, a fresh pair of transactions, a payload of three
bits and a budget of `10^7`. -/
theorem payload_outputs_witness :
    ∃ r, EmbedData.pass testContext ⟨[], []⟩ CTransaction.null [true, false, true] 10000000 0
      ⟨0, 0, 0⟩ = some r ∧ r.1.vout.length = r.2.2.2.2.2.nScriptHash + r.2.2.2.2.2.nNulldata := by
  have h := payload_outputs testContext 8 testContext_env ⟨[], []⟩ CTransaction.null
    [true, false, true] 10000000 0 ⟨0, 0, 0⟩ rfl rfl (by norm_num) (by norm_num [W64])
  obtain ⟨r, hr⟩ := h.2 (by
    intro p hp h2
    have e : p = ⟨1, 0, 10000⟩ := Option.some.inj (hp.symm.trans planner_three_bits)
    rw [e] at h2
    exact absurd h2 (by decide))
  obtain ⟨cur1, next1, bits1, b1, c1, p⟩ := r
  exact ⟨_, hr, (h.1 cur1 next1 bits1 b1 c1 p hr).2.1⟩
/-! ## A pass on a vector of `2^32` bits -/

/-- `PackDataIntoBudgetClaim` when the length of the vector is a multiple of `2^32`: no
bit is removed, and the indices written are a permutation. -/
theorem budget_claim_wraps_perm (lg : Nat → Nat) (bits : DataBits) (txInputs : List CTxIn)
    (k : Nat) (hk : txInputs.length = k) (hk2 : 2 ≤ k) (hk16 : k < W16)
    (hL : bits.length % W32 = 0) (hlg : LogFits lg (Factorial k)) :
    ∃ p : List Nat, p.Perm (List.range k) ∧
      PackDataIntoBudgetClaim lg bits txInputs = some (bits,
        List.zipWith (fun (i : CTxIn) q => { i with prevout := { i.prevout with n := q } })
          txInputs p) := by
  have hW := W32_val
  have hW16 := W16_val
  have hk32 : k % W32 = k := Nat.mod_eq_of_lt (by omega)
  have hC32 := hlg.2.1
  obtain ⟨p, henc, hperm, _⟩ := perm_codec lg
    (List.replicate (EmbeddableBitsInPermutation lg k) false) k hk2 hk16 hlg
    (List.length_replicate _ _)
  have hplen : p.length = k := by rw [hperm.length_eq, List.length_range]
  refine ⟨p, hperm, ?_⟩
  unfold PackDataIntoBudgetClaim
  have hs : SliceBits bits 0 = some ([], bits) := by
    unfold SliceBits
    simp
  have hp : PadBits [] (EmbeddableBitsInPermutation lg k)
      = List.replicate (EmbeddableBitsInPermutation lg k) false := by
    unfold PadBits
    have e : EmbeddableBitsInPermutation lg k % W32 = EmbeddableBitsInPermutation lg k :=
      Nat.mod_eq_of_lt hC32
    rw [e]
    simp
  simp only [hk, hk32, hL, Nat.min_zero, Nat.zero_min, Nat.sub_zero, hs, hp, henc]
  rw [if_neg (by omega), ← hk, List.take_length, List.drop_length, List.append_nil]

/-- `SignSignature` changes the signature script of one input only. -/
theorem SignSignature_frame (sign : Data → CTransaction → Nat → Option Data)
    (redeemScript : Data) (tx tx1 : CTransaction) (nIn : Nat)
    (h : SignSignature sign redeemScript tx nIn = some tx1) :
    tx1.vout = tx.vout ∧ tx1.vin.length = tx.vin.length ∧
      tx1.vin.map (fun (x : CTxIn) => x.prevout.n)
        = tx.vin.map (fun (x : CTxIn) => x.prevout.n) := by
  unfold SignSignature at h
  cases hin : tx.vin.get? nIn with
  | none =>
    rw [hin] at h
    exact absurd h (by simp)
  | some txin =>
    cases hs : sign redeemScript tx nIn with
    | none =>
      rw [hin, hs] at h
      exact absurd h (by simp)
    | some sig =>
      rw [hin, hs] at h
      simp only [Option.some.injEq] at h
      rw [← h]
      exact ⟨rfl, List.length_set _ _ _, map_set_same _ tx.vin nIn _ txin hin rfl⟩

/-- When `PackDataIntoP2SH` returns, the transaction has the same outputs, as many inputs
and the same claimed indices as before. -/
theorem PackDataIntoP2SH_frame (ctx : Context) (bits : DataBits) (txOut : CTxOut)
    (tx : CTransaction) (nInput c : Nat) (r : DataBits × CTxOut × CTransaction × Nat)
    (h : PackDataIntoP2SH ctx bits txOut tx nInput c = some r) :
    r.2.2.1.vout = tx.vout ∧ r.2.2.1.vin.length = tx.vin.length ∧
      r.2.2.1.vin.map (fun (x : CTxIn) => x.prevout.n)
        = tx.vin.map (fun (x : CTxIn) => x.prevout.n) := by
  unfold PackDataIntoP2SH at h
  simp only [] at h
  split_ifs at h
  split at h
  · exact absurd h (by simp)
  · split at h
    · exact absurd h (by simp)
    · split_ifs at h
      split at h
      · exact absurd h (by simp)
      · split at h
        · exact absurd h (by simp)
        · split at h
          · exact absurd h (by simp)
          · rename_i tx1 hsig
            simp only [Option.some.injEq] at h
            rw [← h]
            exact SignSignature_frame _ _ _ _ _ hsig

/-- The last loop of a pass on a vector of `2^32` bits: every channel appends as many
zero bits as it slices off, so `2^32` bits are left. -/
theorem EmbedData_scripts_wraps (ctx : Context) (s : Nat) (henv : ChainEnv ctx s) :
    ∀ (cnt i : Nat) (bits : DataBits) (vout : List CTxOut) (next : CTransaction) (c : Nat),
    bits.length = W32 → i + cnt = next.vin.length → next.vin.length ≤ 14 →
    next.vin.length ≤ vout.length →
    (∀ q ∈ next.vin.map (fun (x : CTxIn) => x.prevout.n), q < next.vin.length) →
    ∃ r, EmbedData.scripts ctx cnt i bits vout next c = some r ∧ r.1.length = W32 := by
  have hW := W32_val
  obtain ⟨hs, hkm, _, hdraws, hsign, _⟩ := henv
  intro cnt
  induction cnt with
  | zero =>
    intro i bits vout next c hL _ _ _ _
    exact ⟨_, rfl, hL⟩
  | succ cnt ih =>
    intro i bits vout next c hL hi hK14 hKv hbound
    have hilt : i < next.vin.length := by omega
    have hin : next.vin.get? i = some (next.vin[i]) := by
      simp only [List.get?_eq_getElem?]
      exact List.getElem?_eq_getElem hilt
    generalize htx : next.vin[i] = txin at hin
    have hn : txin.prevout.n < next.vin.length := by
      apply hbound
      rw [List.mem_map]
      exact ⟨txin, by rw [← htx]; exact List.getElem_mem _, rfl⟩
    obtain ⟨hn0, hnat⟩ := toInt32_small (show txin.prevout.n < 14 by omega)
    have hnv : txin.prevout.n < vout.length := by omega
    obtain ⟨txOut, hout⟩ : ∃ txOut, vout.get? txin.prevout.n = some txOut := by
      simp only [List.get?_eq_getElem?]
      exact ⟨vout[txin.prevout.n], List.getElem?_eq_getElem hnv⟩
    obtain ⟨r, hpack, hrl⟩ := PackDataIntoP2SH_wraps ctx s hs hkm hdraws bits hL txOut next i c
      txin hin (fun rs => (hsign rs next i).imp (fun _ h => h.1))
    obtain ⟨hfv, hfl, hfm⟩ := PackDataIntoP2SH_frame ctx bits txOut next i c r hpack
    obtain ⟨bits1, txOut1, next1, c1⟩ := r
    simp only [] at hrl hfv hfl hfm
    have hilt1 : i < next1.vin.length := by omega
    have hin1 : next1.vin.get? i = some (next1.vin[i]) := by
      simp only [List.get?_eq_getElem?]
      exact List.getElem?_eq_getElem hilt1
    obtain ⟨q, hseq⟩ := seqnr_length_wraps bits1 (next1.vin[i]) (by omega) (by
      rw [hrl]; exact Nat.mod_self _)
    obtain ⟨r2, hrec, hr2⟩ := ih (i + 1) (bits1.drop 32 ++ List.replicate 32 false)
      (vout.set (toInt32 txin.prevout.n).toNat txOut1)
      { next1 with vin := next1.vin.set i { next1.vin[i] with nSequence := q } } c1
      (by rw [List.length_append, List.length_drop, List.length_replicate]; omega)
      (by simp only [List.length_set]; omega) (by simp only [List.length_set]; omega)
      (by simp only [List.length_set]; omega)
      (by
        simp only [List.length_set]
        have e := map_set_same (fun (x : CTxIn) => x.prevout.n) next1.vin i
          { next1.vin[i] with nSequence := q } (next1.vin[i]) hin1 rfl
        intro q1 hq1
        rw [e, hfm] at hq1
        rw [hfl]
        exact hbound q1 hq1)
    refine ⟨r2, ?_, hr2⟩
    rw [EmbedData.scripts]
    rw [hnat] at hrec
    simp only [hin, hnat, hout, hpack, hin1, hseq]
    rw [if_neg hn0]
    exact hrec

/-- A pass of the chain builder on a vector of `2^32` bits, when the planner returns
`k >= 2` outputs with a nulldata output and a fee above the budget: every channel that is
filled appends as many zero bits as it slices off, and `2^32` bits are left. -/
theorem EmbedData_pass_wraps (ctx : Context) (s : Nat) (henv : ChainEnv ctx s)
    (cur next : CTransaction) (bits : DataBits) (nBudget c : Nat) (params : Parameters)
    (k fee : Nat) (hcur : cur.vout = []) (hnext : next.vin = []) (hL : bits.length = W32)
    (hplan : OptimizeParams ctx.KeymapSuffixBits ctx.RandomSuffixBits ctx.TransactionFee ctx.lg
      cur bits nBudget params = some ⟨k, 1, fee⟩)
    (hk2 : 2 ≤ k) (hk14 : k ≤ 14) (hfee : nBudget % W64 < fee % W64) :
    ∃ r, EmbedData.pass ctx cur next bits nBudget c params = some r ∧
      r.2.2.1.length = W32 := by
  have hW := W32_val
  have hW16 := W16_val
  obtain ⟨vin0, hins, hvin0⟩ := EmbedData_insert_spec k 0 cur.vout next.vin (by
    rw [hnext]; rfl)
  rw [hcur, List.append_nil] at hins
  rw [Nat.zero_add] at hvin0
  have hfac := Factorial_fits k hk2 hk14
  have hlg2 := henv.2.2.2.2.2 _ hfac.1 hfac.2
  obtain ⟨p, hperm, hclaim⟩ := budget_claim_wraps_perm ctx.lg bits vin0 k hvin0 hk2 (by omega)
    (by rw [hL]; exact Nat.mod_self _) hlg2
  have hplen : p.length = k := by rw [hperm.length_eq, List.length_range]
  have hbud : EmbedData.budget ctx bits (List.replicate k CTxOut.null) vin0 nBudget fee
      = some (bits, List.replicate k CTxOut.null,
          List.zipWith (fun (i : CTxIn) q => { i with prevout := { i.prevout with n := q } })
            vin0 p) := by
    unfold EmbedData.budget
    rw [List.length_replicate, if_neg (by omega), if_pos (by omega), if_neg (by omega)]
    simp only [hclaim]
  obtain ⟨out, hnull⟩ := nulldata_length_wraps bits CTxOut.null (by omega) (by
    rw [hL]; exact Nat.mod_self _)
  have hnd : EmbedData.nulldata bits (List.replicate k CTxOut.null) 1
      = some (bits.drop 320 ++ List.replicate 320 false,
          List.replicate k CTxOut.null ++ [out]) := by
    unfold EmbedData.nulldata
    rw [if_pos (by rw [hW]; decide)]
    simp only [hnull]
  have hzlen : (List.zipWith
      (fun (i : CTxIn) q => { i with prevout := { i.prevout with n := q } }) vin0 p).length
      = k := by
    rw [List.length_zipWith, hvin0, hplen, Nat.min_self]
  obtain ⟨r, hscr, hrl⟩ := EmbedData_scripts_wraps ctx s henv k 0
    (bits.drop 320 ++ List.replicate 320 false) (List.replicate k CTxOut.null ++ [out])
    { next with vin := (List.zipWith
      (fun (i : CTxIn) q => { i with prevout := { i.prevout with n := q } }) vin0 p) } c
    (by rw [List.length_append, List.length_drop, List.length_replicate]; omega)
    (by rw [Nat.zero_add]; exact hzlen.symm) (by rw [hzlen]; exact hk14)
    (by rw [hzlen, List.length_append, List.length_replicate]; omega)
    (by
      rw [hzlen, zipWith_prevout vin0 p (by rw [hvin0, hplen])]
      intro q hq
      exact List.mem_range.mp (hperm.mem_iff.mp hq))
  obtain ⟨bits3, vout3, next3, c3⟩ := r
  refine ⟨({ cur with vout := vout3 }, next3, bits3, sub64 nBudget fee, c3, ⟨k, 1, fee⟩), ?_,
    hrl⟩
  unfold EmbedData.pass
  simp only [hplan]
  rw [Nat.mod_eq_of_lt (show k < W32 by omega), hcur, hins]
  simp only [hbud, hnd, hscr]
/-! ## Progress of the chain builder -/

theorem planner_loop_at_wrap :
    OptimizeParams.loop ((8 : Int) % (W32 : Int)).toNat ((255 - (5 : Int)) % (W32 : Int)).toNat
      testContext.TransactionFee floorLog2 ⟨[], []⟩ 4294967296 0 14 14 ⟨0, 0, 0⟩
      = some ⟨14, 1, 10000⟩ := by
  decide

theorem planner_at_wrap :
    OptimizeParams 8 5 testContext.TransactionFee floorLog2 ⟨[], []⟩
        (List.replicate 4294967296 false) 0 ⟨0, 0, 0⟩ = some ⟨14, 1, 10000⟩ := by
  unfold OptimizeParams
  rw [if_neg (by decide), List.length_replicate, if_neg (by decide)]
  exact planner_loop_at_wrap

/-- C39 for payloads of fewer than `2^31` bits: in a pass of the loop of `EmbedData` that
starts with at least one bit and returns, the planner has returned `k >= 1` and fewer bits
are left than before; the loop therefore needs no more passes than there are bits: with
every bound of passes from `|bits|` on it behaves as with the bound `|bits|`, and it
returns when every planned budget is below the planned fee or above the fee plus the dust
of the planned outputs. -/
theorem embed_progress (ctx : Context) (s : Nat) (henv : ChainEnv ctx s) (fuel : Nat)
    (done : List CTransaction) (cur next : CTransaction) (bits : DataBits) (nBudget c : Nat)
    (params : Parameters) (plans : List Parameters) (hcur : cur.vout = [])
    (hnext : next = CTransaction.null) (hL : bits.length < 2 ^ 31) (hne : bits ≠ [])
    (hb : nBudget < W64) (hfuel : bits.length ≤ fuel) :
    (∀ cur1 next1 bits1 b1 c1 p,
      EmbedData.pass ctx cur next bits nBudget c params = some (cur1, next1, bits1, b1, c1, p) →
      1 ≤ p.nScriptHash ∧ bits1.length < bits.length) ∧
    EmbedData.loop ctx fuel done cur next bits nBudget c params plans
      = EmbedData.loop ctx bits.length done cur next bits nBudget c params plans ∧
    (EmbedData.budgets ctx (fun b p => b < p.nFees ∨ p.nFees + 546 * p.nScriptHash < b)
        (bits.length + 1) cur next bits nBudget c params →
      ∃ result, EmbedData.loop ctx bits.length done cur next bits nBudget c params plans
        = some result) := by
  have hpos : 0 < bits.length := List.length_pos.mpr hne
  refine ⟨?_, ?_, ?_⟩
  · intro cur1 next1 bits1 b1 c1 p hpass
    obtain ⟨hplan, _, _, _, _, _, W, hW, hW32, _⟩ := EmbedData_pass_returns ctx s henv cur next
      bits nBudget c params hcur (by rw [hnext]; rfl) hL cur1 next1 bits1 b1 c1 p hpass
    obtain ⟨q, hq, _, _, hfull⟩ := planner_facts ctx s henv cur bits nBudget params
    rw [hplan] at hq
    have hqp : q = p := (Option.some.inj hq).symm
    subst hqp
    refine ⟨(hfull hne).1, ?_⟩
    have := hW32 hne
    rw [hW, List.length_drop]
    omega
  · exact EmbedData_loop_fuel ctx s henv fuel bits.length done cur next bits nBudget c params
      plans hcur hnext hL hfuel (by omega) (Nat.le_refl _) hpos
  · intro hbud
    obtain ⟨t, rest, last, plans1, p, hloop, _⟩ := EmbedData_loop_spec ctx s henv
      (fun b p => b < p.nFees ∨ p.nFees + 546 * p.nScriptHash < b) (fun _ _ h => h)
      (bits.length + 1) done cur next bits nBudget c params plans hcur hnext hL
      (Nat.lt_succ_self _) hb hbud
    rw [EmbedData_loop_fuel ctx s henv (bits.length + 1) bits.length done cur next bits nBudget
      c params plans hcur hnext hL (Nat.le_succ _) (by omega) (Nat.le_refl _) hpos] at hloop
    exact ⟨_, hloop⟩

/-- Witness of C39: the test context, a payload of three bits and a bound of seven
passes. -/
theorem embed_progress_witness :
    EmbedData.loop testContext 7 [] ⟨[], []⟩ CTransaction.null [true, false, true] 10000000 0
        ⟨0, 0, 0⟩ []
      = EmbedData.loop testContext [true, false, true].length [] ⟨[], []⟩ CTransaction.null
          [true, false, true] 10000000 0 ⟨0, 0, 0⟩ [] :=
  (embed_progress testContext 8 testContext_env 7 [] ⟨[], []⟩ CTransaction.null
    [true, false, true] 10000000 0 ⟨0, 0, 0⟩ [] rfl rfl (by norm_num) (by decide)
    (by norm_num [W64]) (by decide)).2.1

/-- Counterexample to C39 as stated for every finite payload: a pass on `2^32` zero bits
(no budget, test context). Every size converted to `int` is `0`, so each channel appends
as many zero bits as it slices off: the pass returns and `2^32` bits are left, as many as
before. -/
theorem embed_progress_counterexample :
    ∃ r, EmbedData.pass testContext ⟨[], []⟩ CTransaction.null
        (List.replicate 4294967296 false) 0 0 ⟨0, 0, 0⟩ = some r ∧
      r.2.2.1.length = 4294967296 := by
  obtain ⟨r, h1, h2⟩ := EmbedData_pass_wraps testContext 8 testContext_env ⟨[], []⟩
    CTransaction.null (List.replicate 4294967296 false) 0 0 ⟨0, 0, 0⟩ 14 10000 rfl rfl
    (by rw [List.length_replicate, W32_val]) planner_at_wrap (by decide) (by decide)
    (by decide)
  exact ⟨r, h1, by rw [h2, W32_val]⟩
/-! ## The planner's capacity and the capacity of the channels -/

set_option maxRecDepth 100000 in
theorem planner_loop_at_split :
    OptimizeParams.loop ((8 : Int) % (W32 : Int)).toNat ((255 - (5 : Int)) % (W32 : Int)).toNat
      testContext.TransactionFee floorLog2 ⟨[], []⟩ 5921 1058576 14 14 ⟨0, 0, 0⟩
      = some ⟨2, 1, 10000⟩ := by
  decide

theorem planner_at_split :
    OptimizeParams 8 5 testContext.TransactionFee floorLog2 ⟨[], []⟩ (List.replicate 5921 true)
        1058576 ⟨0, 0, 0⟩ = some ⟨2, 1, 10000⟩ := by
  unfold OptimizeParams
  rw [if_neg (by decide), List.length_replicate, if_neg (by decide)]
  exact planner_loop_at_split

set_option maxRecDepth 100000 in
theorem widths_at_split :
    OptimizeParams.capacity 8 5 testContext.TransactionFee floorLog2 ⟨[], []⟩ 5921 1058576 2
        = 5921 ∧
      EmbeddableBitsInValues floorLog2 (1058576 - 10000) 2 = 20 ∧
      EmbeddableBitsInValues floorLog2 (sub64 (sub64 1058576 10000) (2 * 546)) 2 = 19 ∧
      EmbeddableBitsInPermutation floorLog2 2 = 1 ∧
      EmbeddableBitsInValues floorLog2 (1058576 - 10000 - 2 * 546) 2 = 19 := by
  refine ⟨by decide, by decide, by decide, by decide, by decide⟩

/-- C35, a payload that the planner's capacity covers and the channels do not: the test
context (`s = 8`, `r = 5`, fee `10^4`), a payload of `5921` bits and a budget of
`1058576`. `OptimizeParams` returns `k = 2 < 14` with a nulldata output: its capacity for
two outputs is `2 * (8 + 2750) + 2 * 32 + 320 + 20 + 1 = 5921`, where `20` is
`EmbeddableBitsInValues(budget - fees, 2)`. `budget - fees = 1048576 >= 2 * 546`, and
`PackDataIntoBudgetSplit` has the width `EmbeddableBitsInValues(budget - fees - 2 * 546, 2)
= 19`; the pass returns with bits left, and the loop goes on to a further pass. -/
theorem planner_overcounts :
    OptimizeParams 8 5 testContext.TransactionFee floorLog2 ⟨[], []⟩ (List.replicate 5921 true)
        1058576 ⟨0, 0, 0⟩ = some ⟨2, 1, 10000⟩ ∧
      546 * 2 ≤ 1058576 - 10000 ∧
      OptimizeParams.capacity 8 5 testContext.TransactionFee floorLog2 ⟨[], []⟩ 5921 1058576 2
        = 5921 ∧
      EmbeddableBitsInValues floorLog2 (1058576 - 10000) 2 = 20 ∧
      EmbeddableBitsInValues floorLog2 (1058576 - 10000 - 2 * 546) 2 = 19 ∧
      ∃ cur1 next1 bits1 b1 c1,
        EmbedData.pass testContext ⟨[], []⟩ CTransaction.null (List.replicate 5921 true) 1058576
          0 ⟨0, 0, 0⟩ = some (cur1, next1, bits1, b1, c1, ⟨2, 1, 10000⟩) ∧
        0 < bits1.length ∧
        EmbedData.loop testContext 2 [] ⟨[], []⟩ CTransaction.null (List.replicate 5921 true)
            1058576 0 ⟨0, 0, 0⟩ []
          = EmbedData.loop testContext 1 [cur1] next1 CTransaction.null bits1 b1 c1
              ⟨2, 1, 10000⟩ [⟨2, 1, 10000⟩] := by
  have hlen : (List.replicate 5921 true).length = 5921 := List.length_replicate _ _
  have hL : (List.replicate 5921 true).length < 2 ^ 31 := by
    rw [hlen]
    norm_num
  refine ⟨planner_at_split, by decide, widths_at_split.1, widths_at_split.2.1,
    widths_at_split.2.2.2.2, ?_⟩
  obtain ⟨cur1, next1, c1, p, W, hpass, hplan, _⟩ := EmbedData_pass_spec testContext 8
    testContext_env ⟨[], []⟩ CTransaction.null (List.replicate 5921 true) 1058576 0 ⟨0, 0, 0⟩
    rfl rfl hL (by norm_num [W64]) (by
      intro p hp _
      have e : p = ⟨2, 1, 10000⟩ := Option.some.inj (hp.symm.trans planner_at_split)
      rw [e]
      exact Or.inr (by decide))
  have e : p = ⟨2, 1, 10000⟩ := Option.some.inj (hplan.symm.trans planner_at_split)
  subst e
  obtain ⟨_, _, _, _, _, _, W2, hW2, _, hbound⟩ := EmbedData_pass_returns testContext 8
    testContext_env ⟨[], []⟩ CTransaction.null (List.replicate 5921 true) 1058576 0 ⟨0, 0, 0⟩
    rfl rfl hL _ _ _ _ _ _ hpass
  have hge : (1058576 : Nat) % W64 ≥ 10000 % W64 := by decide
  have hb2 : W2 ≤ 5920 := by
    have h19 := widths_at_split.2.2.1
    have h1 := widths_at_split.2.2.2.1
    simp only [] at hbound
    rw [if_pos (by decide), if_pos hge] at hbound
    have h19b : EmbeddableBitsInValues testContext.lg (sub64 (sub64 1058576 10000) (2 * 546)) 2
        = 19 := h19
    have h1b : EmbeddableBitsInPermutation testContext.lg 2 = 1 := h1
    rw [h19b, h1b] at hbound
    exact hbound
  have hpos : 0 < (List.drop W (List.replicate 5921 true)).length := by
    rw [hW2, List.length_drop, hlen]
    omega
  refine ⟨cur1, next1, _, _, c1, hpass, hpos, ?_⟩
  rw [EmbedData.loop, hpass]
  simp only []
  rw [if_pos hpos]
  rfl
/-! ## Transaction fees -/

theorem toDouble_exponent_of_lt (fuel x : Nat) (h : x < 2 ^ 53) :
    toDouble.exponent fuel x = 0 := by
  cases fuel with
  | zero => rfl
  | succ f => rw [toDouble.exponent, if_pos h]

/-- Integers below `2^53` are doubles. -/
theorem toDouble_of_lt (x : Nat) (h : x < 2 ^ 53) : toDouble x = x := by
  unfold toDouble
  rw [toDouble_exponent_of_lt x x h]
  simp [Nat.mod_one]

/-- The fee of one transaction when the product has at most 53 bits: `c` is the ceiling
of `Size / 1000`. -/
theorem TransactionFee_exact (FeeRate : Nat) (GetSerializeSize : CTransaction → Nat)
    (tx : CTransaction) (c : Nat) (hsize : GetSerializeSize tx < W32)
    (h1 : GetSerializeSize tx ≤ 1000 * c) (h2 : 1000 * c < GetSerializeSize tx + 1000)
    (h53 : FeeRate * c < 2 ^ 53) :
    TransactionFee FeeRate GetSerializeSize tx = some (FeeRate * c) := by
  have hc : (GetSerializeSize tx + 999) / 1000 = c := by omega
  unfold TransactionFee
  simp only []
  rw [Nat.mod_eq_of_lt hsize, hc]
  rcases Nat.eq_zero_or_pos c with h0 | hpos
  · subst h0
    rw [Nat.mul_zero, Nat.mul_zero, toDouble_of_lt 0 (by norm_num), if_pos (by norm_num [W64])]
  · have hF : FeeRate < 2 ^ 53 := lt_of_le_of_lt (Nat.le_mul_of_pos_right _ hpos) h53
    have hF64 : FeeRate < W64 := lt_trans hF (by norm_num [W64])
    rw [Nat.mod_eq_of_lt hF64, toDouble_of_lt _ hF, toDouble_of_lt _ h53,
      if_pos (lt_trans h53 (by norm_num [W64]))]

/-- The loop over a chain whose fees are known: the sum modulo `2^64`. -/
theorem TransactionFee_loop_exact (FeeRate : Nat) (GetSerializeSize : CTransaction → Nat)
    (fee : CTransaction → Nat) (Chain : List CTransaction)
    (h : ∀ tx ∈ Chain, TransactionFee FeeRate GetSerializeSize tx = some (fee tx))
    (nFee : Nat) (hn : nFee < W64) :
    TransactionFee.loop FeeRate GetSerializeSize Chain nFee
      = some ((nFee + (Chain.map fee).sum) % W64) := by
  induction Chain generalizing nFee with
  | nil =>
    rw [TransactionFee.loop, List.map_nil, List.sum_nil, Nat.add_zero, Nat.mod_eq_of_lt hn]
  | cons tx rest ih =>
    rw [TransactionFee.loop, h tx (List.mem_cons_self _ _)]
    simp only []
    rw [ih (fun t ht => h t (List.mem_cons_of_mem _ ht)) _ (Nat.mod_lt _ (by norm_num [W64])),
      List.map_cons, List.sum_cons, Nat.mod_add_mod, Nat.add_assoc]

/-- C32 (amended): for every fee rate and every transaction `tx` whose size is an
`unsigned int`, with `c` the ceiling of `Size / 1000` (`Size <= 1000 c < Size + 1000`):
when `FeeRate * c` is below `2^53`, `TransactionFee(tx)` is `FeeRate * c`; for every
chain of such transactions `TransactionFee(chain)` is the sum of the fees of its
transactions modulo `2^64`; hence for `FeeRate < 2^53` a chain of `m` transactions with
sizes between 1 and 1000 bytes has the fee `m * FeeRate` modulo `2^64`, which is
`m * FeeRate` when that is below `2^64`. -/
theorem transaction_fee (FeeRate : Nat) (GetSerializeSize : CTransaction → Nat)
    (hsize : ∀ tx, GetSerializeSize tx < W32) :
    (∀ tx c, GetSerializeSize tx ≤ 1000 * c → 1000 * c < GetSerializeSize tx + 1000 →
      FeeRate * c < 2 ^ 53 →
      TransactionFee FeeRate GetSerializeSize tx = some (FeeRate * c)) ∧
    (∀ (Chain : List CTransaction) (fee : CTransaction → Nat),
      (∀ tx ∈ Chain, fee tx < 2 ^ 53 ∧ ∃ c, GetSerializeSize tx ≤ 1000 * c ∧
        1000 * c < GetSerializeSize tx + 1000 ∧ fee tx = FeeRate * c) →
      (∀ tx ∈ Chain, TransactionFee FeeRate GetSerializeSize tx = some (fee tx)) ∧
      TransactionFee.chain FeeRate GetSerializeSize Chain
        = some ((Chain.map fee).sum % W64)) ∧
    (∀ Chain : List CTransaction, FeeRate < 2 ^ 53 →
      (∀ tx ∈ Chain, 1 ≤ GetSerializeSize tx ∧ GetSerializeSize tx ≤ 1000) →
      TransactionFee.chain FeeRate GetSerializeSize Chain
          = some (Chain.length * FeeRate % W64) ∧
        (Chain.length * FeeRate < W64 →
          TransactionFee.chain FeeRate GetSerializeSize Chain
            = some (Chain.length * FeeRate))) := by
  have hone : ∀ tx c, GetSerializeSize tx ≤ 1000 * c →
      1000 * c < GetSerializeSize tx + 1000 → FeeRate * c < 2 ^ 53 →
      TransactionFee FeeRate GetSerializeSize tx = some (FeeRate * c) :=
    fun tx c h1 h2 h53 =>
      TransactionFee_exact FeeRate GetSerializeSize tx c (hsize tx) h1 h2 h53
  have hsum : ∀ (Chain : List CTransaction) (fee : CTransaction → Nat),
      (∀ tx ∈ Chain, TransactionFee FeeRate GetSerializeSize tx = some (fee tx)) →
      TransactionFee.chain FeeRate GetSerializeSize Chain
        = some ((Chain.map fee).sum % W64) := by
    intro Chain fee h
    unfold TransactionFee.chain
    rw [TransactionFee_loop_exact FeeRate GetSerializeSize fee Chain h 0 (by norm_num [W64]),
      Nat.zero_add]
  refine ⟨hone, ?_, ?_⟩
  · intro Chain fee h
    have hall : ∀ tx ∈ Chain, TransactionFee FeeRate GetSerializeSize tx = some (fee tx) := by
      intro tx htx
      obtain ⟨h53, c, h1, h2, hc⟩ := h tx htx
      rw [hc]
      exact hone tx c h1 h2 (by rw [← hc]; exact h53)
    exact ⟨hall, hsum Chain fee hall⟩
  · intro Chain hF h
    have hall : ∀ tx ∈ Chain,
        TransactionFee FeeRate GetSerializeSize tx = some ((fun _ => FeeRate) tx) := by
      intro tx htx
      have e := hone tx 1 (by have := (h tx htx).2; omega) (by have := (h tx htx).1; omega)
        (by rw [Nat.mul_one]; exact hF)
      rw [Nat.mul_one] at e
      exact e
    have e := hsum Chain (fun _ => FeeRate) hall
    have hs : ∀ l : List CTransaction,
        (l.map (fun _ => FeeRate)).sum = l.length * FeeRate := by
      intro l
      induction l with
      | nil => simp
      | cons t rest ih =>
        rw [List.map_cons, List.sum_cons, ih, List.length_cons]
        ring
    rw [hs Chain] at e
    refine ⟨e, fun hlt => ?_⟩
    rw [e, Nat.mod_eq_of_lt hlt]

/-- Witness of C32: the test `TransactionFees_Test`, a chain of two empty transactions
(10 bytes each) at a fee rate of `10^4` satoshi per kilobyte costs `2 * 10^4`. -/
theorem transaction_fee_witness :
    (∀ tx : CTransaction, (fun _ => 10) tx < W32) ∧
      TransactionFee 10000 (fun _ => 10) ⟨[], []⟩ = some (10000 * 1) ∧
      TransactionFee.chain 10000 (fun _ => 10) [⟨[], []⟩, ⟨[], []⟩]
        = some ([(⟨[], []⟩ : CTransaction), ⟨[], []⟩].length * 10000) :=
  ⟨fun _ => by norm_num [W32],
    (transaction_fee 10000 (fun _ => 10) (fun _ => by norm_num [W32])).1 ⟨[], []⟩ 1
      (by norm_num) (by norm_num) (by norm_num),
    ((transaction_fee 10000 (fun _ => 10) (fun _ => by norm_num [W32])).2.2
      [⟨[], []⟩, ⟨[], []⟩] (by norm_num) (fun _ _ => by norm_num)).2 (by norm_num [W64])⟩

/-- Counterexample to C32 as stated for every fee rate. The fee rate `2^53 + 1` is not a
`double`: it is converted to `2^53`, and a transaction of 10 bytes costs `2^53`, not
`(2^53 + 1) * 1`. The fee rate `2^63` is a `double`: a transaction of 10 bytes costs
`2^63`, and the `uint64_t` sum over two of them is `0`, not `2 * 2^63`. -/
theorem transaction_fee_counterexample :
    TransactionFee 9007199254740993 (fun _ => 10) ⟨[], []⟩ = some 9007199254740992 ∧
      9007199254740993 * ((10 + 999) / 1000) = 9007199254740993 ∧
      TransactionFee 9223372036854775808 (fun _ => 10) ⟨[], []⟩ = some 9223372036854775808 ∧
      TransactionFee.chain 9223372036854775808 (fun _ => 10) [⟨[], []⟩, ⟨[], []⟩] = some 0 := by
  refine ⟨by decide, by decide, by decide, by decide⟩

end BMS
